import Mathlib

/-!
# Fuzzy inference engine (`util/FuzzyController-inl.h`) and its pass-speed consumer

A shallow embedding of the generic fuzzy logic controller and of
`chain_action/actgen_direct_pass_speed-inl.h`, followed by theorems about them.

Modelling conventions.

* `MembershipType` and `double` are the rationals, and sums, products and quotients are
  exact, with one exception: the loop variable of `defuzzifyCentroid`, whose value decides
  how many samples are visited. `defuzzifyCentroidRounded fl` rounds by `fl` what that
  variable is computed from; with `fl = id` it is `defuzzifyCentroidTraced`, the
  exact-arithmetic reading that `defuzzifyCentroid` also is, and with `fl = roundDouble`
  the variable is the `double` the code has.
* A `MembershipFunction*` held by a rule is the key of the hash-map node it points to;
  the hash maps never erase a node, so following the pointer is a lookup of that key.
  The hash maps compare the `const char*` keys as pointers, so a key is an address. An
  address is named by a `String`: a string literal is named by its own characters (two
  literals with the same characters are one object), and `CString` pairs an address
  with the characters found there, for a name that is held elsewhere.
* An operation whose C++ behaviour is undefined (reading `antecedents[0]` of an empty
  vector, dereferencing `find(...)` when it is `end()`, `va_arg` past the last argument)
  returns `Fault.undefinedBehaviour`.
* The sampling loop of `defuzzifyCentroid` need not terminate, so it takes a fuel bound;
  one unit of fuel pays for one evaluation of the loop guard, and running out of fuel
  is `Fault.outOfFuel`.
* The scratch members `antecedents`, `consequents` and `membershipFunctionsIterator` of
  `FuzzyController` are written before they are read in every method that uses them and
  are left out of the state.
-/

namespace fuzzy

/-- Ways in which a call can fail to produce a value in the exact-arithmetic model. -/
inductive Fault where
  | undefinedBehaviour
  | outOfFuel
  | nonFinite
  deriving DecidableEq, Repr

/-! ## trimNumeric -/

/-- The three memory cells `trimNumeric` receives pointers to. -/
structure TrimCells where
  numeric : ℚ
  lowerLimit : ℚ
  upperLimit : ℚ
  deriving DecidableEq, Repr

/-- The function `trimNumeric(numeric, lowerLimit, upperLimit)`: the cells after the call. -/
def trimNumeric (m : TrimCells) : TrimCells :=
  if m.numeric < m.lowerLimit + 1 then
    { m with numeric := m.lowerLimit + 1 }
  else if m.numeric > m.upperLimit - 1 then
    { m with numeric := m.upperLimit - 1 }
  else
    m

/-! ## Constants -/

/-- The constant `kRuleImplies()`. -/
def kRuleImplies : String := "__IMPLIES__"

/-- The constant `kRuleEnd()`. -/
def kRuleEnd : String := "__END_RULE__"

/-- The constant `kDummyFuzzificationIndex`. -/
def kDummyFuzzificationIndex : Int := 0

/-- The constant `kMinValidFuzzificationIndex`. -/
def kMinValidFuzzificationIndex : Int := 1

/-- The value of `std::numeric_limits<double>::max()`, the largest finite double, as a rational. -/
def numericLimitsMax : ℚ := (2 ^ 53 - 1) * 2 ^ 971

/-- The value of `std::numeric_limits<int>::max()`. -/
def intMax : Int := 2147483647

/-- Conversion of an `int` to `unsigned int`, as done by the usual arithmetic conversions
when an `int` is compared with an `unsigned int`. -/
def toUnsigned (i : Int) : Nat := (i % 4294967296).toNat

/-- The two kinds of membership function. -/
inductive MembershipFunctionKind where
  | INPUT_MEMBERSHIP_FUNCTION
  | OUTPUT_MEMBERSHIP_FUNCTION
  deriving DecidableEq, Repr

/-! ## MembershipFunction -/

/-- The fields of `MembershipFunction<MembershipType>` (`end_` is the field `end`). -/
structure MembershipFunction where
  start : ℚ
  topLeft : ℚ
  topRight : ℚ
  end_ : ℚ
  fuzzyStrength : ℚ
  fuzzificationIndex : Int
  deriving DecidableEq, Repr

namespace MembershipFunction

/-- The constructor `MembershipFunction(void)`. -/
def default : MembershipFunction :=
  { start := 0, topLeft := 0, topRight := 0, end_ := 0,
    fuzzyStrength := 0, fuzzificationIndex := kDummyFuzzificationIndex }

/-- The constructor `MembershipFunction(start, topLeft, topRight, end, fuzzificationIndex)`. -/
def new (start topLeft topRight end_ : ℚ) (fuzzificationIndex : Int) : MembershipFunction :=
  { start := start, topLeft := topLeft, topRight := topRight, end_ := end_,
    fuzzyStrength := 0, fuzzificationIndex := fuzzificationIndex }

/-- The function `calculateFuzzyStrength(input)`: the object after the call. When none of the four
branches is taken the stored strength is left as it was. -/
def calculateFuzzyStrength (m : MembershipFunction) (input : ℚ) : MembershipFunction :=
  if input < m.start ∨ input > m.end_ then
    { m with fuzzyStrength := 0 }
  else if input ≥ m.topLeft ∧ input ≤ m.topRight then
    { m with fuzzyStrength := 1 }
  else if input < m.topLeft then
    { m with fuzzyStrength := (input - m.start) / (m.topLeft - m.start) }
  else if input > m.topRight then
    { m with fuzzyStrength := (m.end_ - input) / (m.end_ - m.topRight) }
  else
    m

end MembershipFunction

/-! ## The hash maps -/

/-- A `hash_map<const char*, MembershipFunction>`: its nodes, each with its key. A key is
a pointer, compared as such; the `String` names the address (a string literal is named by
its characters). -/
abbrev Registry := List (String × MembershipFunction)

namespace Registry

/-- The function `find(name)`: the value of the node whose key is the pointer `name`,
`none` for `end()`. -/
def find : Registry → String → Option MembershipFunction
  | [], _ => none
  | (k, m) :: rest, name => if k = name then some m else find rest name

/-- Overwrite the value of the node with key `name` (a write through a pointer to it). -/
def store : Registry → String → MembershipFunction → Registry
  | [], _, _ => []
  | (k, m) :: rest, name, v =>
    if k = name then (k, v) :: rest else (k, m) :: store rest name v

/-- The assignment `reg[name] = v`: overwrite the node whose key is the pointer `name`, or
insert a new node when no key is that pointer. -/
def assign : Registry → String → MembershipFunction → Registry
  | [], name, v => [(name, v)]
  | (k, m) :: rest, name, v =>
    if k = name then (k, v) :: rest else (k, m) :: assign rest name v

end Registry

/-! ## Rule -/

/-- The fields of `Rule<MembershipType>`; the two vectors hold pointers into the input
and output hash maps. -/
structure Rule where
  antecedents : List String
  consequents : List String
  antecedentsCount : Nat
  consequentsCount : Nat
  firingStrength : ℚ
  deriving DecidableEq, Repr

namespace Rule

/-- The constructor `Rule(antecedents, consequents)`. -/
def new (antecedents consequents : List String) : Rule :=
  { antecedents := antecedents, consequents := consequents,
    antecedentsCount := antecedents.length, consequentsCount := consequents.length,
    firingStrength := 0 }

/-- The loop of `getOutputStrength` with `n` indices left to visit, starting at `i`.
Returns the value together with the output hash map, whose matching node has had its
strength recomputed. -/
def getOutputStrengthLoop (r : Rule) (consequentIndex : Nat) (input : ℚ) :
    Nat → Nat → Registry → Except Fault (ℚ × Registry)
  | 0, _, outputs => .ok (0, outputs)
  | n + 1, i, outputs =>
    match r.consequents[i]? with
    | none => .error .undefinedBehaviour
    | some key =>
      match outputs.find key with
      | none => .error .undefinedBehaviour
      | some c =>
        if toUnsigned c.fuzzificationIndex = consequentIndex then
          let c1 := c.calculateFuzzyStrength input
          .ok (min r.firingStrength c1.fuzzyStrength, outputs.store key c1)
        else
          getOutputStrengthLoop r consequentIndex input n (i + 1) outputs

/-- The function `getOutputStrength(consequentIndex, input)`. -/
def getOutputStrength (r : Rule) (consequentIndex : Nat) (input : ℚ) (outputs : Registry) :
    Except Fault (ℚ × Registry) :=
  r.getOutputStrengthLoop consequentIndex input r.consequentsCount 0 outputs

/-- The expression `*(this->antecedents[i]->getFuzzyStrength())`. -/
def antecedentStrength (r : Rule) (inputs : Registry) (i : Nat) : Except Fault ℚ :=
  match r.antecedents[i]? with
  | none => .error .undefinedBehaviour
  | some key =>
    match inputs.find key with
    | none => .error .undefinedBehaviour
    | some m => .ok m.fuzzyStrength

/-- The loop of `calculateFiringStrength` with `n` indices left to visit, starting
at `i`, and the running minimum `acc`. -/
def firingLoop (r : Rule) (inputs : Registry) : Nat → Nat → ℚ → Except Fault ℚ
  | 0, _, acc => .ok acc
  | n + 1, i, acc =>
    match r.antecedentStrength inputs i with
    | .error e => .error e
    | .ok d => firingLoop r inputs n (i + 1) (min acc d)

/-- The function `calculateFiringStrength()`: the rule after the call. -/
def calculateFiringStrength (r : Rule) (inputs : Registry) : Except Fault Rule :=
  match r.antecedentStrength inputs 0 with
  | .error e => .error e
  | .ok first =>
    match r.firingLoop inputs (r.antecedentsCount - 1) 1 first with
    | .error e => .error e
    | .ok fs => .ok { r with firingStrength := fs }

end Rule

/-! ## FuzzyController -/

/-- The state of a `FuzzyController<MembershipType>`. -/
structure FuzzyController where
  inputMembershipFunctions : Registry
  outputMembershipFunctions : Registry
  rules : List Rule
  rulesCount : Nat
  deriving DecidableEq, Repr

namespace FuzzyController

/-- The constructor `FuzzyController(void)`. -/
def new : FuzzyController :=
  { inputMembershipFunctions := [], outputMembershipFunctions := [],
    rules := [], rulesCount := 0 }

/-- The function `addMembershipFunction(name, start, topLeft, topRight, end, fuzzificationIndex,
membershipFunctionKind)`; `name` is the address passed. -/
def addMembershipFunction (c : FuzzyController) (name : String)
    (start topLeft topRight end_ : ℚ) (fuzzificationIndex : Int)
    (membershipFunctionKind : MembershipFunctionKind) : FuzzyController :=
  match membershipFunctionKind with
  | .INPUT_MEMBERSHIP_FUNCTION =>
    let m := MembershipFunction.new start topLeft topRight end_ fuzzificationIndex
    { c with inputMembershipFunctions := c.inputMembershipFunctions.assign name m }
  | .OUTPUT_MEMBERSHIP_FUNCTION =>
    let m := MembershipFunction.new start topLeft topRight end_ fuzzificationIndex
    { c with outputMembershipFunctions := c.outputMembershipFunctions.assign name m }

/-- One of the two `while` loops of `addRule`: collect names up to the sentinel `stop`,
resolving each in `reg`. Arguments: the variadic arguments not yet read, the current
argument, the pointers collected so far. Returns the collected pointers and the
arguments left after the sentinel. -/
def collectNames (reg : Registry) (stop : String) :
    List String → String → List String → Except Fault (List String × List String)
  | [], currentArg, acc =>
    if currentArg ≠ stop then .error .undefinedBehaviour else .ok (acc, [])
  | next :: rest, currentArg, acc =>
    if currentArg ≠ stop then
      match reg.find currentArg with
      | none => .error .undefinedBehaviour
      | some _ => collectNames reg stop rest next (acc ++ [currentArg])
    else
      .ok (acc, next :: rest)

/-- The function `addRule(firstAntecedent, ...)`; `args` are the variadic arguments. -/
def addRule (c : FuzzyController) (firstAntecedent : String) (args : List String) :
    Except Fault FuzzyController :=
  match collectNames c.inputMembershipFunctions kRuleImplies args firstAntecedent [] with
  | .error e => .error e
  | .ok (_, []) => .error .undefinedBehaviour
  | .ok (antecedents, currentArg :: rest) =>
    match collectNames c.outputMembershipFunctions kRuleEnd rest currentArg [] with
    | .error e => .error e
    | .ok (consequents, _) =>
      .ok { c with rules := c.rules ++ [Rule.new antecedents consequents],
                   rulesCount := c.rulesCount + 1 }

/-- The iterator loop inside `fuzzify`: every input node whose index is `inputIndex`
has its strength recomputed from `currentInput`. -/
def fuzzifyGroup (inputs : Registry) (inputIndex : Int) (currentInput : ℚ) : Registry :=
  inputs.map fun node =>
    if node.2.fuzzificationIndex = inputIndex then
      (node.1, node.2.calculateFuzzyStrength currentInput)
    else
      node

/-- The `for` loop of `fuzzify`. Arguments: the variadic arguments not yet read, the
current input, the input index, the input hash map. -/
def fuzzifyLoop : List ℚ → ℚ → Int → Registry → Except Fault Registry
  | [], currentInput, inputIndex, inputs =>
    if currentInput ≠ numericLimitsMax ∧ inputIndex ≠ intMax then
      .error .undefinedBehaviour
    else
      .ok inputs
  | next :: rest, currentInput, inputIndex, inputs =>
    if currentInput ≠ numericLimitsMax ∧ inputIndex ≠ intMax then
      fuzzifyLoop rest next (inputIndex + 1) (fuzzifyGroup inputs inputIndex currentInput)
    else
      .ok inputs

/-- The function `fuzzify(firstInput, ...)`; `args` are the variadic arguments. -/
def fuzzify (c : FuzzyController) (firstInput : ℚ) (args : List ℚ) :
    Except Fault FuzzyController :=
  match fuzzifyLoop args firstInput kMinValidFuzzificationIndex c.inputMembershipFunctions with
  | .error e => .error e
  | .ok inputs => .ok { c with inputMembershipFunctions := inputs }

/-- The first loop of `defuzzifyCentroid`, with `n` indices left to visit starting
at `i`: recompute the firing strength of `rules[i]`. -/
def firingPhase (inputs : Registry) : Nat → Nat → List Rule → Except Fault (List Rule)
  | 0, _, rules => .ok rules
  | n + 1, i, rules =>
    match rules[i]? with
    | none => .error .undefinedBehaviour
    | some r =>
      match r.calculateFiringStrength inputs with
      | .error e => .error e
      | .ok r1 => firingPhase inputs n (i + 1) (rules.set i r1)

/-- The inner loop of `defuzzifyCentroid` over the rules, with `n` indices left to visit
starting at `j`, and the running maximum `currentOutputStrength`. -/
def aggregateLoop (rules : List Rule) (consequentIndex : Nat) (i : ℚ) :
    Nat → Nat → ℚ → Registry → Except Fault (ℚ × Registry)
  | 0, _, currentOutputStrength, outputs => .ok (currentOutputStrength, outputs)
  | n + 1, j, currentOutputStrength, outputs =>
    match rules[j]? with
    | none => .error .undefinedBehaviour
    | some r =>
      match r.getOutputStrength consequentIndex i outputs with
      | .error e => .error e
      | .ok (v, outputs1) =>
        aggregateLoop rules consequentIndex i n (j + 1) (max currentOutputStrength v) outputs1

/-- The sampling loop of `defuzzifyCentroid` in exact arithmetic (`sampleLoopRounded` has
the loop variable rounded). Arguments: fuel, the sample `i`, `numerator`, `dominator`, the
output hash map. -/
def sampleLoop (rules : List Rule) (rulesCount : Nat) (consequentIndex : Nat)
    (consequentEnd discretizationDelta : ℚ) :
    Nat → ℚ → ℚ → ℚ → Registry → Except Fault (ℚ × ℚ × Registry)
  | 0, _, _, _, _ => .error .outOfFuel
  | fuel + 1, i, numerator, dominator, outputs =>
    if i ≤ consequentEnd then
      match aggregateLoop rules consequentIndex i rulesCount 0 0 outputs with
      | .error e => .error e
      | .ok (currentOutputStrength, outputs1) =>
        sampleLoop rules rulesCount consequentIndex consequentEnd discretizationDelta fuel
          (i + discretizationDelta) (numerator + i * currentOutputStrength)
          (dominator + currentOutputStrength) outputs1
    else
      .ok (numerator, dominator, outputs)

/-- The default value of the parameter `discretization`. -/
def kDefaultDiscretization : ℚ := 8

/-- The function `defuzzifyCentroid(consequentIndex, consequentStart, consequentEnd, discretization)`
run with the given fuel, in exact arithmetic (`defuzzifyCentroidRounded` has the loop
variable rounded): the returned value and the controller after the call. A zero
`discretization` makes the delta infinite or NaN, which the rationals do not have. -/
def defuzzifyCentroid (fuel : Nat) (c : FuzzyController) (consequentIndex : Nat)
    (consequentStart consequentEnd discretization : ℚ) :
    Except Fault (ℚ × FuzzyController) :=
  match firingPhase c.inputMembershipFunctions c.rulesCount 0 c.rules with
  | .error e => .error e
  | .ok rules =>
    if discretization = 0 then .error .nonFinite
    else
      let discretizationDelta := (consequentEnd - consequentStart) / discretization
      match sampleLoop rules c.rulesCount consequentIndex consequentEnd discretizationDelta
          fuel consequentStart 0 0 c.outputMembershipFunctions with
      | .error e => .error e
      | .ok (numerator, dominator, outputs) =>
        let dominator1 := if dominator = 0 then 1 else dominator
        .ok (numerator / dominator1,
             { c with rules := rules, outputMembershipFunctions := outputs })

end FuzzyController

end fuzzy

/-! ## ActGen_DirectPassSpeed -/

namespace ActGen_DirectPassSpeed

open fuzzy

/-- The constant `kMinDistance`. -/
def kMinDistance : ℚ := 1

/-- The constant `kMaxDistance`. -/
def kMaxDistance : ℚ := 21

/-- The constant `kDistanceInputIndex`. -/
def kDistanceInputIndex : Int := 1

/-- The constant `kSpeedOutputIndex`. -/
def kSpeedOutputIndex : Int := 1

/-- The constant `kMinSpeed`. -/
def kMinSpeed : ℚ := 81 / 100

/-- The constant `kMaxSpeed`. -/
def kMaxSpeed : ℚ := 331 / 100

/-- The function `initMembershipFunctions()`. -/
def initMembershipFunctions (directPassSpeed : FuzzyController) : FuzzyController :=
  let c1 := directPassSpeed.addMembershipFunction "distanceLow"
    kMinDistance kMinDistance kMinDistance kMaxDistance
    kDistanceInputIndex .INPUT_MEMBERSHIP_FUNCTION
  let c2 := c1.addMembershipFunction "distanceHigh"
    kMinDistance kMaxDistance kMaxDistance kMaxDistance
    kDistanceInputIndex .INPUT_MEMBERSHIP_FUNCTION
  let c3 := c2.addMembershipFunction "speedLow"
    kMinSpeed kMinSpeed kMinSpeed kMaxSpeed
    kSpeedOutputIndex .OUTPUT_MEMBERSHIP_FUNCTION
  c3.addMembershipFunction "speedHigh"
    kMinSpeed kMaxSpeed kMaxSpeed kMaxSpeed
    kSpeedOutputIndex .OUTPUT_MEMBERSHIP_FUNCTION

/-- The function `initRuleBase()`. -/
def initRuleBase (directPassSpeed : FuzzyController) : Except Fault FuzzyController :=
  match directPassSpeed.addRule "distanceLow" [kRuleImplies, "speedLow", kRuleEnd] with
  | .error e => .error e
  | .ok c1 => c1.addRule "distanceHigh" [kRuleImplies, "speedHigh", kRuleEnd]

/-- The private constructor: the member `directPassSpeed` after construction. -/
def construct : Except Fault FuzzyController :=
  initRuleBase (initMembershipFunctions FuzzyController.new)

/-- The function `Instance()`: the function-local static is constructed on first use; `none` is the
static before its construction. -/
def Instance (singleton : Option FuzzyController) : Except Fault FuzzyController :=
  match singleton with
  | some c => .ok c
  | none => construct

/-- The function `getDirectPassSpeed(distance, discretization)` run with the given fuel: the returned
speed and the static afterwards. -/
def getDirectPassSpeed (fuel : Nat) (singleton : Option FuzzyController)
    (distance discretization : ℚ) : Except Fault (ℚ × Option FuzzyController) :=
  let distance1 := (trimNumeric
    { numeric := distance, lowerLimit := kMinDistance, upperLimit := kMaxDistance }).numeric
  match Instance singleton with
  | .error e => .error e
  | .ok c =>
    match c.fuzzify distance1 [numericLimitsMax] with
    | .error e => .error e
    | .ok c1 =>
      match c1.defuzzifyCentroid fuel (toUnsigned kSpeedOutputIndex)
          kMinSpeed kMaxSpeed discretization with
      | .error e => .error e
      | .ok (speed, c2) => .ok (speed, some c2)

end ActGen_DirectPassSpeed

/-! ## Class invariant and the quantities named by the specification -/

namespace fuzzy

/-- The degree of membership of `v`, by the four cases of the specification. -/
def specDegree (m : MembershipFunction) (v : ℚ) : ℚ :=
  if v < m.start ∨ v > m.end_ then 0
  else if m.topLeft ≤ v ∧ v ≤ m.topRight then 1
  else if v < m.topLeft then (v - m.start) / (m.topLeft - m.start)
  else (m.end_ - v) / (m.end_ - m.topRight)

/-- The shape ordering `start ≤ topLeft ≤ topRight ≤ end`. -/
def MembershipFunction.Ordered (m : MembershipFunction) : Prop :=
  m.start ≤ m.topLeft ∧ m.topLeft ≤ m.topRight ∧ m.topRight ≤ m.end_

instance (m : MembershipFunction) : Decidable m.Ordered := by
  unfold MembershipFunction.Ordered; infer_instance

/-- A membership function with its transient strength cleared. -/
def MembershipFunction.shape (m : MembershipFunction) : MembershipFunction :=
  { m with fuzzyStrength := 0 }

/-- A hash map with every transient strength cleared: its names, shapes and indices. -/
def Registry.shape (reg : Registry) : Registry :=
  reg.map fun node => (node.1, node.2.shape)

/-- The rule's cached counts agree with its vectors and each of its pointers points to a
node of the corresponding hash map. -/
def Rule.Bound (r : Rule) (inputs outputs : Registry) : Prop :=
  r.antecedentsCount = r.antecedents.length ∧
  r.consequentsCount = r.consequents.length ∧
  (∀ a ∈ r.antecedents, (inputs.find a).isSome = true) ∧
  (∀ k ∈ r.consequents, (outputs.find k).isSome = true)

instance (r : Rule) (inputs outputs : Registry) : Decidable (r.Bound inputs outputs) := by
  unfold Rule.Bound; infer_instance

/-- The class invariant of `FuzzyController`: `rulesCount` is the number of stored rules
and every rule is bound to the two hash maps. -/
def FuzzyController.Valid (c : FuzzyController) : Prop :=
  c.rulesCount = c.rules.length ∧
  ∀ r ∈ c.rules, r.Bound c.inputMembershipFunctions c.outputMembershipFunctions

instance (c : FuzzyController) : Decidable c.Valid := by
  unfold FuzzyController.Valid; infer_instance

/-- The current degrees of the rule's antecedents, in order. -/
def Rule.antecedentDegrees (r : Rule) (inputs : Registry) : List ℚ :=
  r.antecedents.filterMap fun a => (inputs.find a).map fun m => m.fuzzyStrength

/-- The membership functions the rule's consequents point to, in order. -/
def Rule.consequentFunctions (r : Rule) (outputs : Registry) : List MembershipFunction :=
  r.consequents.filterMap fun k => outputs.find k

/-- The minimum of a list of degrees (0 for the empty list). -/
def specMinimum : List ℚ → ℚ
  | [] => 0
  | d :: ds => ds.foldl min d

/-- The firing strength of the specification: the minimum over the antecedents of
their current degree. -/
def specFiringStrength (inputs : Registry) (r : Rule) : ℚ :=
  specMinimum (r.antecedentDegrees inputs)

/-- The output strength of the specification: `min(firingStrength, degree)` for the first
consequent whose group index matches, 0 when none matches. -/
def specOutputStrength (firingStrength : ℚ) (consequents : List MembershipFunction)
    (groupIndex : Nat) (candidateValue : ℚ) : ℚ :=
  match consequents.find? fun m => decide (toUnsigned m.fuzzificationIndex = groupIndex) with
  | some m => min firingStrength (specDegree m candidateValue)
  | none => 0

/-- The aggregated strength at `p`: the maximum of 0 and of the output strengths of all
rules, with firing strengths taken from the current input degrees. -/
def specAggregated (c : FuzzyController) (groupIndex : Nat) (p : ℚ) : ℚ :=
  (c.rules.map fun r =>
    specOutputStrength (specFiringStrength c.inputMembershipFunctions r)
      (r.consequentFunctions c.outputMembershipFunctions) groupIndex p).foldl max 0

/-- The sample `p_k = outMin + k * delta` with `delta = (outMax - outMin) / steps`. -/
def specSample (outMin outMax : ℚ) (steps k : ℕ) : ℚ :=
  outMin + k * ((outMax - outMin) / steps)

/-- The quantity `N`: the sum of `p_k * aggregated(p_k)` for `k = 0..steps`. -/
def specNumerator (c : FuzzyController) (groupIndex : Nat) (outMin outMax : ℚ)
    (steps : ℕ) : ℚ :=
  Finset.sum (Finset.range (steps + 1)) fun k =>
    specSample outMin outMax steps k * specAggregated c groupIndex (specSample outMin outMax steps k)

/-- The quantity `D`: the sum of `aggregated(p_k)` for `k = 0..steps`. -/
def specDenominator (c : FuzzyController) (groupIndex : Nat) (outMin outMax : ℚ)
    (steps : ℕ) : ℚ :=
  Finset.sum (Finset.range (steps + 1)) fun k =>
    specAggregated c groupIndex (specSample outMin outMax steps k)


/-- A node of the input hash map after a fuzzification in which the inputs `xs` are
bound to the consecutive group indices `first, first + 1, ...`. -/
def specFuzzifiedNode (first : Int) (xs : List ℚ) (node : String × MembershipFunction) :
    String × MembershipFunction :=
  if first ≤ node.2.fuzzificationIndex ∧ node.2.fuzzificationIndex < first + xs.length then
    let x := xs.getD (node.2.fuzzificationIndex - first).toNat 0
    (node.1, { node.2 with fuzzyStrength := specDegree node.2 x })
  else
    node


/-- A rule with its transient firing strength cleared. -/
def Rule.shape (r : Rule) : Rule :=
  { r with firingStrength := 0 }

/-- Two controllers with the same configuration: they agree on everything but the
transient strengths of their membership functions and rules. -/
def FuzzyController.SameConfiguration (c d : FuzzyController) : Prop :=
  Registry.shape c.inputMembershipFunctions = Registry.shape d.inputMembershipFunctions ∧
  Registry.shape c.outputMembershipFunctions = Registry.shape d.outputMembershipFunctions ∧
  c.rules.map Rule.shape = d.rules.map Rule.shape ∧
  c.rulesCount = d.rulesCount

instance (c d : FuzzyController) : Decidable (c.SameConfiguration d) := by
  unfold FuzzyController.SameConfiguration; infer_instance

end fuzzy

/-! ## Concrete states of the pass-speed controller -/

namespace ActGen_DirectPassSpeed

open fuzzy

/-- The member `directPassSpeed` as the constructor leaves it. -/
def constructed : FuzzyController :=
  { inputMembershipFunctions :=
      [("distanceLow", MembershipFunction.new 1 1 1 21 1),
       ("distanceHigh", MembershipFunction.new 1 21 21 21 1)],
    outputMembershipFunctions :=
      [("speedLow", MembershipFunction.new (81 / 100) (81 / 100) (81 / 100) (331 / 100) 1),
       ("speedHigh", MembershipFunction.new (81 / 100) (331 / 100) (331 / 100) (331 / 100) 1)],
    rules := [Rule.new ["distanceLow"] ["speedLow"], Rule.new ["distanceHigh"] ["speedHigh"]],
    rulesCount := 2 }

/-- The member `directPassSpeed` after `fuzzify(2, max)` on the constructed controller. -/
def fuzzifiedAtTwo : FuzzyController :=
  { constructed with inputMembershipFunctions :=
      [("distanceLow", { MembershipFunction.new 1 1 1 21 1 with fuzzyStrength := 19 / 20 }),
       ("distanceHigh", { MembershipFunction.new 1 21 21 21 1 with fuzzyStrength := 1 / 20 })] }

/-- The member `directPassSpeed` after `fuzzify(d, max)` on a controller configured as
the constructor leaves it, with the transient output strengths and firing strengths of
the constructed controller. -/
def fuzzifiedAt (d : ℚ) : FuzzyController :=
  { constructed with inputMembershipFunctions :=
      [("distanceLow", { MembershipFunction.new 1 1 1 21 1 with
          fuzzyStrength := specDegree (MembershipFunction.new 1 1 1 21 1) d }),
       ("distanceHigh", { MembershipFunction.new 1 21 21 21 1 with
          fuzzyStrength := specDegree (MembershipFunction.new 1 21 21 21 1) d })] }

/-- The distance after the call of `trimNumeric` in `getDirectPassSpeed`. -/
def trimmedDistance (distance : ℚ) : ℚ :=
  (trimNumeric
    { numeric := distance, lowerLimit := kMinDistance, upperLimit := kMaxDistance }).numeric

/-- The states the function-local static can be in: not yet constructed, or holding a
controller configured as the constructor leaves it. -/
def StaticInvariant (singleton : Option FuzzyController) : Prop :=
  singleton = none ∨ ∃ c, singleton = some c ∧ c.SameConfiguration constructed

end ActGen_DirectPassSpeed

namespace fuzzy

/-- The branches of the `if` chain of `calculateFuzzyStrength`; `fallThrough` is the
case in which none of the four tests succeeds and nothing is assigned. -/
inductive Branch where
  | outside
  | plateau
  | leftRamp
  | rightRamp
  | fallThrough
  deriving DecidableEq, Repr

/-- The branch `calculateFuzzyStrength(input)` takes: the tests of the source, in order. -/
def MembershipFunction.branchTaken (m : MembershipFunction) (input : ℚ) : Branch :=
  if input < m.start ∨ input > m.end_ then .outside
  else if input ≥ m.topLeft ∧ input ≤ m.topRight then .plateau
  else if input < m.topLeft then .leftRamp
  else if input > m.topRight then .rightRamp
  else .fallThrough

/-- The divisor of the division `calculateFuzzyStrength(input)` evaluates, if it
evaluates one. -/
def MembershipFunction.divisorEvaluated (m : MembershipFunction) (input : ℚ) : Option ℚ :=
  match m.branchTaken input with
  | .leftRamp => some (m.topLeft - m.start)
  | .rightRamp => some (m.end_ - m.topRight)
  | _ => none


namespace FuzzyController

/-- The sampling loop of `defuzzifyCentroid` with a ghost list: the values of the sample
variable `i` for which the loop body has run, in order. Control flow and results are
those of `sampleLoop`. -/
def sampleLoopTraced (rules : List Rule) (rulesCount : Nat) (consequentIndex : Nat)
    (consequentEnd discretizationDelta : ℚ) :
    Nat → ℚ → ℚ → ℚ → Registry → List ℚ → Except Fault (ℚ × ℚ × Registry × List ℚ)
  | 0, _, _, _, _, _ => .error .outOfFuel
  | fuel + 1, i, numerator, dominator, outputs, visited =>
    if i ≤ consequentEnd then
      match aggregateLoop rules consequentIndex i rulesCount 0 0 outputs with
      | .error e => .error e
      | .ok (currentOutputStrength, outputs1) =>
        sampleLoopTraced rules rulesCount consequentIndex consequentEnd discretizationDelta
          fuel (i + discretizationDelta) (numerator + i * currentOutputStrength)
          (dominator + currentOutputStrength) outputs1 (visited ++ [i])
    else
      .ok (numerator, dominator, outputs, visited)

/-- The function `defuzzifyCentroid` with the ghost list of visited samples as a third
result. -/
def defuzzifyCentroidTraced (fuel : Nat) (c : FuzzyController) (consequentIndex : Nat)
    (consequentStart consequentEnd discretization : ℚ) :
    Except Fault (ℚ × FuzzyController × List ℚ) :=
  match firingPhase c.inputMembershipFunctions c.rulesCount 0 c.rules with
  | .error e => .error e
  | .ok rules =>
    if discretization = 0 then .error .nonFinite
    else
      let discretizationDelta := (consequentEnd - consequentStart) / discretization
      match sampleLoopTraced rules c.rulesCount consequentIndex consequentEnd
          discretizationDelta fuel consequentStart 0 0 c.outputMembershipFunctions [] with
      | .error e => .error e
      | .ok (numerator, dominator, outputs, visited) =>
        let dominator1 := if dominator = 0 then 1 else dominator
        .ok (numerator / dominator1,
             { c with rules := rules, outputMembershipFunctions := outputs }, visited)

/-- Every transient strength of the controller lies in `[0, 1]`: the degree of every
input and output membership function and the firing strength of every rule. -/
def StrengthsInUnit (c : FuzzyController) : Prop :=
  (∀ node ∈ c.inputMembershipFunctions,
    0 ≤ node.2.fuzzyStrength ∧ node.2.fuzzyStrength ≤ 1) ∧
  (∀ node ∈ c.outputMembershipFunctions,
    0 ≤ node.2.fuzzyStrength ∧ node.2.fuzzyStrength ≤ 1) ∧
  (∀ r ∈ c.rules, 0 ≤ r.firingStrength ∧ r.firingStrength ≤ 1)

/-- The controller states reachable from the empty controller by calls of the public
methods that return. -/
inductive Reachable : FuzzyController → Prop where
  | new : Reachable FuzzyController.new
  | addMembershipFunction (c : FuzzyController) (name : String)
      (start topLeft topRight end_ : ℚ) (fuzzificationIndex : Int)
      (membershipFunctionKind : MembershipFunctionKind) :
      Reachable c →
      Reachable (c.addMembershipFunction name start topLeft topRight end_ fuzzificationIndex
        membershipFunctionKind)
  | addRule (c c1 : FuzzyController) (firstAntecedent : String) (args : List String) :
      Reachable c → c.addRule firstAntecedent args = .ok c1 → Reachable c1
  | fuzzify (c c1 : FuzzyController) (firstInput : ℚ) (args : List ℚ) :
      Reachable c → c.fuzzify firstInput args = .ok c1 → Reachable c1
  | defuzzifyCentroid (c c1 : FuzzyController) (fuel consequentIndex : Nat)
      (consequentStart consequentEnd discretization value : ℚ) :
      Reachable c →
      c.defuzzifyCentroid fuel consequentIndex consequentStart consequentEnd discretization =
        .ok (value, c1) →
      Reachable c1

end FuzzyController

/-- A configuration with one rule whose only consequent has the group index 0
(`kDummyFuzzificationIndex`), fuzzified with the input 1/2: the calls
`addMembershipFunction("in", 0, 0, 1, 1, 1, INPUT)`,
`addMembershipFunction("off", 0, 0, 1, 1, 0, OUTPUT)`,
`addRule("in", kRuleImplies(), "off", kRuleEnd())` and `fuzzify(1/2, max)`. -/
def disabledOutputScenario : Except Fault FuzzyController :=
  let c1 := FuzzyController.new.addMembershipFunction "in" 0 0 1 1 1 .INPUT_MEMBERSHIP_FUNCTION
  let c2 := c1.addMembershipFunction "off" 0 0 1 1 kDummyFuzzificationIndex
    .OUTPUT_MEMBERSHIP_FUNCTION
  match c2.addRule "in" [kRuleImplies, "off", kRuleEnd] with
  | .error e => .error e
  | .ok c3 => c3.fuzzify (1 / 2) [numericLimitsMax]

/-- The controller the scenario `disabledOutputScenario` ends in. -/
def disabledOutputController : FuzzyController :=
  { inputMembershipFunctions :=
      [("in", { MembershipFunction.new 0 0 1 1 1 with fuzzyStrength := 1 })],
    outputMembershipFunctions := [("off", MembershipFunction.new 0 0 1 1 0)],
    rules := [Rule.new ["in"] ["off"]],
    rulesCount := 1 }

end fuzzy

/-! ## The two-rule Low/High configurations -/

namespace fuzzy

namespace LowHigh

/-- The calls that configure a two-rule Low/High controller over the input domain
`[lo, hi]` and the output range `[outLo, outHi]`: those of `initMembershipFunctions` and
`initRuleBase` of the pass-speed controller, with the four bounds as parameters. -/
def configure (lo hi outLo outHi : ℚ) : Except Fault FuzzyController :=
  let c1 := FuzzyController.new.addMembershipFunction "distanceLow" lo lo lo hi 1
    .INPUT_MEMBERSHIP_FUNCTION
  let c2 := c1.addMembershipFunction "distanceHigh" lo hi hi hi 1 .INPUT_MEMBERSHIP_FUNCTION
  let c3 := c2.addMembershipFunction "speedLow" outLo outLo outLo outHi 1
    .OUTPUT_MEMBERSHIP_FUNCTION
  let c4 := c3.addMembershipFunction "speedHigh" outLo outHi outHi outHi 1
    .OUTPUT_MEMBERSHIP_FUNCTION
  match c4.addRule "distanceLow" [kRuleImplies, "speedLow", kRuleEnd] with
  | .error e => .error e
  | .ok c5 => c5.addRule "distanceHigh" [kRuleImplies, "speedHigh", kRuleEnd]

/-- The configured Low/High controller in which the two input membership functions have
the degrees `dLow` and `dHigh` (all other transient strengths 0). -/
def state (lo hi outLo outHi dLow dHigh : ℚ) : FuzzyController :=
  { inputMembershipFunctions :=
      [("distanceLow", { MembershipFunction.new lo lo lo hi 1 with fuzzyStrength := dLow }),
       ("distanceHigh", { MembershipFunction.new lo hi hi hi 1 with fuzzyStrength := dHigh })],
    outputMembershipFunctions :=
      [("speedLow", MembershipFunction.new outLo outLo outLo outHi 1),
       ("speedHigh", MembershipFunction.new outLo outHi outHi outHi 1)],
    rules := [Rule.new ["distanceLow"] ["speedLow"], Rule.new ["distanceHigh"] ["speedHigh"]],
    rulesCount := 2 }

/-- The aggregated strength at the `k`-th of `n + 1` samples when the Low rule fires with
strength `fLow` and the High rule with `fHigh`: the Low output set has degree `1 - k/n`
there and the High output set `k/n`. -/
def weight (fLow fHigh : ℚ) (n k : ℕ) : ℚ :=
  max (max 0 (min fLow (1 - (k : ℚ) / n))) (min fHigh ((k : ℚ) / n))

/-- The sum of the weights over the samples `k = 0..n`. -/
def weightSum (fLow fHigh : ℚ) (n : ℕ) : ℚ :=
  Finset.sum (Finset.range (n + 1)) fun k => weight fLow fHigh n k

/-- The sum of `k * weight` over the samples `k = 0..n`. -/
def weightMoment (fLow fHigh : ℚ) (n : ℕ) : ℚ :=
  Finset.sum (Finset.range (n + 1)) fun k => (k : ℚ) * weight fLow fHigh n k

end LowHigh


/-- The hash map of the given kind: the one `addMembershipFunction` writes when called
with that kind. -/
def FuzzyController.registry (c : FuzzyController) (kind : MembershipFunctionKind) : Registry :=
  match kind with
  | .INPUT_MEMBERSHIP_FUNCTION => c.inputMembershipFunctions
  | .OUTPUT_MEMBERSHIP_FUNCTION => c.outputMembershipFunctions

/-- The invariant of the container `hash_map`: no two nodes have the same key. -/
def Registry.DistinctKeys (reg : Registry) : Prop :=
  (reg.map Prod.fst).Nodup

instance (reg : Registry) : Decidable reg.DistinctKeys := by
  unfold Registry.DistinctKeys; infer_instance

end fuzzy

namespace ActGen_DirectPassSpeed

open fuzzy

/-- The controller `fuzzifiedAtTwo` with other transient values in its output membership
functions and rules: the same configuration and input degrees. -/
def fuzzifiedAtTwoStale : FuzzyController :=
  { fuzzifiedAtTwo with
    outputMembershipFunctions :=
      [("speedLow", { MembershipFunction.new (81 / 100) (81 / 100) (81 / 100) (331 / 100) 1 with
          fuzzyStrength := 1 / 2 }),
       ("speedHigh", { MembershipFunction.new (81 / 100) (331 / 100) (331 / 100) (331 / 100) 1 with
          fuzzyStrength := 1 / 3 })],
    rules := [{ Rule.new ["distanceLow"] ["speedLow"] with firingStrength := 1 / 4 },
              Rule.new ["distanceHigh"] ["speedHigh"]] }

end ActGen_DirectPassSpeed

namespace fuzzy

/-- The ordering `start ≤ topLeft ≤ topRight ≤ end` of the four shape arguments of a call
of `addMembershipFunction`. -/
def OrderedShape (start topLeft topRight end_ : ℚ) : Prop :=
  start ≤ topLeft ∧ topLeft ≤ topRight ∧ topRight ≤ end_

/-- The precondition in the documentation of `addRule` ("MUST get at least one antecedent
and one concequent"), as a condition on the arguments of a call: the first argument is
not `kRuleImplies()`, and the argument that follows the first `kRuleImplies()` exists and
is not `kRuleEnd()`. -/
def AtLeastOneEach (firstAntecedent : String) (args : List String) : Prop :=
  firstAntecedent ≠ kRuleImplies ∧
  ∃ (as : List String) (k : String) (rest : List String),
    args = as ++ kRuleImplies :: k :: rest ∧ kRuleImplies ∉ as ∧ k ≠ kRuleEnd

namespace FuzzyController

/-- The controller states reachable from the empty controller by calls of the public
methods that return, where every call of `addMembershipFunction` passes a shape
satisfying `okShape` and every call of `addRule` passes arguments satisfying `okRule`. -/
inductive ReachableUnder (okShape : ℚ → ℚ → ℚ → ℚ → Prop)
    (okRule : String → List String → Prop) : FuzzyController → Prop where
  | new : ReachableUnder okShape okRule FuzzyController.new
  | addMembershipFunction (c : FuzzyController) (name : String)
      (start topLeft topRight end_ : ℚ) (fuzzificationIndex : Int)
      (membershipFunctionKind : MembershipFunctionKind) :
      okShape start topLeft topRight end_ →
      ReachableUnder okShape okRule c →
      ReachableUnder okShape okRule
        (c.addMembershipFunction name start topLeft topRight end_ fuzzificationIndex
          membershipFunctionKind)
  | addRule (c c1 : FuzzyController) (firstAntecedent : String) (args : List String) :
      okRule firstAntecedent args →
      ReachableUnder okShape okRule c → c.addRule firstAntecedent args = .ok c1 →
      ReachableUnder okShape okRule c1
  | fuzzify (c c1 : FuzzyController) (firstInput : ℚ) (args : List ℚ) :
      ReachableUnder okShape okRule c → c.fuzzify firstInput args = .ok c1 →
      ReachableUnder okShape okRule c1
  | defuzzifyCentroid (c c1 : FuzzyController) (fuel consequentIndex : Nat)
      (consequentStart consequentEnd discretization value : ℚ) :
      ReachableUnder okShape okRule c →
      c.defuzzifyCentroid fuel consequentIndex consequentStart consequentEnd discretization =
        .ok (value, c1) →
      ReachableUnder okShape okRule c1

end FuzzyController


/-! ## The analytic centroid of a trapezoid -/

/-- The area under the trapezoid with corners `(start, 0)`, `(topLeft, 1)`,
`(topRight, 1)`, `(end, 0)`: the rising triangle, the rectangle and the falling
triangle. -/
def trapezoidArea (m : MembershipFunction) : ℚ :=
  (m.topLeft - m.start) / 2 + (m.topRight - m.topLeft) + (m.end_ - m.topRight) / 2

/-- The first moment of the trapezoid about the origin: the area of each of its three
pieces times the abscissa of the centroid of that piece. -/
def trapezoidMoment (m : MembershipFunction) : ℚ :=
  (m.topLeft - m.start) / 2 * ((m.start + 2 * m.topLeft) / 3) +
  (m.topRight - m.topLeft) * ((m.topLeft + m.topRight) / 2) +
  (m.end_ - m.topRight) / 2 * ((2 * m.topRight + m.end_) / 3)

/-- The analytic centroid of the trapezoid: first moment over area. -/
def analyticCentroid (m : MembershipFunction) : ℚ :=
  trapezoidMoment m / trapezoidArea m

/-- A constant `C`, depending on the trapezoid and the output range only, for which the
sampled centroid is within `C / steps` of the analytic one. -/
def centroidErrorConstant (m : MembershipFunction) (outMin outMax : ℚ) : ℚ :=
  (8 * (outMax - outMin) ^ 2 +
    2 * (outMax - outMin) * ((outMax - outMin) + |outMin| + |outMax|)) / trapezoidArea m

/-- The rising edge from `(a, 0)` to `(b, 1)`, continued by 0 on the left and by 1 on the
right (a step at `a` when `a = b`). -/
def risingEdge (a b t : ℚ) : ℚ :=
  if t < a then 0 else if t < b then (t - a) / (b - a) else 1

/-- The integral of `risingEdge a b` up to `t`. -/
def risingEdgeIntegral (a b t : ℚ) : ℚ :=
  if t ≤ a then 0 else if t ≤ b then (t - a) ^ 2 / (2 * (b - a)) else t - (a + b) / 2

/-- The integral of `(s - a) * risingEdge a b s` up to `t`. -/
def risingEdgeMoment (a b t : ℚ) : ℚ :=
  if t ≤ a then 0 else if t ≤ b then (t - a) ^ 3 / (3 * (b - a))
  else (t - a) ^ 2 / 2 - (b - a) ^ 2 / 6

namespace SingleRule

/-- A single-rule configuration whose rule fires at full strength: the input membership
function `in` has degree 1, the rule is `in -> out`, and `out` is the trapezoid
`(start, topLeft, topRight, end)` of output group 1. It is the state after
`addMembershipFunction("in", 0, 0, 1, 1, 1, INPUT)`,
`addMembershipFunction("out", start, topLeft, topRight, end, 1, OUTPUT)`,
`addRule("in", kRuleImplies(), "out", kRuleEnd())` and `fuzzify(1/2, max)`. -/
def state (start topLeft topRight end_ : ℚ) : FuzzyController :=
  { inputMembershipFunctions :=
      [("in", { MembershipFunction.new 0 0 1 1 1 with fuzzyStrength := 1 })],
    outputMembershipFunctions :=
      [("out", MembershipFunction.new start topLeft topRight end_ 1)],
    rules := [Rule.new ["in"] ["out"]],
    rulesCount := 1 }

/-- The calls that lead to `state`. -/
def scenario (start topLeft topRight end_ : ℚ) : Except Fault FuzzyController :=
  let c1 := FuzzyController.new.addMembershipFunction "in" 0 0 1 1 1 .INPUT_MEMBERSHIP_FUNCTION
  let c2 := c1.addMembershipFunction "out" start topLeft topRight end_ 1
    .OUTPUT_MEMBERSHIP_FUNCTION
  match c2.addRule "in" [kRuleImplies, "out", kRuleEnd] with
  | .error e => .error e
  | .ok c3 => c3.fuzzify (1 / 2) [numericLimitsMax]

end SingleRule

end fuzzy

/-! ## FuzzyHetroMatcher -/

namespace FuzzyHetroMatcher

open fuzzy

/-- The constant `kMinAim`. -/
def kMinAim : ℚ := 0

/-- The constant `kMaxAim`. -/
def kMaxAim : ℚ := 10

/-- The constant `kMinCenterDefense`. -/
def kMinCenterDefense : ℚ := 0

/-- The constant `kMaxCenterDefense`. -/
def kMaxCenterDefense : ℚ := 10

/-- The constant `kMinSideDefense`. -/
def kMinSideDefense : ℚ := 0

/-- The constant `kMaxSideDefense`. -/
def kMaxSideDefense : ℚ := 10

/-- The constant `kMinCenterAttack`. -/
def kMinCenterAttack : ℚ := 0

/-- The constant `kMaxCenterAttack`. -/
def kMaxCenterAttack : ℚ := 10

/-- The constant `kMinSideAttack`. -/
def kMinSideAttack : ℚ := 0

/-- The constant `kMaxSideAttack`. -/
def kMaxSideAttack : ℚ := 10

/-- The constant `kMinThroughPass`. -/
def kMinThroughPass : ℚ := 0

/-- The constant `kMaxThroughPass`. -/
def kMaxThroughPass : ℚ := 10

/-- The constant `kAimInputIndex`. -/
def kAimInputIndex : Int := 1

/-- The constant `kCenterDefenseInputIndex`. -/
def kCenterDefenseInputIndex : Int := 2

/-- The constant `kSideDefenseInputIndex`. -/
def kSideDefenseInputIndex : Int := 3

/-- The constant `kCenterAttackInputIndex`. -/
def kCenterAttackInputIndex : Int := 4

/-- The constant `kSideAttackInputIndex`. -/
def kSideAttackInputIndex : Int := 5

/-- The constant `kThroughPassInputIndex`. -/
def kThroughPassInputIndex : Int := 6

/-- The constant `kMinWeight`. -/
def kMinWeight : ℚ := 0

/-- The constant `kMaxWeight`. -/
def kMaxWeight : ℚ := 10

/-- The constant `kCenterBackSpeedOutputIndex`. -/
def kCenterBackSpeedOutputIndex : Int := 1

/-- The constant `kCenterBackStaminaOutputIndex`. -/
def kCenterBackStaminaOutputIndex : Int := 2

/-- The constant `kCenterBackKickOutputIndex`. -/
def kCenterBackKickOutputIndex : Int := 3

/-- The constant `kSideBackSpeedOutputIndex`. -/
def kSideBackSpeedOutputIndex : Int := 4

/-- The constant `kSideBackStaminaOutputIndex`. -/
def kSideBackStaminaOutputIndex : Int := 5

/-- The constant `kSideBackKickOutputIndex`. -/
def kSideBackKickOutputIndex : Int := 6

/-- The constant `kHalfSpeedOutputIndex`. -/
def kHalfSpeedOutputIndex : Int := 7

/-- The constant `kHalfStaminaOutputIndex`. -/
def kHalfStaminaOutputIndex : Int := 8

/-- The constant `kHalfKickOutputIndex`. -/
def kHalfKickOutputIndex : Int := 9

/-- The constant `kCenterForwardSpeedOutputIndex`. -/
def kCenterForwardSpeedOutputIndex : Int := 10

/-- The constant `kCenterForwardStaminaOutputIndex`. -/
def kCenterForwardStaminaOutputIndex : Int := 11

/-- The constant `kCenterForwardKickOutputIndex`. -/
def kCenterForwardKickOutputIndex : Int := 12

/-- The constant `kSideForwardSpeedOutputIndex`. -/
def kSideForwardSpeedOutputIndex : Int := 13

/-- The constant `kSideForwardStaminaOutputIndex`. -/
def kSideForwardStaminaOutputIndex : Int := 14

/-- The constant `kSideForwardKickOutputIndex`. -/
def kSideForwardKickOutputIndex : Int := 15

/-- The constant `kCenterBackIndex`. -/
def kCenterBackIndex : Nat := 0

/-- The constant `kSideBackIndex`. -/
def kSideBackIndex : Nat := 1

/-- The constant `kHalfIndex`. -/
def kHalfIndex : Nat := 2

/-- The constant `kCenterForwardIndex`. -/
def kCenterForwardIndex : Nat := 3

/-- The constant `kSideForwardIndex`. -/
def kSideForwardIndex : Nat := 4

/-- The constant `kSpeedIndex`. -/
def kSpeedIndex : Nat := 0

/-- The constant `kStaminaIndex`. -/
def kStaminaIndex : Nat := 1

/-- The constant `kKickIndex`. -/
def kKickIndex : Nat := 2

/-- The function `initMembershipFunctions()`. -/
def initMembershipFunctions (hetroWeights : FuzzyController) : FuzzyController :=
  hetroWeights
    |>.addMembershipFunction "aimLow" kMinAim kMinAim kMinAim kMaxAim
        kAimInputIndex .INPUT_MEMBERSHIP_FUNCTION
    |>.addMembershipFunction "aimHigh" kMinAim kMaxAim kMaxAim kMaxAim
        kAimInputIndex .INPUT_MEMBERSHIP_FUNCTION
    |>.addMembershipFunction "centerDefenseLow"
        kMinCenterDefense kMinCenterDefense kMinCenterDefense kMaxCenterDefense
        kCenterDefenseInputIndex .INPUT_MEMBERSHIP_FUNCTION
    |>.addMembershipFunction "centerDefenseHigh"
        kMinCenterDefense kMaxCenterDefense kMaxCenterDefense kMaxCenterDefense
        kCenterDefenseInputIndex .INPUT_MEMBERSHIP_FUNCTION
    |>.addMembershipFunction "sideDefenseLow"
        kMinSideDefense kMinSideDefense kMinSideDefense kMaxSideDefense
        kSideDefenseInputIndex .INPUT_MEMBERSHIP_FUNCTION
    |>.addMembershipFunction "sideDefenseHigh"
        kMinSideDefense kMaxSideDefense kMaxSideDefense kMaxSideDefense
        kSideDefenseInputIndex .INPUT_MEMBERSHIP_FUNCTION
    |>.addMembershipFunction "centerAttackLow"
        kMinCenterAttack kMinCenterAttack kMinCenterAttack kMaxCenterAttack
        kCenterAttackInputIndex .INPUT_MEMBERSHIP_FUNCTION
    |>.addMembershipFunction "centerAttackHigh"
        kMinCenterAttack kMaxCenterAttack kMaxCenterAttack kMaxCenterAttack
        kCenterAttackInputIndex .INPUT_MEMBERSHIP_FUNCTION
    |>.addMembershipFunction "sideAttackLow"
        kMinSideAttack kMinSideAttack kMinSideAttack kMaxSideAttack
        kSideAttackInputIndex .INPUT_MEMBERSHIP_FUNCTION
    |>.addMembershipFunction "sideAttackHigh"
        kMinSideAttack kMaxSideAttack kMaxSideAttack kMaxSideAttack
        kSideAttackInputIndex .INPUT_MEMBERSHIP_FUNCTION
    |>.addMembershipFunction "throughPassLow"
        kMinThroughPass kMinThroughPass kMinThroughPass kMaxThroughPass
        kThroughPassInputIndex .INPUT_MEMBERSHIP_FUNCTION
    |>.addMembershipFunction "throughPassHigh"
        kMinThroughPass kMaxThroughPass kMaxThroughPass kMaxThroughPass
        kThroughPassInputIndex .INPUT_MEMBERSHIP_FUNCTION
    |>.addMembershipFunction "centerBackSpeedLow" kMinWeight kMinWeight kMinWeight kMaxWeight
        kCenterBackSpeedOutputIndex .OUTPUT_MEMBERSHIP_FUNCTION
    |>.addMembershipFunction "centerBackSpeedHigh" kMinWeight kMaxWeight kMaxWeight kMaxWeight
        kCenterBackSpeedOutputIndex .OUTPUT_MEMBERSHIP_FUNCTION
    |>.addMembershipFunction "centerBackStaminaLow" kMinWeight kMinWeight kMinWeight kMaxWeight
        kCenterBackStaminaOutputIndex .OUTPUT_MEMBERSHIP_FUNCTION
    |>.addMembershipFunction "centerBackStaminaHigh" kMinWeight kMaxWeight kMaxWeight kMaxWeight
        kCenterBackStaminaOutputIndex .OUTPUT_MEMBERSHIP_FUNCTION
    |>.addMembershipFunction "centerBackKickLow" kMinWeight kMinWeight kMinWeight kMaxWeight
        kCenterBackKickOutputIndex .OUTPUT_MEMBERSHIP_FUNCTION
    |>.addMembershipFunction "centerBackKickHigh" kMinWeight kMaxWeight kMaxWeight kMaxWeight
        kCenterBackKickOutputIndex .OUTPUT_MEMBERSHIP_FUNCTION
    |>.addMembershipFunction "sideBackSpeedLow" kMinWeight kMinWeight kMinWeight kMaxWeight
        kSideBackSpeedOutputIndex .OUTPUT_MEMBERSHIP_FUNCTION
    |>.addMembershipFunction "sideBackSpeedHigh" kMinWeight kMaxWeight kMaxWeight kMaxWeight
        kSideBackSpeedOutputIndex .OUTPUT_MEMBERSHIP_FUNCTION
    |>.addMembershipFunction "sideBackStaminaLow" kMinWeight kMinWeight kMinWeight kMaxWeight
        kSideBackStaminaOutputIndex .OUTPUT_MEMBERSHIP_FUNCTION
    |>.addMembershipFunction "sideBackStaminaHigh" kMinWeight kMaxWeight kMaxWeight kMaxWeight
        kSideBackStaminaOutputIndex .OUTPUT_MEMBERSHIP_FUNCTION
    |>.addMembershipFunction "sideBackKickLow" kMinWeight kMinWeight kMinWeight kMaxWeight
        kSideBackKickOutputIndex .OUTPUT_MEMBERSHIP_FUNCTION
    |>.addMembershipFunction "sideBackKickHigh" kMinWeight kMaxWeight kMaxWeight kMaxWeight
        kSideBackKickOutputIndex .OUTPUT_MEMBERSHIP_FUNCTION
    |>.addMembershipFunction "halfSpeedLow" kMinWeight kMinWeight kMinWeight kMaxWeight
        kHalfSpeedOutputIndex .OUTPUT_MEMBERSHIP_FUNCTION
    |>.addMembershipFunction "halfSpeedHigh" kMinWeight kMaxWeight kMaxWeight kMaxWeight
        kHalfSpeedOutputIndex .OUTPUT_MEMBERSHIP_FUNCTION
    |>.addMembershipFunction "halfBackStaminaLow" kMinWeight kMinWeight kMinWeight kMaxWeight
        kHalfStaminaOutputIndex .OUTPUT_MEMBERSHIP_FUNCTION
    |>.addMembershipFunction "halfStaminaHigh" kMinWeight kMaxWeight kMaxWeight kMaxWeight
        kHalfStaminaOutputIndex .OUTPUT_MEMBERSHIP_FUNCTION
    |>.addMembershipFunction "halfKickLow" kMinWeight kMinWeight kMinWeight kMaxWeight
        kHalfKickOutputIndex .OUTPUT_MEMBERSHIP_FUNCTION
    |>.addMembershipFunction "halfKickHigh" kMinWeight kMaxWeight kMaxWeight kMaxWeight
        kHalfKickOutputIndex .OUTPUT_MEMBERSHIP_FUNCTION
    |>.addMembershipFunction "centerForwardSpeedLow" kMinWeight kMinWeight kMinWeight kMaxWeight
        kCenterForwardSpeedOutputIndex .OUTPUT_MEMBERSHIP_FUNCTION
    |>.addMembershipFunction "centerForwardSpeedHigh" kMinWeight kMaxWeight kMaxWeight kMaxWeight
        kCenterForwardSpeedOutputIndex .OUTPUT_MEMBERSHIP_FUNCTION
    |>.addMembershipFunction "centerForwardStaminaLow" kMinWeight kMinWeight kMinWeight kMaxWeight
        kCenterForwardStaminaOutputIndex .OUTPUT_MEMBERSHIP_FUNCTION
    |>.addMembershipFunction "centerForwardStaminaHigh" kMinWeight kMaxWeight kMaxWeight kMaxWeight
        kCenterForwardStaminaOutputIndex .OUTPUT_MEMBERSHIP_FUNCTION
    |>.addMembershipFunction "centerForwardKickLow" kMinWeight kMinWeight kMinWeight kMaxWeight
        kCenterForwardKickOutputIndex .OUTPUT_MEMBERSHIP_FUNCTION
    |>.addMembershipFunction "centerForwardKickHigh" kMinWeight kMaxWeight kMaxWeight kMaxWeight
        kCenterForwardKickOutputIndex .OUTPUT_MEMBERSHIP_FUNCTION
    |>.addMembershipFunction "sideForwardSpeedLow" kMinWeight kMinWeight kMinWeight kMaxWeight
        kSideForwardSpeedOutputIndex .OUTPUT_MEMBERSHIP_FUNCTION
    |>.addMembershipFunction "sideForwardSpeedHigh" kMinWeight kMaxWeight kMaxWeight kMaxWeight
        kSideForwardSpeedOutputIndex .OUTPUT_MEMBERSHIP_FUNCTION
    |>.addMembershipFunction "sideForwardStaminaLow" kMinWeight kMinWeight kMinWeight kMaxWeight
        kSideForwardStaminaOutputIndex .OUTPUT_MEMBERSHIP_FUNCTION
    |>.addMembershipFunction "sideForwardStaminaHigh" kMinWeight kMaxWeight kMaxWeight kMaxWeight
        kSideForwardStaminaOutputIndex .OUTPUT_MEMBERSHIP_FUNCTION
    |>.addMembershipFunction "sideForwardKickLow" kMinWeight kMinWeight kMinWeight kMaxWeight
        kSideForwardKickOutputIndex .OUTPUT_MEMBERSHIP_FUNCTION
    |>.addMembershipFunction "sideForwardKickHigh" kMinWeight kMaxWeight kMaxWeight kMaxWeight
        kSideForwardKickOutputIndex .OUTPUT_MEMBERSHIP_FUNCTION

/-- The function `initRuleBase()`. -/
def initRuleBase (hetroWeights : FuzzyController) : Except Fault FuzzyController := do
  let c1 ← hetroWeights.addRule "aimLow" [kRuleImplies, "centerBackSpeedHigh",
      "centerBackStaminaHigh", "centerBackKickHigh", "sideBackSpeedHigh",
      "sideBackStaminaHigh", "sideBackKickHigh", "halfStaminaHigh", "centerForwardSpeedLow",
      "centerForwardStaminaLow", "centerForwardKickLow", "sideForwardSpeedLow",
      "sideForwardStaminaLow", "sideForwardKickLow", kRuleEnd]
  let c2 ← c1.addRule "aimHigh" [kRuleImplies, "centerBackSpeedLow", "centerBackStaminaLow",
      "centerBackKickLow", "sideBackSpeedLow", "sideBackStaminaLow", "sideBackKickLow",
      "halfStaminaHigh", "centerForwardSpeedHigh", "centerForwardStaminaHigh",
      "centerForwardKickHigh", "sideForwardSpeedHigh", "sideForwardStaminaHigh",
      "sideForwardKickHigh", kRuleEnd]
  let c3 ← c2.addRule "centerDefenseLow" [kRuleImplies, "centerForwardSpeedLow",
      "centerForwardKickLow", kRuleEnd]
  let c4 ← c3.addRule "centerDefenseHigh" [kRuleImplies, "centerForwardSpeedHigh",
      "centerForwardKickHigh", kRuleEnd]
  let c5 ← c4.addRule "sideDefenseLow" [kRuleImplies, "sideForwardSpeedLow",
      "sideForwardKickLow", kRuleEnd]
  let c6 ← c5.addRule "sideDefenseHigh" [kRuleImplies, "sideForwardSpeedHigh",
      "sideForwardKickHigh", kRuleEnd]
  let c7 ← c6.addRule "centerAttackLow" [kRuleImplies, "centerBackSpeedLow",
      "centerBackKickLow", kRuleEnd]
  let c8 ← c7.addRule "centerAttackHigh" [kRuleImplies, "centerBackSpeedHigh",
      "centerBackKickHigh", kRuleEnd]
  let c9 ← c8.addRule "sideAttackLow" [kRuleImplies, "sideBackSpeedLow", "sideBackKickLow",
      kRuleEnd]
  let c10 ← c9.addRule "sideAttackHigh" [kRuleImplies, "sideBackSpeedHigh", "sideBackKickHigh",
      kRuleEnd]
  c10.addRule "throughPassHigh" [kRuleImplies, "centerBackSpeedHigh", "centerBackKickHigh",
      kRuleEnd]

/-- The private constructor: the member `hetroWeights` after construction. -/
def construct : Except Fault FuzzyController :=
  initRuleBase (initMembershipFunctions FuzzyController.new)

/-- The function `Instance()`: the function-local static is constructed on first use; `none` is
the static before its construction. -/
def Instance (singleton : Option FuzzyController) : Except Fault FuzzyController :=
  match singleton with
  | some c => .ok c
  | none => construct

/-- The assignment `result[i][j] = v` into the vector of vectors; an index outside a
vector is undefined behaviour. -/
def assignCell (result : List (List ℚ)) (i j : Nat) (v : ℚ) : Except Fault (List (List ℚ)) :=
  match result[i]? with
  | none => .error .undefinedBehaviour
  | some row =>
    if j < row.length then .ok (result.set i (row.set j v)) else .error .undefinedBehaviour

/-- The inner `for` loop of `getHetroWeights` in row `i`, with `n` indices left to visit
starting at `j`. Arguments after those: `outputIndex`, `result`, the member
`hetroWeights`. -/
def columnLoop (fuel : Nat) (discretization : ℚ) (i : Nat) :
    Nat → Nat → Int → List (List ℚ) → FuzzyController →
      Except Fault (Int × List (List ℚ) × FuzzyController)
  | 0, _, outputIndex, result, c => .ok (outputIndex, result, c)
  | n + 1, j, outputIndex, result, c =>
    match c.defuzzifyCentroid fuel (toUnsigned outputIndex) kMinWeight kMaxWeight
        discretization with
    | .error e => .error e
    | .ok (v, c1) =>
      match assignCell result i j v with
      | .error e => .error e
      | .ok result1 => columnLoop fuel discretization i n (j + 1) (outputIndex + 1) result1 c1

/-- The outer `for` loop of `getHetroWeights`, with `n` indices left to visit starting
at `i`. -/
def rowLoop (fuel : Nat) (discretization : ℚ) :
    Nat → Nat → Int → List (List ℚ) → FuzzyController →
      Except Fault (Int × List (List ℚ) × FuzzyController)
  | 0, _, outputIndex, result, c => .ok (outputIndex, result, c)
  | n + 1, i, outputIndex, result, c =>
    match columnLoop fuel discretization i 3 0 outputIndex result c with
    | .error e => .error e
    | .ok (outputIndex1, result1, c1) =>
      rowLoop fuel discretization n (i + 1) outputIndex1 result1 c1

/-- The function `getHetroWeights(aim, centerDefense, sideDefense, centerAttack, sideAttack,
throughPass, discretization)` run with the given fuel for each call of
`defuzzifyCentroid`: the returned matrix and the static afterwards. `resize` fills the
five rows with four zeros each. -/
def getHetroWeights (fuel : Nat) (singleton : Option FuzzyController)
    (aim centerDefense sideDefense centerAttack sideAttack throughPass discretization : ℚ) :
    Except Fault (List (List ℚ) × Option FuzzyController) :=
  match Instance singleton with
  | .error e => .error e
  | .ok c =>
    match c.fuzzify aim [centerDefense, sideDefense, centerAttack, sideAttack, throughPass,
        numericLimitsMax] with
    | .error e => .error e
    | .ok c1 =>
      let result : List (List ℚ) := List.replicate 5 (List.replicate 4 0)
      match rowLoop fuel discretization 5 0 1 result c1 with
      | .error e => .error e
      | .ok (_, result1, c2) => .ok (result1, some c2)

/-- The member `hetroWeights` as the constructor leaves it. -/
def constructed : FuzzyController :=
  { inputMembershipFunctions :=
      [("aimLow", MembershipFunction.new 0 0 0 10 1),
       ("aimHigh", MembershipFunction.new 0 10 10 10 1),
       ("centerDefenseLow", MembershipFunction.new 0 0 0 10 2),
       ("centerDefenseHigh", MembershipFunction.new 0 10 10 10 2),
       ("sideDefenseLow", MembershipFunction.new 0 0 0 10 3),
       ("sideDefenseHigh", MembershipFunction.new 0 10 10 10 3),
       ("centerAttackLow", MembershipFunction.new 0 0 0 10 4),
       ("centerAttackHigh", MembershipFunction.new 0 10 10 10 4),
       ("sideAttackLow", MembershipFunction.new 0 0 0 10 5),
       ("sideAttackHigh", MembershipFunction.new 0 10 10 10 5),
       ("throughPassLow", MembershipFunction.new 0 0 0 10 6),
       ("throughPassHigh", MembershipFunction.new 0 10 10 10 6)],
    outputMembershipFunctions :=
      [("centerBackSpeedLow", MembershipFunction.new 0 0 0 10 1),
       ("centerBackSpeedHigh", MembershipFunction.new 0 10 10 10 1),
       ("centerBackStaminaLow", MembershipFunction.new 0 0 0 10 2),
       ("centerBackStaminaHigh", MembershipFunction.new 0 10 10 10 2),
       ("centerBackKickLow", MembershipFunction.new 0 0 0 10 3),
       ("centerBackKickHigh", MembershipFunction.new 0 10 10 10 3),
       ("sideBackSpeedLow", MembershipFunction.new 0 0 0 10 4),
       ("sideBackSpeedHigh", MembershipFunction.new 0 10 10 10 4),
       ("sideBackStaminaLow", MembershipFunction.new 0 0 0 10 5),
       ("sideBackStaminaHigh", MembershipFunction.new 0 10 10 10 5),
       ("sideBackKickLow", MembershipFunction.new 0 0 0 10 6),
       ("sideBackKickHigh", MembershipFunction.new 0 10 10 10 6),
       ("halfSpeedLow", MembershipFunction.new 0 0 0 10 7),
       ("halfSpeedHigh", MembershipFunction.new 0 10 10 10 7),
       ("halfBackStaminaLow", MembershipFunction.new 0 0 0 10 8),
       ("halfStaminaHigh", MembershipFunction.new 0 10 10 10 8),
       ("halfKickLow", MembershipFunction.new 0 0 0 10 9),
       ("halfKickHigh", MembershipFunction.new 0 10 10 10 9),
       ("centerForwardSpeedLow", MembershipFunction.new 0 0 0 10 10),
       ("centerForwardSpeedHigh", MembershipFunction.new 0 10 10 10 10),
       ("centerForwardStaminaLow", MembershipFunction.new 0 0 0 10 11),
       ("centerForwardStaminaHigh", MembershipFunction.new 0 10 10 10 11),
       ("centerForwardKickLow", MembershipFunction.new 0 0 0 10 12),
       ("centerForwardKickHigh", MembershipFunction.new 0 10 10 10 12),
       ("sideForwardSpeedLow", MembershipFunction.new 0 0 0 10 13),
       ("sideForwardSpeedHigh", MembershipFunction.new 0 10 10 10 13),
       ("sideForwardStaminaLow", MembershipFunction.new 0 0 0 10 14),
       ("sideForwardStaminaHigh", MembershipFunction.new 0 10 10 10 14),
       ("sideForwardKickLow", MembershipFunction.new 0 0 0 10 15),
       ("sideForwardKickHigh", MembershipFunction.new 0 10 10 10 15)],
    rules :=
      [Rule.new ["aimLow"]
         ["centerBackSpeedHigh", "centerBackStaminaHigh",
          "centerBackKickHigh", "sideBackSpeedHigh", "sideBackStaminaHigh", "sideBackKickHigh",
          "halfStaminaHigh", "centerForwardSpeedLow", "centerForwardStaminaLow",
          "centerForwardKickLow", "sideForwardSpeedLow", "sideForwardStaminaLow",
          "sideForwardKickLow"],
       Rule.new ["aimHigh"]
         ["centerBackSpeedLow", "centerBackStaminaLow",
          "centerBackKickLow", "sideBackSpeedLow", "sideBackStaminaLow", "sideBackKickLow",
          "halfStaminaHigh", "centerForwardSpeedHigh", "centerForwardStaminaHigh",
          "centerForwardKickHigh", "sideForwardSpeedHigh", "sideForwardStaminaHigh",
          "sideForwardKickHigh"],
       Rule.new ["centerDefenseLow"]
         ["centerForwardSpeedLow", "centerForwardKickLow"],
       Rule.new ["centerDefenseHigh"]
         ["centerForwardSpeedHigh", "centerForwardKickHigh"],
       Rule.new ["sideDefenseLow"]
         ["sideForwardSpeedLow", "sideForwardKickLow"],
       Rule.new ["sideDefenseHigh"]
         ["sideForwardSpeedHigh", "sideForwardKickHigh"],
       Rule.new ["centerAttackLow"]
         ["centerBackSpeedLow", "centerBackKickLow"],
       Rule.new ["centerAttackHigh"]
         ["centerBackSpeedHigh", "centerBackKickHigh"],
       Rule.new ["sideAttackLow"]
         ["sideBackSpeedLow", "sideBackKickLow"],
       Rule.new ["sideAttackHigh"]
         ["sideBackSpeedHigh", "sideBackKickHigh"],
       Rule.new ["throughPassHigh"]
         ["centerBackSpeedHigh", "centerBackKickHigh"]],
    rulesCount := 11 }

/-- The states the function-local static can be in: not yet constructed, or holding a
controller configured as the constructor leaves it. -/
def StaticInvariant (singleton : Option FuzzyController) : Prop :=
  singleton = none ∨ ∃ c, singleton = some c ∧ c.SameConfiguration constructed

end FuzzyHetroMatcher

/-! ## FuzzyOffensivePosEval -/

namespace FuzzyOffensivePosEval

open fuzzy

/-- The constant `kMinDist`. -/
def kMinDist : ℚ := 0

/-- The constant `kMaxDistBallPos`. -/
def kMaxDistBallPos : ℚ := 15

/-- The constant `kMaxDistOppPos`. -/
def kMaxDistOppPos : ℚ := 6

/-- The constant `kMaxDistBallLineOpp`. -/
def kMaxDistBallLineOpp : ℚ := 6

/-- The constant `kMaxDistCurrPos`. -/
def kMaxDistCurrPos : ℚ := 17

/-- The constant `kMaxDistOppGoalPos`. -/
def kMaxDistOppGoalPos : ℚ := 10

/-- The constant `kDistBallPosInputIndex`. -/
def kDistBallPosInputIndex : Int := 1

/-- The constant `kDistOppPosInputIndex`. -/
def kDistOppPosInputIndex : Int := 2

/-- The constant `kDistBallLineOppInputIndex`. -/
def kDistBallLineOppInputIndex : Int := 3

/-- The constant `kDistCurrPosInputIndex`. -/
def kDistCurrPosInputIndex : Int := 4

/-- The constant `kDistOppGoalPosInputIndex`. -/
def kDistOppGoalPosInputIndex : Int := 5

/-- The constant `kMinEval`. -/
def kMinEval : ℚ := 0

/-- The constant `kMaxEval`. -/
def kMaxEval : ℚ := 20

/-- The constant `kEvalOutputIndex`. -/
def kEvalOutputIndex : Int := 1

/-- The function `initMembershipFunctions()`. -/
def initMembershipFunctions (posEval : FuzzyController) : FuzzyController :=
  posEval
    |>.addMembershipFunction "distBallPosLow" kMinDist kMinDist kMinDist kMaxDistBallPos
        kDistBallPosInputIndex .INPUT_MEMBERSHIP_FUNCTION
    |>.addMembershipFunction "distBallPosHigh"
        kMinDist kMaxDistBallPos kMaxDistBallPos kMaxDistBallPos
        kDistBallPosInputIndex .INPUT_MEMBERSHIP_FUNCTION
    |>.addMembershipFunction "distOppPosLow" kMinDist kMinDist kMinDist kMaxDistOppPos
        kDistOppPosInputIndex .INPUT_MEMBERSHIP_FUNCTION
    |>.addMembershipFunction "distOppPosHigh" kMinDist kMaxDistOppPos kMaxDistOppPos kMaxDistOppPos
        kDistOppPosInputIndex .INPUT_MEMBERSHIP_FUNCTION
    |>.addMembershipFunction "distBallLineOppLow" kMinDist kMinDist kMinDist kMaxDistBallLineOpp
        kDistBallLineOppInputIndex .INPUT_MEMBERSHIP_FUNCTION
    |>.addMembershipFunction "distBallLineOppHigh"
        kMinDist kMaxDistBallLineOpp kMaxDistBallLineOpp kMaxDistBallLineOpp
        kDistBallLineOppInputIndex .INPUT_MEMBERSHIP_FUNCTION
    |>.addMembershipFunction "distCurrPosLow" kMinDist kMinDist kMinDist kMaxDistCurrPos
        kDistCurrPosInputIndex .INPUT_MEMBERSHIP_FUNCTION
    |>.addMembershipFunction "distCurrPosHigh"
        kMinDist kMaxDistCurrPos kMaxDistCurrPos kMaxDistCurrPos
        kDistCurrPosInputIndex .INPUT_MEMBERSHIP_FUNCTION
    |>.addMembershipFunction "distOppGoalPosLow" kMinDist kMinDist kMinDist kMaxDistOppGoalPos
        kDistOppGoalPosInputIndex .INPUT_MEMBERSHIP_FUNCTION
    |>.addMembershipFunction "distOppGoalPosHigh"
        kMinDist kMaxDistOppGoalPos kMaxDistOppGoalPos kMaxDistOppGoalPos
        kDistOppGoalPosInputIndex .INPUT_MEMBERSHIP_FUNCTION
    |>.addMembershipFunction "evalLow" kMinEval kMinEval kMinEval kMaxEval
        kEvalOutputIndex .OUTPUT_MEMBERSHIP_FUNCTION
    |>.addMembershipFunction "evalHigh" kMinEval kMaxEval kMaxEval kMaxEval
        kEvalOutputIndex .OUTPUT_MEMBERSHIP_FUNCTION

/-- The function `initRuleBase()`. -/
def initRuleBase (posEval : FuzzyController) : Except Fault FuzzyController := do
  let c1 ← posEval.addRule "distBallPosLow" [kRuleImplies, "evalLow", kRuleEnd]
  let c2 ← c1.addRule "distBallPosHigh" [kRuleImplies, "evalHigh", kRuleEnd]
  let c3 ← c2.addRule "distOppPosLow" [kRuleImplies, "evalLow", kRuleEnd]
  let c4 ← c3.addRule "distOppPosHigh" [kRuleImplies, "evalHigh", kRuleEnd]
  let c5 ← c4.addRule "distBallLineOppLow" [kRuleImplies, "evalLow", kRuleEnd]
  let c6 ← c5.addRule "distBallLineOppHigh" [kRuleImplies, "evalHigh", kRuleEnd]
  let c7 ← c6.addRule "distCurrPosLow" [kRuleImplies, "evalHigh", kRuleEnd]
  let c8 ← c7.addRule "distCurrPosHigh" [kRuleImplies, "evalLow", kRuleEnd]
  let c9 ← c8.addRule "distOppGoalPosLow" [kRuleImplies, "evalHigh", kRuleEnd]
  c9.addRule "distOppGoalPosHigh" [kRuleImplies, "evalLow", kRuleEnd]

/-- The private constructor: the member `posEval` after construction. -/
def construct : Except Fault FuzzyController :=
  initRuleBase (initMembershipFunctions FuzzyController.new)

/-- The function `Instance()`: the function-local static is constructed on first use; `none` is
the static before its construction. -/
def Instance (singleton : Option FuzzyController) : Except Fault FuzzyController :=
  match singleton with
  | some c => .ok c
  | none => construct

/-- The function `getOffensivePosEval(distBallPos, distOppPos, distBallLineOpp, distCurrPos,
distOppGoalPos, discretization)` run with the given fuel: the returned evaluation and the
static afterwards. -/
def getOffensivePosEval (fuel : Nat) (singleton : Option FuzzyController)
    (distBallPos distOppPos distBallLineOpp distCurrPos distOppGoalPos discretization : ℚ) :
    Except Fault (ℚ × Option FuzzyController) :=
  let distBallPos1 := (trimNumeric
    { numeric := distBallPos, lowerLimit := kMinDist, upperLimit := kMaxDistBallPos }).numeric
  let distOppPos1 := (trimNumeric
    { numeric := distOppPos, lowerLimit := kMinDist, upperLimit := kMaxDistOppPos }).numeric
  let distBallLineOpp1 := (trimNumeric
    { numeric := distBallLineOpp, lowerLimit := kMinDist,
      upperLimit := kMaxDistBallLineOpp }).numeric
  let distCurrPos1 := (trimNumeric
    { numeric := distCurrPos, lowerLimit := kMinDist, upperLimit := kMaxDistCurrPos }).numeric
  let distOppGoalPos1 := (trimNumeric
    { numeric := distOppGoalPos, lowerLimit := kMinDist,
      upperLimit := kMaxDistOppGoalPos }).numeric
  match Instance singleton with
  | .error e => .error e
  | .ok c =>
    match c.fuzzify distBallPos1 [distOppPos1, distBallLineOpp1, distCurrPos1, distOppGoalPos1,
        numericLimitsMax] with
    | .error e => .error e
    | .ok c1 =>
      match c1.defuzzifyCentroid fuel (toUnsigned kEvalOutputIndex) kMinEval kMaxEval
          discretization with
      | .error e => .error e
      | .ok (eval, c2) => .ok (eval, some c2)

/-- The member `posEval` as the constructor leaves it. -/
def constructed : FuzzyController :=
  { inputMembershipFunctions :=
      [("distBallPosLow", MembershipFunction.new 0 0 0 15 1),
       ("distBallPosHigh", MembershipFunction.new 0 15 15 15 1),
       ("distOppPosLow", MembershipFunction.new 0 0 0 6 2),
       ("distOppPosHigh", MembershipFunction.new 0 6 6 6 2),
       ("distBallLineOppLow", MembershipFunction.new 0 0 0 6 3),
       ("distBallLineOppHigh", MembershipFunction.new 0 6 6 6 3),
       ("distCurrPosLow", MembershipFunction.new 0 0 0 17 4),
       ("distCurrPosHigh", MembershipFunction.new 0 17 17 17 4),
       ("distOppGoalPosLow", MembershipFunction.new 0 0 0 10 5),
       ("distOppGoalPosHigh", MembershipFunction.new 0 10 10 10 5)],
    outputMembershipFunctions :=
      [("evalLow", MembershipFunction.new 0 0 0 20 1),
       ("evalHigh", MembershipFunction.new 0 20 20 20 1)],
    rules :=
      [Rule.new ["distBallPosLow"] ["evalLow"],
       Rule.new ["distBallPosHigh"] ["evalHigh"],
       Rule.new ["distOppPosLow"] ["evalLow"],
       Rule.new ["distOppPosHigh"] ["evalHigh"],
       Rule.new ["distBallLineOppLow"] ["evalLow"],
       Rule.new ["distBallLineOppHigh"] ["evalHigh"],
       Rule.new ["distCurrPosLow"] ["evalHigh"],
       Rule.new ["distCurrPosHigh"] ["evalLow"],
       Rule.new ["distOppGoalPosLow"] ["evalHigh"],
       Rule.new ["distOppGoalPosHigh"] ["evalLow"]],
    rulesCount := 10 }

/-- The states the function-local static can be in: not yet constructed, or holding a
controller configured as the constructor leaves it. -/
def StaticInvariant (singleton : Option FuzzyController) : Prop :=
  singleton = none ∨ ∃ c, singleton = some c ∧ c.SameConfiguration constructed

/-- A distance after its call of `trimNumeric` in `getOffensivePosEval`, `maxDist` being
the upper limit passed for it. -/
def trimmedDist (dist maxDist : ℚ) : ℚ :=
  (trimNumeric { numeric := dist, lowerLimit := kMinDist, upperLimit := maxDist }).numeric

/-- The member `posEval` after `fuzzify` with the five given inputs on a controller
configured as the constructor leaves it, with the transient output strengths and firing
strengths of the constructed controller. -/
def fuzzifiedAt (distBallPos distOppPos distBallLineOpp distCurrPos distOppGoalPos : ℚ) :
    FuzzyController :=
  { constructed with inputMembershipFunctions :=
      [("distBallPosLow", { MembershipFunction.new 0 0 0 15 1 with
          fuzzyStrength := specDegree (MembershipFunction.new 0 0 0 15 1) distBallPos }),
       ("distBallPosHigh", { MembershipFunction.new 0 15 15 15 1 with
          fuzzyStrength := specDegree (MembershipFunction.new 0 15 15 15 1) distBallPos }),
       ("distOppPosLow", { MembershipFunction.new 0 0 0 6 2 with
          fuzzyStrength := specDegree (MembershipFunction.new 0 0 0 6 2) distOppPos }),
       ("distOppPosHigh", { MembershipFunction.new 0 6 6 6 2 with
          fuzzyStrength := specDegree (MembershipFunction.new 0 6 6 6 2) distOppPos }),
       ("distBallLineOppLow", { MembershipFunction.new 0 0 0 6 3 with
          fuzzyStrength := specDegree (MembershipFunction.new 0 0 0 6 3) distBallLineOpp }),
       ("distBallLineOppHigh", { MembershipFunction.new 0 6 6 6 3 with
          fuzzyStrength := specDegree (MembershipFunction.new 0 6 6 6 3) distBallLineOpp }),
       ("distCurrPosLow", { MembershipFunction.new 0 0 0 17 4 with
          fuzzyStrength := specDegree (MembershipFunction.new 0 0 0 17 4) distCurrPos }),
       ("distCurrPosHigh", { MembershipFunction.new 0 17 17 17 4 with
          fuzzyStrength := specDegree (MembershipFunction.new 0 17 17 17 4) distCurrPos }),
       ("distOppGoalPosLow", { MembershipFunction.new 0 0 0 10 5 with
          fuzzyStrength := specDegree (MembershipFunction.new 0 0 0 10 5) distOppGoalPos }),
       ("distOppGoalPosHigh", { MembershipFunction.new 0 10 10 10 5 with
          fuzzyStrength := specDegree (MembershipFunction.new 0 10 10 10 5) distOppGoalPos })] }

end FuzzyOffensivePosEval

/-! ## Bhv_BasicMove -/

namespace Bhv_BasicMove

/-- The value the local `bestPosEval` of `getFuzzyAttackPosition` holds before its loops. -/
def initialBestPosEval : ℚ := -10

/-- The test `currPosEval > bestPosEval` of `getFuzzyAttackPosition` with the assignment it
guards: the value of `bestPosEval` afterwards. -/
def updateBestPosEval (bestPosEval currPosEval : ℚ) : ℚ :=
  if currPosEval > bestPosEval then currPosEval else bestPosEval

end Bhv_BasicMove

/-! ## The sample variable as a `double`, and names as pointers -/

namespace fuzzy

/-- The integer nearest to `q`, the even one of the two when `q` lies halfway. -/
def roundNearestEven (q : ℚ) : Int :=
  if q - ⌊q⌋ < 1 / 2 then ⌊q⌋
  else if 1 / 2 < q - ⌊q⌋ then ⌊q⌋ + 1
  else if ⌊q⌋ % 2 = 0 then ⌊q⌋ else ⌊q⌋ + 1

/-- The `double` nearest to `x`: 53 significant bits, round to nearest, ties to even (the
default rounding of IEEE 754 binary64). Overflow and subnormal numbers are left out: the
exponent is unbounded. -/
def roundDouble (x : ℚ) : ℚ :=
  if x = 0 then 0
  else roundNearestEven (x / 2 ^ (Int.log 2 |x| - 52)) * 2 ^ (Int.log 2 |x| - 52)

/-- A `const char*` argument: the address it holds and the characters found there. An
address is named by a `String`; a string literal is named by its own characters, two
identical literals being one object. -/
structure CString where
  address : String
  text : String
  deriving DecidableEq, Repr

/-- The string literal with the given characters. -/
def CString.literal (s : String) : CString :=
  { address := s, text := s }

namespace FuzzyController

/-- The function `addMembershipFunction` with its argument `name` as the pointer it is:
`operator[]` of `hash_map<const char*, ...>` compares keys with `==`, so the node written
is the one whose key is the same address, whatever characters the addresses hold. -/
def addMembershipFunctionAt (c : FuzzyController) (name : CString)
    (start topLeft topRight end_ : ℚ) (fuzzificationIndex : Int)
    (membershipFunctionKind : MembershipFunctionKind) : FuzzyController :=
  c.addMembershipFunction name.address start topLeft topRight end_ fuzzificationIndex
    membershipFunctionKind

/-- The samples `xs` are those at which the guard `i <= consequentEnd` of the sampling
loop holds when the loop variable starts at `i` and each addition of `discretizationDelta`
is rounded by `fl`; the guard fails at the sample after the last of them. -/
def VisitsFrom (fl : ℚ → ℚ) (consequentEnd discretizationDelta : ℚ) : ℚ → List ℚ → Prop
  | i, [] => ¬ i ≤ consequentEnd
  | i, x :: xs =>
    x = i ∧ i ≤ consequentEnd ∧
      VisitsFrom fl consequentEnd discretizationDelta (fl (i + discretizationDelta)) xs

/-- The sampling loop of `defuzzifyCentroid` with the loop variable `i` as the machine
holds it: `fl` rounds the sum `i + discretizationDelta` (`fl = id` is exact arithmetic,
`fl = roundDouble` is `MembershipType = double`). The sums `numerator` and `dominator`
are kept exact, as everywhere. The last argument is a ghost list: the values of `i` for
which the loop body has run. -/
def sampleLoopRounded (fl : ℚ → ℚ) (rules : List Rule) (rulesCount : Nat)
    (consequentIndex : Nat) (consequentEnd discretizationDelta : ℚ) :
    Nat → ℚ → ℚ → ℚ → Registry → List ℚ → Except Fault (ℚ × ℚ × Registry × List ℚ)
  | 0, _, _, _, _, _ => .error .outOfFuel
  | fuel + 1, i, numerator, dominator, outputs, visited =>
    if i ≤ consequentEnd then
      match aggregateLoop rules consequentIndex i rulesCount 0 0 outputs with
      | .error e => .error e
      | .ok (currentOutputStrength, outputs1) =>
        sampleLoopRounded fl rules rulesCount consequentIndex consequentEnd
          discretizationDelta fuel (fl (i + discretizationDelta))
          (numerator + i * currentOutputStrength) (dominator + currentOutputStrength) outputs1
          (visited ++ [i])
    else
      .ok (numerator, dominator, outputs, visited)

/-- The function `defuzzifyCentroid` with the results the loop variable is computed from
rounded by `fl`: the difference `consequentEnd - consequentStart`, its quotient by
`discretization`, and each sum `i + discretizationDelta`. The third result is the ghost
list of visited samples. -/
def defuzzifyCentroidRounded (fl : ℚ → ℚ) (fuel : Nat) (c : FuzzyController)
    (consequentIndex : Nat) (consequentStart consequentEnd discretization : ℚ) :
    Except Fault (ℚ × FuzzyController × List ℚ) :=
  match firingPhase c.inputMembershipFunctions c.rulesCount 0 c.rules with
  | .error e => .error e
  | .ok rules =>
    if discretization = 0 then .error .nonFinite
    else
      let discretizationDelta := fl (fl (consequentEnd - consequentStart) / discretization)
      match sampleLoopRounded fl rules c.rulesCount consequentIndex consequentEnd
          discretizationDelta fuel consequentStart 0 0 c.outputMembershipFunctions [] with
      | .error e => .error e
      | .ok (numerator, dominator, outputs, visited) =>
        let dominator1 := if dominator = 0 then 1 else dominator
        .ok (numerator / dominator1,
             { c with rules := rules, outputMembershipFunctions := outputs }, visited)

end FuzzyController

end fuzzy

namespace ActGen_DirectPassSpeed

open fuzzy

/-- The function `initMembershipFunctions()` with each `double` constant as the machine
holds it: rounded by `fl`. -/
def initMembershipFunctionsRounded (fl : ℚ → ℚ) (directPassSpeed : FuzzyController) :
    FuzzyController :=
  let c1 := directPassSpeed.addMembershipFunction "distanceLow"
    (fl kMinDistance) (fl kMinDistance) (fl kMinDistance) (fl kMaxDistance)
    kDistanceInputIndex .INPUT_MEMBERSHIP_FUNCTION
  let c2 := c1.addMembershipFunction "distanceHigh"
    (fl kMinDistance) (fl kMaxDistance) (fl kMaxDistance) (fl kMaxDistance)
    kDistanceInputIndex .INPUT_MEMBERSHIP_FUNCTION
  let c3 := c2.addMembershipFunction "speedLow"
    (fl kMinSpeed) (fl kMinSpeed) (fl kMinSpeed) (fl kMaxSpeed)
    kSpeedOutputIndex .OUTPUT_MEMBERSHIP_FUNCTION
  c3.addMembershipFunction "speedHigh"
    (fl kMinSpeed) (fl kMaxSpeed) (fl kMaxSpeed) (fl kMaxSpeed)
    kSpeedOutputIndex .OUTPUT_MEMBERSHIP_FUNCTION

/-- The private constructor, the constants rounded by `fl`. -/
def constructRounded (fl : ℚ → ℚ) : Except Fault FuzzyController :=
  initRuleBase (initMembershipFunctionsRounded fl FuzzyController.new)

/-- The function `Instance()`, the constants rounded by `fl`. -/
def InstanceRounded (fl : ℚ → ℚ) (singleton : Option FuzzyController) :
    Except Fault FuzzyController :=
  match singleton with
  | some c => .ok c
  | none => constructRounded fl

/-- The function `getDirectPassSpeed(distance, discretization)` with the `double`
constants and the loop variable of `defuzzifyCentroid` as the machine holds them, rounded
by `fl`. The sums `1 + 1` and `21 - 1` inside `trimNumeric` are exact in a `double`. -/
def getDirectPassSpeedRounded (fl : ℚ → ℚ) (fuel : Nat) (singleton : Option FuzzyController)
    (distance discretization : ℚ) : Except Fault (ℚ × Option FuzzyController) :=
  let distance1 := (trimNumeric
    { numeric := distance, lowerLimit := fl kMinDistance,
      upperLimit := fl kMaxDistance }).numeric
  match InstanceRounded fl singleton with
  | .error e => .error e
  | .ok c =>
    match c.fuzzify distance1 [numericLimitsMax] with
    | .error e => .error e
    | .ok c1 =>
      match c1.defuzzifyCentroidRounded fl fuel (toUnsigned kSpeedOutputIndex)
          (fl kMinSpeed) (fl kMaxSpeed) discretization with
      | .error e => .error e
      | .ok (speed, c2, _) => .ok (speed, some c2)

end ActGen_DirectPassSpeed

/-! # Theorems -/

namespace fuzzy

/-! ## Membership degrees and hash-map shapes -/

theorem MembershipFunction.calculateFuzzyStrength_eq (m : MembershipFunction) (v : ℚ) :
    m.calculateFuzzyStrength v = { m with fuzzyStrength := specDegree m v } := by
  unfold MembershipFunction.calculateFuzzyStrength specDegree
  by_cases h1 : v < m.start ∨ v > m.end_
  · simp only [h1, if_true]
  · by_cases h2 : v ≥ m.topLeft ∧ v ≤ m.topRight
    · have h2' : m.topLeft ≤ v ∧ v ≤ m.topRight := h2
      simp only [h1, h2, h2', if_true, if_false, and_self]
    · have h2' : ¬ (m.topLeft ≤ v ∧ v ≤ m.topRight) := h2
      by_cases h3 : v < m.topLeft
      · simp only [h1, h2, h2', h3, if_true, if_false]
      · have h4 : v > m.topRight := by
          by_contra h4
          exact h2 ⟨not_lt.mp h3, not_lt.mp h4⟩
        simp only [h1, h2, h2', h3, h4, if_true, if_false]

theorem MembershipFunction.calculateFuzzyStrength_strength (m : MembershipFunction) (v : ℚ) :
    (m.calculateFuzzyStrength v).fuzzyStrength = specDegree m v := by
  rw [MembershipFunction.calculateFuzzyStrength_eq]

theorem MembershipFunction.calculateFuzzyStrength_shape (m : MembershipFunction) (v : ℚ) :
    (m.calculateFuzzyStrength v).shape = m.shape := by
  rw [MembershipFunction.calculateFuzzyStrength_eq]; rfl

theorem specDegree_shape (m : MembershipFunction) (v : ℚ) :
    specDegree m.shape v = specDegree m v := rfl

theorem MembershipFunction.shape_index (m : MembershipFunction) :
    m.shape.fuzzificationIndex = m.fuzzificationIndex := rfl

theorem Registry.find_shape (reg : Registry) (k : String) :
    (Registry.shape reg).find k = (reg.find k).map MembershipFunction.shape := by
  induction reg with
  | nil => rfl
  | cons hd tl ih =>
    obtain ⟨k0, m0⟩ := hd
    simp only [Registry.shape, List.map_cons, Registry.find] at ih ⊢
    by_cases h : k0 = k
    · simp [h]
    · simp only [h, if_false]; exact ih

theorem Registry.shape_store (reg : Registry) (k : String) (m v : MembershipFunction)
    (hf : reg.find k = some m) (hv : v.shape = m.shape) :
    Registry.shape (reg.store k v) = Registry.shape reg := by
  induction reg with
  | nil => rfl
  | cons hd tl ih =>
    obtain ⟨k0, m0⟩ := hd
    by_cases h : k0 = k
    · simp only [Registry.find, h, if_true, Option.some.injEq] at hf
      subst hf
      simp [Registry.store, h, Registry.shape, hv]
    · simp only [Registry.find, h, if_false] at hf
      have := ih hf
      simp only [Registry.shape] at this
      simp [Registry.store, h, Registry.shape, this]

theorem Registry.find_congr {a b : Registry} (h : Registry.shape a = Registry.shape b) (k : String) :
    (a.find k).map MembershipFunction.shape = (b.find k).map MembershipFunction.shape := by
  rw [← Registry.find_shape, ← Registry.find_shape, h]

theorem Registry.find_isSome_congr {a b : Registry} (h : Registry.shape a = Registry.shape b)
    (k : String) : (a.find k).isSome = (b.find k).isSome := by
  have := congrArg Option.isSome (Registry.find_congr h k)
  simpa using this


/-! ## The loops of a rule -/

theorem Rule.firingLoop_eq (r : Rule) (inputs : Registry)
    (hres : ∀ a ∈ r.antecedents, (inputs.find a).isSome = true) :
    ∀ (n i : Nat) (acc : ℚ), i + n = r.antecedents.length →
      r.firingLoop inputs n i acc =
        .ok (((r.antecedents.drop i).filterMap
          fun a => (inputs.find a).map fun m => m.fuzzyStrength).foldl min acc) := by
  intro n
  induction n with
  | zero =>
    intro i acc h
    have : r.antecedents.drop i = [] := List.drop_eq_nil_of_le (by omega)
    simp [Rule.firingLoop, this]
  | succ n ih =>
    intro i acc h
    have hi : i < r.antecedents.length := by omega
    have hd : r.antecedents.drop i = r.antecedents[i] :: r.antecedents.drop (i + 1) :=
      List.drop_eq_getElem_cons hi
    have hmem : r.antecedents[i] ∈ r.antecedents := List.getElem_mem hi
    obtain ⟨m, hm⟩ := Option.isSome_iff_exists.mp (hres _ hmem)
    have hs : r.antecedentStrength inputs i = .ok m.fuzzyStrength := by
      simp [Rule.antecedentStrength, List.getElem?_eq_getElem hi, hm]
    rw [Rule.firingLoop, hs]
    simp only []
    rw [ih (i + 1) (min acc m.fuzzyStrength) (by omega), hd]
    simp only [List.filterMap_cons, hm, Option.map_some', List.foldl_cons]

theorem Rule.calculateFiringStrength_eq (r : Rule) (inputs : Registry)
    (hcount : r.antecedentsCount = r.antecedents.length)
    (hres : ∀ a ∈ r.antecedents, (inputs.find a).isSome = true)
    (hne : r.antecedents ≠ []) :
    r.calculateFiringStrength inputs =
      .ok { r with firingStrength := specFiringStrength inputs r } := by
  obtain ⟨a, as, has⟩ := List.exists_cons_of_ne_nil hne
  have hmem : a ∈ r.antecedents := by rw [has]; exact List.mem_cons_self _ _
  obtain ⟨m, hm⟩ := Option.isSome_iff_exists.mp (hres _ hmem)
  have hs : r.antecedentStrength inputs 0 = .ok m.fuzzyStrength := by
    simp [Rule.antecedentStrength, has, hm]
  have hl := Rule.firingLoop_eq r inputs hres (r.antecedentsCount - 1) 1 m.fuzzyStrength
    (by rw [hcount, has]; simp; omega)
  unfold Rule.calculateFiringStrength
  rw [hs]
  simp only []
  rw [hl]
  simp only [specFiringStrength, Rule.antecedentDegrees, specMinimum, has, List.drop_one,
    List.tail_cons, List.filterMap_cons, hm, Option.map_some']

theorem specOutputStrength_map_shape (f : ℚ) (cs : List MembershipFunction) (g : Nat) (p : ℚ) :
    specOutputStrength f (cs.map MembershipFunction.shape) g p = specOutputStrength f cs g p := by
  induction cs with
  | nil => rfl
  | cons c cs ih =>
    unfold specOutputStrength at ih ⊢
    by_cases h : toUnsigned c.fuzzificationIndex = g
    · simp only [List.map_cons, List.find?_cons, MembershipFunction.shape_index, h,
        decide_True, specDegree_shape]
    · simp only [List.map_cons, List.find?_cons, MembershipFunction.shape_index, h,
        decide_False]
      exact ih

theorem Registry.filterMap_find_congr {a b : Registry} (h : Registry.shape a = Registry.shape b)
    (l : List String) :
    (l.filterMap fun k => a.find k).map MembershipFunction.shape =
      (l.filterMap fun k => b.find k).map MembershipFunction.shape := by
  induction l with
  | nil => rfl
  | cons k l ih =>
    have hk := Registry.find_congr h k
    cases ha : a.find k <;> cases hb : b.find k <;>
      simp_all [List.filterMap_cons]

theorem specOutputStrength_congr {a b : Registry} (h : Registry.shape a = Registry.shape b)
    (f : ℚ) (r : Rule) (g : Nat) (p : ℚ) :
    specOutputStrength f (r.consequentFunctions a) g p =
      specOutputStrength f (r.consequentFunctions b) g p := by
  rw [← specOutputStrength_map_shape f (r.consequentFunctions a),
    ← specOutputStrength_map_shape f (r.consequentFunctions b)]
  unfold Rule.consequentFunctions
  rw [Registry.filterMap_find_congr h]


theorem Rule.getOutputStrengthLoop_eq (r : Rule) (g : Nat) (p : ℚ) :
    ∀ (n i : Nat) (outputs : Registry), i + n = r.consequents.length →
      (∀ k ∈ r.consequents, (outputs.find k).isSome = true) →
      ∃ outputs1, r.getOutputStrengthLoop g p n i outputs =
          .ok (specOutputStrength r.firingStrength
            ((r.consequents.drop i).filterMap fun k => outputs.find k) g p, outputs1) ∧
        Registry.shape outputs1 = Registry.shape outputs := by
  intro n
  induction n with
  | zero =>
    intro i outputs h _
    have : r.consequents.drop i = [] := List.drop_eq_nil_of_le (by omega)
    exact ⟨outputs, by simp [Rule.getOutputStrengthLoop, this, specOutputStrength], rfl⟩
  | succ n ih =>
    intro i outputs h hres
    have hi : i < r.consequents.length := by omega
    have hd : r.consequents.drop i = r.consequents[i] :: r.consequents.drop (i + 1) :=
      List.drop_eq_getElem_cons hi
    have hmem : r.consequents[i] ∈ r.consequents := List.getElem_mem hi
    obtain ⟨c, hc⟩ := Option.isSome_iff_exists.mp (hres _ hmem)
    rw [Rule.getOutputStrengthLoop, List.getElem?_eq_getElem hi]
    simp only [hc]
    by_cases hg : toUnsigned c.fuzzificationIndex = g
    · refine ⟨outputs.store r.consequents[i] (c.calculateFuzzyStrength p), ?_, ?_⟩
      · rw [if_pos hg, hd]
        simp only [List.filterMap_cons, hc, specOutputStrength, List.find?_cons, hg,
          decide_True, MembershipFunction.calculateFuzzyStrength_strength]
      · exact Registry.shape_store outputs _ c _ hc
          (MembershipFunction.calculateFuzzyStrength_shape c p)
    · obtain ⟨outputs1, h1, h2⟩ := ih (i + 1) outputs (by omega) hres
      refine ⟨outputs1, ?_, h2⟩
      rw [if_neg hg, h1, hd]
      simp only [List.filterMap_cons, hc, specOutputStrength, List.find?_cons, hg,
        decide_False]

theorem Rule.getOutputStrength_eq (r : Rule) (g : Nat) (p : ℚ) (outputs : Registry)
    (hcount : r.consequentsCount = r.consequents.length)
    (hres : ∀ k ∈ r.consequents, (outputs.find k).isSome = true) :
    ∃ outputs1, r.getOutputStrength g p outputs =
        .ok (specOutputStrength r.firingStrength (r.consequentFunctions outputs) g p,
          outputs1) ∧
      Registry.shape outputs1 = Registry.shape outputs := by
  have := Rule.getOutputStrengthLoop_eq r g p r.consequentsCount 0 outputs
    (by rw [hcount]; simp) hres
  simpa [Rule.getOutputStrength, Rule.consequentFunctions] using this

theorem FuzzyController.aggregateLoop_eq (rules : List Rule) (g : Nat) (p : ℚ)
    (base : Registry)
    (hcount : ∀ r ∈ rules, r.consequentsCount = r.consequents.length)
    (hres : ∀ r ∈ rules, ∀ k ∈ r.consequents, (base.find k).isSome = true) :
    ∀ (n j : Nat) (cur : ℚ) (outputs : Registry), j + n = rules.length →
      Registry.shape outputs = Registry.shape base →
      ∃ outputs1, FuzzyController.aggregateLoop rules g p n j cur outputs =
          .ok (((rules.drop j).map fun r =>
            specOutputStrength r.firingStrength (r.consequentFunctions base) g p).foldl
              max cur, outputs1) ∧
        Registry.shape outputs1 = Registry.shape base := by
  intro n
  induction n with
  | zero =>
    intro j cur outputs h hs
    have : rules.drop j = [] := List.drop_eq_nil_of_le (by omega)
    exact ⟨outputs, by simp [FuzzyController.aggregateLoop, this], hs⟩
  | succ n ih =>
    intro j cur outputs h hs
    have hj : j < rules.length := by omega
    have hd : rules.drop j = rules[j] :: rules.drop (j + 1) := List.drop_eq_getElem_cons hj
    have hmem : rules[j] ∈ rules := List.getElem_mem hj
    have hres1 : ∀ k ∈ rules[j].consequents, (outputs.find k).isSome = true := by
      intro k hk
      rw [Registry.find_isSome_congr hs k]
      exact hres _ hmem k hk
    obtain ⟨o1, h1, h2⟩ := Rule.getOutputStrength_eq rules[j] g p outputs (hcount _ hmem) hres1
    obtain ⟨o2, h3, h4⟩ := ih (j + 1)
      (max cur (specOutputStrength rules[j].firingStrength
        (rules[j].consequentFunctions outputs) g p)) o1 (by omega) (h2.trans hs)
    refine ⟨o2, ?_, h4⟩
    rw [FuzzyController.aggregateLoop, List.getElem?_eq_getElem hj]
    simp only [h1, h3, hd, List.map_cons, List.foldl_cons]
    rw [specOutputStrength_congr hs]


/-! ## The loops of `defuzzifyCentroid` -/

theorem FuzzyController.firingPhase_append (inputs : Registry) (f : Rule → Rule)
    (B : List Rule) :
    (∀ r ∈ B, r.calculateFiringStrength inputs = .ok (f r)) →
    ∀ A : List Rule,
      FuzzyController.firingPhase inputs B.length A.length (A ++ B) = .ok (A ++ B.map f) := by
  induction B with
  | nil => intro _ A; simp [FuzzyController.firingPhase]
  | cons r B ih =>
    intro h A
    have hr := h r (List.mem_cons_self _ _)
    have hB : ∀ x ∈ B, x.calculateFiringStrength inputs = .ok (f x) :=
      fun x hx => h x (List.mem_cons_of_mem _ hx)
    have hget : (A ++ r :: B)[A.length]? = some r := by
      rw [List.getElem?_append_right (le_refl _)]; simp
    have hset : (A ++ r :: B).set A.length (f r) = (A ++ [f r]) ++ B := by simp
    have := ih hB (A ++ [f r])
    simp only [List.length_append, List.length_singleton, List.append_assoc,
      List.singleton_append] at this
    simp only [List.length_cons, FuzzyController.firingPhase, hget, hr, hset, this,
      List.map_cons, List.append_assoc, List.singleton_append]

theorem FuzzyController.firingPhase_eq (inputs : Registry) (rules : List Rule)
    (hcount : ∀ r ∈ rules, r.antecedentsCount = r.antecedents.length)
    (hres : ∀ r ∈ rules, ∀ a ∈ r.antecedents, (inputs.find a).isSome = true)
    (hne : ∀ r ∈ rules, r.antecedents ≠ []) :
    FuzzyController.firingPhase inputs rules.length 0 rules =
      .ok (rules.map fun r => { r with firingStrength := specFiringStrength inputs r }) := by
  have := FuzzyController.firingPhase_append inputs
    (fun r => { r with firingStrength := specFiringStrength inputs r }) rules
    (fun r hr => Rule.calculateFiringStrength_eq r inputs (hcount r hr) (hres r hr) (hne r hr))
    []
  simpa using this

theorem FuzzyController.sampleLoop_eq (rules : List Rule) (g : Nat) (base : Registry)
    (a b : ℚ) (steps : ℕ) (hab : a < b) (hsteps : 0 < steps)
    (hcount : ∀ r ∈ rules, r.consequentsCount = r.consequents.length)
    (hres : ∀ r ∈ rules, ∀ k ∈ r.consequents, (base.find k).isSome = true) :
    ∀ (m k : Nat) (num den : ℚ) (outputs : Registry) (fuel : Nat),
      k + m = steps + 1 → m + 1 ≤ fuel →
      Registry.shape outputs = Registry.shape base →
      ∃ outputs1,
        FuzzyController.sampleLoop rules rules.length g b ((b - a) / steps) fuel
            (a + k * ((b - a) / steps)) num den outputs =
          .ok (num + Finset.sum (Finset.range m) (fun j =>
                  (a + ((k + j : ℕ) : ℚ) * ((b - a) / steps)) *
                    ((rules.map fun r => specOutputStrength r.firingStrength
                      (r.consequentFunctions base) g
                        (a + ((k + j : ℕ) : ℚ) * ((b - a) / steps))).foldl max 0)),
               den + Finset.sum (Finset.range m) (fun j =>
                    ((rules.map fun r => specOutputStrength r.firingStrength
                      (r.consequentFunctions base) g
                        (a + ((k + j : ℕ) : ℚ) * ((b - a) / steps))).foldl max 0)),
               outputs1) ∧
        Registry.shape outputs1 = Registry.shape base := by
  have hsq : (0 : ℚ) < steps := by exact_mod_cast hsteps
  have hδ : 0 < (b - a) / steps := div_pos (by linarith) hsq
  have hfull : (steps : ℚ) * ((b - a) / steps) = b - a := by field_simp
  intro m
  induction m with
  | zero =>
    intro k num den outputs fuel hk hfuel hs
    obtain ⟨f, rfl⟩ : ∃ f, fuel = f + 1 := ⟨fuel - 1, by omega⟩
    have hkk : (k : ℚ) = steps + 1 := by
      have : k = steps + 1 := by omega
      rw [this]; push_cast; ring
    have hguard : ¬ (a + k * ((b - a) / steps) ≤ b) := by
      rw [hkk, add_mul, hfull]
      intro hc
      linarith
    refine ⟨outputs, ?_, hs⟩
    simp [FuzzyController.sampleLoop, hguard]
  | succ m ih =>
    intro k num den outputs fuel hk hfuel hs
    obtain ⟨f, rfl⟩ : ∃ f, fuel = f + 1 := ⟨fuel - 1, by omega⟩
    have hkle : (k : ℚ) ≤ steps := by
      have : k ≤ steps := by omega
      exact_mod_cast this
    have hguard : a + k * ((b - a) / steps) ≤ b := by
      have : (k : ℚ) * ((b - a) / steps) ≤ steps * ((b - a) / steps) :=
        mul_le_mul_of_nonneg_right hkle hδ.le
      rw [hfull] at this
      linarith
    obtain ⟨o1, h1, h2⟩ := FuzzyController.aggregateLoop_eq rules g
      (a + k * ((b - a) / steps)) base hcount hres rules.length 0 0 outputs (by simp) hs
    have hnext : a + k * ((b - a) / steps) + (b - a) / steps =
        a + ((k + 1 : ℕ) : ℚ) * ((b - a) / steps) := by push_cast; ring
    obtain ⟨o2, h3, h4⟩ := ih (k + 1)
      (num + (a + k * ((b - a) / steps)) *
        ((rules.map fun r => specOutputStrength r.firingStrength
          (r.consequentFunctions base) g (a + k * ((b - a) / steps))).foldl max 0))
      (den + ((rules.map fun r => specOutputStrength r.firingStrength
          (r.consequentFunctions base) g (a + k * ((b - a) / steps))).foldl max 0))
      o1 f (by omega) (by omega) h2
    refine ⟨o2, ?_, h4⟩
    rw [FuzzyController.sampleLoop, if_pos hguard, h1]
    simp only [List.drop_zero]
    rw [hnext, h3, Finset.sum_range_succ', Finset.sum_range_succ']
    simp only [Nat.add_zero, add_assoc, add_comm 1, Nat.add_assoc]
    congr 2
    · ring
    · congr 1
      ring


theorem FuzzyController.defuzzifyCentroid_closed (c : FuzzyController) (hv : c.Valid)
    (hne : ∀ r ∈ c.rules, r.antecedents ≠ []) (g : Nat) (a b : ℚ) (hab : a < b)
    (steps : ℕ) (hsteps : 0 < steps) (fuel : Nat) (hfuel : steps + 2 ≤ fuel) :
    ∃ outputs1,
      c.defuzzifyCentroid fuel g a b steps =
        .ok (specNumerator c g a b steps /
              (if specDenominator c g a b steps = 0 then 1 else specDenominator c g a b steps),
             { c with
               rules := c.rules.map fun r =>
                 { r with firingStrength := specFiringStrength c.inputMembershipFunctions r },
               outputMembershipFunctions := outputs1 }) ∧
      Registry.shape outputs1 = Registry.shape c.outputMembershipFunctions := by
  obtain ⟨hrc, hb⟩ := hv
  have hsq : (steps : ℚ) ≠ 0 := by exact_mod_cast hsteps.ne'
  have hfire := FuzzyController.firingPhase_eq c.inputMembershipFunctions c.rules
    (fun r hr => (hb r hr).1) (fun r hr => (hb r hr).2.2.1) hne
  set rules1 := c.rules.map fun r =>
    { r with firingStrength := specFiringStrength c.inputMembershipFunctions r } with hrules1
  have hlen : rules1.length = c.rules.length := by simp [hrules1]
  have hcount1 : ∀ r ∈ rules1, r.consequentsCount = r.consequents.length := by
    intro r hr
    obtain ⟨r0, hr0, rfl⟩ := List.mem_map.mp hr
    exact (hb r0 hr0).2.1
  have hres1 : ∀ r ∈ rules1, ∀ k ∈ r.consequents,
      (c.outputMembershipFunctions.find k).isSome = true := by
    intro r hr
    obtain ⟨r0, hr0, rfl⟩ := List.mem_map.mp hr
    exact (hb r0 hr0).2.2.2
  obtain ⟨o1, h1, h2⟩ := FuzzyController.sampleLoop_eq rules1 g c.outputMembershipFunctions
    a b steps hab hsteps hcount1 hres1 (steps + 1) 0 0 0 c.outputMembershipFunctions fuel
    (by omega) (by omega) rfl
  refine ⟨o1, ?_, h2⟩
  simp only [Nat.cast_zero, zero_mul, add_zero, zero_add, hlen] at h1
  unfold FuzzyController.defuzzifyCentroid
  rw [hrc, hfire]
  simp only [hsq, if_false]
  rw [h1]
  simp only [specNumerator, specDenominator, specAggregated, specSample, hrules1,
    List.map_map, Function.comp_def, Rule.consequentFunctions]


/-! ## Bounds on degrees, minima and maxima -/

theorem specDegree_nonneg (m : MembershipFunction) (v : ℚ) : 0 ≤ specDegree m v := by
  unfold specDegree
  split_ifs with h1 h2 h3
  · exact le_refl _
  · exact zero_le_one
  · push_neg at h1
    exact div_nonneg (by linarith [h1.1]) (by linarith [h1.1])
  · push_neg at h1 h3
    have h4 : m.topRight < v := by
      by_contra h4
      exact h2 ⟨h3, not_lt.mp h4⟩
    exact div_nonneg (by linarith [h1.2]) (by linarith [h1.2])

theorem specDegree_le_one (m : MembershipFunction) (v : ℚ) : specDegree m v ≤ 1 := by
  unfold specDegree
  split_ifs with h1 h2 h3
  · exact zero_le_one
  · exact le_refl _
  · push_neg at h1
    have hpos : 0 < m.topLeft - m.start := by linarith [h1.1]
    rw [div_le_one hpos]; linarith
  · push_neg at h1 h3
    have h4 : m.topRight < v := by
      by_contra h4
      exact h2 ⟨h3, not_lt.mp h4⟩
    have hpos : 0 < m.end_ - m.topRight := by linarith [h1.2]
    rw [div_le_one hpos]; linarith

theorem foldl_max_ge (l : List ℚ) (x : ℚ) : x ≤ l.foldl max x := by
  induction l generalizing x with
  | nil => exact le_refl _
  | cons a l ih => exact le_trans (le_max_left x a) (ih (max x a))

theorem foldl_max_eq_of_le (l : List ℚ) (x : ℚ) (h : ∀ a ∈ l, a ≤ x) : l.foldl max x = x := by
  induction l with
  | nil => rfl
  | cons a l ih =>
    rw [List.foldl_cons, max_eq_left (h a (List.mem_cons_self _ _))]
    exact ih fun b hb => h b (List.mem_cons_of_mem _ hb)

theorem foldl_min_mem (l : List ℚ) (x : ℚ) : l.foldl min x ∈ x :: l := by
  induction l generalizing x with
  | nil => simp
  | cons a l ih =>
    rw [List.foldl_cons]
    have := ih (min x a)
    rcases List.mem_cons.mp this with h | h
    · rcases min_choice x a with hx | ha
      · rw [h, hx]; exact List.mem_cons_self _ _
      · rw [h, ha]; exact List.mem_cons_of_mem _ (List.mem_cons_self _ _)
    · exact List.mem_cons_of_mem _ (List.mem_cons_of_mem _ h)

theorem foldl_min_le_init (l : List ℚ) (x : ℚ) : l.foldl min x ≤ x := by
  induction l generalizing x with
  | nil => exact le_refl _
  | cons a l ih => exact le_trans (ih (min x a)) (min_le_left x a)

theorem foldl_min_le (l : List ℚ) (x : ℚ) : ∀ d ∈ x :: l, l.foldl min x ≤ d := by
  induction l generalizing x with
  | nil => intro d hd; simp at hd; simp [hd]
  | cons a l ih =>
    intro d hd
    rw [List.foldl_cons]
    rcases List.mem_cons.mp hd with h | h
    · rw [h]; exact le_trans (foldl_min_le_init l _) (min_le_left x a)
    · rcases List.mem_cons.mp h with h | h
      · rw [h]; exact le_trans (foldl_min_le_init l _) (min_le_right x a)
      · exact ih (min x a) d (List.mem_cons_of_mem _ h)

theorem specMinimum_mem (l : List ℚ) (h : l ≠ []) : specMinimum l ∈ l := by
  cases l with
  | nil => exact absurd rfl h
  | cons d ds => exact foldl_min_mem ds d

theorem specMinimum_le (l : List ℚ) : ∀ d ∈ l, specMinimum l ≤ d := by
  cases l with
  | nil => intro d hd; simp at hd
  | cons x xs => exact foldl_min_le xs x

theorem specAggregated_nonneg (c : FuzzyController) (g : Nat) (p : ℚ) :
    0 ≤ specAggregated c g p := foldl_max_ge _ 0

theorem Rule.antecedentDegrees_length (r : Rule) (inputs : Registry)
    (hres : ∀ a ∈ r.antecedents, (inputs.find a).isSome = true) :
    (r.antecedentDegrees inputs).length = r.antecedents.length := by
  unfold Rule.antecedentDegrees
  generalize r.antecedents = l at hres
  induction l with
  | nil => rfl
  | cons a l ih =>
    obtain ⟨m, hm⟩ := Option.isSome_iff_exists.mp (hres a (List.mem_cons_self _ _))
    simp only [List.filterMap_cons, hm, Option.map_some', List.length_cons]
    rw [ih fun b hb => hres b (List.mem_cons_of_mem _ hb)]

theorem Rule.consequentFunctions_length (r : Rule) (outputs : Registry)
    (hres : ∀ k ∈ r.consequents, (outputs.find k).isSome = true) :
    (r.consequentFunctions outputs).length = r.consequents.length := by
  unfold Rule.consequentFunctions
  generalize r.consequents = l at hres
  induction l with
  | nil => rfl
  | cons a l ih =>
    obtain ⟨m, hm⟩ := Option.isSome_iff_exists.mp (hres a (List.mem_cons_self _ _))
    simp only [List.filterMap_cons, hm, List.length_cons]
    rw [ih fun b hb => hres b (List.mem_cons_of_mem _ hb)]

end fuzzy

namespace ActGen_DirectPassSpeed

open fuzzy

/-! ## The pass-speed controller fuzzified at distance 2 -/

theorem construct_eq : construct = .ok constructed := by
  simp [construct, initRuleBase, initMembershipFunctions, FuzzyController.addMembershipFunction,
    FuzzyController.addRule, FuzzyController.collectNames, Registry.assign, Registry.find,
    FuzzyController.new, kRuleImplies, kRuleEnd, constructed, kMinDistance, kMaxDistance, kMinSpeed,
    kMaxSpeed, kDistanceInputIndex, kSpeedOutputIndex]

theorem numericLimitsMax_big : (10 : ℚ) ^ 300 < numericLimitsMax := by
  unfold numericLimitsMax; norm_num

theorem two_ne_numericLimitsMax : (2 : ℚ) ≠ numericLimitsMax := by
  have := numericLimitsMax_big
  intro h; rw [← h] at this; norm_num at this

theorem fuzzify_two : constructed.fuzzify 2 [numericLimitsMax] = .ok fuzzifiedAtTwo := by
  have h := two_ne_numericLimitsMax
  simp [FuzzyController.fuzzify, FuzzyController.fuzzifyLoop, h, intMax,
    kMinValidFuzzificationIndex, constructed, fuzzifiedAtTwo, FuzzyController.fuzzifyGroup,
    MembershipFunction.calculateFuzzyStrength, MembershipFunction.new]
  norm_num

theorem fuzzifiedAtTwo_agg (p : ℚ) : specAggregated fuzzifiedAtTwo 1 p =
    max (max 0 (min (19/20)
        (specDegree (MembershipFunction.new (81/100) (81/100) (81/100) (331/100) 1) p)))
      (min (1/20)
        (specDegree (MembershipFunction.new (81/100) (331/100) (331/100) (331/100) 1) p)) := by
  simp [specAggregated, fuzzifiedAtTwo, constructed, specFiringStrength, specMinimum, Rule.antecedentDegrees,
    Rule.consequentFunctions, Rule.new, Registry.find, specOutputStrength,
    MembershipFunction.new, toUnsigned]

theorem speedLow_degree (t : ℚ) (h0 : 0 ≤ t) (h1 : t ≤ 8) :
    specDegree (MembershipFunction.new (81/100) (81/100) (81/100) (331/100) 1)
      (81/100 + t * ((331/100 - 81/100) / 8)) = 1 - t / 8 := by
  unfold specDegree MembershipFunction.new
  simp only []
  rw [if_neg (by
    intro h
    rcases h with h | h
    · nlinarith
    · nlinarith)]
  by_cases ht : t = 0
  · subst ht; norm_num
  · have htp : 0 < t := lt_of_le_of_ne h0 (Ne.symm ht)
    rw [if_neg (by intro h; nlinarith [h.2]), if_neg (by intro h; nlinarith)]
    field_simp
    ring

theorem speedHigh_degree (t : ℚ) (h0 : 0 ≤ t) (h1 : t ≤ 8) :
    specDegree (MembershipFunction.new (81/100) (331/100) (331/100) (331/100) 1)
      (81/100 + t * ((331/100 - 81/100) / 8)) = t / 8 := by
  unfold specDegree MembershipFunction.new
  simp only []
  rw [if_neg (by
    intro h
    rcases h with h | h
    · nlinarith
    · nlinarith)]
  by_cases ht : t = 8
  · subst ht; norm_num
  · have htp : t < 8 := lt_of_le_of_ne h1 ht
    rw [if_neg (by intro h; nlinarith [h.1]), if_pos (by nlinarith)]
    field_simp
    ring

theorem fuzzifiedAtTwo_agg_sample (k : ℕ) (hk : k ≤ 8) :
    specAggregated fuzzifiedAtTwo 1 (specSample (81/100) (331/100) 8 k) =
      max (max 0 (min (19/20) (1 - (k : ℚ) / 8))) (min (1/20) ((k : ℚ) / 8)) := by
  have h0 : (0 : ℚ) ≤ k := Nat.cast_nonneg k
  have h1 : (k : ℚ) ≤ 8 := by exact_mod_cast hk
  rw [fuzzifiedAtTwo_agg]
  unfold specSample
  have := speedLow_degree k h0 h1
  have := speedHigh_degree k h0 h1
  simp_all

theorem fuzzifiedAtTwo_num : specNumerator fuzzifiedAtTwo 1 (81/100) (331/100) 8 = 5641/800 := by
  unfold specNumerator
  simp only [Finset.sum_range_succ, Finset.sum_range_zero]
  rw [fuzzifiedAtTwo_agg_sample 0 (by norm_num), fuzzifiedAtTwo_agg_sample 1 (by norm_num),
    fuzzifiedAtTwo_agg_sample 2 (by norm_num), fuzzifiedAtTwo_agg_sample 3 (by norm_num),
    fuzzifiedAtTwo_agg_sample 4 (by norm_num), fuzzifiedAtTwo_agg_sample 5 (by norm_num),
    fuzzifiedAtTwo_agg_sample 6 (by norm_num), fuzzifiedAtTwo_agg_sample 7 (by norm_num),
    fuzzifiedAtTwo_agg_sample 8 (by norm_num)]
  norm_num [specSample, min_def, max_def]

theorem fuzzifiedAtTwo_den : specDenominator fuzzifiedAtTwo 1 (81/100) (331/100) 8 = 9/2 := by
  unfold specDenominator
  simp only [Finset.sum_range_succ, Finset.sum_range_zero]
  rw [fuzzifiedAtTwo_agg_sample 0 (by norm_num), fuzzifiedAtTwo_agg_sample 1 (by norm_num),
    fuzzifiedAtTwo_agg_sample 2 (by norm_num), fuzzifiedAtTwo_agg_sample 3 (by norm_num),
    fuzzifiedAtTwo_agg_sample 4 (by norm_num), fuzzifiedAtTwo_agg_sample 5 (by norm_num),
    fuzzifiedAtTwo_agg_sample 6 (by norm_num), fuzzifiedAtTwo_agg_sample 7 (by norm_num),
    fuzzifiedAtTwo_agg_sample 8 (by norm_num)]
  norm_num [min_def, max_def]

end ActGen_DirectPassSpeed

namespace fuzzy

/-! ## Centroid defuzzification returns the quotient of the two sums -/

/-- Exact arithmetic (the loop variable is not rounded): for a controller satisfying its
class invariant whose rules each have at least one antecedent, every output group `g`, every `outMin < outMax` and every positive integer
`steps`, `defuzzifyCentroid(g, outMin, outMax, steps)` returns (given fuel for the
`steps + 2` evaluations of the loop guard) the quotient `N / D`, where `N` is the sum of
`p_k * agg(p_k)` and `D` the sum of `agg(p_k)` over the samples
`p_k = outMin + k * delta`, `k = 0..steps`, `delta = (outMax - outMin) / steps`, and
`agg(p)` is the maximum of 0 and of the output strengths of all rules with firing
strengths taken from the current input degrees, whenever `D` is not 0. -/
theorem defuzzifyCentroid_returns_centroid (c : FuzzyController) (hv : c.Valid)
    (hne : ∀ r ∈ c.rules, r.antecedents ≠ []) (g : Nat) (outMin outMax : ℚ)
    (hlt : outMin < outMax) (steps : ℕ) (hsteps : 0 < steps) (fuel : Nat)
    (hfuel : steps + 2 ≤ fuel) (hD : specDenominator c g outMin outMax steps ≠ 0) :
    (c.defuzzifyCentroid fuel g outMin outMax steps).map Prod.fst =
      .ok (specNumerator c g outMin outMax steps / specDenominator c g outMin outMax steps) := by
  obtain ⟨o1, h1, _⟩ :=
    FuzzyController.defuzzifyCentroid_closed c hv hne g outMin outMax hlt steps hsteps fuel hfuel
  rw [h1, if_neg hD]
  rfl

/-- An instance in exact arithmetic, on the pass-speed controller fuzzified at distance 2:
the centroid over
the nine samples of `[0.81, 3.31]` is `(5641/800) / (9/2)`. -/
theorem defuzzifyCentroid_returns_centroid_witness :
    (ActGen_DirectPassSpeed.fuzzifiedAtTwo.defuzzifyCentroid 10 1 (81 / 100) (331 / 100)
        ((8 : ℕ) : ℚ)).map Prod.fst =
      .ok (specNumerator ActGen_DirectPassSpeed.fuzzifiedAtTwo 1 (81 / 100) (331 / 100) 8 /
        specDenominator ActGen_DirectPassSpeed.fuzzifiedAtTwo 1 (81 / 100) (331 / 100) 8) :=
  defuzzifyCentroid_returns_centroid ActGen_DirectPassSpeed.fuzzifiedAtTwo (by decide)
    (by decide) 1 (81 / 100) (331 / 100) (by norm_num) 8 (by decide) 10 (by decide)
    (by rw [ActGen_DirectPassSpeed.fuzzifiedAtTwo_den]; norm_num)


/-! ## Membership degree, firing strength and output strength -/

/-- C2: for a membership function with `start ≤ topLeft ≤ topRight ≤ end` and every value
`v`, `calculateFuzzyStrength` sets the degree to 0 if `v < start` or `v > end`, to 1 if
`topLeft ≤ v ≤ topRight`, to `(v - start) / (topLeft - start)` if `start ≤ v < topLeft`,
and to `(end - v) / (end - topRight)` if `topRight < v ≤ end`; nothing but the degree is
written. -/
theorem calculateFuzzyStrength_cases (m : MembershipFunction) (hm : m.Ordered) (v : ℚ) :
    ((v < m.start ∨ v > m.end_) → (m.calculateFuzzyStrength v).fuzzyStrength = 0) ∧
    ((m.topLeft ≤ v ∧ v ≤ m.topRight) → (m.calculateFuzzyStrength v).fuzzyStrength = 1) ∧
    ((m.start ≤ v ∧ v < m.topLeft) →
      (m.calculateFuzzyStrength v).fuzzyStrength = (v - m.start) / (m.topLeft - m.start)) ∧
    ((m.topRight < v ∧ v ≤ m.end_) →
      (m.calculateFuzzyStrength v).fuzzyStrength = (m.end_ - v) / (m.end_ - m.topRight)) ∧
    m.calculateFuzzyStrength v =
      { m with fuzzyStrength := (m.calculateFuzzyStrength v).fuzzyStrength } := by
  obtain ⟨h1, h2, h3⟩ := hm
  refine ⟨?_, ?_, ?_, ?_, ?_⟩
  · intro h
    unfold MembershipFunction.calculateFuzzyStrength
    rw [if_pos h]
  · intro h
    unfold MembershipFunction.calculateFuzzyStrength
    rw [if_neg (by
      intro hc
      rcases hc with hc | hc
      · linarith [h.1]
      · linarith [h.2]), if_pos ⟨h.1, h.2⟩]
  · intro h
    unfold MembershipFunction.calculateFuzzyStrength
    rw [if_neg (by
      intro hc
      rcases hc with hc | hc
      · linarith [h.1]
      · linarith [h.2]), if_neg (by intro hc; linarith [hc.1, h.2]), if_pos h.2]
  · intro h
    unfold MembershipFunction.calculateFuzzyStrength
    rw [if_neg (by
      intro hc
      rcases hc with hc | hc
      · linarith [h.1]
      · linarith [h.2]), if_neg (by intro hc; linarith [hc.2, h.1]),
      if_neg (by intro hc; linarith [h.1]), if_pos h.1]
  · rw [MembershipFunction.calculateFuzzyStrength_eq]

/-- Witness for C2: the trapezoid `(0, 2, 3, 5)` at `v = 1`, on its rising ramp. -/
theorem calculateFuzzyStrength_cases_witness :
    ((MembershipFunction.new 0 2 3 5 1).calculateFuzzyStrength 1).fuzzyStrength =
      (1 - 0) / (2 - 0) :=
  (calculateFuzzyStrength_cases (MembershipFunction.new 0 2 3 5 1)
    (by unfold MembershipFunction.Ordered MembershipFunction.new; norm_num) 1).2.2.1
    (by unfold MembershipFunction.new; norm_num)

/-- C3: for a rule with a non-empty antecedent list (bound to the input hash map),
`calculateFiringStrength` sets `firingStrength` to the minimum of the current degrees of
all its antecedents and writes nothing else; and `defuzzifyCentroid` does this for every
rule before sampling: its first loop yields the rule list with every firing strength so
recomputed, and that list is the one the returned controller holds. -/
theorem calculateFiringStrength_minimum (r : Rule) (inputs : Registry)
    (hcount : r.antecedentsCount = r.antecedents.length)
    (hres : ∀ a ∈ r.antecedents, (inputs.find a).isSome = true)
    (hne : r.antecedents ≠ []) :
    (∃ fs, r.calculateFiringStrength inputs = .ok { r with firingStrength := fs } ∧
      fs ∈ r.antecedentDegrees inputs ∧
      (∀ d ∈ r.antecedentDegrees inputs, fs ≤ d) ∧
      (r.antecedentDegrees inputs).length = r.antecedents.length ∧
      fs = specFiringStrength inputs r) ∧
    (∀ c : FuzzyController, c.Valid → (∀ r ∈ c.rules, r.antecedents ≠ []) →
      FuzzyController.firingPhase c.inputMembershipFunctions c.rulesCount 0 c.rules =
        .ok (c.rules.map fun r =>
          { r with firingStrength := specFiringStrength c.inputMembershipFunctions r }) ∧
      ∀ (fuel g : Nat) (outMin outMax : ℚ) (steps : ℕ),
        outMin < outMax → 0 < steps → steps + 2 ≤ fuel →
        (c.defuzzifyCentroid fuel g outMin outMax steps).map (fun res => res.2.rules) =
          .ok (c.rules.map fun r =>
            { r with firingStrength := specFiringStrength c.inputMembershipFunctions r })) := by
  have hlen := Rule.antecedentDegrees_length r inputs hres
  have hne2 : r.antecedentDegrees inputs ≠ [] := by
    intro h
    rw [h] at hlen
    exact hne (List.length_eq_zero.mp hlen.symm)
  refine ⟨⟨specFiringStrength inputs r,
    Rule.calculateFiringStrength_eq r inputs hcount hres hne,
    specMinimum_mem _ hne2, specMinimum_le _, hlen, rfl⟩, ?_⟩
  intro c hv hne3
  refine ⟨?_, ?_⟩
  · rw [hv.1]
    exact FuzzyController.firingPhase_eq c.inputMembershipFunctions c.rules
      (fun r hr => (hv.2 r hr).1) (fun r hr => (hv.2 r hr).2.2.1) hne3
  · intro fuel g outMin outMax steps hlt hsteps hfuel
    obtain ⟨o1, h1, _⟩ :=
      FuzzyController.defuzzifyCentroid_closed c hv hne3 g outMin outMax hlt steps hsteps
        fuel hfuel
    rw [h1]
    rfl

/-- Witness for C3: the rule `distanceLow → speedLow` of the pass-speed controller
fuzzified at distance 2 gets the least of its antecedents' degrees, and the first loop of
`defuzzifyCentroid` recomputes both rules of that controller. -/
theorem calculateFiringStrength_minimum_witness :
    (∃ fs, (Rule.new ["distanceLow"] ["speedLow"]).calculateFiringStrength
          ActGen_DirectPassSpeed.fuzzifiedAtTwo.inputMembershipFunctions =
        .ok { Rule.new ["distanceLow"] ["speedLow"] with firingStrength := fs } ∧
      fs ∈ (Rule.new ["distanceLow"] ["speedLow"]).antecedentDegrees
        ActGen_DirectPassSpeed.fuzzifiedAtTwo.inputMembershipFunctions) ∧
    FuzzyController.firingPhase
        ActGen_DirectPassSpeed.fuzzifiedAtTwo.inputMembershipFunctions
        ActGen_DirectPassSpeed.fuzzifiedAtTwo.rulesCount 0
        ActGen_DirectPassSpeed.fuzzifiedAtTwo.rules =
      .ok (ActGen_DirectPassSpeed.fuzzifiedAtTwo.rules.map fun r =>
        { r with firingStrength :=
            specFiringStrength ActGen_DirectPassSpeed.fuzzifiedAtTwo.inputMembershipFunctions r }) :=
  have h := calculateFiringStrength_minimum (Rule.new ["distanceLow"] ["speedLow"])
    ActGen_DirectPassSpeed.fuzzifiedAtTwo.inputMembershipFunctions (by decide) (by decide)
    (by decide)
  let ⟨fs, h1, h2, _⟩ := h.1
  ⟨⟨fs, h1, h2⟩, (h.2 ActGen_DirectPassSpeed.fuzzifiedAtTwo (by decide) (by decide)).1⟩

/-- C4: for a rule bound to the output hash map, every group index `g` and candidate value
`p`, `getOutputStrength(g, p)` returns `min(firingStrength, degree_c(p))` where `c` is
the first consequent, in the rule's consequent order, whose group index equals `g`, and
returns 0 when no consequent of the rule has group index `g`. The index comparison is the
one of the code, between the `int` index converted to `unsigned int` and `g`; for an
index in `0 .. 2^32 - 1` it is plain equality. -/
theorem getOutputStrength_first_match (r : Rule) (outputs : Registry)
    (hcount : r.consequentsCount = r.consequents.length)
    (hres : ∀ k ∈ r.consequents, (outputs.find k).isSome = true) (g : Nat) (p : ℚ) :
    (∀ pre c post, r.consequentFunctions outputs = pre ++ c :: post →
      (∀ x ∈ pre, toUnsigned x.fuzzificationIndex ≠ g) →
      toUnsigned c.fuzzificationIndex = g →
      (r.getOutputStrength g p outputs).map Prod.fst =
        .ok (min r.firingStrength (specDegree c p))) ∧
    ((∀ x ∈ r.consequentFunctions outputs, toUnsigned x.fuzzificationIndex ≠ g) →
      (r.getOutputStrength g p outputs).map Prod.fst = .ok 0) ∧
    (r.consequentFunctions outputs).length = r.consequents.length ∧
    (∀ i : Int, 0 ≤ i → i < 4294967296 → (toUnsigned i = g ↔ i = (g : Int))) := by
  obtain ⟨o1, h1, _⟩ := Rule.getOutputStrength_eq r g p outputs hcount hres
  refine ⟨?_, ?_, Rule.consequentFunctions_length r outputs hres, ?_⟩
  · intro pre c post hsplit hpre hc
    rw [h1, hsplit]
    have hnone : pre.find? (fun m => decide (toUnsigned m.fuzzificationIndex = g)) = none := by
      rw [List.find?_eq_none]
      intro x hx
      simpa using hpre x hx
    simp [Except.map, specOutputStrength, List.find?_append, hnone, List.find?_cons, hc]
  · intro hall
    rw [h1]
    have hnone : (r.consequentFunctions outputs).find?
        (fun m => decide (toUnsigned m.fuzzificationIndex = g)) = none := by
      rw [List.find?_eq_none]
      intro x hx
      simpa using hall x hx
    simp [Except.map, specOutputStrength, hnone]
  · intro i h0 h1
    unfold toUnsigned
    rw [Int.emod_eq_of_lt h0 h1]
    omega

/-- Witness for C4: the rule `distanceLow → speedLow` asked for group 1 at `p = 81/100`
with firing strength 0. -/
theorem getOutputStrength_first_match_witness :
    ((Rule.new ["distanceLow"] ["speedLow"]).getOutputStrength 1 (81 / 100)
        ActGen_DirectPassSpeed.constructed.outputMembershipFunctions).map Prod.fst =
      .ok (min (Rule.new ["distanceLow"] ["speedLow"]).firingStrength
        (specDegree (MembershipFunction.new (81 / 100) (81 / 100) (81 / 100) (331 / 100) 1)
          (81 / 100))) :=
  (getOutputStrength_first_match (Rule.new ["distanceLow"] ["speedLow"])
    ActGen_DirectPassSpeed.constructed.outputMembershipFunctions (by decide) (by decide)
    1 (81 / 100)).1 [] _ [] rfl (by simp) (by decide)


/-! ## Fuzzification -/

theorem specFuzzifiedNode_nil (i : Int) (node : String × MembershipFunction) :
    specFuzzifiedNode i [] node = node := by
  unfold specFuzzifiedNode
  split_ifs with h
  · exfalso
    simp only [List.length_nil, Nat.cast_zero, add_zero] at h
    omega
  · rfl

theorem FuzzyController.fuzzifyGroup_then (i : Int) (x : ℚ) (rest : List ℚ)
    (node : String × MembershipFunction) :
    specFuzzifiedNode (i + 1) rest
        (if node.2.fuzzificationIndex = i then (node.1, node.2.calculateFuzzyStrength x)
          else node) =
      specFuzzifiedNode i (x :: rest) node := by
  obtain ⟨k, m⟩ := node
  by_cases h : m.fuzzificationIndex = i
  · have h1 : ¬ (i + 1 ≤ (m.calculateFuzzyStrength x).fuzzificationIndex ∧
        (m.calculateFuzzyStrength x).fuzzificationIndex < i + 1 + rest.length) := by
      rw [MembershipFunction.calculateFuzzyStrength_eq]
      simp only [h]
      omega
    have h2 : i ≤ m.fuzzificationIndex ∧
        m.fuzzificationIndex < i + ((x :: rest).length : ℕ) := by
      rw [h]; simp only [List.length_cons]; omega
    simp only [h, if_true]
    unfold specFuzzifiedNode
    rw [if_neg h1, if_pos (by simpa using h2)]
    simp [h, MembershipFunction.calculateFuzzyStrength_eq]
  · simp only [h, if_false]
    unfold specFuzzifiedNode
    by_cases h3 : i + 1 ≤ m.fuzzificationIndex ∧ m.fuzzificationIndex < i + 1 + rest.length
    · have h4 : i ≤ m.fuzzificationIndex ∧
          m.fuzzificationIndex < i + ((x :: rest).length : ℕ) := by
        simp only [List.length_cons]; omega
      have h5 : (m.fuzzificationIndex - i).toNat = (m.fuzzificationIndex - (i + 1)).toNat + 1 := by
        omega
      rw [if_pos h3, if_pos h4, h5]
      simp
    · have h4 : ¬ (i ≤ m.fuzzificationIndex ∧
          m.fuzzificationIndex < i + ((x :: rest).length : ℕ)) := by
        simp only [List.length_cons]; omega
      rw [if_neg h3, if_neg h4]

theorem FuzzyController.fuzzifyLoop_eq :
    ∀ (xs : List ℚ) (x : ℚ) (i : Int) (inputs : Registry),
      (∀ y ∈ x :: xs, y ≠ numericLimitsMax) → i + ((x :: xs).length : ℕ) ≤ intMax →
      FuzzyController.fuzzifyLoop (xs ++ [numericLimitsMax]) x i inputs =
        .ok (inputs.map (specFuzzifiedNode i (x :: xs))) := by
  intro xs
  induction xs with
  | nil =>
    intro x i inputs hs hlen
    have hx : x ≠ numericLimitsMax := hs x (List.mem_cons_self _ _)
    have hi : i ≠ intMax := by simp only [List.length_cons, List.length_nil] at hlen; omega
    simp only [List.nil_append, FuzzyController.fuzzifyLoop, ne_eq, hx, not_false_eq_true, hi,
      and_self, if_true, not_true_eq_false, false_and, if_false, FuzzyController.fuzzifyGroup]
    congr 1
    apply List.map_congr_left
    intro node _
    rw [← FuzzyController.fuzzifyGroup_then i x [] node, specFuzzifiedNode_nil]
  | cons y ys ih =>
    intro x i inputs hs hlen
    have hx : x ≠ numericLimitsMax := hs x (List.mem_cons_self _ _)
    have hi : i ≠ intMax := by simp only [List.length_cons] at hlen; omega
    have hrest : ∀ z ∈ y :: ys, z ≠ numericLimitsMax :=
      fun z hz => hs z (List.mem_cons_of_mem _ hz)
    have := ih y (i + 1) (FuzzyController.fuzzifyGroup inputs i x) hrest
      (by simp only [List.length_cons] at hlen ⊢; omega)
    simp only [List.cons_append, FuzzyController.fuzzifyLoop, ne_eq, hx, not_false_eq_true, hi,
      and_self, if_true]
    rw [show ys.append [numericLimitsMax] = ys ++ [numericLimitsMax] from rfl, this]
    congr 1
    unfold FuzzyController.fuzzifyGroup
    rw [List.map_map]
    apply List.map_congr_left
    intro node _
    exact FuzzyController.fuzzifyGroup_then i x (y :: ys) node


/-- C5: for every input list `inputs[1..K]` containing no sentinel value (and shorter than
`INT_MAX`), `fuzzify(inputs..., max)` returns, and afterwards every registered input
membership function whose group index is `i` with `1 ≤ i ≤ K` has degree equal to its
membership degree at `inputs[i]`: the first input (position 0 of the list) binds to
group 1, not group 0. The hash map keeps its names, shapes and indices. -/
theorem fuzzify_binds_inputs (c : FuzzyController) (x : ℚ) (xs : List ℚ)
    (hs : ∀ y ∈ x :: xs, y ≠ numericLimitsMax) (hlen : (x :: xs).length < 2147483647) :
    ∃ c1, c.fuzzify x (xs ++ [numericLimitsMax]) = .ok c1 ∧
      List.Forall₂
        (fun old new => new.1 = old.1 ∧ new.2.shape = old.2.shape ∧
          ∀ (i : ℕ) (h : i < (x :: xs).length), old.2.fuzzificationIndex = (i : Int) + 1 →
            new.2.fuzzyStrength = specDegree old.2 ((x :: xs).get ⟨i, h⟩))
        c.inputMembershipFunctions c1.inputMembershipFunctions := by
  have hloop := FuzzyController.fuzzifyLoop_eq xs x kMinValidFuzzificationIndex
    c.inputMembershipFunctions hs (by unfold kMinValidFuzzificationIndex intMax; omega)
  refine ⟨{ c with inputMembershipFunctions :=
      c.inputMembershipFunctions.map (specFuzzifiedNode kMinValidFuzzificationIndex (x :: xs)) },
    by simp only [FuzzyController.fuzzify, hloop], ?_⟩
  simp only []
  rw [List.forall₂_map_right_iff, List.forall₂_same]
  intro node _
  obtain ⟨k, m⟩ := node
  unfold specFuzzifiedNode kMinValidFuzzificationIndex
  dsimp only
  split_ifs with hr
  · refine ⟨rfl, rfl, ?_⟩
    intro i h hi
    have hidx : (m.fuzzificationIndex - 1).toNat = i := by omega
    simp only [hidx]
    rw [List.getD_eq_getElem _ _ h]
    rfl
  · refine ⟨rfl, rfl, ?_⟩
    intro i h hi
    exfalso
    apply hr
    constructor
    · omega
    · have : (i : Int) < ((x :: xs).length : ℕ) := by exact_mod_cast h
      omega

/-- Witness for C5: the pass-speed controller fuzzified with the single input 2. -/
theorem fuzzify_binds_inputs_witness :
    ∃ c1, ActGen_DirectPassSpeed.constructed.fuzzify 2 ([] ++ [numericLimitsMax]) = .ok c1 ∧
      List.Forall₂
        (fun old new => new.1 = old.1 ∧ new.2.shape = old.2.shape ∧
          ∀ (i : ℕ) (h : i < ([2] : List ℚ).length), old.2.fuzzificationIndex = (i : Int) + 1 →
            new.2.fuzzyStrength = specDegree old.2 (([2] : List ℚ).get ⟨i, h⟩))
        ActGen_DirectPassSpeed.constructed.inputMembershipFunctions c1.inputMembershipFunctions :=
  fuzzify_binds_inputs ActGen_DirectPassSpeed.constructed 2 []
    (by
      intro y hy
      rw [List.mem_singleton.mp hy]
      exact ActGen_DirectPassSpeed.two_ne_numericLimitsMax)
    (by decide)

/-! ## The clamp -/

theorem trimNumeric_eq (v lower upper : ℚ) :
    trimNumeric { numeric := v, lowerLimit := lower, upperLimit := upper } =
      { numeric := if v < lower + 1 then lower + 1
                   else if v > upper - 1 then upper - 1 else v,
        lowerLimit := lower, upperLimit := upper } := by
  unfold trimNumeric
  split_ifs <;> rfl

/-- C6: `trimNumeric` yields `lower + 1` if `v < lower + 1`, otherwise `upper - 1` if
`v > upper - 1`, otherwise `v` unchanged; the two limit cells are never modified. -/
theorem trimNumeric_spec (v lower upper : ℚ) :
    trimNumeric { numeric := v, lowerLimit := lower, upperLimit := upper } =
      { numeric := if v < lower + 1 then lower + 1
                   else if v > upper - 1 then upper - 1 else v,
        lowerLimit := lower, upperLimit := upper } :=
  trimNumeric_eq v lower upper


/-! ## The zero fallback and the range of the centroid -/

theorem specSample_mem (a b : ℚ) (hab : a < b) (steps k : ℕ) (hsteps : 0 < steps)
    (hk : k ≤ steps) : a ≤ specSample a b steps k ∧ specSample a b steps k ≤ b := by
  have hsq : (0 : ℚ) < steps := by exact_mod_cast hsteps
  have hδ : 0 < (b - a) / steps := div_pos (by linarith) hsq
  have hfull : (steps : ℚ) * ((b - a) / steps) = b - a := by field_simp
  have hkq : (k : ℚ) ≤ steps := by exact_mod_cast hk
  have h0 : (0 : ℚ) ≤ k := Nat.cast_nonneg k
  unfold specSample
  constructor
  · have := mul_nonneg h0 hδ.le
    linarith
  · have : (k : ℚ) * ((b - a) / steps) ≤ steps * ((b - a) / steps) :=
      mul_le_mul_of_nonneg_right hkq hδ.le
    rw [hfull] at this
    linarith

theorem specNumerator_eq_zero (c : FuzzyController) (g : Nat) (a b : ℚ) (steps : ℕ)
    (hD : specDenominator c g a b steps = 0) : specNumerator c g a b steps = 0 := by
  unfold specDenominator at hD
  rw [Finset.sum_eq_zero_iff_of_nonneg fun _ _ => specAggregated_nonneg c g _] at hD
  unfold specNumerator
  apply Finset.sum_eq_zero
  intro k hk
  rw [hD k hk, mul_zero]

theorem specDenominator_eq_zero_of_agg (c : FuzzyController) (g : Nat) (a b : ℚ) (steps : ℕ)
    (h : ∀ p, specAggregated c g p = 0) : specDenominator c g a b steps = 0 := by
  unfold specDenominator
  exact Finset.sum_eq_zero fun k _ => h _

theorem specOutputStrength_zero_firing (cs : List MembershipFunction) (g : Nat) (p : ℚ) :
    specOutputStrength 0 cs g p = 0 := by
  unfold specOutputStrength
  split
  · exact min_eq_left (specDegree_nonneg _ _)
  · rfl

theorem specOutputStrength_no_match (f : ℚ) (cs : List MembershipFunction) (g : Nat) (p : ℚ)
    (h : ∀ m ∈ cs, toUnsigned m.fuzzificationIndex ≠ g) : specOutputStrength f cs g p = 0 := by
  have hnone : cs.find? (fun m => decide (toUnsigned m.fuzzificationIndex = g)) = none := by
    rw [List.find?_eq_none]
    intro x hx
    simpa using h x hx
  simp [specOutputStrength, hnone]

theorem specAggregated_eq_zero (c : FuzzyController) (g : Nat) (p : ℚ)
    (h : ∀ r ∈ c.rules, specOutputStrength (specFiringStrength c.inputMembershipFunctions r)
      (r.consequentFunctions c.outputMembershipFunctions) g p = 0) :
    specAggregated c g p = 0 := by
  unfold specAggregated
  apply foldl_max_eq_of_le
  intro x hx
  obtain ⟨r, hr, rfl⟩ := List.mem_map.mp hx
  rw [h r hr]

/-- C7: for a controller satisfying its class invariant whose rules each have an
antecedent, every output group, `outMin < outMax` and positive integer `steps`: if the
total aggregated strength over all samples is 0, `defuzzifyCentroid` returns exactly 0
(it neither faults nor divides by zero); in particular it returns 0 when the engine has
no rules, when no rule has a consequent in the group, and when every rule's recomputed
firing strength is 0. -/
theorem defuzzifyCentroid_zero_fallback (c : FuzzyController) (hv : c.Valid)
    (hne : ∀ r ∈ c.rules, r.antecedents ≠ []) (g : Nat) (outMin outMax : ℚ)
    (hlt : outMin < outMax) (steps : ℕ) (hsteps : 0 < steps) (fuel : Nat)
    (hfuel : steps + 2 ≤ fuel) :
    (specDenominator c g outMin outMax steps = 0 →
      (c.defuzzifyCentroid fuel g outMin outMax steps).map Prod.fst = .ok 0) ∧
    (c.rules = [] →
      (c.defuzzifyCentroid fuel g outMin outMax steps).map Prod.fst = .ok 0) ∧
    ((∀ r ∈ c.rules, ∀ m ∈ r.consequentFunctions c.outputMembershipFunctions,
        toUnsigned m.fuzzificationIndex ≠ g) →
      (c.defuzzifyCentroid fuel g outMin outMax steps).map Prod.fst = .ok 0) ∧
    ((∀ r ∈ c.rules, specFiringStrength c.inputMembershipFunctions r = 0) →
      (c.defuzzifyCentroid fuel g outMin outMax steps).map Prod.fst = .ok 0) := by
  obtain ⟨o1, h1, _⟩ :=
    FuzzyController.defuzzifyCentroid_closed c hv hne g outMin outMax hlt steps hsteps fuel hfuel
  have main : specDenominator c g outMin outMax steps = 0 →
      (c.defuzzifyCentroid fuel g outMin outMax steps).map Prod.fst = .ok 0 := by
    intro hD
    rw [h1, if_pos hD, specNumerator_eq_zero c g outMin outMax steps hD]
    simp [Except.map]
  refine ⟨main, ?_, ?_, ?_⟩
  · intro hr
    apply main
    apply specDenominator_eq_zero_of_agg
    intro p
    apply specAggregated_eq_zero
    intro r hmem
    rw [hr] at hmem
    exact absurd hmem (List.not_mem_nil _)
  · intro hno
    apply main
    apply specDenominator_eq_zero_of_agg
    intro p
    apply specAggregated_eq_zero
    intro r hmem
    exact specOutputStrength_no_match _ _ g p (hno r hmem)
  · intro hz
    apply main
    apply specDenominator_eq_zero_of_agg
    intro p
    apply specAggregated_eq_zero
    intro r hmem
    rw [hz r hmem]
    exact specOutputStrength_zero_firing _ g p

/-- Witness for C7: the pass-speed controller before any fuzzification asked for output
group 2, in which no rule has a consequent, returns 0. -/
theorem defuzzifyCentroid_zero_fallback_witness :
    (ActGen_DirectPassSpeed.constructed.defuzzifyCentroid 10 2 (81 / 100) (331 / 100)
      ((8 : ℕ) : ℚ)).map Prod.fst = .ok 0 :=
  (defuzzifyCentroid_zero_fallback ActGen_DirectPassSpeed.constructed (by decide) (by decide)
    2 (81 / 100) (331 / 100) (by norm_num) 8 (by decide) 10 (by decide)).2.2.1
    (by decide)

theorem specAggregated_congr (c d : FuzzyController)
    (hin : c.inputMembershipFunctions = d.inputMembershipFunctions)
    (hout : Registry.shape c.outputMembershipFunctions =
      Registry.shape d.outputMembershipFunctions)
    (hr : c.rules.map Rule.shape = d.rules.map Rule.shape) (g : Nat) (p : ℚ) :
    specAggregated c g p = specAggregated d g p := by
  have key : ∀ (e : FuzzyController), specAggregated e g p =
      ((e.rules.map Rule.shape).map fun r =>
        specOutputStrength (specFiringStrength e.inputMembershipFunctions r)
          (r.consequentFunctions e.outputMembershipFunctions) g p).foldl max 0 := by
    intro e
    unfold specAggregated
    rw [List.map_map]
    rfl
  rw [key c, key d, hr, hin]
  congr 1
  apply List.map_congr_left
  intro r _
  exact specOutputStrength_congr hout _ r g p

theorem specNumerator_congr (c d : FuzzyController)
    (hin : c.inputMembershipFunctions = d.inputMembershipFunctions)
    (hout : Registry.shape c.outputMembershipFunctions =
      Registry.shape d.outputMembershipFunctions)
    (hr : c.rules.map Rule.shape = d.rules.map Rule.shape) (g : Nat) (a b : ℚ) (steps : ℕ) :
    specNumerator c g a b steps = specNumerator d g a b steps := by
  unfold specNumerator
  apply Finset.sum_congr rfl
  intro k _
  rw [specAggregated_congr c d hin hout hr]

theorem specDenominator_congr (c d : FuzzyController)
    (hin : c.inputMembershipFunctions = d.inputMembershipFunctions)
    (hout : Registry.shape c.outputMembershipFunctions =
      Registry.shape d.outputMembershipFunctions)
    (hr : c.rules.map Rule.shape = d.rules.map Rule.shape) (g : Nat) (a b : ℚ) (steps : ℕ) :
    specDenominator c g a b steps = specDenominator d g a b steps := by
  unfold specDenominator
  apply Finset.sum_congr rfl
  intro k _
  rw [specAggregated_congr c d hin hout hr]

theorem specFuzzifiedNode_shape (i : Int) (xs : List ℚ) (node : String × MembershipFunction)
    (h : i ≤ node.2.fuzzificationIndex ∧ node.2.fuzzificationIndex < i + xs.length) :
    specFuzzifiedNode i xs node = specFuzzifiedNode i xs (node.1, node.2.shape) := by
  unfold specFuzzifiedNode
  rw [if_pos h, if_pos (by simpa [MembershipFunction.shape_index] using h)]
  rfl

theorem Registry.map_specFuzzifiedNode_shape (i : Int) (xs : List ℚ) (reg : Registry)
    (h : ∀ node ∈ Registry.shape reg,
      i ≤ node.2.fuzzificationIndex ∧ node.2.fuzzificationIndex < i + xs.length) :
    reg.map (specFuzzifiedNode i xs) = (Registry.shape reg).map (specFuzzifiedNode i xs) := by
  unfold Registry.shape at h ⊢
  rw [List.map_map]
  apply List.map_congr_left
  intro node hn
  have := h (node.1, node.2.shape) (List.mem_map.mpr ⟨node, hn, rfl⟩)
  exact specFuzzifiedNode_shape i xs node this

/-- A controller whose rules agree with those of a valid one up to firing strengths, and
whose hash maps agree with its hash maps up to transient strengths, is valid. -/
theorem FuzzyController.SameConfiguration.valid {c d : FuzzyController}
    (h : c.SameConfiguration d) (hd : d.Valid) : c.Valid := by
  obtain ⟨hin, hout, hr, hcnt⟩ := h
  obtain ⟨hdc, hdb⟩ := hd
  have hlen : c.rules.length = d.rules.length := by
    have := congrArg List.length hr
    simpa using this
  refine ⟨by rw [hcnt, hdc, hlen], ?_⟩
  intro r hrm
  have hrs : r.shape ∈ d.rules.map Rule.shape := by
    rw [← hr]; exact List.mem_map.mpr ⟨r, hrm, rfl⟩
  obtain ⟨r0, hr0, he⟩ := List.mem_map.mp hrs
  obtain ⟨b1, b2, b3, b4⟩ := hdb r0 hr0
  have ha : r.antecedents = r0.antecedents := (congrArg Rule.antecedents he).symm
  have hc : r.consequents = r0.consequents := (congrArg Rule.consequents he).symm
  have hac : r.antecedentsCount = r0.antecedentsCount :=
    (congrArg Rule.antecedentsCount he).symm
  have hcc : r.consequentsCount = r0.consequentsCount :=
    (congrArg Rule.consequentsCount he).symm
  refine ⟨by rw [hac, ha, b1], by rw [hcc, hc, b2], ?_, ?_⟩
  · intro a hmem
    rw [Registry.find_isSome_congr hin a]
    exact b3 a (ha ▸ hmem)
  · intro k hmem
    rw [Registry.find_isSome_congr hout k]
    exact b4 k (hc ▸ hmem)

theorem FuzzyController.SameConfiguration.antecedents_ne {c d : FuzzyController}
    (h : c.SameConfiguration d) (hd : ∀ r ∈ d.rules, r.antecedents ≠ []) :
    ∀ r ∈ c.rules, r.antecedents ≠ [] := by
  intro r hrm
  have hrs : r.shape ∈ d.rules.map Rule.shape := by
    rw [← h.2.2.1]; exact List.mem_map.mpr ⟨r, hrm, rfl⟩
  obtain ⟨r0, hr0, he⟩ := List.mem_map.mp hrs
  have ha : r.antecedents = r0.antecedents := (congrArg Rule.antecedents he).symm
  rw [ha]
  exact hd r0 hr0

end fuzzy

namespace ActGen_DirectPassSpeed

open fuzzy

/-! ## Every call of `getDirectPassSpeed` -/

theorem trimmed_bounds (distance : ℚ) :
    2 ≤ trimmedDistance distance ∧ trimmedDistance distance ≤ 20 := by
  unfold trimmedDistance trimNumeric kMinDistance kMaxDistance
  dsimp only
  split_ifs with h1 h2
  · norm_num
  · norm_num
  · norm_num at h1 h2
    exact ⟨by linarith, by linarith⟩

theorem ne_numericLimitsMax_of_le (d : ℚ) (h : d ≤ 20) : d ≠ numericLimitsMax := by
  have := numericLimitsMax_big
  intro hd
  rw [← hd] at this
  have : (10 : ℚ) ^ 300 < 20 := lt_of_lt_of_le this h
  norm_num at this

theorem constructed_valid : constructed.Valid := by decide

theorem constructed_antecedents_ne : ∀ r ∈ constructed.rules, r.antecedents ≠ [] := by decide

theorem fuzzify_of_sameConfiguration (c : FuzzyController)
    (h : c.SameConfiguration constructed) (d : ℚ) (hd : d ≠ numericLimitsMax) :
    c.fuzzify d [numericLimitsMax] =
      .ok { c with inputMembershipFunctions := (fuzzifiedAt d).inputMembershipFunctions } := by
  have hloop := FuzzyController.fuzzifyLoop_eq [] d kMinValidFuzzificationIndex
    c.inputMembershipFunctions
    (by intro y hy; rw [List.mem_singleton.mp hy]; exact hd)
    (by simp [kMinValidFuzzificationIndex, intMax])
  have hrange0 : ∀ node ∈ Registry.shape c.inputMembershipFunctions,
      kMinValidFuzzificationIndex ≤ node.2.fuzzificationIndex ∧
        node.2.fuzzificationIndex < kMinValidFuzzificationIndex + ((1 : ℕ) : Int) := by
    rw [h.1]
    decide
  have hrange : ∀ node ∈ Registry.shape c.inputMembershipFunctions,
      kMinValidFuzzificationIndex ≤ node.2.fuzzificationIndex ∧
        node.2.fuzzificationIndex < kMinValidFuzzificationIndex + ([d] : List ℚ).length := by
    simpa using hrange0
  have hshape := Registry.map_specFuzzifiedNode_shape kMinValidFuzzificationIndex [d]
    c.inputMembershipFunctions hrange
  rw [h.1] at hshape
  simp only [List.nil_append] at hloop
  unfold FuzzyController.fuzzify
  rw [hloop, hshape]
  rfl

theorem getDirectPassSpeed_closed (singleton : Option FuzzyController)
    (hS : StaticInvariant singleton) (distance : ℚ) (steps : ℕ) (hsteps : 0 < steps)
    (fuel : Nat) (hfuel : steps + 2 ≤ fuel) :
    ∃ c1, getDirectPassSpeed fuel singleton distance steps =
        .ok (specNumerator (fuzzifiedAt (trimmedDistance distance)) 1 kMinSpeed kMaxSpeed steps /
            (if specDenominator (fuzzifiedAt (trimmedDistance distance)) 1 kMinSpeed kMaxSpeed
                steps = 0 then 1
             else specDenominator (fuzzifiedAt (trimmedDistance distance)) 1 kMinSpeed kMaxSpeed
                steps),
          some c1) ∧
      c1.SameConfiguration constructed := by
  obtain ⟨c, hc, hsc⟩ : ∃ c, Instance singleton = .ok c ∧ c.SameConfiguration constructed := by
    rcases hS with h | ⟨c, h, hsc⟩
    · exact ⟨constructed, by rw [h]; exact construct_eq, ⟨rfl, rfl, rfl, rfl⟩⟩
    · exact ⟨c, by rw [h]; rfl, hsc⟩
  set d := trimmedDistance distance with hd
  have hdmax : d ≠ numericLimitsMax := ne_numericLimitsMax_of_le d (trimmed_bounds distance).2
  have hfz := fuzzify_of_sameConfiguration c hsc d hdmax
  set c1 : FuzzyController :=
    { c with inputMembershipFunctions := (fuzzifiedAt d).inputMembershipFunctions } with hc1
  have hsc1 : c1.SameConfiguration constructed := ⟨rfl, hsc.2.1, hsc.2.2.1, hsc.2.2.2⟩
  have hv1 : c1.Valid := hsc1.valid constructed_valid
  have hne1 := hsc1.antecedents_ne constructed_antecedents_ne
  obtain ⟨o1, h1, h2⟩ := FuzzyController.defuzzifyCentroid_closed c1 hv1 hne1 1
    kMinSpeed kMaxSpeed (by unfold kMinSpeed kMaxSpeed; norm_num) steps hsteps fuel hfuel
  have hN := specNumerator_congr c1 (fuzzifiedAt d) rfl hsc.2.1 hsc.2.2.1 1
    kMinSpeed kMaxSpeed steps
  have hD := specDenominator_congr c1 (fuzzifiedAt d) rfl hsc.2.1 hsc.2.2.1 1
    kMinSpeed kMaxSpeed steps
  rw [hN, hD] at h1
  have hfin : ∃ cf, FuzzyController.defuzzifyCentroid fuel c1 1 kMinSpeed kMaxSpeed steps =
        .ok (specNumerator (fuzzifiedAt d) 1 kMinSpeed kMaxSpeed steps /
            (if specDenominator (fuzzifiedAt d) 1 kMinSpeed kMaxSpeed steps = 0 then 1
             else specDenominator (fuzzifiedAt d) 1 kMinSpeed kMaxSpeed steps), cf) ∧
      cf.SameConfiguration constructed := by
    refine ⟨_, h1, rfl, h2.trans hsc.2.1, ?_, hsc.2.2.2⟩
    simp only [List.map_map]
    exact hsc.2.2.1
  obtain ⟨cf, hcf, hsf⟩ := hfin
  refine ⟨cf, ?_, hsf⟩
  have hd2 : (trimNumeric { numeric := distance, lowerLimit := kMinDistance,
                            upperLimit := kMaxDistance }).numeric = d := rfl
  unfold getDirectPassSpeed
  simp only [hc, hd2, hfz]
  rw [show toUnsigned kSpeedOutputIndex = 1 from by decide, hcf]

end ActGen_DirectPassSpeed

namespace fuzzy

/-! ## The range of the clamp -/

/-- C9, counterexample: with `lo = 0`, `hi = 1` and `v = 0` the trimmed value is 1, which
is not in `[lo + 1, hi - 1] = [1, 0]` (that interval is empty). -/
theorem trimNumeric_range_counterexample :
    ¬ ((0 : ℚ) + 1 ≤ (trimNumeric { numeric := 0, lowerLimit := 0, upperLimit := 1 }).numeric ∧
      (trimNumeric { numeric := 0, lowerLimit := 0, upperLimit := 1 }).numeric ≤ (1 : ℚ) - 1) := by
  rw [trimNumeric_eq]
  norm_num

/-- C9, amended: for every `v`, `lo` and `hi` with `lo + 1 ≤ hi - 1`, the value produced by
`trimNumeric(v, lo, hi)` lies in the closed interval `[lo + 1, hi - 1]`. -/
theorem trimNumeric_range (v lo hi : ℚ) (h : lo + 1 ≤ hi - 1) :
    lo + 1 ≤ (trimNumeric { numeric := v, lowerLimit := lo, upperLimit := hi }).numeric ∧
    (trimNumeric { numeric := v, lowerLimit := lo, upperLimit := hi }).numeric ≤ hi - 1 := by
  rw [trimNumeric_eq]
  dsimp only
  split_ifs with h1 h2
  · exact ⟨le_refl _, h⟩
  · exact ⟨h, le_refl _⟩
  · exact ⟨not_lt.mp h1, not_lt.mp h2⟩

/-- Witness for the amended C9: a value far below the range `[1, 21]` is trimmed into
`[2, 20]`. -/
theorem trimNumeric_range_witness :
    (1 : ℚ) + 1 ≤
        (trimNumeric { numeric := -1000, lowerLimit := 1, upperLimit := 21 }).numeric ∧
      (trimNumeric { numeric := -1000, lowerLimit := 1, upperLimit := 21 }).numeric ≤
        (21 : ℚ) - 1 :=
  trimNumeric_range (-1000) 1 21 (by norm_num)

end fuzzy

namespace ActGen_DirectPassSpeed

open fuzzy

/-! ## The pass speed at distance 1 -/

theorem trimmedDistance_one : trimmedDistance 1 = 2 := by
  unfold trimmedDistance
  rw [trimNumeric_eq]
  norm_num [kMinDistance, kMaxDistance]

theorem fuzzifiedAt_two : fuzzifiedAt 2 = fuzzifiedAtTwo := by
  unfold fuzzifiedAt fuzzifiedAtTwo
  norm_num [specDegree, MembershipFunction.new]

theorem getDirectPassSpeed_one (singleton : Option FuzzyController)
    (hS : StaticInvariant singleton) (fuel : Nat) (hfuel : 10 ≤ fuel) :
    ∃ c1, getDirectPassSpeed fuel singleton 1 8 = .ok (5641 / 3600, some c1) ∧
      c1.SameConfiguration constructed := by
  obtain ⟨c1, h1, h2⟩ := getDirectPassSpeed_closed singleton hS 1 8 (by decide) fuel hfuel
  refine ⟨c1, ?_, h2⟩
  rw [trimmedDistance_one, fuzzifiedAt_two] at h1
  unfold kMinSpeed kMaxSpeed at h1
  rw [fuzzifiedAtTwo_num, fuzzifiedAtTwo_den] at h1
  rw [Nat.cast_ofNat] at h1
  rw [h1]
  norm_num

/-- C10, counterexample: on first use `getDirectPassSpeed(1.0)` with `steps = 8` returns
`5641/3600` (about 1.567), which is farther than one sample step `0.3125` from `0.81`. -/
theorem getDirectPassSpeed_one_counterexample :
    (getDirectPassSpeed 10 none 1 8).map Prod.fst = .ok (5641 / 3600) ∧
      ¬ (|(5641 / 3600 : ℚ) - 81 / 100| ≤ (331 / 100 - 81 / 100) / 8) := by
  obtain ⟨c1, h1, _⟩ := getDirectPassSpeed_one none (Or.inl rfl) 10 (le_refl _)
  refine ⟨by rw [h1]; rfl, ?_⟩
  rw [abs_of_nonneg (by norm_num)]
  norm_num

/-- C10, amended: in the direct-pass-speed configuration with `steps = 8`, in every state
of the function-local static and given fuel for the ten evaluations of the loop guard,
`getDirectPassSpeed(1.0)` returns `0.81 + 109/144 = 5641/3600`, which is within three
sample steps `3 * 0.3125` of `0.81`. -/
theorem getDirectPassSpeed_one_value (singleton : Option FuzzyController)
    (hS : StaticInvariant singleton) (fuel : Nat) (hfuel : 10 ≤ fuel) :
    (getDirectPassSpeed fuel singleton 1 8).map Prod.fst = .ok (81 / 100 + 109 / 144) ∧
      |(81 / 100 + 109 / 144 : ℚ) - 81 / 100| ≤ 3 * ((331 / 100 - 81 / 100) / 8) := by
  obtain ⟨c1, h1, _⟩ := getDirectPassSpeed_one singleton hS fuel hfuel
  refine ⟨?_, ?_⟩
  · rw [h1]
    norm_num [Except.map]
  · rw [abs_of_nonneg (by norm_num)]
    norm_num

/-- Witness for the amended C10: the first call, with fuel 10. -/
theorem getDirectPassSpeed_one_value_witness :
    (getDirectPassSpeed 10 none 1 8).map Prod.fst = .ok (81 / 100 + 109 / 144) ∧
      |(81 / 100 + 109 / 144 : ℚ) - 81 / 100| ≤ 3 * ((331 / 100 - 81 / 100) / 8) :=
  getDirectPassSpeed_one_value none (Or.inl rfl) 10 (by decide)

end ActGen_DirectPassSpeed

namespace fuzzy

/-! ## End points, monotonicity and the absence of division by zero -/

theorem specDegree_start_of_lt (m : MembershipFunction) (h : m.Ordered)
    (hlt : m.start < m.topLeft) : specDegree m m.start = 0 := by
  obtain ⟨h1, h2, h3⟩ := h
  unfold specDegree
  rw [if_neg (by
    intro hc
    rcases hc with hc | hc
    · exact lt_irrefl _ hc
    · linarith), if_neg (by intro hc; linarith [hc.1]), if_pos hlt]
  simp

theorem specDegree_end_of_lt (m : MembershipFunction) (h : m.Ordered)
    (hlt : m.topRight < m.end_) : specDegree m m.end_ = 0 := by
  obtain ⟨h1, h2, h3⟩ := h
  unfold specDegree
  rw [if_neg (by
    intro hc
    rcases hc with hc | hc
    · linarith
    · exact lt_irrefl _ hc), if_neg (by intro hc; linarith [hc.2]),
    if_neg (by intro hc; linarith)]
  simp

theorem specDegree_plateau (m : MembershipFunction) (h : m.Ordered) (v : ℚ)
    (h1 : m.topLeft ≤ v) (h2 : v ≤ m.topRight) : specDegree m v = 1 := by
  obtain ⟨o1, o2, o3⟩ := h
  unfold specDegree
  rw [if_neg (by
    intro hc
    rcases hc with hc | hc
    · linarith
    · linarith), if_pos ⟨h1, h2⟩]

theorem specDegree_outside (m : MembershipFunction) (v : ℚ)
    (h : v < m.start ∨ v > m.end_) : specDegree m v = 0 := by
  unfold specDegree
  rw [if_pos h]

/-- C14, counterexample: the left shoulder `distanceLow = (1, 1, 1, 21)` of the pass-speed
controller is ordered, and its degree at its start point 1 is 1, not 0. -/
theorem degree_at_start_counterexample :
    (MembershipFunction.new 1 1 1 21 1).Ordered ∧
      ¬ (((MembershipFunction.new 1 1 1 21 1).calculateFuzzyStrength 1).fuzzyStrength = 0 ∧
        ((MembershipFunction.new 1 1 1 21 1).calculateFuzzyStrength 21).fuzzyStrength = 0) := by
  refine ⟨by unfold MembershipFunction.Ordered MembershipFunction.new; norm_num, ?_⟩
  rw [MembershipFunction.calculateFuzzyStrength_strength]
  intro h
  have := h.1
  norm_num [specDegree, MembershipFunction.new] at this

/-- C14, amended: for a membership function with `a ≤ b ≤ c ≤ d`, the degree at the start
point is 0 when `a < b` and the degree at the end point is 0 when `c < d`; at a shoulder
the degree is 1: `degree(a) = 1` when `a = b` and `degree(d) = 1` when `c = d`. -/
theorem degree_at_end_points (m : MembershipFunction) (h : m.Ordered) :
    (m.start < m.topLeft → (m.calculateFuzzyStrength m.start).fuzzyStrength = 0) ∧
    (m.topRight < m.end_ → (m.calculateFuzzyStrength m.end_).fuzzyStrength = 0) ∧
    (m.start = m.topLeft → (m.calculateFuzzyStrength m.start).fuzzyStrength = 1) ∧
    (m.topRight = m.end_ → (m.calculateFuzzyStrength m.end_).fuzzyStrength = 1) := by
  simp only [MembershipFunction.calculateFuzzyStrength_strength]
  refine ⟨specDegree_start_of_lt m h, specDegree_end_of_lt m h, ?_, ?_⟩
  · intro he
    exact specDegree_plateau m h _ (le_of_eq he.symm) (he ▸ h.2.1)
  · intro he
    exact specDegree_plateau m h _ (he ▸ h.2.1) (le_of_eq he.symm)

/-- Witness for the amended C14: the trapezoid `(0, 2, 3, 5)` has degree 0 at 0 and
at 5. -/
theorem degree_at_end_points_witness :
    ((MembershipFunction.new 0 2 3 5 1).calculateFuzzyStrength 0).fuzzyStrength = 0 ∧
      ((MembershipFunction.new 0 2 3 5 1).calculateFuzzyStrength 5).fuzzyStrength = 0 :=
  have h := degree_at_end_points (MembershipFunction.new 0 2 3 5 1)
    (by unfold MembershipFunction.Ordered MembershipFunction.new; norm_num)
  ⟨h.1 (by unfold MembershipFunction.new; norm_num),
    h.2.1 (by unfold MembershipFunction.new; norm_num)⟩

theorem specDegree_mono_left (m : MembershipFunction) (h : m.Ordered) (x y : ℚ)
    (hx : m.start ≤ x) (hxy : x ≤ y) (hy : y ≤ m.topLeft) :
    specDegree m x ≤ specDegree m y := by
  rcases hy.eq_or_lt with he | hlt
  · rw [specDegree_plateau m h y (le_of_eq he.symm) (he ▸ h.2.1)]
    exact specDegree_le_one m x
  · obtain ⟨o1, o2, o3⟩ := h
    have hpos : 0 < m.topLeft - m.start := by linarith
    have ex : specDegree m x = (x - m.start) / (m.topLeft - m.start) := by
      unfold specDegree
      rw [if_neg (by
        intro hc
        rcases hc with hc | hc
        · linarith
        · linarith), if_neg (by intro hc; linarith [hc.1]), if_pos (by linarith)]
    have ey : specDegree m y = (y - m.start) / (m.topLeft - m.start) := by
      unfold specDegree
      rw [if_neg (by
        intro hc
        rcases hc with hc | hc
        · linarith
        · linarith), if_neg (by intro hc; linarith [hc.1]), if_pos hlt]
    rw [ex, ey]
    exact div_le_div_of_nonneg_right (by linarith) hpos.le

theorem specDegree_anti_right (m : MembershipFunction) (h : m.Ordered) (x y : ℚ)
    (hx : m.topRight ≤ x) (hxy : x ≤ y) (hy : y ≤ m.end_) :
    specDegree m y ≤ specDegree m x := by
  rcases hx.eq_or_lt with he | hlt
  · rw [specDegree_plateau m h x (he ▸ h.2.1) (le_of_eq he.symm)]
    exact specDegree_le_one m y
  · obtain ⟨o1, o2, o3⟩ := h
    have hpos : 0 < m.end_ - m.topRight := by linarith
    have ex : specDegree m x = (m.end_ - x) / (m.end_ - m.topRight) := by
      unfold specDegree
      rw [if_neg (by
        intro hc
        rcases hc with hc | hc
        · linarith
        · linarith), if_neg (by intro hc; linarith [hc.2]), if_neg (by intro hc; linarith)]
    have ey : specDegree m y = (m.end_ - y) / (m.end_ - m.topRight) := by
      unfold specDegree
      rw [if_neg (by
        intro hc
        rcases hc with hc | hc
        · linarith
        · linarith), if_neg (by intro hc; linarith [hc.2]), if_neg (by intro hc; linarith)]
    rw [ex, ey]
    exact div_le_div_of_nonneg_right (by linarith) hpos.le

/-- C15: for a membership function with `a ≤ b ≤ c ≤ d`, the degree is non-decreasing on
`[a, b]` and non-increasing on `[c, d]`. -/
theorem degree_monotone_on_ramps (m : MembershipFunction) (h : m.Ordered) :
    (∀ x y, m.start ≤ x → x ≤ y → y ≤ m.topLeft →
      (m.calculateFuzzyStrength x).fuzzyStrength ≤ (m.calculateFuzzyStrength y).fuzzyStrength) ∧
    (∀ x y, m.topRight ≤ x → x ≤ y → y ≤ m.end_ →
      (m.calculateFuzzyStrength y).fuzzyStrength ≤ (m.calculateFuzzyStrength x).fuzzyStrength) := by
  simp only [MembershipFunction.calculateFuzzyStrength_strength]
  exact ⟨specDegree_mono_left m h, specDegree_anti_right m h⟩

/-- Witness for C15: on the rising ramp of the trapezoid `(0, 2, 3, 5)` the degree at 1/2
is at most the degree at 1. -/
theorem degree_monotone_on_ramps_witness :
    ((MembershipFunction.new 0 2 3 5 1).calculateFuzzyStrength (1 / 2)).fuzzyStrength ≤
      ((MembershipFunction.new 0 2 3 5 1).calculateFuzzyStrength 1).fuzzyStrength :=
  (degree_monotone_on_ramps (MembershipFunction.new 0 2 3 5 1)
    (by unfold MembershipFunction.Ordered MembershipFunction.new; norm_num)).1 (1 / 2) 1
    (by unfold MembershipFunction.new; norm_num) (by norm_num)
    (by unfold MembershipFunction.new; norm_num)

theorem MembershipFunction.branchTaken_ne_fallThrough (m : MembershipFunction) (v : ℚ) :
    m.branchTaken v ≠ .fallThrough := by
  unfold MembershipFunction.branchTaken
  split_ifs with h1 h2 h3 h4
  · simp
  · simp
  · simp
  · simp
  · exfalso
    exact h2 ⟨not_lt.mp h3, not_lt.mp h4⟩

theorem MembershipFunction.divisorEvaluated_pos (m : MembershipFunction) (v d : ℚ)
    (h : m.divisorEvaluated v = some d) : 0 < d := by
  unfold MembershipFunction.divisorEvaluated MembershipFunction.branchTaken at h
  split_ifs at h with h1 h2 h3 h4
  · simp only [Option.some.injEq] at h
    push_neg at h1
    rw [← h]; linarith [h1.1]
  · simp only [Option.some.injEq] at h
    push_neg at h1
    rw [← h]; linarith [h1.2]

theorem MembershipFunction.calculateFuzzyStrength_branch (m : MembershipFunction) (v : ℚ) :
    m.calculateFuzzyStrength v =
      match m.branchTaken v with
      | .outside => { m with fuzzyStrength := 0 }
      | .plateau => { m with fuzzyStrength := 1 }
      | .leftRamp => { m with fuzzyStrength := (v - m.start) / (m.topLeft - m.start) }
      | .rightRamp => { m with fuzzyStrength := (m.end_ - v) / (m.end_ - m.topRight) }
      | .fallThrough => m := by
  unfold MembershipFunction.calculateFuzzyStrength MembershipFunction.branchTaken
  split_ifs <;> rfl

/-- C17: `calculateFuzzyStrength` never divides by zero. For every shape and every value
the call takes one of the four assigning branches (never the fall-through), and whenever
it takes a ramp branch the divisor it evaluates (`topLeft - start`, respectively
`end - topRight`) is strictly positive. So for an ordered shape a left shoulder
(`start = topLeft`) gives degree 1 at the shoulder point and 0 below it, and a right
shoulder (`topRight = end`) gives degree 1 at the shoulder point and 0 above it. -/
theorem calculateFuzzyStrength_no_division_by_zero (m : MembershipFunction) (v : ℚ) :
    (m.calculateFuzzyStrength v =
      match m.branchTaken v with
      | .outside => { m with fuzzyStrength := 0 }
      | .plateau => { m with fuzzyStrength := 1 }
      | .leftRamp => { m with fuzzyStrength := (v - m.start) / (m.topLeft - m.start) }
      | .rightRamp => { m with fuzzyStrength := (m.end_ - v) / (m.end_ - m.topRight) }
      | .fallThrough => m) ∧
    m.branchTaken v ≠ .fallThrough ∧
    (m.branchTaken v = .leftRamp → 0 < m.topLeft - m.start) ∧
    (m.branchTaken v = .rightRamp → 0 < m.end_ - m.topRight) ∧
    (∀ d, m.divisorEvaluated v = some d → 0 < d) ∧
    (m.Ordered → m.start = m.topLeft →
      (m.calculateFuzzyStrength m.start).fuzzyStrength = 1 ∧
      ∀ w, w < m.start → (m.calculateFuzzyStrength w).fuzzyStrength = 0) ∧
    (m.Ordered → m.topRight = m.end_ →
      (m.calculateFuzzyStrength m.end_).fuzzyStrength = 1 ∧
      ∀ w, m.end_ < w → (m.calculateFuzzyStrength w).fuzzyStrength = 0) := by
  refine ⟨MembershipFunction.calculateFuzzyStrength_branch m v,
    MembershipFunction.branchTaken_ne_fallThrough m v, ?_, ?_,
    MembershipFunction.divisorEvaluated_pos m v, ?_, ?_⟩
  · intro hb
    exact MembershipFunction.divisorEvaluated_pos m v _
      (by simp [MembershipFunction.divisorEvaluated, hb])
  · intro hb
    exact MembershipFunction.divisorEvaluated_pos m v _
      (by simp [MembershipFunction.divisorEvaluated, hb])
  · intro ho he
    simp only [MembershipFunction.calculateFuzzyStrength_strength]
    exact ⟨specDegree_plateau m ho _ (le_of_eq he.symm) (he ▸ ho.2.1),
      fun w hw => specDegree_outside m w (Or.inl hw)⟩
  · intro ho he
    simp only [MembershipFunction.calculateFuzzyStrength_strength]
    exact ⟨specDegree_plateau m ho _ (he ▸ ho.2.1) (le_of_eq he.symm),
      fun w hw => specDegree_outside m w (Or.inr hw)⟩


/-! ## The samples visited by the sampling loop -/

theorem FuzzyController.sampleLoop_eq_traced (rules : List Rule) (rulesCount g : Nat)
    (b δ : ℚ) :
    ∀ (fuel : Nat) (i num den : ℚ) (outputs : Registry) (visited : List ℚ),
      FuzzyController.sampleLoop rules rulesCount g b δ fuel i num den outputs =
        (FuzzyController.sampleLoopTraced rules rulesCount g b δ fuel i num den outputs
          visited).map fun r => (r.1, r.2.1, r.2.2.1) := by
  intro fuel
  induction fuel with
  | zero => intro i num den outputs visited; rfl
  | succ fuel ih =>
    intro i num den outputs visited
    unfold FuzzyController.sampleLoop FuzzyController.sampleLoopTraced
    by_cases hg : i ≤ b
    · simp only [hg, if_true]
      cases hagg : FuzzyController.aggregateLoop rules g i rulesCount 0 0 outputs with
      | error e => rfl
      | ok res =>
        obtain ⟨cur, o1⟩ := res
        simp only []
        exact ih _ _ _ _ _
    · simp only [hg, if_false]
      rfl

theorem FuzzyController.defuzzifyCentroid_eq_traced (fuel : Nat) (c : FuzzyController)
    (g : Nat) (a b d : ℚ) :
    c.defuzzifyCentroid fuel g a b d =
      (c.defuzzifyCentroidTraced fuel g a b d).map fun r => (r.1, r.2.1) := by
  unfold FuzzyController.defuzzifyCentroid FuzzyController.defuzzifyCentroidTraced
  cases hf : FuzzyController.firingPhase c.inputMembershipFunctions c.rulesCount 0 c.rules with
  | error e => rfl
  | ok rules =>
    simp only []
    by_cases hd : d = 0
    · simp only [hd, if_true]
      rfl
    · simp only [hd, if_false]
      rw [FuzzyController.sampleLoop_eq_traced rules c.rulesCount g b ((b - a) / d) fuel a 0 0
        c.outputMembershipFunctions []]
      cases FuzzyController.sampleLoopTraced rules c.rulesCount g b ((b - a) / d) fuel a 0 0
          c.outputMembershipFunctions [] with
      | error e => rfl
      | ok res => rfl

theorem FuzzyController.sampleLoopTraced_visited (rules : List Rule) (g : Nat)
    (base : Registry) (a b : ℚ) (steps : ℕ) (hab : a < b) (hsteps : 0 < steps)
    (hcount : ∀ r ∈ rules, r.consequentsCount = r.consequents.length)
    (hres : ∀ r ∈ rules, ∀ k ∈ r.consequents, (base.find k).isSome = true) :
    ∀ (m k : Nat) (num den : ℚ) (outputs : Registry) (fuel : Nat) (visited : List ℚ),
      k + m = steps + 1 → m + 1 ≤ fuel →
      Registry.shape outputs = Registry.shape base →
      (FuzzyController.sampleLoopTraced rules rules.length g b ((b - a) / steps) fuel
          (a + k * ((b - a) / steps)) num den outputs visited).map (fun r => r.2.2.2) =
        .ok (visited ++ (List.range m).map fun j =>
          a + ((k + j : ℕ) : ℚ) * ((b - a) / steps)) := by
  have hsq : (0 : ℚ) < steps := by exact_mod_cast hsteps
  have hδ : 0 < (b - a) / steps := div_pos (by linarith) hsq
  have hfull : (steps : ℚ) * ((b - a) / steps) = b - a := by field_simp
  intro m
  induction m with
  | zero =>
    intro k num den outputs fuel visited hk hfuel hs
    obtain ⟨f, rfl⟩ : ∃ f, fuel = f + 1 := ⟨fuel - 1, by omega⟩
    have hkk : (k : ℚ) = steps + 1 := by
      have : k = steps + 1 := by omega
      rw [this]; push_cast; ring
    have hguard : ¬ (a + k * ((b - a) / steps) ≤ b) := by
      rw [hkk, add_mul, hfull]
      intro hc
      linarith
    simp [FuzzyController.sampleLoopTraced, hguard, Except.map]
  | succ m ih =>
    intro k num den outputs fuel visited hk hfuel hs
    obtain ⟨f, rfl⟩ : ∃ f, fuel = f + 1 := ⟨fuel - 1, by omega⟩
    have hkle : (k : ℚ) ≤ steps := by
      have : k ≤ steps := by omega
      exact_mod_cast this
    have hguard : a + k * ((b - a) / steps) ≤ b := by
      have : (k : ℚ) * ((b - a) / steps) ≤ steps * ((b - a) / steps) :=
        mul_le_mul_of_nonneg_right hkle hδ.le
      rw [hfull] at this
      linarith
    obtain ⟨o1, h1, h2⟩ := FuzzyController.aggregateLoop_eq rules g
      (a + k * ((b - a) / steps)) base hcount hres rules.length 0 0 outputs (by simp) hs
    have hnext : a + k * ((b - a) / steps) + (b - a) / steps =
        a + ((k + 1 : ℕ) : ℚ) * ((b - a) / steps) := by push_cast; ring
    rw [FuzzyController.sampleLoopTraced, if_pos hguard, h1]
    simp only []
    rw [hnext, ih (k + 1) _ _ o1 f _ (by omega) (by omega) h2]
    rw [List.range_succ_eq_map]
    simp only [List.map_cons, List.map_map, List.append_assoc, List.singleton_append,
      Nat.add_zero, Function.comp_def, Nat.succ_eq_add_one]
    congr 3
    apply List.map_congr_left
    intro j _
    congr 2
    push_cast
    ring


theorem FuzzyController.defuzzifyCentroidTraced_visited (c : FuzzyController) (hv : c.Valid)
    (hne : ∀ r ∈ c.rules, r.antecedents ≠ []) (g : Nat) (a b : ℚ) (hab : a < b)
    (steps : ℕ) (hsteps : 0 < steps) (fuel : Nat) (hfuel : steps + 2 ≤ fuel) :
    (c.defuzzifyCentroidTraced fuel g a b steps).map (fun r => r.2.2) =
      .ok ((List.range (steps + 1)).map fun k : ℕ => a + (k : ℚ) * ((b - a) / steps)) := by
  obtain ⟨hrc, hb⟩ := hv
  have hsq : (steps : ℚ) ≠ 0 := by exact_mod_cast hsteps.ne'
  have hfire := FuzzyController.firingPhase_eq c.inputMembershipFunctions c.rules
    (fun r hr => (hb r hr).1) (fun r hr => (hb r hr).2.2.1) hne
  set rules1 := c.rules.map fun r =>
    { r with firingStrength := specFiringStrength c.inputMembershipFunctions r } with hrules1
  have hlen : rules1.length = c.rules.length := by simp [hrules1]
  have hcount1 : ∀ r ∈ rules1, r.consequentsCount = r.consequents.length := by
    intro r hr
    obtain ⟨r0, hr0, rfl⟩ := List.mem_map.mp hr
    exact (hb r0 hr0).2.1
  have hres1 : ∀ r ∈ rules1, ∀ k ∈ r.consequents,
      (c.outputMembershipFunctions.find k).isSome = true := by
    intro r hr
    obtain ⟨r0, hr0, rfl⟩ := List.mem_map.mp hr
    exact (hb r0 hr0).2.2.2
  have h1 := FuzzyController.sampleLoopTraced_visited rules1 g c.outputMembershipFunctions
    a b steps hab hsteps hcount1 hres1 (steps + 1) 0 0 0 c.outputMembershipFunctions fuel []
    (by omega) (by omega) rfl
  simp only [Nat.cast_zero, zero_mul, add_zero, zero_add, hlen, List.nil_append] at h1
  unfold FuzzyController.defuzzifyCentroidTraced
  rw [hrc, hfire]
  simp only [hsq, if_false]
  cases hres : FuzzyController.sampleLoopTraced rules1 c.rules.length g b ((b - a) / steps)
      fuel a 0 0 c.outputMembershipFunctions [] with
  | error e => rw [hres] at h1; simp [Except.map] at h1
  | ok res =>
    rw [hres] at h1
    simpa [Except.map] using h1

/-- Exact arithmetic (the loop variable is not rounded): for a controller satisfying its
class invariant whose rules each have an antecedent, every `outMin < outMax` and every positive integer `steps`, the sampling loop
of `defuzzifyCentroid` terminates (given fuel for its `steps + 2` guard evaluations) after
visiting exactly the `steps + 1` samples `outMin + k * delta`, `k = 0..steps`, the first
being `outMin` and the last `outMax`. The visited samples are a ghost result of
`defuzzifyCentroidTraced`, which otherwise computes what `defuzzifyCentroid` computes. -/
theorem defuzzifyCentroid_visits_samples (c : FuzzyController) (hv : c.Valid)
    (hne : ∀ r ∈ c.rules, r.antecedents ≠ []) (g : Nat) (outMin outMax : ℚ)
    (hlt : outMin < outMax) (steps : ℕ) (hsteps : 0 < steps) (fuel : Nat)
    (hfuel : steps + 2 ≤ fuel) :
    (∀ (fuel1 g1 : Nat) (a1 b1 d1 : ℚ), c.defuzzifyCentroid fuel1 g1 a1 b1 d1 =
      (c.defuzzifyCentroidTraced fuel1 g1 a1 b1 d1).map fun r => (r.1, r.2.1)) ∧
    (c.defuzzifyCentroidTraced fuel g outMin outMax steps).map (fun r => r.2.2) =
      .ok ((List.range (steps + 1)).map fun k : ℕ =>
        outMin + (k : ℚ) * ((outMax - outMin) / steps)) ∧
    ((List.range (steps + 1)).map fun k : ℕ =>
      outMin + (k : ℚ) * ((outMax - outMin) / steps)).length = steps + 1 ∧
    ((List.range (steps + 1)).map fun k : ℕ =>
      outMin + (k : ℚ) * ((outMax - outMin) / steps)).head? = some outMin ∧
    ((List.range (steps + 1)).map fun k : ℕ =>
      outMin + (k : ℚ) * ((outMax - outMin) / steps)).getLast? = some outMax := by
  have hsq : (steps : ℚ) ≠ 0 := by exact_mod_cast hsteps.ne'
  refine ⟨fun fuel1 g1 a1 b1 d1 =>
      FuzzyController.defuzzifyCentroid_eq_traced fuel1 c g1 a1 b1 d1,
    FuzzyController.defuzzifyCentroidTraced_visited c hv hne g outMin outMax hlt steps hsteps
      fuel hfuel, by simp, ?_, ?_⟩
  · rw [List.range_succ_eq_map]
    simp
  · rw [List.range_succ]
    simp only [List.map_append, List.map_cons, List.map_nil]
    rw [List.getLast?_append]
    simp only [List.getLast?_singleton]
    show some (outMin + (steps : ℚ) * ((outMax - outMin) / steps)) = some outMax
    congr 1
    field_simp

/-- An instance in exact arithmetic, on the pass-speed controller fuzzified at distance 2:
nine samples
from `0.81` to `3.31`. -/
theorem defuzzifyCentroid_visits_samples_witness :
    (ActGen_DirectPassSpeed.fuzzifiedAtTwo.defuzzifyCentroidTraced 10 1 (81 / 100) (331 / 100)
        ((8 : ℕ) : ℚ)).map (fun r => r.2.2) =
      .ok ((List.range (8 + 1)).map fun k : ℕ =>
        (81 / 100 : ℚ) + (k : ℚ) * ((331 / 100 - 81 / 100) / ((8 : ℕ) : ℚ))) :=
  (defuzzifyCentroid_visits_samples ActGen_DirectPassSpeed.fuzzifiedAtTwo (by decide)
    (by decide) 1 (81 / 100) (331 / 100) (by norm_num) 8 (by decide) 10 (by decide)).2.1


/-! ## What `fuzzify` leaves unchanged -/

theorem FuzzyController.fuzzifyLoop_below :
    ∀ (rest : List ℚ) (x : ℚ) (i : Int) (inputs r : Registry),
      FuzzyController.fuzzifyLoop rest x i inputs = .ok r →
      ∃ g : String × MembershipFunction → String × MembershipFunction,
        r = inputs.map g ∧
        ∀ node, (g node).2.fuzzificationIndex = node.2.fuzzificationIndex ∧
          (node.2.fuzzificationIndex < i → g node = node) := by
  intro rest
  induction rest with
  | nil =>
    intro x i inputs r h
    unfold FuzzyController.fuzzifyLoop at h
    split_ifs at h with hg
    simp only [Except.ok.injEq] at h
    exact ⟨id, by simp [h], fun node => ⟨rfl, fun _ => rfl⟩⟩
  | cons next rest ih =>
    intro x i inputs r h
    unfold FuzzyController.fuzzifyLoop at h
    split_ifs at h with hg
    · obtain ⟨g2, hr, hg2⟩ := ih next (i + 1) _ r h
      refine ⟨fun node => g2 (if node.2.fuzzificationIndex = i then
          (node.1, node.2.calculateFuzzyStrength x) else node), ?_, ?_⟩
      · rw [hr, FuzzyController.fuzzifyGroup, List.map_map]
        rfl
      · intro node
        constructor
        · rw [(hg2 _).1]
          split_ifs
          · rw [MembershipFunction.calculateFuzzyStrength_eq]
          · rfl
        · intro hlt
          have hne : ¬ node.2.fuzzificationIndex = i := by omega
          simp only [hne, if_false]
          exact (hg2 node).2 (by omega)
    · simp only [Except.ok.injEq] at h
      exact ⟨id, by simp [h], fun node => ⟨rfl, fun _ => rfl⟩⟩

/-- C19: `fuzzify(inputs[1..K], max)` for a sentinel-free argument list (shorter than
`INT_MAX`) returns and leaves unchanged every input membership function whose group index
is not in `1..K` (group 0 included), the whole output hash map, and the rule list with
its firing strengths. -/
theorem fuzzify_frame (c : FuzzyController) (x : ℚ) (xs : List ℚ)
    (hs : ∀ y ∈ x :: xs, y ≠ numericLimitsMax) (hlen : (x :: xs).length < 2147483647) :
    ∃ c1, c.fuzzify x (xs ++ [numericLimitsMax]) = .ok c1 ∧
      List.Forall₂
        (fun old new => new.1 = old.1 ∧
          (¬ (1 ≤ old.2.fuzzificationIndex ∧
              old.2.fuzzificationIndex ≤ ((x :: xs).length : Int)) → new = old))
        c.inputMembershipFunctions c1.inputMembershipFunctions ∧
      c1.outputMembershipFunctions = c.outputMembershipFunctions ∧
      c1.rules = c.rules ∧ c1.rulesCount = c.rulesCount := by
  have hloop := FuzzyController.fuzzifyLoop_eq xs x kMinValidFuzzificationIndex
    c.inputMembershipFunctions hs (by unfold kMinValidFuzzificationIndex intMax; omega)
  refine ⟨{ c with inputMembershipFunctions :=
      c.inputMembershipFunctions.map (specFuzzifiedNode kMinValidFuzzificationIndex (x :: xs)) },
    by simp only [FuzzyController.fuzzify, hloop], ?_, rfl, rfl, rfl⟩
  simp only []
  rw [List.forall₂_map_right_iff, List.forall₂_same]
  intro node _
  unfold specFuzzifiedNode kMinValidFuzzificationIndex
  dsimp only
  split_ifs with hr
  · refine ⟨rfl, ?_⟩
    intro hout
    exfalso
    apply hout
    omega
  · exact ⟨rfl, fun _ => rfl⟩

/-- Witness for C19: the pass-speed controller fuzzified with the single input 2. -/
theorem fuzzify_frame_witness :
    ∃ c1, ActGen_DirectPassSpeed.constructed.fuzzify 2 ([] ++ [numericLimitsMax]) = .ok c1 ∧
      List.Forall₂
        (fun old new => new.1 = old.1 ∧
          (¬ (1 ≤ old.2.fuzzificationIndex ∧
              old.2.fuzzificationIndex ≤ (([2] : List ℚ).length : Int)) → new = old))
        ActGen_DirectPassSpeed.constructed.inputMembershipFunctions
        c1.inputMembershipFunctions ∧
      c1.outputMembershipFunctions =
        ActGen_DirectPassSpeed.constructed.outputMembershipFunctions ∧
      c1.rules = ActGen_DirectPassSpeed.constructed.rules ∧
      c1.rulesCount = ActGen_DirectPassSpeed.constructed.rulesCount :=
  fuzzify_frame ActGen_DirectPassSpeed.constructed 2 []
    (by
      intro y hy
      rw [List.mem_singleton.mp hy]
      exact ActGen_DirectPassSpeed.two_ne_numericLimitsMax)
    (by decide)


/-! ## Group index 0 -/

theorem half_ne_numericLimitsMax : (1 / 2 : ℚ) ≠ numericLimitsMax := by
  have := ActGen_DirectPassSpeed.numericLimitsMax_big
  intro h; rw [← h] at this; norm_num at this

theorem disabledOutputScenario_eq : disabledOutputScenario = .ok disabledOutputController := by
  have h := half_ne_numericLimitsMax
  simp [disabledOutputScenario, FuzzyController.addMembershipFunction,
    FuzzyController.addRule, FuzzyController.collectNames, Registry.assign, Registry.find,
    FuzzyController.new, kRuleImplies, kRuleEnd, disabledOutputController,
    kDummyFuzzificationIndex, FuzzyController.fuzzify, FuzzyController.fuzzifyLoop, h, intMax,
    kMinValidFuzzificationIndex, FuzzyController.fuzzifyGroup,
    MembershipFunction.calculateFuzzyStrength, MembershipFunction.new]
  norm_num
  rw [if_neg h]

theorem disabledOutputController_agg (p : ℚ) :
    specAggregated disabledOutputController 0 p =
      max 0 (min 1 (specDegree (MembershipFunction.new 0 0 1 1 0) p)) := by
  simp [specAggregated, disabledOutputController, specFiringStrength, specMinimum,
    Rule.antecedentDegrees, Rule.consequentFunctions, Rule.new, Registry.find,
    specOutputStrength, MembershipFunction.new, toUnsigned]

theorem disabledOutputController_num : specNumerator disabledOutputController 0 0 1 1 = 1 := by
  unfold specNumerator
  simp only [Finset.sum_range_succ, Finset.sum_range_zero, disabledOutputController_agg]
  norm_num [specSample, specDegree, MembershipFunction.new]

theorem disabledOutputController_den :
    specDenominator disabledOutputController 0 0 1 1 = 2 := by
  unfold specDenominator
  simp only [Finset.sum_range_succ, Finset.sum_range_zero, disabledOutputController_agg]
  norm_num [specSample, specDegree, MembershipFunction.new]

/-- C20: the fuzzify half holds and the defuzzify half fails. Every `fuzzify` call that
returns leaves each input membership function with group index 0 as it was. But
`defuzzifyCentroid(0, 0, 1, 1)` on the scenario whose only consequent `off` has group
index 0 returns 1/2: the aggregated strength at the sample 0 is 1, the output strength of
that consequent. For an output group other than 0 a consequent with index 0 is never the
matching one. -/
theorem group_zero_matched_by_defuzzifyCentroid :
    (∀ (c c1 : FuzzyController) (x : ℚ) (args : List ℚ), c.fuzzify x args = .ok c1 →
      List.Forall₂ (fun old new => old.2.fuzzificationIndex = 0 → new = old)
        c.inputMembershipFunctions c1.inputMembershipFunctions) ∧
    disabledOutputScenario = .ok disabledOutputController ∧
    (disabledOutputController.rules.map fun r =>
      (r.consequentFunctions disabledOutputController.outputMembershipFunctions).map
        fun m => m.fuzzificationIndex) = [[0]] ∧
    specAggregated disabledOutputController 0 0 = 1 ∧
    (disabledOutputController.defuzzifyCentroid 3 0 0 1 ((1 : ℕ) : ℚ)).map Prod.fst =
      .ok (1 / 2) ∧
    (∀ g : Nat, g ≠ 0 → toUnsigned 0 ≠ g) := by
  refine ⟨?_, disabledOutputScenario_eq, by decide, ?_, ?_, ?_⟩
  · intro c c1 x args h
    unfold FuzzyController.fuzzify at h
    cases hl : FuzzyController.fuzzifyLoop args x kMinValidFuzzificationIndex
        c.inputMembershipFunctions with
    | error e => rw [hl] at h; simp at h
    | ok r =>
      rw [hl] at h
      simp only [Except.ok.injEq] at h
      obtain ⟨g, hr, hg⟩ := FuzzyController.fuzzifyLoop_below args x _ _ r hl
      rw [← h]
      simp only [hr]
      rw [List.forall₂_map_right_iff, List.forall₂_same]
      intro node _ h0
      exact (hg node).2 (by rw [h0]; decide)
  · rw [disabledOutputController_agg]
    norm_num [specDegree, MembershipFunction.new]
  · obtain ⟨o1, h1, _⟩ := FuzzyController.defuzzifyCentroid_closed disabledOutputController
      (by decide) (by decide) 0 0 1 (by norm_num) 1 (by decide) 3 (by decide)
    rw [h1, disabledOutputController_num, disabledOutputController_den]
    norm_num [Except.map]
  · intro g hg h
    apply hg
    rw [← h]
    decide


/-! ## Every reachable strength lies in the unit interval -/

theorem Registry.mem_assign (reg : Registry) (name : String) (v : MembershipFunction)
    (node : String × MembershipFunction) (h : node ∈ reg.assign name v) :
    node ∈ reg ∨ node.2 = v := by
  induction reg with
  | nil =>
    simp only [Registry.assign, List.mem_singleton] at h
    exact Or.inr (by rw [h])
  | cons hd tl ih =>
    obtain ⟨k, m⟩ := hd
    unfold Registry.assign at h
    split_ifs at h with hk
    · rcases List.mem_cons.mp h with h1 | h1
      · exact Or.inr (by rw [h1])
      · exact Or.inl (List.mem_cons_of_mem _ h1)
    · rcases List.mem_cons.mp h with h1 | h1
      · exact Or.inl (by rw [h1]; exact List.mem_cons_self _ _)
      · rcases ih h1 with h2 | h2
        · exact Or.inl (List.mem_cons_of_mem _ h2)
        · exact Or.inr h2

theorem Registry.mem_store (reg : Registry) (name : String) (v : MembershipFunction)
    (node : String × MembershipFunction) (h : node ∈ reg.store name v) :
    node ∈ reg ∨ node.2 = v := by
  induction reg with
  | nil => simp [Registry.store] at h
  | cons hd tl ih =>
    obtain ⟨k, m⟩ := hd
    unfold Registry.store at h
    split_ifs at h with hk
    · rcases List.mem_cons.mp h with h1 | h1
      · exact Or.inr (by rw [h1])
      · exact Or.inl (List.mem_cons_of_mem _ h1)
    · rcases List.mem_cons.mp h with h1 | h1
      · exact Or.inl (by rw [h1]; exact List.mem_cons_self _ _)
      · rcases ih h1 with h2 | h2
        · exact Or.inl (List.mem_cons_of_mem _ h2)
        · exact Or.inr h2

theorem Registry.find_mem (reg : Registry) (k : String) (m : MembershipFunction)
    (h : reg.find k = some m) : (k, m) ∈ reg := by
  induction reg with
  | nil => simp [Registry.find] at h
  | cons hd tl ih =>
    obtain ⟨k0, m0⟩ := hd
    unfold Registry.find at h
    split_ifs at h with hk
    · simp only [Option.some.injEq] at h
      rw [← hk, ← h]
      exact List.mem_cons_self _ _
    · exact List.mem_cons_of_mem _ (ih h)

theorem MembershipFunction.calculateFuzzyStrength_unit (m : MembershipFunction) (v : ℚ) :
    0 ≤ (m.calculateFuzzyStrength v).fuzzyStrength ∧
      (m.calculateFuzzyStrength v).fuzzyStrength ≤ 1 := by
  rw [MembershipFunction.calculateFuzzyStrength_strength]
  exact ⟨specDegree_nonneg m v, specDegree_le_one m v⟩

theorem FuzzyController.fuzzifyLoop_unit :
    ∀ (rest : List ℚ) (x : ℚ) (i : Int) (inputs r : Registry),
      FuzzyController.fuzzifyLoop rest x i inputs = .ok r →
      (∀ node ∈ inputs, 0 ≤ node.2.fuzzyStrength ∧ node.2.fuzzyStrength ≤ 1) →
      ∀ node ∈ r, 0 ≤ node.2.fuzzyStrength ∧ node.2.fuzzyStrength ≤ 1 := by
  have hgroup : ∀ (inputs : Registry) (i : Int) (x : ℚ),
      (∀ node ∈ inputs, 0 ≤ node.2.fuzzyStrength ∧ node.2.fuzzyStrength ≤ 1) →
      ∀ node ∈ FuzzyController.fuzzifyGroup inputs i x,
        0 ≤ node.2.fuzzyStrength ∧ node.2.fuzzyStrength ≤ 1 := by
    intro inputs i x hin node hn
    unfold FuzzyController.fuzzifyGroup at hn
    obtain ⟨n0, hn0, rfl⟩ := List.mem_map.mp hn
    split_ifs
    · exact MembershipFunction.calculateFuzzyStrength_unit _ _
    · exact hin n0 hn0
  intro rest
  induction rest with
  | nil =>
    intro x i inputs r h hin
    unfold FuzzyController.fuzzifyLoop at h
    split_ifs at h with hg
    simp only [Except.ok.injEq] at h
    rw [← h]; exact hin
  | cons next rest ih =>
    intro x i inputs r h hin
    unfold FuzzyController.fuzzifyLoop at h
    split_ifs at h with hg
    · exact ih next (i + 1) _ r h (hgroup inputs i x hin)
    · simp only [Except.ok.injEq] at h
      rw [← h]; exact hin

theorem Rule.antecedentStrength_unit (r : Rule) (inputs : Registry) (i : Nat) (d : ℚ)
    (hin : ∀ node ∈ inputs, 0 ≤ node.2.fuzzyStrength ∧ node.2.fuzzyStrength ≤ 1)
    (h : r.antecedentStrength inputs i = .ok d) : 0 ≤ d ∧ d ≤ 1 := by
  unfold Rule.antecedentStrength at h
  cases hk : r.antecedents[i]? with
  | none => rw [hk] at h; simp at h
  | some key =>
    rw [hk] at h
    simp only [] at h
    cases hf : inputs.find key with
    | none => rw [hf] at h; simp at h
    | some m =>
      rw [hf] at h
      simp only [Except.ok.injEq] at h
      rw [← h]
      exact hin (key, m) (Registry.find_mem inputs key m hf)

theorem Rule.firingLoop_unit (r : Rule) (inputs : Registry)
    (hin : ∀ node ∈ inputs, 0 ≤ node.2.fuzzyStrength ∧ node.2.fuzzyStrength ≤ 1) :
    ∀ (n i : Nat) (acc v : ℚ), 0 ≤ acc ∧ acc ≤ 1 →
      r.firingLoop inputs n i acc = .ok v → 0 ≤ v ∧ v ≤ 1 := by
  intro n
  induction n with
  | zero =>
    intro i acc v hacc h
    simp only [Rule.firingLoop, Except.ok.injEq] at h
    rw [← h]; exact hacc
  | succ n ih =>
    intro i acc v hacc h
    unfold Rule.firingLoop at h
    cases hs : r.antecedentStrength inputs i with
    | error e => rw [hs] at h; simp at h
    | ok d =>
      rw [hs] at h
      simp only [] at h
      have hd := Rule.antecedentStrength_unit r inputs i d hin hs
      exact ih (i + 1) (min acc d) v ⟨le_min hacc.1 hd.1, le_trans (min_le_left _ _) hacc.2⟩ h

theorem Rule.calculateFiringStrength_unit (r r1 : Rule) (inputs : Registry)
    (hin : ∀ node ∈ inputs, 0 ≤ node.2.fuzzyStrength ∧ node.2.fuzzyStrength ≤ 1)
    (h : r.calculateFiringStrength inputs = .ok r1) :
    0 ≤ r1.firingStrength ∧ r1.firingStrength ≤ 1 := by
  unfold Rule.calculateFiringStrength at h
  cases hs : r.antecedentStrength inputs 0 with
  | error e => rw [hs] at h; simp at h
  | ok first =>
    rw [hs] at h
    simp only [] at h
    cases hl : r.firingLoop inputs (r.antecedentsCount - 1) 1 first with
    | error e => rw [hl] at h; simp at h
    | ok fs =>
      rw [hl] at h
      simp only [Except.ok.injEq] at h
      rw [← h]
      exact Rule.firingLoop_unit r inputs hin _ _ _ _
        (Rule.antecedentStrength_unit r inputs 0 first hin hs) hl

theorem FuzzyController.firingPhase_unit (inputs : Registry)
    (hin : ∀ node ∈ inputs, 0 ≤ node.2.fuzzyStrength ∧ node.2.fuzzyStrength ≤ 1) :
    ∀ (n i : Nat) (rules rules1 : List Rule),
      (∀ r ∈ rules, 0 ≤ r.firingStrength ∧ r.firingStrength ≤ 1) →
      FuzzyController.firingPhase inputs n i rules = .ok rules1 →
      ∀ r ∈ rules1, 0 ≤ r.firingStrength ∧ r.firingStrength ≤ 1 := by
  intro n
  induction n with
  | zero =>
    intro i rules rules1 hr h
    simp only [FuzzyController.firingPhase, Except.ok.injEq] at h
    rw [← h]; exact hr
  | succ n ih =>
    intro i rules rules1 hr h
    unfold FuzzyController.firingPhase at h
    cases hk : rules[i]? with
    | none => rw [hk] at h; simp at h
    | some r =>
      rw [hk] at h
      simp only [] at h
      cases hc : r.calculateFiringStrength inputs with
      | error e => rw [hc] at h; simp at h
      | ok r1 =>
        rw [hc] at h
        simp only [] at h
        refine ih (i + 1) (rules.set i r1) rules1 ?_ h
        intro x hx
        rcases List.mem_or_eq_of_mem_set hx with h1 | h1
        · exact hr x h1
        · rw [h1]; exact Rule.calculateFiringStrength_unit r r1 inputs hin hc


theorem Rule.getOutputStrengthLoop_unit (r : Rule) (g : Nat) (p : ℚ) :
    ∀ (n i : Nat) (outputs outputs1 : Registry) (v : ℚ),
      (∀ node ∈ outputs, 0 ≤ node.2.fuzzyStrength ∧ node.2.fuzzyStrength ≤ 1) →
      r.getOutputStrengthLoop g p n i outputs = .ok (v, outputs1) →
      ∀ node ∈ outputs1, 0 ≤ node.2.fuzzyStrength ∧ node.2.fuzzyStrength ≤ 1 := by
  intro n
  induction n with
  | zero =>
    intro i outputs outputs1 v ho h
    simp only [Rule.getOutputStrengthLoop, Except.ok.injEq, Prod.mk.injEq] at h
    rw [← h.2]; exact ho
  | succ n ih =>
    intro i outputs outputs1 v ho h
    unfold Rule.getOutputStrengthLoop at h
    cases hk : r.consequents[i]? with
    | none => rw [hk] at h; simp at h
    | some key =>
      rw [hk] at h
      simp only [] at h
      cases hf : outputs.find key with
      | none => rw [hf] at h; simp at h
      | some c =>
        rw [hf] at h
        simp only [] at h
        split_ifs at h with hg
        · simp only [Except.ok.injEq, Prod.mk.injEq] at h
          rw [← h.2]
          intro node hn
          rcases Registry.mem_store _ _ _ _ hn with h1 | h1
          · exact ho node h1
          · rw [h1]; exact MembershipFunction.calculateFuzzyStrength_unit c p
        · exact ih (i + 1) outputs outputs1 v ho h

theorem FuzzyController.aggregateLoop_unit (rules : List Rule) (g : Nat) (p : ℚ) :
    ∀ (n j : Nat) (cur v : ℚ) (outputs outputs1 : Registry),
      (∀ node ∈ outputs, 0 ≤ node.2.fuzzyStrength ∧ node.2.fuzzyStrength ≤ 1) →
      FuzzyController.aggregateLoop rules g p n j cur outputs = .ok (v, outputs1) →
      ∀ node ∈ outputs1, 0 ≤ node.2.fuzzyStrength ∧ node.2.fuzzyStrength ≤ 1 := by
  intro n
  induction n with
  | zero =>
    intro j cur v outputs outputs1 ho h
    simp only [FuzzyController.aggregateLoop, Except.ok.injEq, Prod.mk.injEq] at h
    rw [← h.2]; exact ho
  | succ n ih =>
    intro j cur v outputs outputs1 ho h
    unfold FuzzyController.aggregateLoop at h
    cases hk : rules[j]? with
    | none => rw [hk] at h; simp at h
    | some r =>
      rw [hk] at h
      simp only [] at h
      cases hs : r.getOutputStrength g p outputs with
      | error e => rw [hs] at h; simp at h
      | ok res =>
        obtain ⟨w, o1⟩ := res
        rw [hs] at h
        simp only [] at h
        exact ih (j + 1) _ v o1 outputs1
          (Rule.getOutputStrengthLoop_unit r g p _ _ outputs o1 w ho hs) h

theorem FuzzyController.sampleLoop_unit (rules : List Rule) (rulesCount g : Nat) (b δ : ℚ) :
    ∀ (fuel : Nat) (i num den : ℚ) (outputs : Registry) (res : ℚ × ℚ × Registry),
      (∀ node ∈ outputs, 0 ≤ node.2.fuzzyStrength ∧ node.2.fuzzyStrength ≤ 1) →
      FuzzyController.sampleLoop rules rulesCount g b δ fuel i num den outputs = .ok res →
      ∀ node ∈ res.2.2, 0 ≤ node.2.fuzzyStrength ∧ node.2.fuzzyStrength ≤ 1 := by
  intro fuel
  induction fuel with
  | zero =>
    intro i num den outputs res ho h
    simp [FuzzyController.sampleLoop] at h
  | succ fuel ih =>
    intro i num den outputs res ho h
    unfold FuzzyController.sampleLoop at h
    split_ifs at h with hg
    · cases ha : FuzzyController.aggregateLoop rules g i rulesCount 0 0 outputs with
      | error e => rw [ha] at h; simp at h
      | ok r =>
        obtain ⟨cur, o1⟩ := r
        rw [ha] at h
        simp only [] at h
        exact ih _ _ _ o1 res
          (FuzzyController.aggregateLoop_unit rules g i _ _ _ cur outputs o1 ho ha) h
    · simp only [Except.ok.injEq] at h
      rw [← h]; exact ho

theorem FuzzyController.addMembershipFunction_unit (c : FuzzyController) (name : String)
    (start topLeft topRight end_ : ℚ) (idx : Int) (kind : MembershipFunctionKind)
    (h : c.StrengthsInUnit) :
    (c.addMembershipFunction name start topLeft topRight end_ idx kind).StrengthsInUnit := by
  obtain ⟨hi, ho, hr⟩ := h
  have hnew : ∀ node : String × MembershipFunction,
      node.2 = MembershipFunction.new start topLeft topRight end_ idx →
      0 ≤ node.2.fuzzyStrength ∧ node.2.fuzzyStrength ≤ 1 := by
    intro node hn
    rw [hn]
    exact ⟨le_refl _, zero_le_one⟩
  cases kind with
  | INPUT_MEMBERSHIP_FUNCTION =>
    refine ⟨?_, ho, hr⟩
    intro node hn
    rcases Registry.mem_assign _ _ _ _ hn with h1 | h1
    · exact hi node h1
    · exact hnew node h1
  | OUTPUT_MEMBERSHIP_FUNCTION =>
    refine ⟨hi, ?_, hr⟩
    intro node hn
    rcases Registry.mem_assign _ _ _ _ hn with h1 | h1
    · exact ho node h1
    · exact hnew node h1

theorem FuzzyController.addRule_unit (c c1 : FuzzyController) (first : String)
    (args : List String) (h : c.StrengthsInUnit) (hc : c.addRule first args = .ok c1) :
    c1.StrengthsInUnit := by
  obtain ⟨hi, ho, hr⟩ := h
  unfold FuzzyController.addRule at hc
  split at hc
  · simp at hc
  · simp at hc
  · split at hc
    · simp at hc
    · simp only [Except.ok.injEq] at hc
      rw [← hc]
      refine ⟨hi, ho, ?_⟩
      intro r hmem
      rcases List.mem_append.mp hmem with h1 | h1
      · exact hr r h1
      · rw [List.mem_singleton.mp h1]
        exact ⟨le_refl _, zero_le_one⟩

theorem FuzzyController.fuzzify_unit (c c1 : FuzzyController) (x : ℚ) (args : List ℚ)
    (h : c.StrengthsInUnit) (hc : c.fuzzify x args = .ok c1) : c1.StrengthsInUnit := by
  obtain ⟨hi, ho, hr⟩ := h
  unfold FuzzyController.fuzzify at hc
  cases hl : FuzzyController.fuzzifyLoop args x kMinValidFuzzificationIndex
      c.inputMembershipFunctions with
  | error e => rw [hl] at hc; simp at hc
  | ok r =>
    rw [hl] at hc
    simp only [Except.ok.injEq] at hc
    rw [← hc]
    exact ⟨FuzzyController.fuzzifyLoop_unit args x _ _ r hl hi, ho, hr⟩

theorem FuzzyController.defuzzifyCentroid_unit (c c1 : FuzzyController) (fuel g : Nat)
    (a b d v : ℚ) (h : c.StrengthsInUnit)
    (hc : c.defuzzifyCentroid fuel g a b d = .ok (v, c1)) : c1.StrengthsInUnit := by
  obtain ⟨hi, ho, hr⟩ := h
  unfold FuzzyController.defuzzifyCentroid at hc
  cases hf : FuzzyController.firingPhase c.inputMembershipFunctions c.rulesCount 0 c.rules with
  | error e => rw [hf] at hc; simp at hc
  | ok rules =>
    rw [hf] at hc
    simp only [] at hc
    split_ifs at hc with hd
    cases hs : FuzzyController.sampleLoop rules c.rulesCount g b ((b - a) / d) fuel a 0 0
        c.outputMembershipFunctions with
    | error e => rw [hs] at hc; simp at hc
    | ok res =>
      obtain ⟨num, den, outs⟩ := res
      rw [hs] at hc
      simp only [Except.ok.injEq, Prod.mk.injEq] at hc
      rw [← hc.2]
      exact ⟨hi,
        FuzzyController.sampleLoop_unit rules _ g b _ fuel a 0 0 _ (num, den, outs) ho hs,
        FuzzyController.firingPhase_unit _ hi _ _ _ rules hr hf⟩

theorem FuzzyController.Reachable.strengthsInUnit {c : FuzzyController} (h : c.Reachable) :
    c.StrengthsInUnit := by
  induction h with
  | new =>
    refine ⟨?_, ?_, ?_⟩ <;> intro x hx <;> simp [FuzzyController.new] at hx
  | addMembershipFunction c name start topLeft topRight end_ idx kind _ ih =>
    exact FuzzyController.addMembershipFunction_unit c name start topLeft topRight end_ idx
      kind ih
  | addRule c c1 first args _ hc ih => exact FuzzyController.addRule_unit c c1 first args ih hc
  | fuzzify c c1 x args _ hc ih => exact FuzzyController.fuzzify_unit c c1 x args ih hc
  | defuzzifyCentroid c c1 fuel g a b d v _ hc ih =>
    exact FuzzyController.defuzzifyCentroid_unit c c1 fuel g a b d v ih hc

end fuzzy

namespace ActGen_DirectPassSpeed

open fuzzy

theorem initRuleBase_reachable (c c1 : FuzzyController) (h : c.Reachable)
    (hc : initRuleBase c = .ok c1) : c1.Reachable := by
  unfold initRuleBase at hc
  cases h1 : c.addRule "distanceLow" [kRuleImplies, "speedLow", kRuleEnd] with
  | error e => rw [h1] at hc; simp at hc
  | ok c2 =>
    rw [h1] at hc
    exact FuzzyController.Reachable.addRule c2 c1 _ _
      (FuzzyController.Reachable.addRule c c2 _ _ h h1) hc

theorem constructed_reachable : constructed.Reachable := by
  have h0 : (initMembershipFunctions FuzzyController.new).Reachable := by
    unfold initMembershipFunctions
    exact FuzzyController.Reachable.addMembershipFunction _ _ _ _ _ _ _ _
      (FuzzyController.Reachable.addMembershipFunction _ _ _ _ _ _ _ _
        (FuzzyController.Reachable.addMembershipFunction _ _ _ _ _ _ _ _
          (FuzzyController.Reachable.addMembershipFunction _ _ _ _ _ _ _ _
            FuzzyController.Reachable.new)))
  exact initRuleBase_reachable _ _ h0 construct_eq

theorem fuzzifiedAtTwo_reachable : fuzzifiedAtTwo.Reachable :=
  FuzzyController.Reachable.fuzzify constructed fuzzifiedAtTwo 2 [numericLimitsMax]
    constructed_reachable fuzzify_two

end ActGen_DirectPassSpeed

namespace fuzzy

/-- C16: in every controller state reachable from the empty controller by calls of
`addMembershipFunction`, `addRule`, `fuzzify` and `defuzzifyCentroid` that return, with
arbitrary arguments (any shapes, ordered or not), the degree of every input and output
membership function and the firing strength of every rule lie in `[0, 1]`. -/
theorem reachable_strengths_in_unit (c : FuzzyController) (h : c.Reachable) :
    (∀ node ∈ c.inputMembershipFunctions,
      0 ≤ node.2.fuzzyStrength ∧ node.2.fuzzyStrength ≤ 1) ∧
    (∀ node ∈ c.outputMembershipFunctions,
      0 ≤ node.2.fuzzyStrength ∧ node.2.fuzzyStrength ≤ 1) ∧
    (∀ r ∈ c.rules, 0 ≤ r.firingStrength ∧ r.firingStrength ≤ 1) :=
  FuzzyController.Reachable.strengthsInUnit h

/-- Witness for C16: the pass-speed controller after construction and `fuzzify(2, max)`. -/
theorem reachable_strengths_in_unit_witness :
    (∀ node ∈ ActGen_DirectPassSpeed.fuzzifiedAtTwo.inputMembershipFunctions,
      0 ≤ node.2.fuzzyStrength ∧ node.2.fuzzyStrength ≤ 1) ∧
    (∀ node ∈ ActGen_DirectPassSpeed.fuzzifiedAtTwo.outputMembershipFunctions,
      0 ≤ node.2.fuzzyStrength ∧ node.2.fuzzyStrength ≤ 1) ∧
    (∀ r ∈ ActGen_DirectPassSpeed.fuzzifiedAtTwo.rules,
      0 ≤ r.firingStrength ∧ r.firingStrength ≤ 1) :=
  reachable_strengths_in_unit ActGen_DirectPassSpeed.fuzzifiedAtTwo
    ActGen_DirectPassSpeed.fuzzifiedAtTwo_reachable


namespace LowHigh

/-! ## The two-rule Low/High configurations -/

theorem configure_eq (lo hi outLo outHi : ℚ) :
    configure lo hi outLo outHi = .ok (state lo hi outLo outHi 0 0) := by
  simp [configure, FuzzyController.addMembershipFunction, FuzzyController.addRule,
    FuzzyController.collectNames, Registry.assign, Registry.find, FuzzyController.new,
    kRuleImplies, kRuleEnd, state, MembershipFunction.new]

theorem state_valid (lo hi outLo outHi dl dh : ℚ) : (state lo hi outLo outHi dl dh).Valid := by
  simp [FuzzyController.Valid, Rule.Bound, state, Rule.new, Registry.find]

theorem state_antecedents_ne (lo hi outLo outHi dl dh : ℚ) :
    ∀ r ∈ (state lo hi outLo outHi dl dh).rules, r.antecedents ≠ [] := by
  simp [state, Rule.new]

theorem fuzzify_state (lo hi outLo outHi dl dh x : ℚ) (hx : x ≠ numericLimitsMax) :
    (state lo hi outLo outHi dl dh).fuzzify x [numericLimitsMax] =
      .ok (state lo hi outLo outHi (specDegree (MembershipFunction.new lo lo lo hi 1) x)
        (specDegree (MembershipFunction.new lo hi hi hi 1) x)) := by
  have hloop := FuzzyController.fuzzifyLoop_eq [] x kMinValidFuzzificationIndex
    (state lo hi outLo outHi dl dh).inputMembershipFunctions
    (by intro y hy; rw [List.mem_singleton.mp hy]; exact hx)
    (by simp [kMinValidFuzzificationIndex, intMax])
  simp only [List.nil_append] at hloop
  unfold FuzzyController.fuzzify
  rw [hloop]
  simp [state, specFuzzifiedNode, kMinValidFuzzificationIndex, MembershipFunction.new]
  constructor <;> rfl

theorem lowShoulder_degree (a b : ℚ) (idx : Int) (hab : a < b) (n : ℕ) (hn : 0 < n) (t : ℚ)
    (h0 : 0 ≤ t) (h1 : t ≤ n) :
    specDegree (MembershipFunction.new a a a b idx) (a + t * ((b - a) / n)) = 1 - t / n := by
  have hnq : (0 : ℚ) < n := by exact_mod_cast hn
  have hδ : 0 < (b - a) / n := div_pos (by linarith) hnq
  have hfull : (n : ℚ) * ((b - a) / n) = b - a := by field_simp
  have hle : t * ((b - a) / n) ≤ b - a := by
    have := mul_le_mul_of_nonneg_right h1 hδ.le
    rw [hfull] at this
    exact this
  have hge : 0 ≤ t * ((b - a) / n) := mul_nonneg h0 hδ.le
  unfold specDegree MembershipFunction.new
  simp only []
  rw [if_neg (by
    intro h
    rcases h with h | h
    · linarith
    · linarith)]
  by_cases ht : t = 0
  · subst ht; simp
  · have htp : 0 < t := lt_of_le_of_ne h0 (Ne.symm ht)
    have hpos : 0 < t * ((b - a) / n) := mul_pos htp hδ
    rw [if_neg (by intro h; linarith [h.2]), if_neg (by intro h; linarith)]
    have hba : b - a ≠ 0 := by linarith
    field_simp
    ring

theorem highShoulder_degree (a b : ℚ) (idx : Int) (hab : a < b) (n : ℕ) (hn : 0 < n) (t : ℚ)
    (h0 : 0 ≤ t) (h1 : t ≤ n) :
    specDegree (MembershipFunction.new a b b b idx) (a + t * ((b - a) / n)) = t / n := by
  have hnq : (0 : ℚ) < n := by exact_mod_cast hn
  have hδ : 0 < (b - a) / n := div_pos (by linarith) hnq
  have hfull : (n : ℚ) * ((b - a) / n) = b - a := by field_simp
  have hle : t * ((b - a) / n) ≤ b - a := by
    have := mul_le_mul_of_nonneg_right h1 hδ.le
    rw [hfull] at this
    exact this
  have hge : 0 ≤ t * ((b - a) / n) := mul_nonneg h0 hδ.le
  unfold specDegree MembershipFunction.new
  simp only []
  rw [if_neg (by
    intro h
    rcases h with h | h
    · linarith
    · linarith)]
  by_cases ht : t = n
  · subst ht
    rw [hfull, if_pos (by constructor <;> linarith)]
    field_simp
  · have htp : t < n := lt_of_le_of_ne h1 ht
    have hlt : t * ((b - a) / n) < b - a := by
      have := mul_lt_mul_of_pos_right htp hδ
      rw [hfull] at this
      exact this
    rw [if_neg (by intro h; linarith [h.1]), if_pos (by linarith)]
    have hba : b - a ≠ 0 := by linarith
    field_simp
    ring

theorem state_agg (lo hi outLo outHi dl dh p : ℚ) :
    specAggregated (state lo hi outLo outHi dl dh) 1 p =
      max (max 0 (min dl (specDegree (MembershipFunction.new outLo outLo outLo outHi 1) p)))
        (min dh (specDegree (MembershipFunction.new outLo outHi outHi outHi 1) p)) := by
  simp [specAggregated, state, specFiringStrength, specMinimum, Rule.antecedentDegrees,
    Rule.consequentFunctions, Rule.new, Registry.find, specOutputStrength,
    MembershipFunction.new, toUnsigned]

theorem state_agg_sample (lo hi outLo outHi dl dh : ℚ) (hout : outLo < outHi) (n : ℕ)
    (hn : 0 < n) (k : ℕ) (hk : k ≤ n) :
    specAggregated (state lo hi outLo outHi dl dh) 1 (specSample outLo outHi n k) =
      weight dl dh n k := by
  have h0 : (0 : ℚ) ≤ k := Nat.cast_nonneg k
  have h1 : (k : ℚ) ≤ n := by exact_mod_cast hk
  rw [state_agg]
  unfold specSample weight
  rw [lowShoulder_degree outLo outHi 1 hout n hn k h0 h1,
    highShoulder_degree outLo outHi 1 hout n hn k h0 h1]

theorem state_denominator (lo hi outLo outHi dl dh : ℚ) (hout : outLo < outHi) (n : ℕ)
    (hn : 0 < n) :
    specDenominator (state lo hi outLo outHi dl dh) 1 outLo outHi n = weightSum dl dh n := by
  unfold specDenominator weightSum
  apply Finset.sum_congr rfl
  intro k hk
  exact state_agg_sample lo hi outLo outHi dl dh hout n hn k
    (by have := Finset.mem_range.mp hk; omega)

theorem state_numerator (lo hi outLo outHi dl dh : ℚ) (hout : outLo < outHi) (n : ℕ)
    (hn : 0 < n) :
    specNumerator (state lo hi outLo outHi dl dh) 1 outLo outHi n =
      outLo * weightSum dl dh n + (outHi - outLo) / n * weightMoment dl dh n := by
  unfold specNumerator weightSum weightMoment
  rw [Finset.mul_sum, Finset.mul_sum, ← Finset.sum_add_distrib]
  apply Finset.sum_congr rfl
  intro k hk
  rw [state_agg_sample lo hi outLo outHi dl dh hout n hn k
    (by have := Finset.mem_range.mp hk; omega)]
  unfold specSample
  ring

theorem weight_nonneg (fl fh : ℚ) (n k : ℕ) : 0 ≤ weight fl fh n k :=
  le_trans (le_max_left 0 _) (le_max_left _ _)

theorem weightSum_pos (fl fh : ℚ) (n : ℕ) (h : 0 < fl) : 0 < weightSum fl fh n := by
  unfold weightSum
  apply Finset.sum_pos'
  · intro k _; exact weight_nonneg fl fh n k
  · refine ⟨0, Finset.mem_range.mpr (by omega), ?_⟩
    unfold weight
    have : (0 : ℚ) < min fl (1 - ((0 : ℕ) : ℚ) / n) := by
      simp only [Nat.cast_zero, zero_div, sub_zero]
      exact lt_min h one_pos
    exact lt_of_lt_of_le this (le_trans (le_max_right 0 _) (le_max_left _ _))


/-! ## Monotonicity of the centroid in the firing strength -/

theorem prod_max_le (a1 a2 b1 b2 c1 c2 d1 d2 : ℚ) (hc1 : 0 ≤ c1) (_hc2 : 0 ≤ c2)
    (hd1 : 0 ≤ d1) (hd2 : 0 ≤ d2)
    (h11 : a1 * b1 ≤ c1 * d1 ∨ a1 * b1 ≤ c1 * d2 ∨ a1 * b1 ≤ c2 * d1 ∨ a1 * b1 ≤ c2 * d2)
    (h12 : a1 * b2 ≤ c1 * d1 ∨ a1 * b2 ≤ c1 * d2 ∨ a1 * b2 ≤ c2 * d1 ∨ a1 * b2 ≤ c2 * d2)
    (h21 : a2 * b1 ≤ c1 * d1 ∨ a2 * b1 ≤ c1 * d2 ∨ a2 * b1 ≤ c2 * d1 ∨ a2 * b1 ≤ c2 * d2)
    (h22 : a2 * b2 ≤ c1 * d1 ∨ a2 * b2 ≤ c1 * d2 ∨ a2 * b2 ≤ c2 * d1 ∨ a2 * b2 ≤ c2 * d2) :
    max a1 a2 * max b1 b2 ≤ max c1 c2 * max d1 d2 := by
  have hC1 : c1 ≤ max c1 c2 := le_max_left _ _
  have hC2 : c2 ≤ max c1 c2 := le_max_right _ _
  have hD1 : d1 ≤ max d1 d2 := le_max_left _ _
  have hD2 : d2 ≤ max d1 d2 := le_max_right _ _
  have hC : 0 ≤ max c1 c2 := le_trans hc1 hC1
  have hD : 0 ≤ max d1 d2 := le_trans hd1 hD1
  have k11 : c1 * d1 ≤ max c1 c2 * max d1 d2 := mul_le_mul hC1 hD1 hd1 hC
  have k12 : c1 * d2 ≤ max c1 c2 * max d1 d2 := mul_le_mul hC1 hD2 hd2 hC
  have k21 : c2 * d1 ≤ max c1 c2 * max d1 d2 := mul_le_mul hC2 hD1 hd1 hC
  have k22 : c2 * d2 ≤ max c1 c2 * max d1 d2 := mul_le_mul hC2 hD2 hd2 hC
  have g : ∀ x : ℚ, (x ≤ c1 * d1 ∨ x ≤ c1 * d2 ∨ x ≤ c2 * d1 ∨ x ≤ c2 * d2) →
      x ≤ max c1 c2 * max d1 d2 := by
    intro x hx
    rcases hx with h | h | h | h
    · exact le_trans h k11
    · exact le_trans h k12
    · exact le_trans h k21
    · exact le_trans h k22
  rcases max_choice a1 a2 with h | h <;> rcases max_choice b1 b2 with h' | h' <;>
    rw [h, h']
  · exact g _ h11
  · exact g _ h12
  · exact g _ h21
  · exact g _ h22

theorem tp2_core (s t h h' : ℚ) (hs : 0 ≤ s) (hst : s ≤ t) (ht : t ≤ 1)
    (hh : 0 ≤ h) (hhh : h ≤ h') (hh' : h' ≤ 1) :
    max (1 - max h' s) (min h' s) * max (1 - max h t) (min h t) ≤
      max (1 - max h s) (min h s) * max (1 - max h' t) (min h' t) := by
  rcases le_total t h with c1 | c1
  · -- s ≤ t ≤ h ≤ h'
    rw [max_eq_left (show s ≤ h' by linarith), min_eq_right (show s ≤ h' by linarith),
      max_eq_left c1, min_eq_right c1, max_eq_left (show s ≤ h by linarith),
      min_eq_right (show s ≤ h by linarith), max_eq_left (show t ≤ h' by linarith),
      min_eq_right (show t ≤ h' by linarith)]
    exact prod_max_le _ _ _ _ _ _ _ _ (by linarith) hs (by linarith) (by linarith)
      (Or.inl (by nlinarith)) (Or.inr (Or.inl (by nlinarith)))
      (Or.inr (Or.inl (by nlinarith))) (Or.inr (Or.inr (Or.inr (by nlinarith))))
  · rcases le_total s h with c2 | c2
    · rcases le_total t h' with c3 | c3
      · -- s ≤ h ≤ t ≤ h'
        rw [max_eq_left (show s ≤ h' by linarith), min_eq_right (show s ≤ h' by linarith),
          max_eq_right c1, min_eq_left c1, max_eq_left c2, min_eq_right c2,
          max_eq_left c3, min_eq_right c3]
        exact prod_max_le _ _ _ _ _ _ _ _ (by linarith) hs (by linarith) (by linarith)
          (Or.inl (by nlinarith)) (Or.inr (Or.inl (by nlinarith)))
          (Or.inr (Or.inl (by nlinarith))) (Or.inr (Or.inr (Or.inr (by nlinarith))))
      · -- s ≤ h ≤ h' ≤ t
        rw [max_eq_left (show s ≤ h' by linarith), min_eq_right (show s ≤ h' by linarith),
          max_eq_right c1, min_eq_left c1, max_eq_left c2, min_eq_right c2,
          max_eq_right c3, min_eq_left c3]
        exact prod_max_le _ _ _ _ _ _ _ _ (by linarith) hs (by linarith) (by linarith)
          (Or.inl (by nlinarith)) (Or.inr (Or.inl (by nlinarith)))
          (Or.inr (Or.inl (by nlinarith))) (Or.inr (Or.inr (Or.inr (by nlinarith))))
    · rcases le_total t h' with c3 | c3
      · -- h ≤ s ≤ t ≤ h'
        rw [max_eq_left (show s ≤ h' by linarith), min_eq_right (show s ≤ h' by linarith),
          max_eq_right c1, min_eq_left c1, max_eq_right c2, min_eq_left c2,
          max_eq_left c3, min_eq_right c3]
        exact prod_max_le _ _ _ _ _ _ _ _ (by linarith) hh (by linarith) (by linarith)
          (Or.inl (by nlinarith)) (Or.inr (Or.inr (Or.inl (by nlinarith))))
          (Or.inr (Or.inl (by nlinarith))) (Or.inr (Or.inr (Or.inr (by nlinarith))))
      · rcases le_total s h' with c4 | c4
        · -- h ≤ s ≤ h' ≤ t
          rw [max_eq_left c4, min_eq_right c4, max_eq_right c1, min_eq_left c1,
            max_eq_right c2, min_eq_left c2, max_eq_right c3, min_eq_left c3]
          exact prod_max_le _ _ _ _ _ _ _ _ (by linarith) hh (by linarith) (by linarith)
            (Or.inl (by nlinarith)) (Or.inr (Or.inl (by nlinarith)))
            (Or.inr (Or.inl (by nlinarith))) (Or.inr (Or.inr (Or.inr (by nlinarith))))
        · -- h ≤ h' ≤ s ≤ t
          rw [max_eq_right c4, min_eq_left c4, max_eq_right c1, min_eq_left c1,
            max_eq_right c2, min_eq_left c2, max_eq_right c3, min_eq_left c3]
          exact prod_max_le _ _ _ _ _ _ _ _ (by linarith) hh (by linarith) (by linarith)
            (Or.inl (by nlinarith)) (Or.inr (Or.inl (by nlinarith)))
            (Or.inr (Or.inl (by nlinarith))) (Or.inr (Or.inr (Or.inr (by nlinarith))))

theorem weight_eq (h : ℚ) (_hh0 : 0 ≤ h) (hh1 : h ≤ 1) (n k : ℕ) (hn : 0 < n) (hk : k ≤ n) :
    weight (1 - h) h n k =
      max (1 - max h ((k : ℚ) / n)) (min h ((k : ℚ) / n)) := by
  have hnq : (0 : ℚ) < n := by exact_mod_cast hn
  have ht1 : (k : ℚ) / n ≤ 1 := by
    rw [div_le_one hnq]; exact_mod_cast hk
  unfold weight
  rw [min_sub_sub_left, max_eq_right (show (0 : ℚ) ≤ 1 - max h ((k : ℚ) / n) by
    have := max_le hh1 ht1
    linarith)]

theorem weight_tp2 (h h' : ℚ) (hh : 0 ≤ h) (hhh : h ≤ h') (hh' : h' ≤ 1) (n : ℕ) (hn : 0 < n)
    (k j : ℕ) (hkj : k ≤ j) (hj : j ≤ n) :
    weight (1 - h') h' n k * weight (1 - h) h n j ≤
      weight (1 - h) h n k * weight (1 - h') h' n j := by
  have hnq : (0 : ℚ) < n := by exact_mod_cast hn
  have hs : (0 : ℚ) ≤ (k : ℚ) / n := div_nonneg (Nat.cast_nonneg k) hnq.le
  have hst : (k : ℚ) / n ≤ (j : ℚ) / n :=
    div_le_div_of_nonneg_right (by exact_mod_cast hkj) hnq.le
  have ht : (j : ℚ) / n ≤ 1 := by
    rw [div_le_one hnq]; exact_mod_cast hj
  rw [weight_eq h' (le_trans hh hhh) hh' n k hn (le_trans hkj hj),
    weight_eq h hh (le_trans hhh hh') n j hn hj,
    weight_eq h hh (le_trans hhh hh') n k hn (le_trans hkj hj),
    weight_eq h' (le_trans hh hhh) hh' n j hn hj]
  exact tp2_core _ _ h h' hs hst ht hh hhh hh'

theorem moment_mul_sum_le (w w' : ℕ → ℚ) (n : ℕ)
    (htp : ∀ k j, k ≤ j → j ≤ n → w' k * w j ≤ w k * w' j) :
    (Finset.sum (Finset.range (n + 1)) fun k => (k : ℚ) * w k) *
        (Finset.sum (Finset.range (n + 1)) fun k => w' k) ≤
      (Finset.sum (Finset.range (n + 1)) fun k => (k : ℚ) * w' k) *
        (Finset.sum (Finset.range (n + 1)) fun k => w k) := by
  have e1 : (Finset.sum (Finset.range (n + 1)) fun k => (k : ℚ) * w' k) *
        (Finset.sum (Finset.range (n + 1)) fun k => w k) -
      (Finset.sum (Finset.range (n + 1)) fun k => (k : ℚ) * w k) *
        (Finset.sum (Finset.range (n + 1)) fun k => w' k) =
      Finset.sum (Finset.range (n + 1)) fun j =>
        Finset.sum (Finset.range (n + 1)) fun k => (j : ℚ) * (w' j * w k - w j * w' k) := by
    rw [Finset.sum_mul_sum, Finset.sum_mul_sum, ← Finset.sum_sub_distrib]
    apply Finset.sum_congr rfl
    intro j _
    rw [← Finset.sum_sub_distrib]
    apply Finset.sum_congr rfl
    intro k _
    ring
  have e2 : (Finset.sum (Finset.range (n + 1)) fun j =>
        Finset.sum (Finset.range (n + 1)) fun k => (j : ℚ) * (w' j * w k - w j * w' k)) =
      Finset.sum (Finset.range (n + 1)) fun j =>
        Finset.sum (Finset.range (n + 1)) fun k => (k : ℚ) * (w' k * w j - w k * w' j) :=
    Finset.sum_comm
  have e3 : 0 ≤ (Finset.sum (Finset.range (n + 1)) fun j =>
        Finset.sum (Finset.range (n + 1)) fun k => (j : ℚ) * (w' j * w k - w j * w' k)) +
      (Finset.sum (Finset.range (n + 1)) fun j =>
        Finset.sum (Finset.range (n + 1)) fun k => (k : ℚ) * (w' k * w j - w k * w' j)) := by
    rw [← Finset.sum_add_distrib]
    apply Finset.sum_nonneg
    intro j hj
    rw [← Finset.sum_add_distrib]
    apply Finset.sum_nonneg
    intro k hk
    have hjn : j ≤ n := by have := Finset.mem_range.mp hj; omega
    have hkn : k ≤ n := by have := Finset.mem_range.mp hk; omega
    have key : (j : ℚ) * (w' j * w k - w j * w' k) + (k : ℚ) * (w' k * w j - w k * w' j) =
        ((j : ℚ) - k) * (w' j * w k - w j * w' k) := by ring
    rw [key]
    rcases le_total k j with hkj | hjk
    · have h1 := htp k j hkj hjn
      have h2 : (0 : ℚ) ≤ (j : ℚ) - k := by
        have : (k : ℚ) ≤ j := by exact_mod_cast hkj
        linarith
      exact mul_nonneg h2 (by linarith)
    · have h1 := htp j k hjk hkn
      have h2 : (j : ℚ) - k ≤ 0 := by
        have : (j : ℚ) ≤ k := by exact_mod_cast hjk
        linarith
      exact mul_nonneg_of_nonpos_of_nonpos h2 (by linarith)
  rw [← e2] at e3
  linarith

theorem centroid_le (h h' : ℚ) (hh : 0 ≤ h) (hhh : h ≤ h') (hh' : h' < 1) (n : ℕ) (hn : 0 < n) :
    weightMoment (1 - h) h n / weightSum (1 - h) h n ≤
      weightMoment (1 - h') h' n / weightSum (1 - h') h' n := by
  have hW : 0 < weightSum (1 - h) h n := weightSum_pos _ _ n (by linarith)
  have hW' : 0 < weightSum (1 - h') h' n := weightSum_pos _ _ n (by linarith)
  rw [div_le_div_iff₀ hW hW']
  exact moment_mul_sum_le (fun k => weight (1 - h) h n k) (fun k => weight (1 - h') h' n k) n
    (fun k j hkj hj => weight_tp2 h h' hh hhh hh'.le n hn k j hkj hj)

theorem weight_symm (f : ℚ) (n k : ℕ) (hn : 0 < n) (hk : k ≤ n) :
    weight f f n (n - k) = weight f f n k := by
  have hnq : (n : ℚ) ≠ 0 := by exact_mod_cast hn.ne'
  have e : (((n - k : ℕ) : ℚ)) / n = 1 - (k : ℚ) / n := by
    rw [Nat.cast_sub hk]
    field_simp
  unfold weight
  rw [e, sub_sub_cancel, max_assoc, max_assoc, max_comm (min f ((k : ℚ) / n))]

theorem weightMoment_symm (f : ℚ) (n : ℕ) (hn : 0 < n) :
    2 * weightMoment f f n = n * weightSum f f n := by
  have hrefl : weightMoment f f n =
      Finset.sum (Finset.range (n + 1)) fun k => ((n : ℚ) - k) * weight f f n k := by
    unfold weightMoment
    rw [← Finset.sum_range_reflect]
    apply Finset.sum_congr rfl
    intro k hk
    have hkn : k ≤ n := by have := Finset.mem_range.mp hk; omega
    have e : n + 1 - 1 - k = n - k := by omega
    rw [e, weight_symm f n k hn hkn, Nat.cast_sub hkn]
  have : weightMoment f f n + weightMoment f f n = n * weightSum f f n := by
    nth_rewrite 2 [hrefl]
    unfold weightMoment weightSum
    rw [← Finset.sum_add_distrib, Finset.mul_sum]
    apply Finset.sum_congr rfl
    intro k _
    ring
  linarith

end LowHigh

end fuzzy

namespace ActGen_DirectPassSpeed

open fuzzy

/-! ## The pass speed as a weighted centroid -/

theorem fuzzifiedAt_eq_state (d : ℚ) :
    fuzzifiedAt d = LowHigh.state 1 21 (81 / 100) (331 / 100)
      (specDegree (MembershipFunction.new 1 1 1 21 1) d)
      (specDegree (MembershipFunction.new 1 21 21 21 1) d) := rfl

theorem distanceLow_degree (d : ℚ) (h2 : 2 ≤ d) (h20 : d ≤ 20) :
    specDegree (MembershipFunction.new 1 1 1 21 1) d = 1 - (d - 1) / 20 := by
  unfold specDegree MembershipFunction.new
  simp only []
  rw [if_neg (by
    intro h
    rcases h with h | h
    · linarith
    · linarith), if_neg (by intro h; linarith [h.2]), if_neg (by intro h; linarith)]
  ring

theorem distanceHigh_degree (d : ℚ) (h2 : 2 ≤ d) (h20 : d ≤ 20) :
    specDegree (MembershipFunction.new 1 21 21 21 1) d = (d - 1) / 20 := by
  unfold specDegree MembershipFunction.new
  simp only []
  rw [if_neg (by
    intro h
    rcases h with h | h
    · linarith
    · linarith), if_neg (by intro h; linarith [h.1]), if_pos (by linarith)]
  norm_num

theorem trimmedDistance_mono (d1 d2 : ℚ) (h : d1 ≤ d2) :
    trimmedDistance d1 ≤ trimmedDistance d2 := by
  unfold trimmedDistance
  rw [trimNumeric_eq, trimNumeric_eq]
  unfold kMinDistance kMaxDistance
  dsimp only
  split_ifs <;> linarith

theorem getDirectPassSpeed_value (singleton : Option FuzzyController)
    (hS : StaticInvariant singleton) (distance : ℚ) (steps : ℕ) (hsteps : 0 < steps)
    (fuel : Nat) (hfuel : steps + 2 ≤ fuel) :
    ∃ c1, getDirectPassSpeed fuel singleton distance steps =
        .ok (81 / 100 + (331 / 100 - 81 / 100) / steps *
            (LowHigh.weightMoment (1 - (trimmedDistance distance - 1) / 20)
                ((trimmedDistance distance - 1) / 20) steps /
              LowHigh.weightSum (1 - (trimmedDistance distance - 1) / 20)
                ((trimmedDistance distance - 1) / 20) steps),
          some c1) ∧
      c1.SameConfiguration constructed := by
  obtain ⟨c1, h1, h2⟩ := getDirectPassSpeed_closed singleton hS distance steps hsteps fuel hfuel
  refine ⟨c1, ?_, h2⟩
  obtain ⟨hb1, hb2⟩ := trimmed_bounds distance
  have hout : (81 / 100 : ℚ) < 331 / 100 := by norm_num
  have hW : 0 < LowHigh.weightSum (1 - (trimmedDistance distance - 1) / 20)
      ((trimmedDistance distance - 1) / 20) steps :=
    LowHigh.weightSum_pos _ _ steps (by linarith)
  have hsq : (steps : ℚ) ≠ 0 := by exact_mod_cast hsteps.ne'
  rw [fuzzifiedAt_eq_state, distanceLow_degree _ hb1 hb2, distanceHigh_degree _ hb1 hb2] at h1
  unfold kMinSpeed kMaxSpeed at h1
  rw [LowHigh.state_numerator _ _ _ _ _ _ hout steps hsteps,
    LowHigh.state_denominator _ _ _ _ _ _ hout steps hsteps, if_neg hW.ne'] at h1
  have alg : ∀ a δ K W : ℚ, W ≠ 0 → (a * W + δ * K) / W = a + δ * (K / W) := by
    intro a δ K W hWne
    field_simp
  rw [h1, alg _ _ _ _ hW.ne']


/-! ## The pass speed at distance 21 -/

theorem trimmedDistance_twentyOne : trimmedDistance 21 = 20 := by
  unfold trimmedDistance
  rw [trimNumeric_eq]
  norm_num [kMinDistance, kMaxDistance]

theorem weightSum_high : LowHigh.weightSum (1 - (20 - 1) / 20) ((20 - 1) / 20) 8 = 9 / 2 := by
  unfold LowHigh.weightSum
  simp only [Finset.sum_range_succ, Finset.sum_range_zero, LowHigh.weight]
  norm_num [min_def, max_def]

theorem weightMoment_high :
    LowHigh.weightMoment (1 - (20 - 1) / 20) ((20 - 1) / 20) 8 = 251 / 10 := by
  unfold LowHigh.weightMoment
  simp only [Finset.sum_range_succ, Finset.sum_range_zero, LowHigh.weight]
  norm_num [min_def, max_def]

theorem getDirectPassSpeed_twentyOne (singleton : Option FuzzyController)
    (hS : StaticInvariant singleton) (fuel : Nat) (hfuel : 10 ≤ fuel) :
    ∃ c1, getDirectPassSpeed fuel singleton 21 8 = .ok (9191 / 3600, some c1) ∧
      c1.SameConfiguration constructed := by
  obtain ⟨c1, h1, h2⟩ := getDirectPassSpeed_value singleton hS 21 8 (by decide) fuel hfuel
  refine ⟨c1, ?_, h2⟩
  rw [trimmedDistance_twentyOne, weightSum_high, weightMoment_high, Nat.cast_ofNat] at h1
  rw [h1]
  norm_num

/-- C11, counterexample: on first use `getDirectPassSpeed(21.0)` with `steps = 8` returns
`9191/3600` (about 2.553), which is farther than one sample step `0.3125` from `3.31`. -/
theorem getDirectPassSpeed_twentyOne_counterexample :
    (getDirectPassSpeed 10 none 21 8).map Prod.fst = .ok (9191 / 3600) ∧
      ¬ (|(9191 / 3600 : ℚ) - 331 / 100| ≤ (331 / 100 - 81 / 100) / 8) := by
  obtain ⟨c1, h1, _⟩ := getDirectPassSpeed_twentyOne none (Or.inl rfl) 10 (le_refl _)
  refine ⟨by rw [h1]; rfl, ?_⟩
  rw [abs_of_nonpos (by norm_num)]
  norm_num

/-- C11, amended: in the direct-pass-speed configuration with `steps = 8`, in every state
of the function-local static and given fuel for the ten evaluations of the loop guard,
`getDirectPassSpeed(21.0)` returns `3.31 - 109/144 = 9191/3600`, which is within three
sample steps `3 * 0.3125` of `3.31`. -/
theorem getDirectPassSpeed_twentyOne_value (singleton : Option FuzzyController)
    (hS : StaticInvariant singleton) (fuel : Nat) (hfuel : 10 ≤ fuel) :
    (getDirectPassSpeed fuel singleton 21 8).map Prod.fst = .ok (331 / 100 - 109 / 144) ∧
      |(331 / 100 - 109 / 144 : ℚ) - 331 / 100| ≤ 3 * ((331 / 100 - 81 / 100) / 8) := by
  obtain ⟨c1, h1, _⟩ := getDirectPassSpeed_twentyOne singleton hS fuel hfuel
  refine ⟨?_, ?_⟩
  · rw [h1]
    norm_num [Except.map]
  · rw [abs_of_nonpos (by norm_num)]
    norm_num

/-- Witness for the amended C11: the first call, with fuel 10. -/
theorem getDirectPassSpeed_twentyOne_value_witness :
    (getDirectPassSpeed 10 none 21 8).map Prod.fst = .ok (331 / 100 - 109 / 144) ∧
      |(331 / 100 - 109 / 144 : ℚ) - 331 / 100| ≤ 3 * ((331 / 100 - 81 / 100) / 8) :=
  getDirectPassSpeed_twentyOne_value none (Or.inl rfl) 10 (by decide)

/-! ## Monotonicity of the pass speed -/

/-- C13: for the two-rule Low/High direct-pass-speed configuration and every positive
integer `steps`, the output is non-decreasing in the input over the whole domain: for all
distances `d1 ≤ d2`, in any states of the function-local static and given fuel for the
`steps + 2` guard evaluations, both calls return and
`getDirectPassSpeed(d1, steps) ≤ getDirectPassSpeed(d2, steps)` (the clamp included). -/
theorem getDirectPassSpeed_monotone (s1 s2 : Option FuzzyController)
    (hS1 : StaticInvariant s1) (hS2 : StaticInvariant s2) (d1 d2 : ℚ) (hd : d1 ≤ d2)
    (steps : ℕ) (hsteps : 0 < steps) (fuel1 fuel2 : Nat) (hf1 : steps + 2 ≤ fuel1)
    (hf2 : steps + 2 ≤ fuel2) :
    ∃ v1 v2, (getDirectPassSpeed fuel1 s1 d1 steps).map Prod.fst = .ok v1 ∧
      (getDirectPassSpeed fuel2 s2 d2 steps).map Prod.fst = .ok v2 ∧ v1 ≤ v2 := by
  obtain ⟨c1, h1, _⟩ := getDirectPassSpeed_value s1 hS1 d1 steps hsteps fuel1 hf1
  obtain ⟨c2, h2, _⟩ := getDirectPassSpeed_value s2 hS2 d2 steps hsteps fuel2 hf2
  refine ⟨_, _, by rw [h1]; rfl, by rw [h2]; rfl, ?_⟩
  obtain ⟨ha1, ha2⟩ := trimmed_bounds d1
  obtain ⟨hb1, hb2⟩ := trimmed_bounds d2
  have hmono := trimmedDistance_mono d1 d2 hd
  have hsq : (0 : ℚ) < steps := by exact_mod_cast hsteps
  have hδ : (0 : ℚ) ≤ (331 / 100 - 81 / 100) / steps := div_nonneg (by norm_num) hsq.le
  have hc := LowHigh.centroid_le ((trimmedDistance d1 - 1) / 20)
    ((trimmedDistance d2 - 1) / 20) (by linarith) (by linarith) (by linarith) steps hsteps
  have := mul_le_mul_of_nonneg_left hc hδ
  linarith

/-- Witness for C13: distances 1 and 21 with `steps = 8`, both on first use. -/
theorem getDirectPassSpeed_monotone_witness :
    ∃ v1 v2, (getDirectPassSpeed 10 none 1 ((8 : ℕ) : ℚ)).map Prod.fst = .ok v1 ∧
      (getDirectPassSpeed 10 none 21 ((8 : ℕ) : ℚ)).map Prod.fst = .ok v2 ∧ v1 ≤ v2 :=
  getDirectPassSpeed_monotone none none (Or.inl rfl) (Or.inl rfl) 1 21 (by norm_num) 8
    (by decide) 10 10 (by decide) (by decide)

end ActGen_DirectPassSpeed

namespace fuzzy

namespace LowHigh

/-! ## The midpoint of a Low/High configuration -/

theorem low_degree_midpoint (lo hi : ℚ) (h : lo < hi) :
    specDegree (MembershipFunction.new lo lo lo hi 1) ((lo + hi) / 2) = 1 / 2 := by
  unfold specDegree MembershipFunction.new
  simp only []
  rw [if_neg (by
    intro hc
    rcases hc with hc | hc
    · linarith
    · linarith), if_neg (by intro hc; linarith [hc.2]), if_neg (by intro hc; linarith)]
  have : hi - lo ≠ 0 := by linarith
  field_simp
  ring

theorem high_degree_midpoint (lo hi : ℚ) (h : lo < hi) :
    specDegree (MembershipFunction.new lo hi hi hi 1) ((lo + hi) / 2) = 1 / 2 := by
  unfold specDegree MembershipFunction.new
  simp only []
  rw [if_neg (by
    intro hc
    rcases hc with hc | hc
    · linarith
    · linarith), if_neg (by intro hc; linarith [hc.1]), if_pos (by linarith)]
  have : hi - lo ≠ 0 := by linarith
  field_simp
  ring

theorem state_firing (lo hi outLo outHi dl dh : ℚ) :
    (state lo hi outLo outHi dl dh).rules.map
      (specFiringStrength (state lo hi outLo outHi dl dh).inputMembershipFunctions) =
      [dl, dh] := by
  simp [state, specFiringStrength, specMinimum, Rule.antecedentDegrees, Rule.new,
    Registry.find, MembershipFunction.new]

theorem state_centroid_equal (lo hi outLo outHi f : ℚ) (hf : 0 < f) (hout : outLo < outHi)
    (n : ℕ) (hn : 0 < n) (fuel : Nat) (hfuel : n + 2 ≤ fuel) :
    ((state lo hi outLo outHi f f).defuzzifyCentroid fuel 1 outLo outHi n).map Prod.fst =
      .ok ((outLo + outHi) / 2) := by
  obtain ⟨o1, h1, _⟩ := FuzzyController.defuzzifyCentroid_closed (state lo hi outLo outHi f f)
    (state_valid _ _ _ _ _ _) (state_antecedents_ne _ _ _ _ _ _) 1 outLo outHi hout n hn
    fuel hfuel
  have hW : 0 < weightSum f f n := weightSum_pos f f n hf
  have hK := weightMoment_symm f n hn
  have hnq : (n : ℚ) ≠ 0 := by exact_mod_cast hn.ne'
  rw [state_numerator _ _ _ _ _ _ hout n hn, state_denominator _ _ _ _ _ _ hout n hn,
    if_neg hW.ne'] at h1
  rw [h1]
  simp only [Except.map]
  congr 1
  have hK2 : weightMoment f f n = n * weightSum f f n / 2 := by linarith
  rw [hK2]
  field_simp
  ring

end LowHigh

/-- Exact arithmetic (the loop variable is not rounded): for every two-rule Low/High
configuration with `lo < hi` (within the finite
range of the input type) and `outLo < outHi`, and every positive integer `steps`:
configuring the controller and fuzzifying the domain midpoint `(lo + hi) / 2` makes both
rules fire equally (with strength 1/2), and `defuzzifyCentroid(outLo, outHi, steps)` then
returns `(outLo + outHi) / 2`. In the pass-speed configuration `getDirectPassSpeed(11.0)`
returns 2.06, for `steps = 8` as for every other positive `steps`. -/
theorem lowHigh_midpoint (lo hi outLo outHi : ℚ) (hlo : lo < hi) (hout : outLo < outHi)
    (hmax : hi ≤ numericLimitsMax) (steps : ℕ) (hsteps : 0 < steps) (fuel : Nat)
    (hfuel : steps + 2 ≤ fuel) :
    (∃ c0 c1, LowHigh.configure lo hi outLo outHi = .ok c0 ∧
      c0.fuzzify ((lo + hi) / 2) [numericLimitsMax] = .ok c1 ∧
      c1.rules.map (specFiringStrength c1.inputMembershipFunctions) = [1 / 2, 1 / 2] ∧
      (c1.defuzzifyCentroid fuel 1 outLo outHi steps).map Prod.fst =
        .ok ((outLo + outHi) / 2)) ∧
    (∀ singleton, ActGen_DirectPassSpeed.StaticInvariant singleton →
      (ActGen_DirectPassSpeed.getDirectPassSpeed fuel singleton 11 steps).map Prod.fst =
        .ok (206 / 100)) := by
  constructor
  · have hx : (lo + hi) / 2 ≠ numericLimitsMax := by
      intro h
      have : (lo + hi) / 2 < hi := by linarith
      rw [h] at this
      exact absurd this (not_lt.mpr hmax)
    refine ⟨_, _, LowHigh.configure_eq lo hi outLo outHi,
      LowHigh.fuzzify_state lo hi outLo outHi 0 0 _ hx, ?_, ?_⟩
    · rw [LowHigh.low_degree_midpoint lo hi hlo, LowHigh.high_degree_midpoint lo hi hlo]
      exact LowHigh.state_firing _ _ _ _ _ _
    · rw [LowHigh.low_degree_midpoint lo hi hlo, LowHigh.high_degree_midpoint lo hi hlo]
      exact LowHigh.state_centroid_equal lo hi outLo outHi (1 / 2) (by norm_num) hout steps
        hsteps fuel hfuel
  · intro singleton hS
    obtain ⟨c1, h1, _⟩ := ActGen_DirectPassSpeed.getDirectPassSpeed_value singleton hS 11 steps
      hsteps fuel hfuel
    have ht : ActGen_DirectPassSpeed.trimmedDistance 11 = 11 := by
      unfold ActGen_DirectPassSpeed.trimmedDistance
      rw [trimNumeric_eq]
      norm_num [ActGen_DirectPassSpeed.kMinDistance, ActGen_DirectPassSpeed.kMaxDistance]
    have hhalf : ((11 : ℚ) - 1) / 20 = 1 / 2 := by norm_num
    have hhalf2 : (1 : ℚ) - 1 / 2 = 1 / 2 := by norm_num
    have hW : 0 < LowHigh.weightSum (1 / 2) (1 / 2) steps :=
      LowHigh.weightSum_pos _ _ steps (by norm_num)
    have hK := LowHigh.weightMoment_symm (1 / 2) steps hsteps
    have hnq : (steps : ℚ) ≠ 0 := by exact_mod_cast hsteps.ne'
    rw [ht, hhalf, hhalf2] at h1
    rw [h1]
    simp only [Except.map]
    congr 1
    have hK2 : LowHigh.weightMoment (1 / 2) (1 / 2) steps =
        steps * LowHigh.weightSum (1 / 2) (1 / 2) steps / 2 := by linarith
    rw [hK2]
    field_simp
    ring

/-- An instance in exact arithmetic: the pass-speed bounds `[1, 21]` and `[0.81, 3.31]`
with `steps = 8`. -/
theorem lowHigh_midpoint_witness :
    (∃ c0 c1, LowHigh.configure 1 21 (81 / 100) (331 / 100) = .ok c0 ∧
      c0.fuzzify ((1 + 21) / 2) [numericLimitsMax] = .ok c1 ∧
      c1.rules.map (specFiringStrength c1.inputMembershipFunctions) = [1 / 2, 1 / 2] ∧
      (c1.defuzzifyCentroid 10 1 (81 / 100) (331 / 100) ((8 : ℕ) : ℚ)).map Prod.fst =
        .ok ((81 / 100 + 331 / 100) / 2)) ∧
    (∀ singleton, ActGen_DirectPassSpeed.StaticInvariant singleton →
      (ActGen_DirectPassSpeed.getDirectPassSpeed 10 singleton 11 ((8 : ℕ) : ℚ)).map Prod.fst =
        .ok (206 / 100)) :=
  lowHigh_midpoint 1 21 (81 / 100) (331 / 100) (by norm_num) (by norm_num)
    (le_of_lt (lt_trans (by norm_num) ActGen_DirectPassSpeed.numericLimitsMax_big))
    8 (by decide) 10 (by decide)


/-! ## addMembershipFunction: replacement and the two namespaces -/

theorem Registry.find_assign_self (reg : Registry) (name : String) (v : MembershipFunction) :
    (reg.assign name v).find name = some v := by
  induction reg with
  | nil => simp [Registry.assign, Registry.find]
  | cons hd tl ih =>
    obtain ⟨k, m⟩ := hd
    unfold Registry.assign
    split_ifs with hk
    · simp [Registry.find, hk]
    · simp [Registry.find, hk, ih]

theorem Registry.find_assign_other (reg : Registry) (name k : String) (v : MembershipFunction)
    (hk : k ≠ name) : (reg.assign name v).find k = reg.find k := by
  induction reg with
  | nil =>
    simp only [Registry.assign, Registry.find]
    rw [if_neg (fun h => hk h.symm)]
  | cons hd tl ih =>
    obtain ⟨k0, m⟩ := hd
    unfold Registry.assign
    split_ifs with h0
    · have : k0 ≠ k := fun h => hk (h.symm.trans h0)
      simp [Registry.find, this]
    · simp only [Registry.find, ih]

theorem Registry.keys_assign (reg : Registry) (name : String) (v : MembershipFunction) :
    (reg.assign name v).map Prod.fst =
      if name ∈ reg.map Prod.fst then reg.map Prod.fst else reg.map Prod.fst ++ [name] := by
  induction reg with
  | nil => simp [Registry.assign]
  | cons hd tl ih =>
    obtain ⟨k, m⟩ := hd
    unfold Registry.assign
    by_cases hk : k = name
    · rw [if_pos hk, if_pos (by simp [hk])]
      simp
    · rw [if_neg hk]
      by_cases hmem : name ∈ tl.map Prod.fst
      · rw [if_pos (by simp only [List.map_cons, List.mem_cons]; exact Or.inr hmem)]
        simp only [List.map_cons, ih, if_pos hmem]
      · have hnot : name ∉ ((k, m) :: tl).map Prod.fst := by
          simp only [List.map_cons, List.mem_cons, not_or]
          exact ⟨fun h => hk h.symm, hmem⟩
        rw [if_neg hnot]
        simp only [List.map_cons, ih, if_neg hmem, List.cons_append]

theorem Registry.distinctKeys_assign (reg : Registry) (name : String) (v : MembershipFunction)
    (h : reg.DistinctKeys) : (reg.assign name v).DistinctKeys := by
  unfold Registry.DistinctKeys at h ⊢
  rw [Registry.keys_assign]
  split_ifs with hm
  · exact h
  · rw [List.nodup_append]
    refine ⟨h, List.nodup_singleton _, ?_⟩
    intro a ha hb
    rw [List.mem_singleton] at hb
    exact hm (hb ▸ ha)

theorem Registry.mem_of_distinctKeys (reg : Registry) (h : reg.DistinctKeys) (k : String)
    (m : MembershipFunction) (hm : (k, m) ∈ reg) : reg.find k = some m := by
  induction reg with
  | nil => simp at hm
  | cons hd tl ih =>
    obtain ⟨k0, m0⟩ := hd
    unfold Registry.DistinctKeys at h
    simp only [List.map_cons, List.nodup_cons] at h
    rcases List.mem_cons.mp hm with h1 | h1
    · simp only [Prod.mk.injEq] at h1
      simp [Registry.find, h1.1, h1.2]
    · have hne : k0 ≠ k := by
        intro he
        apply h.1
        rw [he]
        exact List.mem_map.mpr ⟨(k, m), h1, rfl⟩
      simp only [Registry.find, if_neg hne]
      exact ih h.2 h1


theorem Registry.mem_assign_other (reg : Registry) (name k : String) (v m : MembershipFunction)
    (hk : k ≠ name) : (k, m) ∈ reg.assign name v ↔ (k, m) ∈ reg := by
  induction reg with
  | nil =>
    simp only [Registry.assign, List.mem_singleton, Prod.mk.injEq, List.not_mem_nil, iff_false,
      not_and]
    intro h; exact absurd h hk
  | cons hd tl ih =>
    obtain ⟨k0, m0⟩ := hd
    unfold Registry.assign
    by_cases h0 : k0 = name
    · rw [if_pos h0]
      have hne : k ≠ k0 := fun h => hk (h.trans h0)
      simp only [List.mem_cons, Prod.mk.injEq, hne, false_and, false_or]
    · rw [if_neg h0]
      simp only [List.mem_cons, ih]

theorem FuzzyController.registry_addMembershipFunction (c : FuzzyController) (name : String)
    (start topLeft topRight end_ : ℚ) (groupIndex : Int) (kind : MembershipFunctionKind) :
    (c.addMembershipFunction name start topLeft topRight end_ groupIndex kind).registry kind =
      (c.registry kind).assign name
        (MembershipFunction.new start topLeft topRight end_ groupIndex) := by
  cases kind <;> rfl

/-- Names as the pointers they are, `name` being the address passed: for every controller
state, name and kind, the call
`addMembershipFunction(name, start, topLeft, topRight, end, groupIndex, kind)` returns
(it is a total function: there is no failure path), whether or not `name` is already a
key of that kind's hash map. Afterwards a lookup of `name` in that hash map gives exactly
the given shape and group index with degree 0, every node with key `name` holds that
value (the previous definition is gone), lookups and nodes of every other name are as
before, and the keys are still pairwise distinct. -/
theorem addMembershipFunction_replaces (c : FuzzyController) (name : String)
    (start topLeft topRight end_ : ℚ) (groupIndex : Int) (kind : MembershipFunctionKind)
    (hkeys : (c.registry kind).DistinctKeys) :
    ((c.addMembershipFunction name start topLeft topRight end_ groupIndex kind).registry
        kind).find name =
      some { start := start, topLeft := topLeft, topRight := topRight, end_ := end_,
             fuzzyStrength := 0, fuzzificationIndex := groupIndex } ∧
    (∀ m, (name, m) ∈
        (c.addMembershipFunction name start topLeft topRight end_ groupIndex kind).registry
          kind →
      m = { start := start, topLeft := topLeft, topRight := topRight, end_ := end_,
            fuzzyStrength := 0, fuzzificationIndex := groupIndex }) ∧
    (∀ k, k ≠ name →
      ((c.addMembershipFunction name start topLeft topRight end_ groupIndex kind).registry
          kind).find k = (c.registry kind).find k) ∧
    (∀ k m, k ≠ name →
      ((k, m) ∈
          (c.addMembershipFunction name start topLeft topRight end_ groupIndex kind).registry
            kind ↔ (k, m) ∈ c.registry kind)) ∧
    ((c.addMembershipFunction name start topLeft topRight end_ groupIndex kind).registry
        kind).DistinctKeys := by
  rw [FuzzyController.registry_addMembershipFunction]
  have hd := Registry.distinctKeys_assign (c.registry kind) name
    (MembershipFunction.new start topLeft topRight end_ groupIndex) hkeys
  have hself := Registry.find_assign_self (c.registry kind) name
    (MembershipFunction.new start topLeft topRight end_ groupIndex)
  refine ⟨hself, ?_, ?_, ?_, hd⟩
  · intro m hm
    have h1 := Registry.mem_of_distinctKeys _ hd name m hm
    rw [hself] at h1
    exact (Option.some.inj h1).symm
  · intro k hk
    exact Registry.find_assign_other _ _ _ _ hk
  · intro k m hk
    exact Registry.mem_assign_other _ _ _ _ _ hk

/-- An instance: redefining `distanceLow`, through the pointer that is its key, in the
constructed pass-speed controller. -/
theorem addMembershipFunction_replaces_witness :
    ((ActGen_DirectPassSpeed.constructed.addMembershipFunction "distanceLow" 1 2 3 4 1
        .INPUT_MEMBERSHIP_FUNCTION).registry .INPUT_MEMBERSHIP_FUNCTION).find "distanceLow" =
      some { start := 1, topLeft := 2, topRight := 3, end_ := 4,
             fuzzyStrength := 0, fuzzificationIndex := 1 } ∧
    (∀ m, ("distanceLow", m) ∈
        (ActGen_DirectPassSpeed.constructed.addMembershipFunction "distanceLow" 1 2 3 4 1
          .INPUT_MEMBERSHIP_FUNCTION).registry .INPUT_MEMBERSHIP_FUNCTION →
      m = { start := 1, topLeft := 2, topRight := 3, end_ := 4,
            fuzzyStrength := 0, fuzzificationIndex := 1 }) ∧
    (∀ k, k ≠ "distanceLow" →
      ((ActGen_DirectPassSpeed.constructed.addMembershipFunction "distanceLow" 1 2 3 4 1
          .INPUT_MEMBERSHIP_FUNCTION).registry .INPUT_MEMBERSHIP_FUNCTION).find k =
        (ActGen_DirectPassSpeed.constructed.registry .INPUT_MEMBERSHIP_FUNCTION).find k) ∧
    (∀ k m, k ≠ "distanceLow" →
      ((k, m) ∈
          (ActGen_DirectPassSpeed.constructed.addMembershipFunction "distanceLow" 1 2 3 4 1
            .INPUT_MEMBERSHIP_FUNCTION).registry .INPUT_MEMBERSHIP_FUNCTION ↔
        (k, m) ∈ ActGen_DirectPassSpeed.constructed.registry .INPUT_MEMBERSHIP_FUNCTION)) ∧
    ((ActGen_DirectPassSpeed.constructed.addMembershipFunction "distanceLow" 1 2 3 4 1
        .INPUT_MEMBERSHIP_FUNCTION).registry .INPUT_MEMBERSHIP_FUNCTION).DistinctKeys :=
  addMembershipFunction_replaces ActGen_DirectPassSpeed.constructed "distanceLow" 1 2 3 4 1
    .INPUT_MEMBERSHIP_FUNCTION (by decide)

/-- C22: input and output names are independent namespaces. A call of
`addMembershipFunction` with kind Input leaves the output hash map, the rule vector and
the rule count as they were, and a call with kind Output leaves the input hash map, the
rule vector and the rule count as they were. Registering one name as an input and as an
output, in either order, leaves both definitions in place: the input lookup gives the
input definition and the output lookup the output definition. -/
theorem addMembershipFunction_namespaces (c : FuzzyController) (name : String)
    (s1 l1 r1 e1 : ℚ) (g1 : Int) (s2 l2 r2 e2 : ℚ) (g2 : Int) :
    ((c.addMembershipFunction name s1 l1 r1 e1 g1
        .INPUT_MEMBERSHIP_FUNCTION).outputMembershipFunctions = c.outputMembershipFunctions ∧
      (c.addMembershipFunction name s1 l1 r1 e1 g1 .INPUT_MEMBERSHIP_FUNCTION).rules = c.rules ∧
      (c.addMembershipFunction name s1 l1 r1 e1 g1 .INPUT_MEMBERSHIP_FUNCTION).rulesCount =
        c.rulesCount) ∧
    ((c.addMembershipFunction name s2 l2 r2 e2 g2
        .OUTPUT_MEMBERSHIP_FUNCTION).inputMembershipFunctions = c.inputMembershipFunctions ∧
      (c.addMembershipFunction name s2 l2 r2 e2 g2 .OUTPUT_MEMBERSHIP_FUNCTION).rules =
        c.rules ∧
      (c.addMembershipFunction name s2 l2 r2 e2 g2 .OUTPUT_MEMBERSHIP_FUNCTION).rulesCount =
        c.rulesCount) ∧
    (((c.addMembershipFunction name s1 l1 r1 e1 g1
          .INPUT_MEMBERSHIP_FUNCTION).addMembershipFunction name s2 l2 r2 e2 g2
          .OUTPUT_MEMBERSHIP_FUNCTION).inputMembershipFunctions.find name =
        some (MembershipFunction.new s1 l1 r1 e1 g1) ∧
      ((c.addMembershipFunction name s1 l1 r1 e1 g1
          .INPUT_MEMBERSHIP_FUNCTION).addMembershipFunction name s2 l2 r2 e2 g2
          .OUTPUT_MEMBERSHIP_FUNCTION).outputMembershipFunctions.find name =
        some (MembershipFunction.new s2 l2 r2 e2 g2)) ∧
    (((c.addMembershipFunction name s2 l2 r2 e2 g2
          .OUTPUT_MEMBERSHIP_FUNCTION).addMembershipFunction name s1 l1 r1 e1 g1
          .INPUT_MEMBERSHIP_FUNCTION).inputMembershipFunctions.find name =
        some (MembershipFunction.new s1 l1 r1 e1 g1) ∧
      ((c.addMembershipFunction name s2 l2 r2 e2 g2
          .OUTPUT_MEMBERSHIP_FUNCTION).addMembershipFunction name s1 l1 r1 e1 g1
          .INPUT_MEMBERSHIP_FUNCTION).outputMembershipFunctions.find name =
        some (MembershipFunction.new s2 l2 r2 e2 g2)) := by
  refine ⟨⟨rfl, rfl, rfl⟩, ⟨rfl, rfl, rfl⟩, ⟨?_, ?_⟩, ⟨?_, ?_⟩⟩
  · exact Registry.find_assign_self _ _ _
  · exact Registry.find_assign_self _ _ _
  · exact Registry.find_assign_self _ _ _
  · exact Registry.find_assign_self _ _ _


/-! ## fuzzify and defuzzifyCentroid write only the transient strengths -/

theorem FuzzyController.fuzzifyGroup_shape (inputs : Registry) (i : Int) (x : ℚ) :
    Registry.shape (FuzzyController.fuzzifyGroup inputs i x) = Registry.shape inputs := by
  unfold FuzzyController.fuzzifyGroup Registry.shape
  rw [List.map_map]
  apply List.map_congr_left
  intro node _
  simp only [Function.comp]
  split_ifs
  · simp only [MembershipFunction.calculateFuzzyStrength_shape]
  · rfl

theorem FuzzyController.fuzzifyLoop_shape :
    ∀ (rest : List ℚ) (x : ℚ) (i : Int) (inputs r : Registry),
      FuzzyController.fuzzifyLoop rest x i inputs = .ok r →
      Registry.shape r = Registry.shape inputs := by
  intro rest
  induction rest with
  | nil =>
    intro x i inputs r h
    unfold FuzzyController.fuzzifyLoop at h
    split_ifs at h with hg
    simp only [Except.ok.injEq] at h
    rw [← h]
  | cons next rest ih =>
    intro x i inputs r h
    unfold FuzzyController.fuzzifyLoop at h
    split_ifs at h with hg
    · rw [ih next (i + 1) _ r h, FuzzyController.fuzzifyGroup_shape]
    · simp only [Except.ok.injEq] at h
      rw [← h]

theorem Rule.getOutputStrengthLoop_shape (r : Rule) (g : Nat) (p : ℚ) :
    ∀ (n i : Nat) (outputs outputs1 : Registry) (v : ℚ),
      r.getOutputStrengthLoop g p n i outputs = .ok (v, outputs1) →
      Registry.shape outputs1 = Registry.shape outputs := by
  intro n
  induction n with
  | zero =>
    intro i outputs outputs1 v h
    simp only [Rule.getOutputStrengthLoop, Except.ok.injEq, Prod.mk.injEq] at h
    rw [← h.2]
  | succ n ih =>
    intro i outputs outputs1 v h
    unfold Rule.getOutputStrengthLoop at h
    cases hk : r.consequents[i]? with
    | none => rw [hk] at h; simp at h
    | some key =>
      rw [hk] at h
      simp only [] at h
      cases hf : outputs.find key with
      | none => rw [hf] at h; simp at h
      | some c =>
        rw [hf] at h
        simp only [] at h
        split_ifs at h with hg
        · simp only [Except.ok.injEq, Prod.mk.injEq] at h
          rw [← h.2]
          exact Registry.shape_store outputs key c _ hf
            (MembershipFunction.calculateFuzzyStrength_shape c p)
        · exact ih (i + 1) outputs outputs1 v h

theorem FuzzyController.aggregateLoop_shape (rules : List Rule) (g : Nat) (p : ℚ) :
    ∀ (n j : Nat) (cur v : ℚ) (outputs outputs1 : Registry),
      FuzzyController.aggregateLoop rules g p n j cur outputs = .ok (v, outputs1) →
      Registry.shape outputs1 = Registry.shape outputs := by
  intro n
  induction n with
  | zero =>
    intro j cur v outputs outputs1 h
    simp only [FuzzyController.aggregateLoop, Except.ok.injEq, Prod.mk.injEq] at h
    rw [← h.2]
  | succ n ih =>
    intro j cur v outputs outputs1 h
    unfold FuzzyController.aggregateLoop at h
    cases hk : rules[j]? with
    | none => rw [hk] at h; simp at h
    | some r =>
      rw [hk] at h
      simp only [] at h
      cases hs : r.getOutputStrength g p outputs with
      | error e => rw [hs] at h; simp at h
      | ok res =>
        obtain ⟨w, o1⟩ := res
        rw [hs] at h
        simp only [] at h
        rw [ih (j + 1) _ v o1 outputs1 h]
        exact Rule.getOutputStrengthLoop_shape r g p _ _ outputs o1 w hs

theorem FuzzyController.sampleLoop_shape (rules : List Rule) (rulesCount g : Nat) (b δ : ℚ) :
    ∀ (fuel : Nat) (i num den : ℚ) (outputs : Registry) (res : ℚ × ℚ × Registry),
      FuzzyController.sampleLoop rules rulesCount g b δ fuel i num den outputs = .ok res →
      Registry.shape res.2.2 = Registry.shape outputs := by
  intro fuel
  induction fuel with
  | zero =>
    intro i num den outputs res h
    simp [FuzzyController.sampleLoop] at h
  | succ fuel ih =>
    intro i num den outputs res h
    unfold FuzzyController.sampleLoop at h
    split_ifs at h with hg
    · cases ha : FuzzyController.aggregateLoop rules g i rulesCount 0 0 outputs with
      | error e => rw [ha] at h; simp at h
      | ok r =>
        obtain ⟨cur, o1⟩ := r
        rw [ha] at h
        simp only [] at h
        rw [ih _ _ _ o1 res h]
        exact FuzzyController.aggregateLoop_shape rules g i _ _ _ cur outputs o1 ha
    · simp only [Except.ok.injEq] at h
      rw [← h]

theorem Rule.calculateFiringStrength_shape (r r1 : Rule) (inputs : Registry)
    (h : r.calculateFiringStrength inputs = .ok r1) : r1.shape = r.shape := by
  unfold Rule.calculateFiringStrength at h
  cases hs : r.antecedentStrength inputs 0 with
  | error e => rw [hs] at h; simp at h
  | ok first =>
    rw [hs] at h
    simp only [] at h
    cases hl : r.firingLoop inputs (r.antecedentsCount - 1) 1 first with
    | error e => rw [hl] at h; simp at h
    | ok fs =>
      rw [hl] at h
      simp only [Except.ok.injEq] at h
      rw [← h]
      rfl

theorem FuzzyController.firingPhase_shape (inputs : Registry) :
    ∀ (n i : Nat) (rules rules1 : List Rule),
      FuzzyController.firingPhase inputs n i rules = .ok rules1 →
      rules1.map Rule.shape = rules.map Rule.shape := by
  intro n
  induction n with
  | zero =>
    intro i rules rules1 h
    simp only [FuzzyController.firingPhase, Except.ok.injEq] at h
    rw [← h]
  | succ n ih =>
    intro i rules rules1 h
    unfold FuzzyController.firingPhase at h
    cases hk : rules[i]? with
    | none => rw [hk] at h; simp at h
    | some r =>
      rw [hk] at h
      simp only [] at h
      cases hc : r.calculateFiringStrength inputs with
      | error e => rw [hc] at h; simp at h
      | ok r1 =>
        rw [hc] at h
        simp only [] at h
        rw [ih (i + 1) (rules.set i r1) rules1 h, List.map_set,
          Rule.calculateFiringStrength_shape r r1 inputs hc]
        apply List.ext_getElem?
        intro j
        by_cases hj : i = j
        · subst hj
          rw [List.getElem?_set]
          simp only [if_true, List.length_map, List.getElem?_map, hk, Option.map_some']
          have hlt : i < rules.length := by
            rcases Nat.lt_or_ge i rules.length with h1 | h1
            · exact h1
            · rw [List.getElem?_eq_none h1] at hk; simp at hk
          simp [hlt]
        · rw [List.getElem?_set_ne hj]

theorem FuzzyController.fuzzify_sameConfiguration (c c1 : FuzzyController) (x : ℚ)
    (args : List ℚ) (h : c.fuzzify x args = .ok c1) :
    Registry.shape c1.inputMembershipFunctions = Registry.shape c.inputMembershipFunctions ∧
    c1.outputMembershipFunctions = c.outputMembershipFunctions ∧
    c1.rules = c.rules ∧ c1.rulesCount = c.rulesCount := by
  unfold FuzzyController.fuzzify at h
  cases hl : FuzzyController.fuzzifyLoop args x kMinValidFuzzificationIndex
      c.inputMembershipFunctions with
  | error e => rw [hl] at h; simp at h
  | ok r =>
    rw [hl] at h
    simp only [Except.ok.injEq] at h
    rw [← h]
    exact ⟨FuzzyController.fuzzifyLoop_shape args x _ _ r hl, rfl, rfl, rfl⟩

theorem FuzzyController.defuzzifyCentroid_sameConfiguration (c c1 : FuzzyController)
    (fuel g : Nat) (a b d v : ℚ) (h : c.defuzzifyCentroid fuel g a b d = .ok (v, c1)) :
    c1.inputMembershipFunctions = c.inputMembershipFunctions ∧
    Registry.shape c1.outputMembershipFunctions = Registry.shape c.outputMembershipFunctions ∧
    c1.rules.map Rule.shape = c.rules.map Rule.shape ∧ c1.rulesCount = c.rulesCount := by
  unfold FuzzyController.defuzzifyCentroid at h
  cases hf : FuzzyController.firingPhase c.inputMembershipFunctions c.rulesCount 0 c.rules with
  | error e => rw [hf] at h; simp at h
  | ok rules =>
    rw [hf] at h
    simp only [] at h
    split_ifs at h with hd
    cases hs : FuzzyController.sampleLoop rules c.rulesCount g b ((b - a) / d) fuel a 0 0
        c.outputMembershipFunctions with
    | error e => rw [hs] at h; simp at h
    | ok res =>
      obtain ⟨num, den, outs⟩ := res
      rw [hs] at h
      simp only [Except.ok.injEq, Prod.mk.injEq] at h
      rw [← h.2]
      exact ⟨rfl,
        FuzzyController.sampleLoop_shape rules _ g b _ fuel a 0 0 _ (num, den, outs) hs,
        FuzzyController.firingPhase_shape _ _ _ _ rules hf, rfl⟩


theorem Registry.keys_shape (reg : Registry) :
    (Registry.shape reg).map Prod.fst = reg.map Prod.fst := by
  unfold Registry.shape
  rw [List.map_map]
  rfl

theorem Registry.keys_of_shape {a b : Registry} (h : Registry.shape a = Registry.shape b) :
    a.map Prod.fst = b.map Prod.fst := by
  rw [← Registry.keys_shape a, h, Registry.keys_shape]

theorem Registry.nodes_forall₂_of_shape :
    ∀ (a b : Registry), Registry.shape a = Registry.shape b →
      List.Forall₂ (fun old new : String × MembershipFunction =>
        new.1 = old.1 ∧ new.2.start = old.2.start ∧ new.2.topLeft = old.2.topLeft ∧
        new.2.topRight = old.2.topRight ∧ new.2.end_ = old.2.end_ ∧
        new.2.fuzzificationIndex = old.2.fuzzificationIndex) b a := by
  intro a
  induction a with
  | nil =>
    intro b h
    cases b with
    | nil => exact List.Forall₂.nil
    | cons hd tl => simp [Registry.shape] at h
  | cons x xs ih =>
    intro b h
    cases b with
    | nil => simp [Registry.shape] at h
    | cons y ys =>
      simp only [Registry.shape, List.map_cons, List.cons.injEq, Prod.mk.injEq] at h
      obtain ⟨⟨hk, hm⟩, htl⟩ := h
      refine List.Forall₂.cons ⟨hk, ?_, ?_, ?_, ?_, ?_⟩ (ih ys htl)
      · have h1 := congrArg MembershipFunction.start hm
        exact h1
      · have h1 := congrArg MembershipFunction.topLeft hm
        exact h1
      · have h1 := congrArg MembershipFunction.topRight hm
        exact h1
      · have h1 := congrArg MembershipFunction.end_ hm
        exact h1
      · have h1 := congrArg MembershipFunction.fuzzificationIndex hm
        exact h1

theorem Rule.rules_forall₂_of_shape :
    ∀ (a b : List Rule), a.map Rule.shape = b.map Rule.shape →
      List.Forall₂ (fun old new : Rule =>
        new.antecedents = old.antecedents ∧ new.consequents = old.consequents ∧
        new.antecedentsCount = old.antecedentsCount ∧
        new.consequentsCount = old.consequentsCount) b a := by
  intro a
  induction a with
  | nil =>
    intro b h
    cases b with
    | nil => exact List.Forall₂.nil
    | cons hd tl => simp at h
  | cons x xs ih =>
    intro b h
    cases b with
    | nil => simp at h
    | cons y ys =>
      simp only [List.map_cons, List.cons.injEq] at h
      obtain ⟨hm, htl⟩ := h
      refine List.Forall₂.cons ⟨?_, ?_, ?_, ?_⟩ (ih ys htl)
      · have h1 := congrArg Rule.antecedents hm
        exact h1
      · have h1 := congrArg Rule.consequents hm
        exact h1
      · have h1 := congrArg Rule.antecedentsCount hm
        exact h1
      · have h1 := congrArg Rule.consequentsCount hm
        exact h1

/-- C27: `fuzzify` and `defuzzifyCentroid` write only the transient strengths. After a
call of `fuzzify` that returns, the input hash map has the same names in the same nodes,
each with its shape (`start`, `topLeft`, `topRight`, `end`) and group index as before,
and the output hash map, the rule vector and the rule count are untouched. After a call
of `defuzzifyCentroid` that returns, the input hash map is untouched (degrees included),
the output hash map has the same names, shapes and group indices, and the rule vector
holds the same number of rules in the same order, each with its antecedent and
consequent vectors and cached counts as before. -/
theorem evaluation_writes_transient_fields_only (c c1 d d1 : FuzzyController) (x : ℚ)
    (args : List ℚ) (fuel g : Nat) (outMin outMax discretization v : ℚ)
    (hfuzzify : c.fuzzify x args = .ok c1)
    (hdefuzzify : d.defuzzifyCentroid fuel g outMin outMax discretization = .ok (v, d1)) :
    (c1.inputMembershipFunctions.map Prod.fst = c.inputMembershipFunctions.map Prod.fst ∧
      List.Forall₂ (fun old new : String × MembershipFunction =>
          new.1 = old.1 ∧ new.2.start = old.2.start ∧ new.2.topLeft = old.2.topLeft ∧
          new.2.topRight = old.2.topRight ∧ new.2.end_ = old.2.end_ ∧
          new.2.fuzzificationIndex = old.2.fuzzificationIndex)
        c.inputMembershipFunctions c1.inputMembershipFunctions ∧
      c1.outputMembershipFunctions = c.outputMembershipFunctions ∧
      c1.rules = c.rules ∧ c1.rulesCount = c.rulesCount) ∧
    (d1.inputMembershipFunctions = d.inputMembershipFunctions ∧
      d1.outputMembershipFunctions.map Prod.fst = d.outputMembershipFunctions.map Prod.fst ∧
      List.Forall₂ (fun old new : String × MembershipFunction =>
          new.1 = old.1 ∧ new.2.start = old.2.start ∧ new.2.topLeft = old.2.topLeft ∧
          new.2.topRight = old.2.topRight ∧ new.2.end_ = old.2.end_ ∧
          new.2.fuzzificationIndex = old.2.fuzzificationIndex)
        d.outputMembershipFunctions d1.outputMembershipFunctions ∧
      d1.rules.length = d.rules.length ∧
      List.Forall₂ (fun old new : Rule =>
          new.antecedents = old.antecedents ∧ new.consequents = old.consequents ∧
          new.antecedentsCount = old.antecedentsCount ∧
          new.consequentsCount = old.consequentsCount) d.rules d1.rules ∧
      d1.rulesCount = d.rulesCount) := by
  obtain ⟨hi, ho, hr, hc⟩ := FuzzyController.fuzzify_sameConfiguration c c1 x args hfuzzify
  obtain ⟨di, dout, dr, dc⟩ :=
    FuzzyController.defuzzifyCentroid_sameConfiguration d d1 fuel g outMin outMax
      discretization v hdefuzzify
  refine ⟨⟨Registry.keys_of_shape hi, Registry.nodes_forall₂_of_shape _ _ hi, ho, hr, hc⟩,
    di, Registry.keys_of_shape dout, Registry.nodes_forall₂_of_shape _ _ dout, ?_,
    Rule.rules_forall₂_of_shape _ _ dr, dc⟩
  have := congrArg List.length dr
  simpa using this


/-- Witness for C27: `fuzzify(2, max)` on the constructed pass-speed controller followed
by `defuzzifyCentroid(1, 0.81, 3.31, 8)`. -/
theorem evaluation_writes_transient_fields_only_witness :
    ∃ v d1,
      ActGen_DirectPassSpeed.constructed.fuzzify 2 [numericLimitsMax] =
        .ok ActGen_DirectPassSpeed.fuzzifiedAtTwo ∧
      ActGen_DirectPassSpeed.fuzzifiedAtTwo.defuzzifyCentroid 10 1 (81 / 100) (331 / 100)
        ((8 : ℕ) : ℚ) = .ok (v, d1) ∧
      ActGen_DirectPassSpeed.fuzzifiedAtTwo.inputMembershipFunctions.map Prod.fst =
        ActGen_DirectPassSpeed.constructed.inputMembershipFunctions.map Prod.fst ∧
      d1.inputMembershipFunctions =
        ActGen_DirectPassSpeed.fuzzifiedAtTwo.inputMembershipFunctions ∧
      d1.rulesCount = ActGen_DirectPassSpeed.fuzzifiedAtTwo.rulesCount := by
  obtain ⟨outputs1, h, _⟩ :=
    FuzzyController.defuzzifyCentroid_closed ActGen_DirectPassSpeed.fuzzifiedAtTwo
      (by decide) (by decide) 1 (81 / 100) (331 / 100) (by norm_num) 8 (by decide) 10
      (by decide)
  have hw := evaluation_writes_transient_fields_only ActGen_DirectPassSpeed.constructed
    ActGen_DirectPassSpeed.fuzzifiedAtTwo ActGen_DirectPassSpeed.fuzzifiedAtTwo _ 2
    [numericLimitsMax] 10 1 (81 / 100) (331 / 100) ((8 : ℕ) : ℚ) _
    ActGen_DirectPassSpeed.fuzzify_two h
  exact ⟨_, _, ActGen_DirectPassSpeed.fuzzify_two, h, hw.1.1, hw.2.1, hw.2.2.2.2.2.2⟩


/-! ## The returned value depends on the configuration and the input degrees only -/

theorem FuzzyController.defuzzifyCentroid_value_congr (c d : FuzzyController) (hv : c.Valid)
    (hne : ∀ r ∈ c.rules, r.antecedents ≠ [])
    (hin : d.inputMembershipFunctions = c.inputMembershipFunctions)
    (hout : Registry.shape d.outputMembershipFunctions =
      Registry.shape c.outputMembershipFunctions)
    (hr : d.rules.map Rule.shape = c.rules.map Rule.shape)
    (hc : d.rulesCount = c.rulesCount)
    (g : Nat) (a b : ℚ) (hab : a < b) (steps : ℕ) (hsteps : 0 < steps) (fuel : Nat)
    (hfuel : steps + 2 ≤ fuel) :
    ∃ v c1 d1, c.defuzzifyCentroid fuel g a b steps = .ok (v, c1) ∧
      d.defuzzifyCentroid fuel g a b steps = .ok (v, d1) ∧
      c1.Valid ∧ (∀ r ∈ c1.rules, r.antecedents ≠ []) ∧
      c1.inputMembershipFunctions = c.inputMembershipFunctions ∧
      Registry.shape c1.outputMembershipFunctions =
        Registry.shape c.outputMembershipFunctions ∧
      c1.rules.map Rule.shape = c.rules.map Rule.shape ∧ c1.rulesCount = c.rulesCount := by
  have hsd : d.SameConfiguration c := ⟨by rw [hin], hout, hr, hc⟩
  have hvd : d.Valid := FuzzyController.SameConfiguration.valid hsd hv
  have hned := FuzzyController.SameConfiguration.antecedents_ne hsd hne
  obtain ⟨o1, h1, _⟩ :=
    FuzzyController.defuzzifyCentroid_closed c hv hne g a b hab steps hsteps fuel hfuel
  obtain ⟨o2, h2, _⟩ :=
    FuzzyController.defuzzifyCentroid_closed d hvd hned g a b hab steps hsteps fuel hfuel
  rw [specNumerator_congr d c hin hout hr, specDenominator_congr d c hin hout hr] at h2
  obtain ⟨fi, fo, fr, fc⟩ :=
    FuzzyController.defuzzifyCentroid_sameConfiguration c _ fuel g a b steps _ h1
  have hs1 : FuzzyController.SameConfiguration
      { c with
        rules := c.rules.map fun r =>
          { r with firingStrength := specFiringStrength c.inputMembershipFunctions r },
        outputMembershipFunctions := o1 } c := ⟨by rw [fi], fo, fr, fc⟩
  exact ⟨_, _, _, h1, h2, FuzzyController.SameConfiguration.valid hs1 hv,
    FuzzyController.SameConfiguration.antecedents_ne hs1 hne, fi, fo, fr, fc⟩

/-- C28: the value `defuzzifyCentroid` returns is determined by the configuration, the
current degrees of the input membership functions and the call arguments. For a
controller `c` satisfying the class invariant whose rules each have an antecedent, and a
controller `d` that has the same input hash map (degrees included), the same output
names, shapes and group indices and the same rules, but possibly other output degrees and
firing strengths, both calls return, with the same value. A second call on the state the
first one leaves returns that value again, and so does a call made after a call for
another output group (with its own range and step count). -/
theorem defuzzifyCentroid_ignores_transient_outputs (c d : FuzzyController) (hv : c.Valid)
    (hne : ∀ r ∈ c.rules, r.antecedents ≠ [])
    (hin : d.inputMembershipFunctions = c.inputMembershipFunctions)
    (hout : Registry.shape d.outputMembershipFunctions =
      Registry.shape c.outputMembershipFunctions)
    (hr : d.rules.map Rule.shape = c.rules.map Rule.shape)
    (hc : d.rulesCount = c.rulesCount)
    (g : Nat) (outMin outMax : ℚ) (hlt : outMin < outMax) (steps : ℕ) (hsteps : 0 < steps)
    (fuel : Nat) (hfuel : steps + 2 ≤ fuel)
    (g2 : Nat) (outMin2 outMax2 : ℚ) (hlt2 : outMin2 < outMax2) (steps2 : ℕ)
    (hsteps2 : 0 < steps2) (fuel2 : Nat) (hfuel2 : steps2 + 2 ≤ fuel2) :
    ∃ v c1,
      c.defuzzifyCentroid fuel g outMin outMax steps = .ok (v, c1) ∧
      (∃ d1, d.defuzzifyCentroid fuel g outMin outMax steps = .ok (v, d1)) ∧
      (∃ c2, c1.defuzzifyCentroid fuel g outMin outMax steps = .ok (v, c2)) ∧
      (∃ w e1 e2, c.defuzzifyCentroid fuel2 g2 outMin2 outMax2 steps2 = .ok (w, e1) ∧
        e1.defuzzifyCentroid fuel g outMin outMax steps = .ok (v, e2)) := by
  obtain ⟨v, c1, d1, h1, h2, hv1, hne1, fi, fo, fr, fc⟩ :=
    FuzzyController.defuzzifyCentroid_value_congr c d hv hne hin hout hr hc g outMin outMax
      hlt steps hsteps fuel hfuel
  obtain ⟨v', _, c2, h3, h4, _⟩ :=
    FuzzyController.defuzzifyCentroid_value_congr c c1 hv hne fi fo fr fc g outMin outMax
      hlt steps hsteps fuel hfuel
  obtain ⟨w, e1, _, h5, _, hve, hnee, gi, go, gr, gc⟩ :=
    FuzzyController.defuzzifyCentroid_value_congr c c hv hne rfl rfl rfl rfl g2 outMin2
      outMax2 hlt2 steps2 hsteps2 fuel2 hfuel2
  obtain ⟨v'', _, e2, h6, h7, _⟩ :=
    FuzzyController.defuzzifyCentroid_value_congr c e1 hv hne gi go gr gc g outMin outMax
      hlt steps hsteps fuel hfuel
  have e1' : v' = v := by
    rw [h1] at h3
    simp only [Except.ok.injEq, Prod.mk.injEq] at h3
    exact h3.1.symm
  have e2' : v'' = v := by
    rw [h1] at h6
    simp only [Except.ok.injEq, Prod.mk.injEq] at h6
    exact h6.1.symm
  rw [e1'] at h4
  rw [e2'] at h7
  exact ⟨v, c1, h1, ⟨d1, h2⟩, ⟨c2, h4⟩, ⟨w, e1, e2, h5, h7⟩⟩

/-- Witness for C28: the pass-speed controller fuzzified at distance 2, against the
same controller with other output degrees and firing strengths. -/
theorem defuzzifyCentroid_ignores_transient_outputs_witness :
    ∃ v c1,
      ActGen_DirectPassSpeed.fuzzifiedAtTwo.defuzzifyCentroid 10 1 (81 / 100) (331 / 100)
        ((8 : ℕ) : ℚ) = .ok (v, c1) ∧
      (∃ d1, ActGen_DirectPassSpeed.fuzzifiedAtTwoStale.defuzzifyCentroid 10 1 (81 / 100)
        (331 / 100) ((8 : ℕ) : ℚ) = .ok (v, d1)) ∧
      (∃ c2, c1.defuzzifyCentroid 10 1 (81 / 100) (331 / 100) ((8 : ℕ) : ℚ) = .ok (v, c2)) ∧
      (∃ w e1 e2, ActGen_DirectPassSpeed.fuzzifiedAtTwo.defuzzifyCentroid 6 2 0 1
          ((4 : ℕ) : ℚ) = .ok (w, e1) ∧
        e1.defuzzifyCentroid 10 1 (81 / 100) (331 / 100) ((8 : ℕ) : ℚ) = .ok (v, e2)) :=
  defuzzifyCentroid_ignores_transient_outputs ActGen_DirectPassSpeed.fuzzifiedAtTwo
    ActGen_DirectPassSpeed.fuzzifiedAtTwoStale
    (by decide) (by decide) rfl rfl rfl rfl 1 (81 / 100) (331 / 100) (by norm_num) 8
    (by decide) 10 (by decide) 2 0 1 (by norm_num) 4 (by decide) 6 (by decide)


/-! ## Evaluation order -/

theorem foldl_max_perm {l1 l2 : List ℚ} (h : l1.Perm l2) (x : ℚ) :
    l1.foldl max x = l2.foldl max x := by
  apply List.Perm.foldl_eq' h
  intro a _ b _ z
  rw [max_assoc, max_assoc, max_comm a b]

theorem specMinimum_perm {l1 l2 : List ℚ} (h : l1.Perm l2) :
    specMinimum l1 = specMinimum l2 := by
  by_cases hne : l1 = []
  · subst hne
    rw [List.Perm.nil_eq h]
  · have hne2 : l2 ≠ [] := by
      intro h2
      apply hne
      rw [h2] at h
      exact List.Perm.eq_nil h
    apply le_antisymm
    · exact specMinimum_le l1 _ (h.symm.subset (specMinimum_mem l2 hne2))
    · exact specMinimum_le l2 _ (h.subset (specMinimum_mem l1 hne))

theorem specAggregated_perm (c : FuzzyController) (rules1 : List Rule)
    (h : rules1.Perm c.rules) (g : Nat) (p : ℚ) :
    specAggregated { c with rules := rules1 } g p = specAggregated c g p := by
  unfold specAggregated
  exact foldl_max_perm (h.map _) 0

theorem specFiringStrength_perm (inputs : Registry) (r : Rule) (as1 : List String)
    (h : as1.Perm r.antecedents) :
    specFiringStrength inputs { r with antecedents := as1 } = specFiringStrength inputs r := by
  unfold specFiringStrength Rule.antecedentDegrees
  exact specMinimum_perm (h.filterMap _)

/-- C26: evaluation order does not affect the result. For a controller that satisfies
the class invariant and whose rules each have an antecedent, and for every permutation of
its rule vector, `defuzzifyCentroid` returns on both controllers, with the same value for the
same arguments. For every rule of the controller and every permutation of its antecedent
vector, `calculateFiringStrength` returns on both rules, with the same firing
strength. -/
theorem evaluation_order_independent (c : FuzzyController) (hv : c.Valid)
    (hne : ∀ r ∈ c.rules, r.antecedents ≠ []) (rules1 : List Rule)
    (hperm : rules1.Perm c.rules) (g : Nat) (outMin outMax : ℚ) (hlt : outMin < outMax)
    (steps : ℕ) (hsteps : 0 < steps) (fuel : Nat) (hfuel : steps + 2 ≤ fuel) :
    (∃ v c1 c2, c.defuzzifyCentroid fuel g outMin outMax steps = .ok (v, c1) ∧
      FuzzyController.defuzzifyCentroid fuel { c with rules := rules1 } g outMin outMax
        steps = .ok (v, c2)) ∧
    (∀ r ∈ c.rules, ∀ as1 : List String, as1.Perm r.antecedents →
      ∃ r1 r2, r.calculateFiringStrength c.inputMembershipFunctions = .ok r1 ∧
        Rule.calculateFiringStrength { r with antecedents := as1 }
          c.inputMembershipFunctions = .ok r2 ∧
        r2.firingStrength = r1.firingStrength) := by
  constructor
  · have hv1 : FuzzyController.Valid { c with rules := rules1 } := by
      refine ⟨?_, ?_⟩
      · show c.rulesCount = rules1.length
        rw [hv.1, hperm.length_eq]
      · intro r hr
        exact hv.2 r (hperm.subset hr)
    have hne1 : ∀ r ∈ ({ c with rules := rules1 } : FuzzyController).rules,
        r.antecedents ≠ [] := fun r hr => hne r (hperm.subset hr)
    obtain ⟨o1, h1, _⟩ :=
      FuzzyController.defuzzifyCentroid_closed c hv hne g outMin outMax hlt steps hsteps fuel
        hfuel
    obtain ⟨o2, h2, _⟩ :=
      FuzzyController.defuzzifyCentroid_closed { c with rules := rules1 } hv1 hne1 g outMin
        outMax hlt steps hsteps fuel hfuel
    have hN : specNumerator { c with rules := rules1 } g outMin outMax steps =
        specNumerator c g outMin outMax steps := by
      unfold specNumerator
      apply Finset.sum_congr rfl
      intro k _
      rw [specAggregated_perm c rules1 hperm]
    have hD : specDenominator { c with rules := rules1 } g outMin outMax steps =
        specDenominator c g outMin outMax steps := by
      unfold specDenominator
      apply Finset.sum_congr rfl
      intro k _
      rw [specAggregated_perm c rules1 hperm]
    rw [hN, hD] at h2
    exact ⟨_, _, _, h1, h2⟩
  · intro r hr as1 has
    obtain ⟨hc1, _, hres, _⟩ := hv.2 r hr
    have h1 := Rule.calculateFiringStrength_eq r c.inputMembershipFunctions hc1 hres
      (hne r hr)
    have hne2 : as1 ≠ [] := by
      intro h0
      rw [h0] at has
      exact hne r hr (List.Perm.nil_eq has).symm
    have h2 := Rule.calculateFiringStrength_eq { r with antecedents := as1 }
      c.inputMembershipFunctions (by show r.antecedentsCount = as1.length
                                     rw [hc1, has.length_eq])
      (fun a ha => hres a (has.subset ha)) hne2
    exact ⟨_, _, h1, h2, specFiringStrength_perm _ r as1 has⟩

/-- Witness for C26: the two rules of the pass-speed controller fuzzified at distance 2,
in the opposite order. -/
theorem evaluation_order_independent_witness :
    (∃ v c1 c2, ActGen_DirectPassSpeed.fuzzifiedAtTwo.defuzzifyCentroid 10 1 (81 / 100)
        (331 / 100) ((8 : ℕ) : ℚ) = .ok (v, c1) ∧
      FuzzyController.defuzzifyCentroid 10
        { ActGen_DirectPassSpeed.fuzzifiedAtTwo with
          rules := [Rule.new ["distanceHigh"] ["speedHigh"],
                    Rule.new ["distanceLow"] ["speedLow"]] }
        1 (81 / 100) (331 / 100) ((8 : ℕ) : ℚ) = .ok (v, c2)) :=
  (evaluation_order_independent ActGen_DirectPassSpeed.fuzzifiedAtTwo (by decide) (by decide)
    [Rule.new ["distanceHigh"] ["speedHigh"], Rule.new ["distanceLow"] ["speedLow"]]
    (List.Perm.swap _ _ []) 1 (81 / 100) (331 / 100) (by norm_num) 8 (by decide) 10
    (by decide)).1


/-! ## addRule: name resolution -/

theorem FuzzyController.collectNames_stop (reg : Registry) (stop : String)
    (args acc : List String) :
    FuzzyController.collectNames reg stop args stop acc = .ok (acc, args) := by
  cases args with
  | nil => simp [FuzzyController.collectNames]
  | cons next rest => simp [FuzzyController.collectNames]

theorem FuzzyController.collectNames_resolved (reg : Registry) (stop : String)
    (tail : List String) :
    ∀ (as : List String) (cur : String) (acc : List String), cur ≠ stop → stop ∉ as →
      (∀ a ∈ cur :: as, (reg.find a).isSome = true) →
      FuzzyController.collectNames reg stop (as ++ stop :: tail) cur acc =
        .ok (acc ++ cur :: as, tail) := by
  intro as
  induction as with
  | nil =>
    intro cur acc hcur _ hres
    have hf := hres cur (List.mem_cons_self _ _)
    obtain ⟨m, hm⟩ := Option.isSome_iff_exists.mp hf
    simp only [List.nil_append, FuzzyController.collectNames, ne_eq, hcur, not_false_eq_true,
      if_true, hm]
    exact FuzzyController.collectNames_stop reg stop tail _
  | cons a as ih =>
    intro cur acc hcur hstop hres
    have hf := hres cur (List.mem_cons_self _ _)
    obtain ⟨m, hm⟩ := Option.isSome_iff_exists.mp hf
    have ha : a ≠ stop := fun h => hstop (h ▸ List.mem_cons_self _ _)
    have hstop1 : stop ∉ as := fun h => hstop (List.mem_cons_of_mem _ h)
    simp only [List.cons_append, FuzzyController.collectNames, ne_eq, hcur, not_false_eq_true,
      if_true, hm]
    change FuzzyController.collectNames reg stop (as ++ stop :: tail) a (acc ++ [cur]) = _
    rw [ih a (acc ++ [cur]) ha hstop1 (fun x hx => hres x (List.mem_cons_of_mem _ hx))]
    simp

theorem FuzzyController.collectNames_unresolved (reg : Registry) (stop : String)
    (tail : List String) :
    ∀ (as : List String) (cur : String) (acc : List String), cur ≠ stop → stop ∉ as →
      ¬ (∀ a ∈ cur :: as, (reg.find a).isSome = true) →
      FuzzyController.collectNames reg stop (as ++ stop :: tail) cur acc =
        .error .undefinedBehaviour := by
  intro as
  induction as with
  | nil =>
    intro cur acc hcur _ hres
    have hf : reg.find cur = none := by
      cases h : reg.find cur with
      | none => rfl
      | some m =>
        exfalso; apply hres
        intro a ha
        rw [List.mem_singleton] at ha
        rw [ha, h]; rfl
    simp only [List.nil_append, FuzzyController.collectNames, ne_eq, hcur, not_false_eq_true,
      if_true, hf]
  | cons a as ih =>
    intro cur acc hcur hstop hres
    have ha : a ≠ stop := fun h => hstop (h ▸ List.mem_cons_self _ _)
    have hstop1 : stop ∉ as := fun h => hstop (List.mem_cons_of_mem _ h)
    cases h : reg.find cur with
    | none =>
      simp only [List.cons_append, FuzzyController.collectNames, ne_eq, hcur,
        not_false_eq_true, if_true, h]
    | some m =>
      simp only [List.cons_append, FuzzyController.collectNames, ne_eq, hcur,
        not_false_eq_true, if_true, h]
      change FuzzyController.collectNames reg stop (as ++ stop :: tail) a (acc ++ [cur]) = _
      apply ih a (acc ++ [cur]) ha hstop1
      intro hall
      apply hres
      intro x hx
      rcases List.mem_cons.mp hx with h1 | h1
      · rw [h1, h]; rfl
      · exact hall x h1

theorem FuzzyController.collectNames_consequents (reg : Registry) (cs : List String)
    (hstop : kRuleEnd ∉ cs) (cur : String) (rest : List String)
    (hargs : cur :: rest = cs ++ [kRuleEnd]) :
    FuzzyController.collectNames reg kRuleEnd rest cur [] =
      if ∀ k ∈ cs, (reg.find k).isSome = true then .ok (cs, [])
      else .error .undefinedBehaviour := by
  cases cs with
  | nil =>
    simp only [List.nil_append, List.cons.injEq] at hargs
    obtain ⟨h1, h2⟩ := hargs
    subst h1 h2
    simp [FuzzyController.collectNames]
  | cons k cs1 =>
    simp only [List.cons_append, List.cons.injEq] at hargs
    obtain ⟨h1, h2⟩ := hargs
    subst h1 h2
    have hk : cur ≠ kRuleEnd := fun h => hstop (h ▸ List.mem_cons_self _ _)
    have hstop1 : kRuleEnd ∉ cs1 := fun h => hstop (List.mem_cons_of_mem _ h)
    by_cases hall : ∀ a ∈ cur :: cs1, (reg.find a).isSome = true
    · rw [if_pos hall, FuzzyController.collectNames_resolved reg kRuleEnd [] cs1 cur [] hk
        hstop1 hall]
      simp
    · rw [if_neg hall]
      exact FuzzyController.collectNames_unresolved reg kRuleEnd [] cs1 cur [] hk hstop1 hall

theorem FuzzyController.addRule_eq (c : FuzzyController) (first : String)
    (as cs : List String) (hfirst : first ≠ kRuleImplies) (has : kRuleImplies ∉ as)
    (hcs : kRuleEnd ∉ cs) :
    c.addRule first (as ++ kRuleImplies :: (cs ++ [kRuleEnd])) =
      if (∀ a ∈ first :: as, (c.inputMembershipFunctions.find a).isSome = true) ∧
          (∀ k ∈ cs, (c.outputMembershipFunctions.find k).isSome = true) then
        .ok { c with rules := c.rules ++ [Rule.new (first :: as) cs],
                     rulesCount := c.rulesCount + 1 }
      else .error .undefinedBehaviour := by
  unfold FuzzyController.addRule
  by_cases h1 : ∀ a ∈ first :: as, (c.inputMembershipFunctions.find a).isSome = true
  · rw [FuzzyController.collectNames_resolved _ kRuleImplies _ as first [] hfirst has h1]
    obtain ⟨cur, rest, hcr⟩ : ∃ cur rest, cs ++ [kRuleEnd] = cur :: rest := by
      cases cs with
      | nil => exact ⟨_, _, rfl⟩
      | cons k t => exact ⟨_, _, rfl⟩
    rw [hcr]
    simp only [List.nil_append]
    rw [FuzzyController.collectNames_consequents _ cs hcs cur rest hcr.symm]
    by_cases h2 : ∀ k ∈ cs, (c.outputMembershipFunctions.find k).isSome = true
    · rw [if_pos h2, if_pos ⟨h1, h2⟩]
    · rw [if_neg h2, if_neg (fun h => h2 h.2)]
  · rw [FuzzyController.collectNames_unresolved _ kRuleImplies _ as first [] hfirst has h1,
      if_neg (fun h => h1 h.1)]


/-- C24, counterexample: on the constructed pass-speed controller, `addRule` with the
unregistered antecedent name `distanceMid`, or with the unregistered consequent name
`speedMid`, does not end in a reported configuration error with the engine unchanged:
`find` returns `end()`, which the call dereferences, so its behaviour is undefined. -/
theorem addRule_unresolved_counterexample :
    ActGen_DirectPassSpeed.constructed.addRule "distanceMid"
        [kRuleImplies, "speedLow", kRuleEnd] = .error .undefinedBehaviour ∧
    ActGen_DirectPassSpeed.constructed.addRule "distanceLow"
        [kRuleImplies, "speedMid", kRuleEnd] = .error .undefinedBehaviour ∧
    ActGen_DirectPassSpeed.constructed.inputMembershipFunctions.find "distanceMid" = none ∧
    ActGen_DirectPassSpeed.constructed.outputMembershipFunctions.find "speedMid" = none := by
  refine ⟨?_, ?_, by decide, by decide⟩
  · have h := FuzzyController.addRule_eq ActGen_DirectPassSpeed.constructed "distanceMid" []
      ["speedLow"] (by decide) (by simp) (by decide)
    rw [if_neg (by decide)] at h
    exact h
  · have h := FuzzyController.addRule_eq ActGen_DirectPassSpeed.constructed "distanceLow" []
      ["speedMid"] (by decide) (by simp) (by decide)
    rw [if_neg (by decide)] at h
    exact h

/-- C24, amended: `addRule` has no failure path of its own. When the arguments are the
antecedent names `first, as...`, then `kRuleImplies()`, then the consequent names
`cs...`, then `kRuleEnd()`, every antecedent name is a key of the input hash map and
every consequent name is a key of the output hash map, the call returns having appended
exactly one rule holding those antecedents and consequents in order; both hash maps and
the earlier rules are as before and the rule count has grown by one. -/
theorem addRule_appends_resolved_rule (c : FuzzyController) (first : String)
    (as cs : List String) (hfirst : first ≠ kRuleImplies) (has : kRuleImplies ∉ as)
    (hcs : kRuleEnd ∉ cs)
    (hin : ∀ a ∈ first :: as, (c.inputMembershipFunctions.find a).isSome = true)
    (hout : ∀ k ∈ cs, (c.outputMembershipFunctions.find k).isSome = true) :
    c.addRule first (as ++ kRuleImplies :: (cs ++ [kRuleEnd])) =
      .ok { inputMembershipFunctions := c.inputMembershipFunctions,
            outputMembershipFunctions := c.outputMembershipFunctions,
            rules := c.rules ++ [{ antecedents := first :: as, consequents := cs,
                                   antecedentsCount := (first :: as).length,
                                   consequentsCount := cs.length, firingStrength := 0 }],
            rulesCount := c.rulesCount + 1 } := by
  rw [FuzzyController.addRule_eq c first as cs hfirst has hcs, if_pos ⟨hin, hout⟩]
  rfl

/-- Witness for the amended C24: a third rule `distanceLow -> speedHigh` added to the
constructed pass-speed controller. -/
theorem addRule_appends_resolved_rule_witness :
    ActGen_DirectPassSpeed.constructed.addRule "distanceLow"
        ([] ++ kRuleImplies :: (["speedHigh"] ++ [kRuleEnd])) =
      .ok { inputMembershipFunctions :=
              ActGen_DirectPassSpeed.constructed.inputMembershipFunctions,
            outputMembershipFunctions :=
              ActGen_DirectPassSpeed.constructed.outputMembershipFunctions,
            rules := ActGen_DirectPassSpeed.constructed.rules ++
              [{ antecedents := "distanceLow" :: [], consequents := ["speedHigh"],
                 antecedentsCount := ("distanceLow" :: ([] : List String)).length,
                 consequentsCount := (["speedHigh"] : List String).length,
                 firingStrength := 0 }],
            rulesCount := ActGen_DirectPassSpeed.constructed.rulesCount + 1 } :=
  addRule_appends_resolved_rule ActGen_DirectPassSpeed.constructed "distanceLow" []
    ["speedHigh"] (by decide) (by simp) (by decide) (by decide) (by decide)


/-! ## Invariants of the reachable states -/

theorem Registry.ordered_of_shape {a b : Registry} (h : Registry.shape a = Registry.shape b)
    (hb : ∀ node ∈ b, node.2.Ordered) : ∀ node ∈ a, node.2.Ordered := by
  intro node hn
  have h1 : (node.1, node.2.shape) ∈ Registry.shape a :=
    List.mem_map.mpr ⟨node, hn, rfl⟩
  rw [h] at h1
  obtain ⟨n2, hn2, he⟩ := List.mem_map.mp h1
  simp only [Prod.mk.injEq] at he
  have ho := hb n2 hn2
  have hs : n2.2.shape.Ordered := ho
  rw [he.2] at hs
  exact hs

theorem FuzzyController.addRule_frame (c c1 : FuzzyController) (first : String)
    (args : List String) (h : c.addRule first args = .ok c1) :
    c1.inputMembershipFunctions = c.inputMembershipFunctions ∧
    c1.outputMembershipFunctions = c.outputMembershipFunctions ∧
    c1.rulesCount = c.rulesCount + 1 ∧
    ∃ antecedents rest currentArg rest1 consequents rest2,
      FuzzyController.collectNames c.inputMembershipFunctions kRuleImplies args first [] =
        .ok (antecedents, currentArg :: rest) ∧
      FuzzyController.collectNames c.outputMembershipFunctions kRuleEnd rest currentArg [] =
        .ok (consequents, rest2) ∧ rest1 = rest ∧
      c1.rules = c.rules ++ [Rule.new antecedents consequents] := by
  unfold FuzzyController.addRule at h
  split at h
  · simp at h
  · simp at h
  · rename_i ants cur rest heq
    split at h
    · simp at h
    · rename_i cons rest2 heq2
      simp only [Except.ok.injEq] at h
      rw [← h]
      exact ⟨rfl, rfl, rfl, ants, rest, cur, rest, cons, rest2, heq, heq2, rfl, rfl⟩

theorem FuzzyController.collectNames_acc (reg : Registry) (stop : String) :
    ∀ (args : List String) (cur : String) (acc names rest : List String),
      FuzzyController.collectNames reg stop args cur acc = .ok (names, rest) →
      (∃ more, names = acc ++ more ∧ (cur ≠ stop → more ≠ [])) ∧
      ((∀ a ∈ acc, (reg.find a).isSome = true) → ∀ a ∈ names, (reg.find a).isSome = true) := by
  intro args
  induction args with
  | nil =>
    intro cur acc names rest h
    unfold FuzzyController.collectNames at h
    split_ifs at h with hc
    simp only [Except.ok.injEq, Prod.mk.injEq] at h
    rw [← h.1]
    exact ⟨⟨[], by simp, fun h0 => absurd h0 hc⟩, fun hacc => hacc⟩
  | cons next tl ih =>
    intro cur acc names rest h
    unfold FuzzyController.collectNames at h
    split_ifs at h with hc
    · cases hf : reg.find cur with
      | none => rw [hf] at h; simp at h
      | some m =>
        rw [hf] at h
        simp only [] at h
        obtain ⟨⟨more, hm, _⟩, hres⟩ := ih next (acc ++ [cur]) names rest h
        refine ⟨⟨cur :: more, by rw [hm]; simp, fun _ => by simp⟩, ?_⟩
        intro hacc
        apply hres
        intro a ha
        rcases List.mem_append.mp ha with h1 | h1
        · exact hacc a h1
        · rw [List.mem_singleton.mp h1, hf]; rfl
    · simp only [Except.ok.injEq, Prod.mk.injEq] at h
      rw [← h.1]
      exact ⟨⟨[], by simp, fun h0 => absurd h0 hc⟩, fun hacc => hacc⟩

theorem Registry.find_assign_isSome (reg : Registry) (name k : String) (v : MembershipFunction)
    (h : (reg.find k).isSome = true) : ((reg.assign name v).find k).isSome = true := by
  by_cases hk : k = name
  · rw [hk, Registry.find_assign_self]; rfl
  · rw [Registry.find_assign_other _ _ _ _ hk]; exact h

theorem FuzzyController.addMembershipFunction_valid (c : FuzzyController) (name : String)
    (start topLeft topRight end_ : ℚ) (idx : Int) (kind : MembershipFunctionKind)
    (h : c.Valid) :
    (c.addMembershipFunction name start topLeft topRight end_ idx kind).Valid := by
  obtain ⟨hc, hb⟩ := h
  cases kind with
  | INPUT_MEMBERSHIP_FUNCTION =>
    refine ⟨hc, ?_⟩
    intro r hr
    obtain ⟨h1, h2, h3, h4⟩ := hb r hr
    exact ⟨h1, h2, fun a ha => Registry.find_assign_isSome _ _ _ _ (h3 a ha), h4⟩
  | OUTPUT_MEMBERSHIP_FUNCTION =>
    refine ⟨hc, ?_⟩
    intro r hr
    obtain ⟨h1, h2, h3, h4⟩ := hb r hr
    exact ⟨h1, h2, h3, fun a ha => Registry.find_assign_isSome _ _ _ _ (h4 a ha)⟩

theorem FuzzyController.addRule_valid (c c1 : FuzzyController) (first : String)
    (args : List String) (h : c.Valid) (hc : c.addRule first args = .ok c1) : c1.Valid := by
  obtain ⟨hi, ho, hn, ants, rest, cur, _, cons, rest2, h1, h2, _, hr⟩ :=
    FuzzyController.addRule_frame c c1 first args hc
  refine ⟨?_, ?_⟩
  · rw [hn, hr, h.1]; simp
  · intro r hmem
    rw [hi, ho]
    rw [hr] at hmem
    rcases List.mem_append.mp hmem with hm | hm
    · exact h.2 r hm
    · rw [List.mem_singleton.mp hm]
      refine ⟨rfl, rfl, ?_, ?_⟩
      · exact (FuzzyController.collectNames_acc _ _ _ _ _ _ _ h1).2 (by simp)
      · exact (FuzzyController.collectNames_acc _ _ _ _ _ _ _ h2).2 (by simp)

theorem FuzzyController.ReachableUnder.classInvariant {okShape : ℚ → ℚ → ℚ → ℚ → Prop}
    {okRule : String → List String → Prop} {c : FuzzyController}
    (h : FuzzyController.ReachableUnder okShape okRule c) : c.Valid := by
  induction h with
  | new => exact ⟨rfl, by intro r hr; simp [FuzzyController.new] at hr⟩
  | addMembershipFunction c name start topLeft topRight end_ idx kind _ _ ih =>
    exact FuzzyController.addMembershipFunction_valid c name start topLeft topRight end_ idx
      kind ih
  | addRule c c1 first args _ _ hc ih => exact FuzzyController.addRule_valid c c1 first args ih hc
  | fuzzify c c1 x args _ hc ih =>
    obtain ⟨hi, ho, hr, hn⟩ := FuzzyController.fuzzify_sameConfiguration c c1 x args hc
    exact FuzzyController.SameConfiguration.valid
      (show c1.SameConfiguration c from ⟨hi, by rw [ho], by rw [hr], hn⟩) ih
  | defuzzifyCentroid c c1 fuel g a b d v _ hc ih =>
    obtain ⟨hi, ho, hr, hn⟩ :=
      FuzzyController.defuzzifyCentroid_sameConfiguration c c1 fuel g a b d v hc
    exact FuzzyController.SameConfiguration.valid
      (show c1.SameConfiguration c from ⟨by rw [hi], ho, hr, hn⟩) ih

theorem FuzzyController.ReachableUnder.ordered {okRule : String → List String → Prop}
    {c : FuzzyController} (h : FuzzyController.ReachableUnder OrderedShape okRule c) :
    (∀ node ∈ c.inputMembershipFunctions, node.2.Ordered) ∧
    (∀ node ∈ c.outputMembershipFunctions, node.2.Ordered) := by
  induction h with
  | new =>
    constructor <;> intro node hn <;> simp [FuzzyController.new] at hn
  | addMembershipFunction c name start topLeft topRight end_ idx kind hok _ ih =>
    have hnew : ∀ node : String × MembershipFunction,
        node.2 = MembershipFunction.new start topLeft topRight end_ idx → node.2.Ordered := by
      intro node hn
      rw [hn]
      exact hok
    cases kind with
    | INPUT_MEMBERSHIP_FUNCTION =>
      refine ⟨?_, ih.2⟩
      intro node hn
      rcases Registry.mem_assign _ _ _ _ hn with h1 | h1
      · exact ih.1 node h1
      · exact hnew node h1
    | OUTPUT_MEMBERSHIP_FUNCTION =>
      refine ⟨ih.1, ?_⟩
      intro node hn
      rcases Registry.mem_assign _ _ _ _ hn with h1 | h1
      · exact ih.2 node h1
      · exact hnew node h1
  | addRule c c1 first args _ _ hc ih =>
    obtain ⟨hi, ho, _⟩ := FuzzyController.addRule_frame c c1 first args hc
    rw [hi, ho]; exact ih
  | fuzzify c c1 x args _ hc ih =>
    obtain ⟨hi, ho, _⟩ := FuzzyController.fuzzify_sameConfiguration c c1 x args hc
    rw [ho]
    exact ⟨Registry.ordered_of_shape hi ih.1, ih.2⟩
  | defuzzifyCentroid c c1 fuel g a b d v _ hc ih =>
    obtain ⟨hi, ho, _⟩ :=
      FuzzyController.defuzzifyCentroid_sameConfiguration c c1 fuel g a b d v hc
    rw [hi]
    exact ⟨ih.1, Registry.ordered_of_shape ho ih.2⟩


theorem Rule.mem_of_shape {a b : List Rule} (h : a.map Rule.shape = b.map Rule.shape)
    (r : Rule) (hr : r ∈ a) :
    ∃ r0 ∈ b, r0.antecedents = r.antecedents ∧ r0.consequents = r.consequents := by
  have h1 : r.shape ∈ a.map Rule.shape := List.mem_map.mpr ⟨r, hr, rfl⟩
  rw [h] at h1
  obtain ⟨r0, hr0, he⟩ := List.mem_map.mp h1
  refine ⟨r0, hr0, ?_, ?_⟩
  · have := congrArg Rule.antecedents he
    exact this
  · have := congrArg Rule.consequents he
    exact this

theorem FuzzyController.addRule_atLeastOneEach (c c1 : FuzzyController) (first : String)
    (args : List String) (hdoc : AtLeastOneEach first args)
    (hc : c.addRule first args = .ok c1) :
    ∃ r, c1.rules = c.rules ++ [r] ∧ r.antecedents ≠ [] ∧ r.consequents ≠ [] := by
  obtain ⟨_, _, _, ants, rest, cur, _, cons, rest2, h1, h2, _, hr⟩ :=
    FuzzyController.addRule_frame c c1 first args hc
  obtain ⟨hfirst, as, k, rest0, hargs, has, hk⟩ := hdoc
  refine ⟨_, hr, ?_, ?_⟩
  · obtain ⟨more, hm, hne⟩ := (FuzzyController.collectNames_acc _ _ _ _ _ _ _ h1).1
    show ants ≠ []
    rw [hm]
    simpa using hne hfirst
  · have hcur : cur = k := by
      rw [hargs] at h1
      by_cases hall : ∀ a ∈ first :: as, (c.inputMembershipFunctions.find a).isSome = true
      · rw [FuzzyController.collectNames_resolved _ kRuleImplies _ as first [] hfirst has
          hall] at h1
        simp only [Except.ok.injEq, Prod.mk.injEq, List.cons.injEq] at h1
        exact h1.2.1.symm
      · rw [FuzzyController.collectNames_unresolved _ kRuleImplies _ as first [] hfirst has
          hall] at h1
        simp at h1
    obtain ⟨more, hm, hne⟩ := (FuzzyController.collectNames_acc _ _ _ _ _ _ _ h2).1
    show cons ≠ []
    rw [hm]
    simpa using hne (hcur ▸ hk)

theorem FuzzyController.ReachableUnder.rules_nonempty {okShape : ℚ → ℚ → ℚ → ℚ → Prop}
    {c : FuzzyController} (h : FuzzyController.ReachableUnder okShape AtLeastOneEach c) :
    ∀ r ∈ c.rules, r.antecedents ≠ [] ∧ r.consequents ≠ [] := by
  induction h with
  | new => intro r hr; simp [FuzzyController.new] at hr
  | addMembershipFunction c name start topLeft topRight end_ idx kind _ _ ih =>
    cases kind <;> exact ih
  | addRule c c1 first args hdoc _ hc ih =>
    obtain ⟨r0, hr, h1, h2⟩ := FuzzyController.addRule_atLeastOneEach c c1 first args hdoc hc
    intro r hmem
    rw [hr] at hmem
    rcases List.mem_append.mp hmem with hm | hm
    · exact ih r hm
    · rw [List.mem_singleton.mp hm]; exact ⟨h1, h2⟩
  | fuzzify c c1 x args _ hc ih =>
    obtain ⟨_, _, hr, _⟩ := FuzzyController.fuzzify_sameConfiguration c c1 x args hc
    rw [hr]; exact ih
  | defuzzifyCentroid c c1 fuel g a b d v _ hc ih =>
    obtain ⟨_, _, hr, _⟩ :=
      FuzzyController.defuzzifyCentroid_sameConfiguration c c1 fuel g a b d v hc
    intro r hmem
    obtain ⟨r0, hr0, ha, hcs⟩ := Rule.mem_of_shape hr r hmem
    rw [← ha, ← hcs]
    exact ih r0 hr0

end fuzzy

namespace ActGen_DirectPassSpeed

open fuzzy

theorem constructed_reachableUnder (okShape : ℚ → ℚ → ℚ → ℚ → Prop)
    (okRule : String → List String → Prop)
    (hs1 : okShape kMinDistance kMinDistance kMinDistance kMaxDistance)
    (hs2 : okShape kMinDistance kMaxDistance kMaxDistance kMaxDistance)
    (hs3 : okShape kMinSpeed kMinSpeed kMinSpeed kMaxSpeed)
    (hs4 : okShape kMinSpeed kMaxSpeed kMaxSpeed kMaxSpeed)
    (hr1 : okRule "distanceLow" [kRuleImplies, "speedLow", kRuleEnd])
    (hr2 : okRule "distanceHigh" [kRuleImplies, "speedHigh", kRuleEnd]) :
    FuzzyController.ReachableUnder okShape okRule constructed := by
  have h0 : FuzzyController.ReachableUnder okShape okRule
      (initMembershipFunctions FuzzyController.new) := by
    unfold initMembershipFunctions
    exact FuzzyController.ReachableUnder.addMembershipFunction _ _ _ _ _ _ _ _ hs4
      (FuzzyController.ReachableUnder.addMembershipFunction _ _ _ _ _ _ _ _ hs3
        (FuzzyController.ReachableUnder.addMembershipFunction _ _ _ _ _ _ _ _ hs2
          (FuzzyController.ReachableUnder.addMembershipFunction _ _ _ _ _ _ _ _ hs1
            FuzzyController.ReachableUnder.new)))
  have hc : initRuleBase (initMembershipFunctions FuzzyController.new) = .ok constructed :=
    construct_eq
  unfold initRuleBase at hc
  cases h1 : (initMembershipFunctions FuzzyController.new).addRule "distanceLow"
      [kRuleImplies, "speedLow", kRuleEnd] with
  | error e => rw [h1] at hc; simp at hc
  | ok c2 =>
    rw [h1] at hc
    exact FuzzyController.ReachableUnder.addRule c2 constructed _ _ hr2
      (FuzzyController.ReachableUnder.addRule _ c2 _ _ hr1 h0 h1) hc

end ActGen_DirectPassSpeed

namespace fuzzy

/-- C23, counterexample: the call `addMembershipFunction("bad", 3, 2, 1, 0, 1, INPUT)` on
the empty controller is not rejected. The input hash map changes: it now holds the
definition, whose shape violates `start <= topLeft <= topRight <= end`, in a reachable
controller state. -/
theorem addMembershipFunction_unordered_counterexample :
    (FuzzyController.new.addMembershipFunction "bad" 3 2 1 0 1
        .INPUT_MEMBERSHIP_FUNCTION).inputMembershipFunctions =
      [("bad", { start := 3, topLeft := 2, topRight := 1, end_ := 0,
                 fuzzyStrength := 0, fuzzificationIndex := 1 })] ∧
    (FuzzyController.new.addMembershipFunction "bad" 3 2 1 0 1
        .INPUT_MEMBERSHIP_FUNCTION).inputMembershipFunctions ≠
      FuzzyController.new.inputMembershipFunctions ∧
    ¬ ((3 : ℚ) ≤ 2 ∧ (2 : ℚ) ≤ 1 ∧ (1 : ℚ) ≤ 0) ∧
    (FuzzyController.new.addMembershipFunction "bad" 3 2 1 0 1
        .INPUT_MEMBERSHIP_FUNCTION).Reachable := by
  refine ⟨rfl, ?_, by norm_num, ?_⟩
  · simp [FuzzyController.new, FuzzyController.addMembershipFunction, Registry.assign]
  · exact FuzzyController.Reachable.addMembershipFunction _ _ _ _ _ _ _ _
      FuzzyController.Reachable.new

/-- C23, amended: `addMembershipFunction` does no validation: whatever the four shape
arguments are, the definition is stored under the name. In every controller state
reached from the empty controller by calls that return, in which every call of
`addMembershipFunction` is given a shape with `start <= topLeft <= topRight <= end`, every
input and every output membership function satisfies
`start <= topLeft <= topRight <= end`. -/
theorem reachable_ordered_of_ordered_calls (c : FuzzyController)
    (h : FuzzyController.ReachableUnder OrderedShape (fun _ _ => True) c) :
    (∀ (name : String) (start topLeft topRight end_ : ℚ) (groupIndex : Int)
        (kind : MembershipFunctionKind),
      ((c.addMembershipFunction name start topLeft topRight end_ groupIndex kind).registry
          kind).find name =
        some { start := start, topLeft := topLeft, topRight := topRight, end_ := end_,
               fuzzyStrength := 0, fuzzificationIndex := groupIndex }) ∧
    (∀ node ∈ c.inputMembershipFunctions,
      node.2.start ≤ node.2.topLeft ∧ node.2.topLeft ≤ node.2.topRight ∧
        node.2.topRight ≤ node.2.end_) ∧
    (∀ node ∈ c.outputMembershipFunctions,
      node.2.start ≤ node.2.topLeft ∧ node.2.topLeft ≤ node.2.topRight ∧
        node.2.topRight ≤ node.2.end_) := by
  refine ⟨?_, FuzzyController.ReachableUnder.ordered h⟩
  intro name start topLeft topRight end_ groupIndex kind
  rw [FuzzyController.registry_addMembershipFunction]
  exact Registry.find_assign_self _ _ _

/-- Witness for the amended C23: the constructed pass-speed controller, whose four calls
of `addMembershipFunction` pass ordered shapes. -/
theorem reachable_ordered_of_ordered_calls_witness :
    (∀ node ∈ ActGen_DirectPassSpeed.constructed.inputMembershipFunctions,
      node.2.start ≤ node.2.topLeft ∧ node.2.topLeft ≤ node.2.topRight ∧
        node.2.topRight ≤ node.2.end_) ∧
    (∀ node ∈ ActGen_DirectPassSpeed.constructed.outputMembershipFunctions,
      node.2.start ≤ node.2.topLeft ∧ node.2.topLeft ≤ node.2.topRight ∧
        node.2.topRight ≤ node.2.end_) :=
  (reachable_ordered_of_ordered_calls ActGen_DirectPassSpeed.constructed
    (ActGen_DirectPassSpeed.constructed_reachableUnder OrderedShape (fun _ _ => True)
      (by norm_num [OrderedShape, ActGen_DirectPassSpeed.kMinDistance,
        ActGen_DirectPassSpeed.kMaxDistance])
      (by norm_num [OrderedShape, ActGen_DirectPassSpeed.kMinDistance,
        ActGen_DirectPassSpeed.kMaxDistance])
      (by norm_num [OrderedShape, ActGen_DirectPassSpeed.kMinSpeed,
        ActGen_DirectPassSpeed.kMaxSpeed])
      (by norm_num [OrderedShape, ActGen_DirectPassSpeed.kMinSpeed,
        ActGen_DirectPassSpeed.kMaxSpeed])
      trivial trivial)).2

/-- C25, counterexample: on the constructed pass-speed controller the call
`addRule(kRuleImplies(), "speedLow", kRuleEnd())` returns and stores a rule with an empty
antecedent vector, and `addRule("distanceLow", kRuleImplies(), kRuleEnd())` returns and
stores a rule with an empty consequent vector. On the first of these rules
`calculateFiringStrength` reads `antecedents[0]` out of bounds. -/
theorem addRule_empty_vectors_counterexample :
    ActGen_DirectPassSpeed.constructed.addRule kRuleImplies ["speedLow", kRuleEnd] =
      .ok { ActGen_DirectPassSpeed.constructed with
            rules := ActGen_DirectPassSpeed.constructed.rules ++ [Rule.new [] ["speedLow"]],
            rulesCount := 3 } ∧
    ActGen_DirectPassSpeed.constructed.addRule "distanceLow" [kRuleImplies, kRuleEnd] =
      .ok { ActGen_DirectPassSpeed.constructed with
            rules := ActGen_DirectPassSpeed.constructed.rules ++ [Rule.new ["distanceLow"] []],
            rulesCount := 3 } ∧
    (Rule.new [] ["speedLow"]).calculateFiringStrength
        ActGen_DirectPassSpeed.constructed.inputMembershipFunctions =
      .error .undefinedBehaviour := by
  refine ⟨?_, ?_, rfl⟩
  · rw [FuzzyController.addRule, FuzzyController.collectNames_stop]
    simp only []
    have h := FuzzyController.collectNames_consequents
      ActGen_DirectPassSpeed.constructed.outputMembershipFunctions ["speedLow"] (by decide)
      "speedLow" [kRuleEnd] rfl
    rw [if_pos (by decide)] at h
    rw [h]
    rfl
  · have h := FuzzyController.addRule_eq ActGen_DirectPassSpeed.constructed "distanceLow" []
      [] (by decide) (by simp) (by simp)
    rw [if_pos (by decide)] at h
    exact h

/-- C25, amended: `addRule` does not check its arguments, and the precondition in its
documentation (at least one antecedent and one consequent) is the caller's to meet. In
every controller state reached from the empty controller by calls that return, in which
every call of `addRule` passes at least one antecedent name before `kRuleImplies()` and
at least one consequent name before `kRuleEnd()`, every rule of the rule vector has at
least one antecedent and at least one consequent, its cached antecedent count is
positive, and `calculateFiringStrength` returns on it: the read of `antecedents[0]` is in
bounds and the pointer resolves. -/
theorem reachable_rules_nonempty_of_documented_calls (c : FuzzyController)
    (h : FuzzyController.ReachableUnder (fun _ _ _ _ => True) AtLeastOneEach c) :
    ∀ r ∈ c.rules, r.antecedents ≠ [] ∧ r.consequents ≠ [] ∧
      0 < r.antecedentsCount ∧ 0 < r.consequentsCount ∧
      (∃ key, r.antecedents[0]? = some key) ∧
      ∃ r1, r.calculateFiringStrength c.inputMembershipFunctions = .ok r1 := by
  intro r hr
  obtain ⟨hne, hnc⟩ := FuzzyController.ReachableUnder.rules_nonempty h r hr
  obtain ⟨hc1, hc2, hres, _⟩ := (FuzzyController.ReachableUnder.classInvariant h).2 r hr
  refine ⟨hne, hnc, ?_, ?_, ?_, _,
    Rule.calculateFiringStrength_eq r c.inputMembershipFunctions hc1 hres hne⟩
  · rw [hc1]; exact List.length_pos.mpr hne
  · rw [hc2]; exact List.length_pos.mpr hnc
  · cases hl : r.antecedents with
    | nil => exact absurd hl hne
    | cons k t => exact ⟨k, by simp⟩

/-- Witness for the amended C25: the rule `distanceLow -> speedLow` of the constructed
pass-speed controller, whose two calls of `addRule` pass one antecedent and one consequent
each. -/
theorem reachable_rules_nonempty_of_documented_calls_witness :
    (Rule.new ["distanceLow"] ["speedLow"]).antecedents ≠ [] ∧
      (Rule.new ["distanceLow"] ["speedLow"]).consequents ≠ [] ∧
      0 < (Rule.new ["distanceLow"] ["speedLow"]).antecedentsCount ∧
      0 < (Rule.new ["distanceLow"] ["speedLow"]).consequentsCount ∧
      (∃ key, (Rule.new ["distanceLow"] ["speedLow"]).antecedents[0]? = some key) ∧
      ∃ r1, (Rule.new ["distanceLow"] ["speedLow"]).calculateFiringStrength
        ActGen_DirectPassSpeed.constructed.inputMembershipFunctions = .ok r1 :=
  reachable_rules_nonempty_of_documented_calls ActGen_DirectPassSpeed.constructed
    (ActGen_DirectPassSpeed.constructed_reachableUnder (fun _ _ _ _ => True) AtLeastOneEach
      trivial trivial trivial trivial
      ⟨by decide, [], "speedLow", [kRuleEnd], rfl, by simp, by decide⟩
      ⟨by decide, [], "speedHigh", [kRuleEnd], rfl, by simp, by decide⟩)
    (Rule.new ["distanceLow"] ["speedLow"]) (List.mem_cons_self _ _)


/-! ## trimNumeric against its documentation -/

/-- C30, counterexample: with the range `[0, 10]`, the value `-5` below the range is
set to `1`, not to the range minimum `0`, and the value `15` above the range is set to
`9`, not to the range maximum `10`. -/
theorem trimNumeric_limits_counterexample :
    (trimNumeric { numeric := -5, lowerLimit := 0, upperLimit := 10 }).numeric = 1 ∧
    (trimNumeric { numeric := -5, lowerLimit := 0, upperLimit := 10 }).numeric ≠ 0 ∧
    (trimNumeric { numeric := 15, lowerLimit := 0, upperLimit := 10 }).numeric = 9 ∧
    (trimNumeric { numeric := 15, lowerLimit := 0, upperLimit := 10 }).numeric ≠ 10 := by
  rw [trimNumeric_eq, trimNumeric_eq]
  norm_num

/-- C30, amended: `trimNumeric` sets every value smaller than the range minimum to
`lowerLimit + 1`, and every value larger than the range maximum that is not smaller than
`lowerLimit + 1` to `upperLimit - 1`; for a range at least one unit wide
(`lowerLimit + 1 <= upperLimit`) that is every value larger than the range maximum. -/
theorem trimNumeric_outside_range (v lowerLimit upperLimit : ℚ) :
    (v < lowerLimit →
      (trimNumeric { numeric := v, lowerLimit := lowerLimit,
                     upperLimit := upperLimit }).numeric = lowerLimit + 1) ∧
    (upperLimit < v → lowerLimit + 1 ≤ v →
      (trimNumeric { numeric := v, lowerLimit := lowerLimit,
                     upperLimit := upperLimit }).numeric = upperLimit - 1) ∧
    (lowerLimit + 1 ≤ upperLimit → upperLimit < v →
      (trimNumeric { numeric := v, lowerLimit := lowerLimit,
                     upperLimit := upperLimit }).numeric = upperLimit - 1) := by
  rw [trimNumeric_eq]
  simp only []
  refine ⟨?_, ?_, ?_⟩
  · intro h
    rw [if_pos (by linarith)]
  · intro h1 h2
    rw [if_neg (by linarith), if_pos (by linarith)]
  · intro h1 h2
    rw [if_neg (by linarith), if_pos (by linarith)]

/-- Witness for the amended C30: the distance range `[1, 21]` of the pass-speed controller
with the values `0` and `30`. -/
theorem trimNumeric_outside_range_witness :
    (trimNumeric { numeric := 0, lowerLimit := 1, upperLimit := 21 }).numeric = 1 + 1 ∧
    (trimNumeric { numeric := 30, lowerLimit := 1, upperLimit := 21 }).numeric = 21 - 1 :=
  ⟨(trimNumeric_outside_range 0 1 21).1 (by norm_num),
   (trimNumeric_outside_range 30 1 21).2.2 (by norm_num) (by norm_num)⟩


/-! ## Riemann sums of the rising edge -/

theorem risingEdge_low (a b t : ℚ) (h : t < a) : risingEdge a b t = 0 := by
  unfold risingEdge; rw [if_pos h]

theorem risingEdge_mid (a b t : ℚ) (h1 : a ≤ t) (h2 : t < b) :
    risingEdge a b t = (t - a) / (b - a) := by
  unfold risingEdge; rw [if_neg (not_lt.mpr h1), if_pos h2]

theorem risingEdge_high (a b t : ℚ) (hab : a ≤ b) (h : b ≤ t) : risingEdge a b t = 1 := by
  unfold risingEdge; rw [if_neg (not_lt.mpr (le_trans hab h)), if_neg (not_lt.mpr h)]

theorem risingEdgeIntegral_low (a b t : ℚ) (h : t ≤ a) : risingEdgeIntegral a b t = 0 := by
  unfold risingEdgeIntegral; rw [if_pos h]

theorem risingEdgeIntegral_mid (a b t : ℚ) (h1 : a ≤ t) (h2 : t ≤ b) :
    risingEdgeIntegral a b t = (t - a) ^ 2 / (2 * (b - a)) := by
  unfold risingEdgeIntegral
  by_cases h : t ≤ a
  · have : t = a := le_antisymm h h1
    rw [if_pos h, this]; simp
  · rw [if_neg h, if_pos h2]

theorem risingEdgeIntegral_high (a b t : ℚ) (hab : a ≤ b) (h : b ≤ t) :
    risingEdgeIntegral a b t = t - (a + b) / 2 := by
  unfold risingEdgeIntegral
  by_cases h1 : t ≤ a
  · have e1 : t = a := le_antisymm h1 (le_trans hab h)
    have e2 : b = a := le_antisymm (e1 ▸ h) hab
    rw [if_pos h1, e1, e2]; ring
  · rw [if_neg h1]
    by_cases h2 : t ≤ b
    · have e : t = b := le_antisymm h2 h
      have hlt : a < b := by rw [← e]; exact not_le.mp h1
      have hne : b - a ≠ 0 := by linarith
      rw [if_pos h2, e]
      field_simp
      ring
    · rw [if_neg h2]

theorem risingEdgeMoment_low (a b t : ℚ) (h : t ≤ a) : risingEdgeMoment a b t = 0 := by
  unfold risingEdgeMoment; rw [if_pos h]

theorem risingEdgeMoment_mid (a b t : ℚ) (h1 : a ≤ t) (h2 : t ≤ b) :
    risingEdgeMoment a b t = (t - a) ^ 3 / (3 * (b - a)) := by
  unfold risingEdgeMoment
  by_cases h : t ≤ a
  · have : t = a := le_antisymm h h1
    rw [if_pos h, this]; simp
  · rw [if_neg h, if_pos h2]

theorem risingEdgeMoment_high (a b t : ℚ) (hab : a ≤ b) (h : b ≤ t) :
    risingEdgeMoment a b t = (t - a) ^ 2 / 2 - (b - a) ^ 2 / 6 := by
  unfold risingEdgeMoment
  by_cases h1 : t ≤ a
  · have e1 : t = a := le_antisymm h1 (le_trans hab h)
    have e2 : b = a := le_antisymm (e1 ▸ h) hab
    rw [if_pos h1, e1, e2]; ring
  · rw [if_neg h1]
    by_cases h2 : t ≤ b
    · have e : t = b := le_antisymm h2 h
      have hlt : a < b := by rw [← e]; exact not_le.mp h1
      have hne : b - a ≠ 0 := by linarith
      rw [if_pos h2, e]
      field_simp
      ring
    · rw [if_neg h2]

/-- The integral of the rising edge lies above each of its tangents. -/
theorem risingEdgeIntegral_tangent (a b : ℚ) (hab : a ≤ b) (x y : ℚ) :
    risingEdge a b x * (y - x) ≤ risingEdgeIntegral a b y - risingEdgeIntegral a b x := by
  rcases lt_or_le x a with hx1 | hx1
  · -- slope 0
    rw [risingEdge_low a b x hx1, risingEdgeIntegral_low a b x hx1.le, zero_mul, sub_zero]
    rcases le_total y a with hy1 | hy1
    · rw [risingEdgeIntegral_low a b y hy1]
    · rcases le_total y b with hy2 | hy2
      · rcases eq_or_lt_of_le hab with e | hlt
        · have : y = a := le_antisymm (e ▸ hy2) hy1
          rw [risingEdgeIntegral_low a b y this.le]
        · rw [risingEdgeIntegral_mid a b y hy1 hy2]
          apply div_nonneg (sq_nonneg _); linarith
      · rw [risingEdgeIntegral_high a b y hab hy2]; linarith
  · rcases lt_or_le x b with hx2 | hx2
    · -- on the ramp
      have hlt : a < b := lt_of_le_of_lt hx1 hx2
      have hl : 0 < b - a := by linarith
      rw [risingEdge_mid a b x hx1 hx2, risingEdgeIntegral_mid a b x hx1 hx2.le]
      rcases le_total y a with hy1 | hy1
      · rw [risingEdgeIntegral_low a b y hy1]
        have key : 0 - (x - a) ^ 2 / (2 * (b - a)) - (x - a) / (b - a) * (y - x) =
            (x - a) * (x + a - 2 * y) / (2 * (b - a)) := by
          field_simp; ring
        rw [← sub_nonneg, key]
        apply div_nonneg _ (by linarith)
        apply mul_nonneg <;> linarith
      · rcases le_total y b with hy2 | hy2
        · rw [risingEdgeIntegral_mid a b y hy1 hy2]
          have key : (y - a) ^ 2 / (2 * (b - a)) - (x - a) ^ 2 / (2 * (b - a)) -
              (x - a) / (b - a) * (y - x) = (y - x) ^ 2 / (2 * (b - a)) := by
            field_simp; ring
          rw [← sub_nonneg, key]
          apply div_nonneg (sq_nonneg _) (by linarith)
        · rw [risingEdgeIntegral_high a b y hab hy2]
          have key : y - (a + b) / 2 - (x - a) ^ 2 / (2 * (b - a)) -
              (x - a) / (b - a) * (y - x) =
              ((b - x) ^ 2 + 2 * (b - x) * (y - b)) / (2 * (b - a)) := by
            field_simp; ring
          rw [← sub_nonneg, key]
          apply div_nonneg _ (by linarith)
          have h1 : 0 ≤ (b - x) * (y - b) := mul_nonneg (by linarith) (by linarith)
          nlinarith [sq_nonneg (b - x)]
    · -- slope 1
      rw [risingEdge_high a b x hab hx2, risingEdgeIntegral_high a b x hab hx2, one_mul]
      rcases le_total y a with hy1 | hy1
      · rw [risingEdgeIntegral_low a b y hy1]; linarith
      · rcases le_total y b with hy2 | hy2
        · rcases eq_or_lt_of_le hab with e | hlt
          · have : y = a := le_antisymm (e ▸ hy2) hy1
            rw [risingEdgeIntegral_low a b y this.le]; linarith
          · rw [risingEdgeIntegral_mid a b y hy1 hy2]
            have hl : 0 < b - a := by linarith
            have hne : b - a ≠ 0 := ne_of_gt hl
            have key : (y - a) ^ 2 / (2 * (b - a)) - (x - (a + b) / 2) - (y - x) =
                (b - y) ^ 2 / (2 * (b - a)) := by
              field_simp; ring
            rw [← sub_nonneg, key]
            apply div_nonneg (sq_nonneg _) (by linarith)
        · rw [risingEdgeIntegral_high a b y hab hy2]; linarith


/-- The integral of `(s - a) * risingEdge a b s` lies above each of its tangents. -/
theorem risingEdgeMoment_tangent (a b : ℚ) (hab : a ≤ b) (x y : ℚ) :
    (x - a) * risingEdge a b x * (y - x) ≤
      risingEdgeMoment a b y - risingEdgeMoment a b x := by
  rcases lt_or_le x a with hx1 | hx1
  · rw [risingEdge_low a b x hx1, risingEdgeMoment_low a b x hx1.le, mul_zero, zero_mul,
      sub_zero]
    rcases le_total y a with hy1 | hy1
    · rw [risingEdgeMoment_low a b y hy1]
    · rcases le_total y b with hy2 | hy2
      · rcases eq_or_lt_of_le hab with e | hlt
        · have : y = a := le_antisymm (e ▸ hy2) hy1
          rw [risingEdgeMoment_low a b y this.le]
        · rw [risingEdgeMoment_mid a b y hy1 hy2]
          apply div_nonneg (pow_nonneg (by linarith) 3); linarith
      · rw [risingEdgeMoment_high a b y hab hy2]
        nlinarith [mul_nonneg (sub_nonneg.mpr hy2) (sub_nonneg.mpr hab),
          sq_nonneg (y - b), sq_nonneg (b - a)]
  · rcases lt_or_le x b with hx2 | hx2
    · have hlt : a < b := lt_of_le_of_lt hx1 hx2
      have hl : 0 < b - a := by linarith
      have hne : b - a ≠ 0 := ne_of_gt hl
      rw [risingEdge_mid a b x hx1 hx2, risingEdgeMoment_mid a b x hx1 hx2.le]
      rcases le_total y a with hy1 | hy1
      · rw [risingEdgeMoment_low a b y hy1]
        have key : 0 - (x - a) ^ 3 / (3 * (b - a)) - (x - a) * ((x - a) / (b - a)) * (y - x) =
            (x - a) ^ 2 * (2 * (x - a) + 3 * (a - y)) / (3 * (b - a)) := by
          field_simp; ring
        rw [← sub_nonneg, key]
        apply div_nonneg _ (by linarith)
        apply mul_nonneg (sq_nonneg _); linarith
      · rcases le_total y b with hy2 | hy2
        · rw [risingEdgeMoment_mid a b y hy1 hy2]
          have key : (y - a) ^ 3 / (3 * (b - a)) - (x - a) ^ 3 / (3 * (b - a)) -
              (x - a) * ((x - a) / (b - a)) * (y - x) =
              (y - x) ^ 2 * ((y - a) + 2 * (x - a)) / (3 * (b - a)) := by
            field_simp; ring
          rw [← sub_nonneg, key]
          apply div_nonneg _ (by linarith)
          apply mul_nonneg (sq_nonneg _); linarith
        · rw [risingEdgeMoment_high a b y hab hy2]
          have key : (y - a) ^ 2 / 2 - (b - a) ^ 2 / 6 - (x - a) ^ 3 / (3 * (b - a)) -
              (x - a) * ((x - a) / (b - a)) * (y - x) =
              (2 * (b - x) ^ 2 * ((b - a) + 2 * (x - a)) +
                6 * (y - b) * ((b - x) * ((b - a) + (x - a))) +
                3 * (b - a) * (y - b) ^ 2) / (6 * (b - a)) := by
            field_simp; ring
          rw [← sub_nonneg, key]
          apply div_nonneg _ (by linarith)
          have t1 : 0 ≤ 2 * (b - x) ^ 2 * ((b - a) + 2 * (x - a)) :=
            mul_nonneg (mul_nonneg (by norm_num) (sq_nonneg _)) (by linarith)
          have t2 : 0 ≤ 6 * (y - b) * ((b - x) * ((b - a) + (x - a))) :=
            mul_nonneg (mul_nonneg (by norm_num) (by linarith))
              (mul_nonneg (by linarith) (by linarith))
          have t3 : 0 ≤ 3 * (b - a) * (y - b) ^ 2 :=
            mul_nonneg (mul_nonneg (by norm_num) (by linarith)) (sq_nonneg _)
          linarith
    · rw [risingEdge_high a b x hab hx2, risingEdgeMoment_high a b x hab hx2, mul_one]
      rcases le_total y a with hy1 | hy1
      · rw [risingEdgeMoment_low a b y hy1]
        nlinarith [mul_nonneg (sub_nonneg.mpr (le_trans hab hx2)) (sub_nonneg.mpr hy1),
          mul_nonneg (sub_nonneg.mpr hx2) (sub_nonneg.mpr hab), sq_nonneg (x - b),
          sq_nonneg (b - a), sq_nonneg (x - a)]
      · rcases le_total y b with hy2 | hy2
        · rcases eq_or_lt_of_le hab with e | hlt
          · have : y = a := le_antisymm (e ▸ hy2) hy1
            rw [risingEdgeMoment_low a b y this.le]
            subst e
            nlinarith [sq_nonneg (x - a), mul_nonneg (sub_nonneg.mpr hx1) (sub_nonneg.mpr hy1)]
          · have hl : 0 < b - a := by linarith
            have hne : b - a ≠ 0 := ne_of_gt hl
            rw [risingEdgeMoment_mid a b y hy1 hy2]
            have key : (y - a) ^ 3 / (3 * (b - a)) - ((x - a) ^ 2 / 2 - (b - a) ^ 2 / 6) -
                (x - a) * (y - x) =
                (2 * (b - y) ^ 2 * (2 * (b - a) + (y - a)) +
                  3 * (b - a) * ((x - b) * ((x - a) + (b - a) - 2 * (y - a)))) /
                  (6 * (b - a)) := by
              field_simp; ring
            rw [← sub_nonneg, key]
            apply div_nonneg _ (by linarith)
            have t1 : 0 ≤ 2 * (b - y) ^ 2 * (2 * (b - a) + (y - a)) :=
              mul_nonneg (mul_nonneg (by norm_num) (sq_nonneg _)) (by linarith)
            have t2 : 0 ≤ 3 * (b - a) * ((x - b) * ((x - a) + (b - a) - 2 * (y - a))) :=
              mul_nonneg (mul_nonneg (by norm_num) (by linarith))
                (mul_nonneg (by linarith) (by linarith))
            linarith
        · rw [risingEdgeMoment_high a b y hab hy2]
          nlinarith [sq_nonneg (y - x)]


theorem risingEdge_nonneg (a b : ℚ) (t : ℚ) : 0 ≤ risingEdge a b t := by
  unfold risingEdge
  split_ifs with h1 h2
  · exact le_refl _
  · exact div_nonneg (by linarith) (by linarith)
  · exact zero_le_one

theorem risingEdge_le_one (a b : ℚ) (t : ℚ) : risingEdge a b t ≤ 1 := by
  unfold risingEdge
  split_ifs with h1 h2
  · exact zero_le_one
  · rw [div_le_one (by linarith)]; linarith
  · exact le_refl _

/-- Comparison of a sampled sum with an integral: when `H` lies above each of its
tangents of slope `h`, the sum of `h` over the `n + 1` samples `L, L + δ, ..., L + n δ`,
times `δ`, exceeds `H (L + n δ) - H L` by between `δ * h L` and `δ * h (L + n δ)`. -/
theorem sampledSum_sandwich (h H : ℚ → ℚ) (tangent : ∀ x y, h x * (y - x) ≤ H y - H x)
    (L δ : ℚ) (n : ℕ) :
    δ * h L ≤ δ * (Finset.sum (Finset.range (n + 1)) fun k : ℕ => h (L + k * δ)) -
        (H (L + n * δ) - H L) ∧
    δ * (Finset.sum (Finset.range (n + 1)) fun k : ℕ => h (L + k * δ)) -
        (H (L + n * δ) - H L) ≤ δ * h (L + n * δ) := by
  induction n with
  | zero =>
    simp
  | succ n ih =>
    rw [Finset.sum_range_succ]
    have t1 := tangent (L + ((n + 1 : ℕ) : ℚ) * δ) (L + (n : ℚ) * δ)
    have t2 := tangent (L + (n : ℚ) * δ) (L + ((n + 1 : ℕ) : ℚ) * δ)
    have e1 : L + (n : ℚ) * δ - (L + ((n + 1 : ℕ) : ℚ) * δ) = -δ := by push_cast; ring
    have e2 : L + ((n + 1 : ℕ) : ℚ) * δ - (L + (n : ℚ) * δ) = δ := by push_cast; ring
    rw [e1] at t1
    rw [e2] at t2
    obtain ⟨ih1, ih2⟩ := ih
    constructor
    · nlinarith
    · nlinarith

theorem sum_range_cast_id (n : ℕ) :
    (Finset.sum (Finset.range (n + 1)) fun k : ℕ => (k : ℚ)) = (n : ℚ) * (n + 1) / 2 := by
  induction n with
  | zero => simp
  | succ n ih =>
    rw [Finset.sum_range_succ, ih]
    push_cast
    ring

theorem specDegree_eq_risingEdges (m : MembershipFunction) (hord : m.Ordered) (t : ℚ) :
    specDegree m t =
      risingEdge m.start m.topLeft t + risingEdge (-m.end_) (-m.topRight) (-t) - 1 := by
  obtain ⟨h1, h2, h3⟩ := hord
  unfold specDegree
  by_cases c1 : t < m.start ∨ t > m.end_
  · rw [if_pos c1]
    rcases c1 with c | c
    · rw [risingEdge_low _ _ _ c, risingEdge_high _ _ _ (by linarith) (by linarith)]
      ring
    · rw [risingEdge_high _ _ _ h1 (by linarith), risingEdge_low _ _ _ (by linarith)]
      ring
  · rw [if_neg c1]
    simp only [not_or, not_lt, gt_iff_lt] at c1
    obtain ⟨c1a, c1b⟩ := c1
    by_cases c2 : m.topLeft ≤ t ∧ t ≤ m.topRight
    · rw [if_pos c2, risingEdge_high _ _ _ h1 c2.1,
        risingEdge_high _ _ _ (by linarith) (by linarith)]
      ring
    · rw [if_neg c2]
      by_cases c3 : t < m.topLeft
      · rw [if_pos c3, risingEdge_mid _ _ _ c1a c3,
          risingEdge_high _ _ _ (by linarith) (by linarith)]
        ring
      · rw [if_neg c3]
        have c4 : m.topRight < t := by
          by_contra hc
          exact c2 ⟨not_lt.mp c3, not_lt.mp hc⟩
        rw [risingEdge_high _ _ _ h1 (not_lt.mp c3),
          risingEdge_mid _ _ _ (by linarith) (by linarith)]
        have : (-t - -m.end_) / (-m.topRight - -m.end_) = (m.end_ - t) / (m.end_ - m.topRight) := by
          congr 1 <;> ring
        rw [this]
        ring


theorem fallingEdgeIntegral_tangent (c d : ℚ) (hcd : c ≤ d) (x y : ℚ) :
    (-risingEdge (-d) (-c) (-x)) * (y - x) ≤
      risingEdgeIntegral (-d) (-c) (-y) - risingEdgeIntegral (-d) (-c) (-x) := by
  have h := risingEdgeIntegral_tangent (-d) (-c) (by linarith) (-x) (-y)
  have e : risingEdge (-d) (-c) (-x) * (-y - -x) = (-risingEdge (-d) (-c) (-x)) * (y - x) := by
    ring
  rw [e] at h
  exact h

theorem fallingEdgeMoment_tangent (c d : ℚ) (hcd : c ≤ d) (x y : ℚ) :
    (x - d) * risingEdge (-d) (-c) (-x) * (y - x) ≤
      risingEdgeMoment (-d) (-c) (-y) - risingEdgeMoment (-d) (-c) (-x) := by
  have h := risingEdgeMoment_tangent (-d) (-c) (by linarith) (-x) (-y)
  have e : (-x - -d) * risingEdge (-d) (-c) (-x) * (-y - -x) =
      (x - d) * risingEdge (-d) (-c) (-x) * (y - x) := by
    ring
  rw [e] at h
  exact h

/-- The sampled sum of the degrees, times the step, is within one step of the area. -/
theorem trapezoid_sampled_area (m : MembershipFunction) (hord : m.Ordered) (L U : ℚ)
    (hL : L ≤ m.start) (hU : m.end_ ≤ U) (n : ℕ) (δ : ℚ) (hδ : (n : ℚ) * δ = U - L)
    (hδ0 : 0 ≤ δ) :
    trapezoidArea m - δ ≤
        δ * (Finset.sum (Finset.range (n + 1)) fun k : ℕ => specDegree m (L + k * δ)) ∧
    δ * (Finset.sum (Finset.range (n + 1)) fun k : ℕ => specDegree m (L + k * δ)) ≤
        trapezoidArea m + δ := by
  obtain ⟨h1, h2, h3⟩ := hord
  have hp : L + (n : ℚ) * δ = U := by linarith
  have s1 := sampledSum_sandwich (risingEdge m.start m.topLeft)
    (risingEdgeIntegral m.start m.topLeft) (risingEdgeIntegral_tangent _ _ h1) L δ n
  have s2 := sampledSum_sandwich (fun t => -risingEdge (-m.end_) (-m.topRight) (-t))
    (fun t => risingEdgeIntegral (-m.end_) (-m.topRight) (-t))
    (fallingEdgeIntegral_tangent _ _ h3) L δ n
  simp only [hp, Finset.sum_neg_distrib] at s1 s2
  rw [risingEdgeIntegral_high _ _ U h1 (by linarith),
    risingEdgeIntegral_low _ _ L hL] at s1
  rw [risingEdgeIntegral_low _ _ (-U) (by linarith),
    risingEdgeIntegral_high _ _ (-L) (by linarith) (by linarith)] at s2
  have hsum : (Finset.sum (Finset.range (n + 1)) fun k : ℕ => specDegree m (L + k * δ)) =
      (Finset.sum (Finset.range (n + 1)) fun k : ℕ => risingEdge m.start m.topLeft (L + k * δ)) +
      (Finset.sum (Finset.range (n + 1)) fun k : ℕ =>
        risingEdge (-m.end_) (-m.topRight) (-(L + k * δ))) - ((n : ℚ) + 1) := by
    rw [← Finset.sum_add_distrib]
    have hc : ((n : ℚ) + 1) = Finset.sum (Finset.range (n + 1)) fun _ : ℕ => (1 : ℚ) := by
      simp
    rw [hc, ← Finset.sum_sub_distrib]
    apply Finset.sum_congr rfl
    intro k _
    exact specDegree_eq_risingEdges m ⟨h1, h2, h3⟩ _
  rw [hsum]
  have b1 := mul_nonneg hδ0 (risingEdge_nonneg m.start m.topLeft L)
  have b2 := mul_le_of_le_one_right hδ0 (risingEdge_le_one m.start m.topLeft U)
  have b3 := mul_nonneg hδ0 (risingEdge_nonneg (-m.end_) (-m.topRight) (-U))
  have b4 := mul_le_of_le_one_right hδ0 (risingEdge_le_one (-m.end_) (-m.topRight) (-L))
  generalize (Finset.sum (Finset.range (n + 1)) fun k : ℕ =>
    risingEdge m.start m.topLeft (L + k * δ)) = Su at s1 ⊢
  generalize (Finset.sum (Finset.range (n + 1)) fun k : ℕ =>
    risingEdge (-m.end_) (-m.topRight) (-(L + k * δ))) = Sv at s2 ⊢
  unfold trapezoidArea
  constructor <;> nlinarith

/-- The sampled first moment about a point `G` with `G * area = moment`, times the step,
is within `3 (U - L)` steps of zero. -/
theorem trapezoid_sampled_moment (m : MembershipFunction) (hord : m.Ordered) (L U : ℚ)
    (hL : L ≤ m.start) (hU : m.end_ ≤ U) (n : ℕ) (δ : ℚ) (hδ : (n : ℚ) * δ = U - L)
    (hδ0 : 0 ≤ δ) (G : ℚ) (hG : G * trapezoidArea m = trapezoidMoment m)
    (hGa : m.start ≤ G) (hGd : G ≤ m.end_) :
    |δ * (Finset.sum (Finset.range (n + 1)) fun k : ℕ =>
        (L + k * δ - G) * specDegree m (L + k * δ))| ≤ 3 * (U - L) * δ := by
  obtain ⟨h1, h2, h3⟩ := hord
  have hp : L + (n : ℚ) * δ = U := by linarith
  have s1 := sampledSum_sandwich (risingEdge m.start m.topLeft)
    (risingEdgeIntegral m.start m.topLeft) (risingEdgeIntegral_tangent _ _ h1) L δ n
  have s2 := sampledSum_sandwich (fun t => -risingEdge (-m.end_) (-m.topRight) (-t))
    (fun t => risingEdgeIntegral (-m.end_) (-m.topRight) (-t))
    (fallingEdgeIntegral_tangent _ _ h3) L δ n
  have s3 := sampledSum_sandwich (fun t => (t - m.start) * risingEdge m.start m.topLeft t)
    (risingEdgeMoment m.start m.topLeft) (risingEdgeMoment_tangent _ _ h1) L δ n
  have s4 := sampledSum_sandwich
    (fun t => (t - m.end_) * risingEdge (-m.end_) (-m.topRight) (-t))
    (fun t => risingEdgeMoment (-m.end_) (-m.topRight) (-t))
    (fallingEdgeMoment_tangent _ _ h3) L δ n
  simp only [hp, Finset.sum_neg_distrib] at s1 s2 s3 s4
  rw [risingEdgeIntegral_high _ _ U h1 (by linarith),
    risingEdgeIntegral_low _ _ L hL] at s1
  rw [risingEdgeIntegral_low _ _ (-U) (by linarith),
    risingEdgeIntegral_high _ _ (-L) (by linarith) (by linarith)] at s2
  rw [risingEdgeMoment_high _ _ U h1 (by linarith),
    risingEdgeMoment_low _ _ L hL] at s3
  rw [risingEdgeMoment_low _ _ (-U) (by linarith),
    risingEdgeMoment_high _ _ (-L) (by linarith) (by linarith)] at s4
  -- the values at the two ends
  have uU : risingEdge m.start m.topLeft U = 1 := risingEdge_high _ _ _ h1 (by linarith)
  have vL : risingEdge (-m.end_) (-m.topRight) (-L) = 1 :=
    risingEdge_high _ _ _ (by linarith) (by linarith)
  have juL : (L - m.start) * risingEdge m.start m.topLeft L = 0 := by
    rcases eq_or_lt_of_le hL with e | hlt
    · rw [e]; simp
    · rw [risingEdge_low _ _ _ hlt]; simp
  have jvU : (U - m.end_) * risingEdge (-m.end_) (-m.topRight) (-U) = 0 := by
    rcases eq_or_lt_of_le hU with e | hlt
    · rw [e]; simp
    · rw [risingEdge_low _ _ _ (by linarith)]; simp
  rw [uU] at s1 s3
  rw [vL] at s2 s4
  rw [juL] at s3
  rw [jvU] at s4
  have uL0 := risingEdge_nonneg m.start m.topLeft L
  have vU0 := risingEdge_nonneg (-m.end_) (-m.topRight) (-U)
  -- the sum, split into its monotone parts
  have hsum : (Finset.sum (Finset.range (n + 1)) fun k : ℕ =>
        (L + k * δ - G) * specDegree m (L + k * δ)) =
      (Finset.sum (Finset.range (n + 1)) fun k : ℕ =>
        (L + k * δ - m.start) * risingEdge m.start m.topLeft (L + k * δ)) +
      (m.start - G) * (Finset.sum (Finset.range (n + 1)) fun k : ℕ =>
        risingEdge m.start m.topLeft (L + k * δ)) +
      (Finset.sum (Finset.range (n + 1)) fun k : ℕ =>
        (L + k * δ - m.end_) * risingEdge (-m.end_) (-m.topRight) (-(L + k * δ))) +
      (m.end_ - G) * (Finset.sum (Finset.range (n + 1)) fun k : ℕ =>
        risingEdge (-m.end_) (-m.topRight) (-(L + k * δ))) -
      (((n : ℚ) + 1) * (L - G) + δ * ((n : ℚ) * (n + 1) / 2)) := by
    have hc : ((n : ℚ) + 1) * (L - G) + δ * ((n : ℚ) * (n + 1) / 2) =
        Finset.sum (Finset.range (n + 1)) fun k : ℕ => (L + (k : ℚ) * δ - G) := by
      rw [← sum_range_cast_id n, Finset.mul_sum]
      have : (Finset.sum (Finset.range (n + 1)) fun k : ℕ => (L + (k : ℚ) * δ - G)) =
          (Finset.sum (Finset.range (n + 1)) fun _ : ℕ => (L - G)) +
          Finset.sum (Finset.range (n + 1)) fun k : ℕ => δ * (k : ℚ) := by
        rw [← Finset.sum_add_distrib]
        apply Finset.sum_congr rfl
        intro k _
        ring
      rw [this]
      simp
    rw [hc, Finset.mul_sum, Finset.mul_sum, ← Finset.sum_add_distrib,
      ← Finset.sum_add_distrib, ← Finset.sum_add_distrib, ← Finset.sum_sub_distrib]
    apply Finset.sum_congr rfl
    intro k _
    rw [specDegree_eq_risingEdges m ⟨h1, h2, h3⟩]
    ring
  rw [hsum]
  generalize (Finset.sum (Finset.range (n + 1)) fun k : ℕ =>
    risingEdge m.start m.topLeft (L + k * δ)) = Su at s1 ⊢
  generalize (Finset.sum (Finset.range (n + 1)) fun k : ℕ =>
    risingEdge (-m.end_) (-m.topRight) (-(L + k * δ))) = Sv at s2 ⊢
  generalize (Finset.sum (Finset.range (n + 1)) fun k : ℕ =>
    (L + k * δ - m.start) * risingEdge m.start m.topLeft (L + k * δ)) = Ju at s3 ⊢
  generalize (Finset.sum (Finset.range (n + 1)) fun k : ℕ =>
    (L + k * δ - m.end_) * risingEdge (-m.end_) (-m.topRight) (-(L + k * δ))) = Jv at s4 ⊢
  generalize risingEdge m.start m.topLeft L = uL at s1 uL0
  generalize risingEdge (-m.end_) (-m.topRight) (-U) = vU at s2 vU0
  unfold trapezoidArea trapezoidMoment at hG
  -- the four remainders
  obtain ⟨s1a, s1b⟩ := s1
  obtain ⟨s2a, s2b⟩ := s2
  obtain ⟨s3a, s3b⟩ := s3
  obtain ⟨s4a, s4b⟩ := s4
  have q1 := mul_nonneg hδ0 uL0
  have q2 := mul_nonneg hδ0 vU0
  obtain ⟨e1, he1⟩ : ∃ e1, δ * Su = e1 + (U - (m.start + m.topLeft) / 2) :=
    ⟨δ * Su - (U - (m.start + m.topLeft) / 2), by ring⟩
  obtain ⟨e2, he2⟩ : ∃ e2, δ * Sv = e2 + ((m.topRight + m.end_) / 2 - L) :=
    ⟨δ * Sv - ((m.topRight + m.end_) / 2 - L), by ring⟩
  obtain ⟨f1, hf1⟩ : ∃ f1, δ * Ju =
      f1 + ((U - m.start) ^ 2 / 2 - (m.topLeft - m.start) ^ 2 / 6) :=
    ⟨δ * Ju - ((U - m.start) ^ 2 / 2 - (m.topLeft - m.start) ^ 2 / 6), by ring⟩
  obtain ⟨f2, hf2⟩ : ∃ f2, δ * Jv =
      f2 - ((m.end_ - L) ^ 2 / 2 - (m.end_ - m.topRight) ^ 2 / 6) :=
    ⟨δ * Jv + ((m.end_ - L) ^ 2 / 2 - (m.end_ - m.topRight) ^ 2 / 6), by ring⟩
  have e1lo : 0 ≤ e1 := by linarith
  have e1hi : e1 ≤ δ := by linarith
  have e2lo : 0 ≤ e2 := by linarith
  have e2hi : e2 ≤ δ := by linarith
  have f1lo : 0 ≤ f1 := by linarith
  have f1hi : f1 ≤ δ * (U - m.start) := by linarith
  have f2lo : δ * (L - m.end_) ≤ f2 := by
    have : (-L - -m.end_) ^ 2 / 2 - (-m.topRight - -m.end_) ^ 2 / 6 =
        (m.end_ - L) ^ 2 / 2 - (m.end_ - m.topRight) ^ 2 / 6 := by ring
    linarith
  have f2hi : f2 ≤ 0 := by
    have : (-L - -m.end_) ^ 2 / 2 - (-m.topRight - -m.end_) ^ 2 / 6 =
        (m.end_ - L) ^ 2 / 2 - (m.end_ - m.topRight) ^ 2 / 6 := by ring
    linarith
  have hn2 : δ * ((n : ℚ) + 1) = (U - L) + δ := by linarith
  have hn3 : δ * (δ * ((n : ℚ) * (n + 1) / 2)) = (U - L) * ((U - L) + δ) / 2 := by
    have : δ * (δ * ((n : ℚ) * (n + 1) / 2)) = ((n : ℚ) * δ) * (δ * ((n : ℚ) + 1)) / 2 := by
      ring
    rw [this, hδ, hn2]
  have key : δ * (Ju + (m.start - G) * Su + Jv + (m.end_ - G) * Sv -
      (((n : ℚ) + 1) * (L - G) + δ * ((n : ℚ) * (n + 1) / 2))) =
      f1 + (m.start - G) * e1 + f2 + (m.end_ - G) * e2 - δ * (L - G) - (U - L) * δ / 2 := by
    have expand : δ * (Ju + (m.start - G) * Su + Jv + (m.end_ - G) * Sv -
        (((n : ℚ) + 1) * (L - G) + δ * ((n : ℚ) * (n + 1) / 2))) =
        δ * Ju + (m.start - G) * (δ * Su) + δ * Jv + (m.end_ - G) * (δ * Sv) -
        (δ * ((n : ℚ) + 1) * (L - G) + δ * (δ * ((n : ℚ) * (n + 1) / 2))) := by ring
    rw [expand, hn2, hn3, he1, he2, hf1, hf2]
    linear_combination (-1 : ℚ) * hG
  rw [key]
  clear key hsum s1a s1b s2a s2b s3a s3b s4a s4b he1 he2 hf1 hf2 hn2 hn3 hG q1 q2
  have p1 : (G - m.start) * e1 ≤ (U - L) * δ :=
    mul_le_mul (by linarith) e1hi e1lo (by linarith)
  have p1' : 0 ≤ (G - m.start) * e1 := mul_nonneg (by linarith) e1lo
  have p2 : (m.end_ - G) * e2 ≤ (U - L) * δ :=
    mul_le_mul (by linarith) e2hi e2lo (by linarith)
  have p2' : 0 ≤ (m.end_ - G) * e2 := mul_nonneg (by linarith) e2lo
  have p3 : δ * (U - m.start) ≤ (U - L) * δ := by
    have := mul_le_mul_of_nonneg_left (show U - m.start ≤ U - L by linarith) hδ0
    linarith
  have p4 : -((U - L) * δ) ≤ δ * (L - m.end_) := by
    have := mul_le_mul_of_nonneg_left (show m.end_ - L ≤ U - L by linarith) hδ0
    linarith
  have p5 : 0 ≤ δ * (G - L) := mul_nonneg hδ0 (by linarith)
  have p6 : δ * (G - L) ≤ (U - L) * δ := by
    have := mul_le_mul_of_nonneg_left (show G - L ≤ U - L by linarith) hδ0
    linarith
  have p7 : 0 ≤ (U - L) * δ := mul_nonneg (by linarith) hδ0
  rw [abs_le]
  constructor <;> linarith


theorem trapezoidArea_pos (m : MembershipFunction) (hord : m.Ordered)
    (hpos : m.start < m.end_) : 0 < trapezoidArea m := by
  obtain ⟨h1, h2, h3⟩ := hord
  unfold trapezoidArea
  linarith

theorem analyticCentroid_spec (m : MembershipFunction) (hord : m.Ordered)
    (hpos : m.start < m.end_) :
    analyticCentroid m * trapezoidArea m = trapezoidMoment m ∧
    m.start ≤ analyticCentroid m ∧ analyticCentroid m ≤ m.end_ := by
  have hA := trapezoidArea_pos m hord hpos
  obtain ⟨h1, h2, h3⟩ := hord
  refine ⟨?_, ?_, ?_⟩
  · unfold analyticCentroid
    field_simp
  · unfold analyticCentroid
    rw [le_div_iff₀ hA]
    unfold trapezoidArea trapezoidMoment
    nlinarith [mul_nonneg (sub_nonneg.mpr h1) (sub_nonneg.mpr h1),
      mul_nonneg (sub_nonneg.mpr h2) (sub_nonneg.mpr h1),
      mul_nonneg (sub_nonneg.mpr h2) (sub_nonneg.mpr h2),
      mul_nonneg (sub_nonneg.mpr h3) (sub_nonneg.mpr h1),
      mul_nonneg (sub_nonneg.mpr h3) (sub_nonneg.mpr h2),
      mul_nonneg (sub_nonneg.mpr h3) (sub_nonneg.mpr h3)]
  · unfold analyticCentroid
    rw [div_le_iff₀ hA]
    unfold trapezoidArea trapezoidMoment
    nlinarith [mul_nonneg (sub_nonneg.mpr h1) (sub_nonneg.mpr h1),
      mul_nonneg (sub_nonneg.mpr h2) (sub_nonneg.mpr h1),
      mul_nonneg (sub_nonneg.mpr h2) (sub_nonneg.mpr h2),
      mul_nonneg (sub_nonneg.mpr h3) (sub_nonneg.mpr h1),
      mul_nonneg (sub_nonneg.mpr h3) (sub_nonneg.mpr h2),
      mul_nonneg (sub_nonneg.mpr h3) (sub_nonneg.mpr h3)]

/-- The sampled centroid of the trapezoid is within `C / n` of the analytic one. -/
theorem sampledCentroid_error (m : MembershipFunction) (hord : m.Ordered)
    (hpos : m.start < m.end_) (L U : ℚ) (hL : L ≤ m.start) (hU : m.end_ ≤ U) (n : ℕ)
    (hn : 0 < n) (S0 S1 : ℚ)
    (hS0 : S0 = Finset.sum (Finset.range (n + 1)) fun k : ℕ =>
      specDegree m (L + k * ((U - L) / n)))
    (hS1 : S1 = Finset.sum (Finset.range (n + 1)) fun k : ℕ =>
      (L + k * ((U - L) / n)) * specDegree m (L + k * ((U - L) / n))) :
    |S1 / (if S0 = 0 then 1 else S0) - analyticCentroid m| ≤
      centroidErrorConstant m L U / n := by
  have hA := trapezoidArea_pos m hord hpos
  obtain ⟨hG, hGa, hGd⟩ := analyticCentroid_spec m hord hpos
  have hnq : (0 : ℚ) < n := by exact_mod_cast hn
  have hR : 0 < U - L := by linarith
  have hδpos : 0 < (U - L) / n := div_pos hR hnq
  have hδ : (n : ℚ) * ((U - L) / n) = U - L := by field_simp
  obtain ⟨a1, a2⟩ := trapezoid_sampled_area m hord L U hL hU n _ hδ hδpos.le
  have hmom := trapezoid_sampled_moment m hord L U hL hU n _ hδ hδpos.le _ hG hGa hGd
  rw [← hS0] at a1 a2
  have hT : (Finset.sum (Finset.range (n + 1)) fun k : ℕ =>
      (L + k * ((U - L) / n) - analyticCentroid m) * specDegree m (L + k * ((U - L) / n))) =
      S1 - analyticCentroid m * S0 := by
    rw [hS0, hS1, Finset.mul_sum, ← Finset.sum_sub_distrib]
    apply Finset.sum_congr rfl
    intro k _
    ring
  rw [hT] at hmom
  -- every sample lies in the range
  have hsample : ∀ k ∈ Finset.range (n + 1),
      L ≤ L + (k : ℚ) * ((U - L) / n) ∧ L + (k : ℚ) * ((U - L) / n) ≤ U := by
    intro k hk
    have hk1 : (k : ℚ) ≤ n := by
      exact_mod_cast Nat.lt_succ_iff.mp (Finset.mem_range.mp hk)
    have hk0 : (0 : ℚ) ≤ k := by exact_mod_cast Nat.zero_le k
    constructor
    · have := mul_nonneg hk0 hδpos.le
      linarith
    · have := mul_le_mul_of_nonneg_right hk1 hδpos.le
      linarith
  have hS0nn : 0 ≤ S0 := by
    rw [hS0]
    exact Finset.sum_nonneg fun k _ => specDegree_nonneg m _
  have hcrude : |S1 - analyticCentroid m * S0| ≤ (U - L) * S0 := by
    rw [← hT, hS0, Finset.mul_sum]
    refine le_trans (Finset.abs_sum_le_sum_abs _ _) (Finset.sum_le_sum ?_)
    intro k hk
    obtain ⟨k1, k2⟩ := hsample k hk
    rw [abs_mul, abs_of_nonneg (specDegree_nonneg m _)]
    apply mul_le_mul_of_nonneg_right _ (specDegree_nonneg m _)
    rw [abs_le]
    constructor <;> linarith
  unfold centroidErrorConstant
  rw [div_div, le_div_iff₀ (mul_pos hA hnq)]
  have hLU : |analyticCentroid m| ≤ |L| + |U| := by
    rw [abs_le]
    constructor
    · have := neg_abs_le L
      have := abs_nonneg U
      linarith
    · have := le_abs_self U
      have := abs_nonneg L
      linarith
  have habsL := abs_nonneg L
  have habsU := abs_nonneg U
  have r1 : 0 ≤ (U - L) * (U - L) := mul_nonneg hR.le hR.le
  have r2 : 0 ≤ (U - L) * |L| := mul_nonneg hR.le habsL
  have r3 : 0 ≤ (U - L) * |U| := mul_nonneg hR.le habsU
  have hrhs : 8 * (U - L) ^ 2 + 2 * (U - L) * (U - L + |L| + |U|) =
      10 * ((U - L) * (U - L)) + 2 * ((U - L) * |L|) + 2 * ((U - L) * |U|) := by ring
  rw [hrhs]
  by_cases hz : S0 = 0
  · -- no sample has a positive degree: the value is 0
    rw [if_pos hz]
    have hS1z : S1 = 0 := by
      have h0 := hcrude
      rw [hz] at h0
      simp only [mul_zero, sub_zero] at h0
      exact abs_nonpos_iff.mp h0
    rw [hS1z, zero_div, zero_sub, abs_neg]
    rw [hz] at a1
    have hAn : trapezoidArea m * n ≤ U - L := by
      have h1 : trapezoidArea m ≤ (U - L) / n := by linarith
      have := mul_le_mul_of_nonneg_right h1 hnq.le
      rw [div_mul_cancel₀ _ (ne_of_gt hnq)] at this
      exact this
    have hX : |analyticCentroid m| * (trapezoidArea m * n) ≤ (|L| + |U|) * (U - L) :=
      mul_le_mul hLU hAn (mul_nonneg hA.le hnq.le) (by linarith)
    have e : (|L| + |U|) * (U - L) = (U - L) * |L| + (U - L) * |U| := by ring
    rw [e] at hX
    linarith
  · rw [if_neg hz]
    have hS0pos : 0 < S0 := lt_of_le_of_ne hS0nn (Ne.symm hz)
    have hval : S1 / S0 - analyticCentroid m = (S1 - analyticCentroid m * S0) / S0 := by
      field_simp
      ring
    rw [hval, abs_div, abs_of_pos hS0pos]
    set X := |S1 - analyticCentroid m * S0| / S0 with hX
    have hXnn : 0 ≤ X := div_nonneg (abs_nonneg _) hS0pos.le
    have hXR : X ≤ U - L := by
      rw [hX, div_le_iff₀ hS0pos]
      exact hcrude
    have hXS : X * S0 = |S1 - analyticCentroid m * S0| := by
      rw [hX, div_mul_cancel₀ _ (ne_of_gt hS0pos)]
    by_cases hsmall : (U - L) / n ≤ trapezoidArea m / 2
    · -- fine sampling
      have hden : trapezoidArea m / 2 ≤ (U - L) / n * S0 := by linarith
      have hmom' : (U - L) / n * (X * S0) ≤ 3 * (U - L) * ((U - L) / n) := by
        rw [hXS, ← abs_of_pos hδpos, ← abs_mul, abs_of_pos hδpos]
        exact hmom
      have h1 : X * (trapezoidArea m / 2) ≤ 3 * (U - L) * ((U - L) / n) := by
        have h0 := mul_le_mul_of_nonneg_left hden hXnn
        have e0 : X * ((U - L) / n * S0) = (U - L) / n * (X * S0) := by ring
        rw [e0] at h0
        linarith
      have h2 : X * (trapezoidArea m / 2) * n ≤ 3 * (U - L) * (U - L) := by
        have := mul_le_mul_of_nonneg_right h1 hnq.le
        have e : 3 * (U - L) * ((U - L) / n) * n = 3 * (U - L) * (U - L) := by
          field_simp
        rw [e] at this
        exact this
      have e2 : X * (trapezoidArea m * n) = 2 * (X * (trapezoidArea m / 2) * n) := by ring
      rw [e2]
      linarith
    · -- coarse sampling
      have hbig : trapezoidArea m * n ≤ 2 * (U - L) := by
        have h1 : trapezoidArea m / 2 ≤ (U - L) / n := le_of_lt (not_le.mp hsmall)
        have := mul_le_mul_of_nonneg_right h1 hnq.le
        rw [div_mul_cancel₀ _ (ne_of_gt hnq)] at this
        linarith
      have h2 : X * (trapezoidArea m * n) ≤ (U - L) * (2 * (U - L)) :=
        mul_le_mul hXR hbig (mul_nonneg hA.le hnq.le) hR.le
      have e3 : (U - L) * (2 * (U - L)) = 2 * ((U - L) * (U - L)) := by ring
      rw [e3] at h2
      linarith


theorem specAggregated_single (c : FuzzyController) (r : Rule) (hr : c.rules = [r])
    (hfire : specFiringStrength c.inputMembershipFunctions r = 1) (k : String)
    (hk : r.consequents = [k]) (m : MembershipFunction)
    (hm : c.outputMembershipFunctions.find k = some m) (p : ℚ) :
    specAggregated c (toUnsigned m.fuzzificationIndex) p = specDegree m p := by
  unfold specAggregated
  rw [hr]
  simp only [List.map_cons, List.map_nil, List.foldl_cons, List.foldl_nil, hfire,
    Rule.consequentFunctions, hk, List.filterMap_cons, hm, List.filterMap_nil,
    specOutputStrength, List.find?_cons, decide_True]
  rw [min_eq_right (specDegree_le_one m p), max_eq_right (specDegree_nonneg m p)]

theorem SingleRule.scenario_eq (start topLeft topRight end_ : ℚ) :
    SingleRule.scenario start topLeft topRight end_ =
      .ok (SingleRule.state start topLeft topRight end_) := by
  have h := half_ne_numericLimitsMax
  simp [SingleRule.scenario, FuzzyController.addMembershipFunction,
    FuzzyController.addRule, FuzzyController.collectNames, Registry.assign, Registry.find,
    FuzzyController.new, kRuleImplies, kRuleEnd, SingleRule.state,
    FuzzyController.fuzzify, FuzzyController.fuzzifyLoop, h, intMax,
    kMinValidFuzzificationIndex, FuzzyController.fuzzifyGroup,
    MembershipFunction.calculateFuzzyStrength, MembershipFunction.new]
  norm_num
  rw [if_neg h]

theorem SingleRule.singleRule_valid (start topLeft topRight end_ : ℚ) :
    (SingleRule.state start topLeft topRight end_).Valid := by
  refine ⟨rfl, ?_⟩
  intro r hr
  simp only [SingleRule.state, List.mem_singleton] at hr
  rw [hr]
  refine ⟨rfl, rfl, ?_, ?_⟩
  · intro a ha
    simp only [Rule.new, List.mem_singleton] at ha
    rw [ha]; rfl
  · intro a ha
    simp only [Rule.new, List.mem_singleton] at ha
    rw [ha]; rfl

theorem SingleRule.singleRule_firing (start topLeft topRight end_ : ℚ) :
    specFiringStrength (SingleRule.state start topLeft topRight end_).inputMembershipFunctions
      (Rule.new ["in"] ["out"]) = 1 := by
  simp [specFiringStrength, specMinimum, Rule.antecedentDegrees, Rule.new, SingleRule.state,
    Registry.find]


theorem defuzzifyCentroid_single (m : MembershipFunction) (outMin outMax : ℚ)
    (hlt : outMin < outMax) (c : FuzzyController) (hv : c.Valid) (r : Rule)
    (hr : c.rules = [r]) (hfire : specFiringStrength c.inputMembershipFunctions r = 1)
    (k : String) (hk : r.consequents = [k])
    (hm : c.outputMembershipFunctions.find k = some m) (steps : ℕ) (hsteps : 0 < steps)
    (fuel : Nat) (hfuel : steps + 2 ≤ fuel) :
    ∃ c1, c.defuzzifyCentroid fuel (toUnsigned m.fuzzificationIndex) outMin outMax steps =
      .ok ((Finset.sum (Finset.range (steps + 1)) fun k : ℕ =>
              (outMin + k * ((outMax - outMin) / steps)) *
                specDegree m (outMin + k * ((outMax - outMin) / steps))) /
            (if (Finset.sum (Finset.range (steps + 1)) fun k : ℕ =>
                specDegree m (outMin + k * ((outMax - outMin) / steps))) = 0 then 1
             else Finset.sum (Finset.range (steps + 1)) fun k : ℕ =>
                specDegree m (outMin + k * ((outMax - outMin) / steps))), c1) := by
  have hne : ∀ r0 ∈ c.rules, r0.antecedents ≠ [] := by
    intro r0 hr0 h0
    rw [hr, List.mem_singleton] at hr0
    rw [hr0] at h0
    unfold specFiringStrength Rule.antecedentDegrees at hfire
    rw [h0] at hfire
    simp [specMinimum] at hfire
  obtain ⟨o1, h1, _⟩ := FuzzyController.defuzzifyCentroid_closed c hv hne
    (toUnsigned m.fuzzificationIndex) outMin outMax hlt steps hsteps fuel hfuel
  have hN : specNumerator c (toUnsigned m.fuzzificationIndex) outMin outMax steps =
      Finset.sum (Finset.range (steps + 1)) fun k : ℕ =>
        (outMin + k * ((outMax - outMin) / steps)) *
          specDegree m (outMin + k * ((outMax - outMin) / steps)) := by
    unfold specNumerator
    apply Finset.sum_congr rfl
    intro j _
    rw [specAggregated_single c r hr hfire k hk m hm]
    rfl
  have hD : specDenominator c (toUnsigned m.fuzzificationIndex) outMin outMax steps =
      Finset.sum (Finset.range (steps + 1)) fun k : ℕ =>
        specDegree m (outMin + k * ((outMax - outMin) / steps)) := by
    unfold specDenominator
    apply Finset.sum_congr rfl
    intro j _
    rw [specAggregated_single c r hr hfire k hk m hm]
    rfl
  rw [hN, hD] at h1
  exact ⟨_, h1⟩

/-- C29, counterexample: the single-rule configuration whose consequent is the
trapezoid `(0, 0, 2, 2)` of analytic centroid 1, reached by the calls of
`SingleRule.scenario`, with the output range `[0, 4]`. With 2 steps `defuzzifyCentroid`
returns 1, an error of 0; with 3 steps it returns 2/3, an error of 1/3: the error grows
as the number of steps increases. -/
theorem centroid_error_not_monotone_counterexample :
    SingleRule.scenario 0 0 2 2 = .ok (SingleRule.state 0 0 2 2) ∧
    analyticCentroid (MembershipFunction.new 0 0 2 2 1) = 1 ∧
    ((SingleRule.state 0 0 2 2).defuzzifyCentroid 4 1 0 4 ((2 : ℕ) : ℚ)).map Prod.fst =
      .ok 1 ∧
    ((SingleRule.state 0 0 2 2).defuzzifyCentroid 5 1 0 4 ((3 : ℕ) : ℚ)).map Prod.fst =
      .ok (2 / 3) ∧
    |(1 : ℚ) - 1| < |(2 / 3 : ℚ) - 1| := by
  refine ⟨SingleRule.scenario_eq 0 0 2 2, ?_, ?_, ?_, ?_⟩
  · norm_num [analyticCentroid, trapezoidMoment, trapezoidArea, MembershipFunction.new]
  · obtain ⟨c1, h1⟩ := defuzzifyCentroid_single (MembershipFunction.new 0 0 2 2 1) 0 4
      (by norm_num) (SingleRule.state 0 0 2 2) (SingleRule.singleRule_valid 0 0 2 2)
      (Rule.new ["in"] ["out"]) rfl (SingleRule.singleRule_firing 0 0 2 2) "out" rfl rfl 2
      (by decide) 4 (by decide)
    have e : toUnsigned (MembershipFunction.new 0 0 2 2 1).fuzzificationIndex = 1 := by decide
    rw [e] at h1
    rw [h1]
    simp only [Finset.sum_range_succ, Finset.sum_range_zero, Except.map]
    norm_num [specDegree, MembershipFunction.new]
  · obtain ⟨c1, h1⟩ := defuzzifyCentroid_single (MembershipFunction.new 0 0 2 2 1) 0 4
      (by norm_num) (SingleRule.state 0 0 2 2) (SingleRule.singleRule_valid 0 0 2 2)
      (Rule.new ["in"] ["out"]) rfl (SingleRule.singleRule_firing 0 0 2 2) "out" rfl rfl 3
      (by decide) 5 (by decide)
    have e : toUnsigned (MembershipFunction.new 0 0 2 2 1).fuzzificationIndex = 1 := by decide
    rw [e] at h1
    rw [h1]
    simp only [Finset.sum_range_succ, Finset.sum_range_zero, Except.map]
    norm_num [specDegree, MembershipFunction.new]
  · norm_num [abs_of_neg]

/-- C29, amended: for every single-rule configuration whose rule fires at full strength
and whose single consequent is a trapezoid with `start <= topLeft <= topRight <= end` and
`start < end` (positive area) inside `[outMin, outMax]`, and for every positive integer
`steps`, `defuzzifyCentroid(group, outMin, outMax, steps)` returns a value whose distance
from the analytic centroid of the trapezoid is at most `C / steps`, where the constant
`C = centroidErrorConstant m outMin outMax` depends on the trapezoid and the range only
(exact arithmetic). The error need not decrease as `steps` grows. -/
theorem defuzzifyCentroid_single_trapezoid_error (m : MembershipFunction)
    (hord : m.start ≤ m.topLeft ∧ m.topLeft ≤ m.topRight ∧ m.topRight ≤ m.end_)
    (hpos : m.start < m.end_) (outMin outMax : ℚ) (hmin : outMin ≤ m.start)
    (hmax : m.end_ ≤ outMax) (c : FuzzyController) (hv : c.Valid) (r : Rule)
    (hr : c.rules = [r]) (hfire : specFiringStrength c.inputMembershipFunctions r = 1)
    (k : String) (hk : r.consequents = [k])
    (hm : c.outputMembershipFunctions.find k = some m) (steps : ℕ) (hsteps : 0 < steps)
    (fuel : Nat) (hfuel : steps + 2 ≤ fuel) :
    ∃ v c1,
      c.defuzzifyCentroid fuel (toUnsigned m.fuzzificationIndex) outMin outMax steps =
        .ok (v, c1) ∧
      |v - analyticCentroid m| ≤ centroidErrorConstant m outMin outMax / steps := by
  obtain ⟨c1, h1⟩ := defuzzifyCentroid_single m outMin outMax (by linarith) c hv r hr hfire
    k hk hm steps hsteps fuel hfuel
  exact ⟨_, c1, h1,
    sampledCentroid_error m hord hpos outMin outMax hmin hmax steps hsteps _ _ rfl rfl⟩

/-- Witness for the amended C29: the trapezoid `(1, 2, 3, 4)` in the range `[0, 5]`,
sampled with 8 steps. -/
theorem defuzzifyCentroid_single_trapezoid_error_witness :
    ∃ v c1,
      (SingleRule.state 1 2 3 4).defuzzifyCentroid 10
          (toUnsigned (MembershipFunction.new 1 2 3 4 1).fuzzificationIndex) 0 5
          ((8 : ℕ) : ℚ) = .ok (v, c1) ∧
      |v - analyticCentroid (MembershipFunction.new 1 2 3 4 1)| ≤
        centroidErrorConstant (MembershipFunction.new 1 2 3 4 1) 0 5 / ((8 : ℕ) : ℚ) :=
  defuzzifyCentroid_single_trapezoid_error (MembershipFunction.new 1 2 3 4 1)
    (by norm_num [MembershipFunction.new]) (by norm_num [MembershipFunction.new]) 0 5
    (by norm_num [MembershipFunction.new]) (by norm_num [MembershipFunction.new])
    (SingleRule.state 1 2 3 4) (SingleRule.singleRule_valid 1 2 3 4) (Rule.new ["in"] ["out"]) rfl
    (SingleRule.singleRule_firing 1 2 3 4) "out" rfl rfl 8 (by decide) 10 (by decide)

end fuzzy

namespace fuzzy

/-! ## The keys of the hash maps stay distinct -/

theorem Registry.distinctKeys_of_shape {a b : Registry}
    (h : Registry.shape a = Registry.shape b) (hb : b.DistinctKeys) : a.DistinctKeys := by
  unfold Registry.DistinctKeys at hb ⊢
  rw [Registry.keys_of_shape h]
  exact hb

/-- In every reachable controller state the keys of each hash map are pairwise distinct:
the invariant of the container holds in all of them. -/
theorem FuzzyController.Reachable.distinctKeys {c : FuzzyController} (h : c.Reachable) :
    c.inputMembershipFunctions.DistinctKeys ∧ c.outputMembershipFunctions.DistinctKeys := by
  induction h with
  | new => exact ⟨List.nodup_nil, List.nodup_nil⟩
  | addMembershipFunction c name start topLeft topRight end_ idx kind _ ih =>
    cases kind with
    | INPUT_MEMBERSHIP_FUNCTION => exact ⟨Registry.distinctKeys_assign _ _ _ ih.1, ih.2⟩
    | OUTPUT_MEMBERSHIP_FUNCTION => exact ⟨ih.1, Registry.distinctKeys_assign _ _ _ ih.2⟩
  | addRule c c1 first args _ hc ih =>
    obtain ⟨hi, ho, _⟩ := FuzzyController.addRule_frame c c1 first args hc
    rw [hi, ho]; exact ih
  | fuzzify c c1 x args _ hc ih =>
    obtain ⟨hi, ho, _⟩ := FuzzyController.fuzzify_sameConfiguration c c1 x args hc
    rw [ho]
    exact ⟨Registry.distinctKeys_of_shape hi ih.1, ih.2⟩
  | defuzzifyCentroid c c1 fuel g a b d v _ hc ih =>
    obtain ⟨hi, ho, _⟩ :=
      FuzzyController.defuzzifyCentroid_sameConfiguration c c1 fuel g a b d v hc
    rw [hi]
    exact ⟨ih.1, Registry.distinctKeys_of_shape ho ih.2⟩

end fuzzy

namespace fuzzy

namespace LowHigh

/-! ## Mirror symmetry of the weights -/

theorem weight_mirror (a b : ℚ) (n k : ℕ) (hn : 0 < n) (hk : k ≤ n) :
    weight b a n (n - k) = weight a b n k := by
  have hnq : (n : ℚ) ≠ 0 := by exact_mod_cast hn.ne'
  have e : (((n - k : ℕ) : ℚ)) / n = 1 - (k : ℚ) / n := by
    rw [Nat.cast_sub hk]
    field_simp
  unfold weight
  rw [e, sub_sub_cancel, max_assoc, max_assoc, max_comm (min b ((k : ℚ) / n))]

theorem weightSum_mirror (a b : ℚ) (n : ℕ) (hn : 0 < n) :
    weightSum b a n = weightSum a b n := by
  unfold weightSum
  rw [← Finset.sum_range_reflect]
  apply Finset.sum_congr rfl
  intro k hk
  have hkn : k ≤ n := by have := Finset.mem_range.mp hk; omega
  have e : n + 1 - 1 - k = n - k := by omega
  rw [e, weight_mirror a b n k hn hkn]

theorem weightMoment_mirror (a b : ℚ) (n : ℕ) (hn : 0 < n) :
    weightMoment b a n = n * weightSum a b n - weightMoment a b n := by
  have hrefl : weightMoment b a n =
      Finset.sum (Finset.range (n + 1)) fun k => ((n : ℚ) - k) * weight a b n k := by
    unfold weightMoment
    rw [← Finset.sum_range_reflect]
    apply Finset.sum_congr rfl
    intro k hk
    have hkn : k ≤ n := by have := Finset.mem_range.mp hk; omega
    have e : n + 1 - 1 - k = n - k := by omega
    rw [e, weight_mirror a b n k hn hkn, Nat.cast_sub hkn]
  rw [hrefl]
  unfold weightMoment weightSum
  rw [Finset.mul_sum, ← Finset.sum_sub_distrib]
  apply Finset.sum_congr rfl
  intro k _
  ring

end LowHigh

end fuzzy

namespace ActGen_DirectPassSpeed

open fuzzy

theorem trimmedDistance_eq (d : ℚ) :
    trimmedDistance d = if d < 2 then 2 else if d > 20 then 20 else d := by
  unfold trimmedDistance
  rw [trimNumeric_eq]
  norm_num [kMinDistance, kMaxDistance]

theorem trimmedDistance_mirror (d : ℚ) :
    trimmedDistance (kMinDistance + kMaxDistance - d) = 22 - trimmedDistance d := by
  rw [trimmedDistance_eq, trimmedDistance_eq]
  unfold kMinDistance kMaxDistance
  split_ifs <;> linarith

end ActGen_DirectPassSpeed

namespace fuzzy

/-- Exact arithmetic (the loop variable is not rounded): the direct-pass-speed mapping is
mirror-symmetric. For every distance `d` and
every positive integer `steps`, in any states of the function-local static and given fuel
for the `steps + 2` guard evaluations, both calls return and
`getDirectPassSpeed(kMinDistance + kMaxDistance - d, steps) =
kMinSpeed + kMaxSpeed - getDirectPassSpeed(d, steps)`, where
`kMinDistance + kMaxDistance = 22` and `kMinSpeed + kMaxSpeed = 4.12`. -/
theorem getDirectPassSpeed_mirror (s1 s2 : Option FuzzyController)
    (hS1 : ActGen_DirectPassSpeed.StaticInvariant s1)
    (hS2 : ActGen_DirectPassSpeed.StaticInvariant s2) (d : ℚ) (steps : ℕ)
    (hsteps : 0 < steps) (fuel1 fuel2 : Nat) (hf1 : steps + 2 ≤ fuel1)
    (hf2 : steps + 2 ≤ fuel2) :
    ∃ v1 v2,
      (ActGen_DirectPassSpeed.getDirectPassSpeed fuel1 s1
        (ActGen_DirectPassSpeed.kMinDistance + ActGen_DirectPassSpeed.kMaxDistance - d)
        steps).map Prod.fst = .ok v1 ∧
      (ActGen_DirectPassSpeed.getDirectPassSpeed fuel2 s2 d steps).map Prod.fst = .ok v2 ∧
      v1 = ActGen_DirectPassSpeed.kMinSpeed + ActGen_DirectPassSpeed.kMaxSpeed - v2 ∧
      ActGen_DirectPassSpeed.kMinDistance + ActGen_DirectPassSpeed.kMaxDistance = 22 ∧
      ActGen_DirectPassSpeed.kMinSpeed + ActGen_DirectPassSpeed.kMaxSpeed = 412 / 100 := by
  obtain ⟨c1, h1, _⟩ := ActGen_DirectPassSpeed.getDirectPassSpeed_value s1 hS1
    (ActGen_DirectPassSpeed.kMinDistance + ActGen_DirectPassSpeed.kMaxDistance - d) steps
    hsteps fuel1 hf1
  obtain ⟨c2, h2, _⟩ := ActGen_DirectPassSpeed.getDirectPassSpeed_value s2 hS2 d steps hsteps
    fuel2 hf2
  refine ⟨_, _, by rw [h1]; rfl, by rw [h2]; rfl, ?_,
    by norm_num [ActGen_DirectPassSpeed.kMinDistance, ActGen_DirectPassSpeed.kMaxDistance],
    by norm_num [ActGen_DirectPassSpeed.kMinSpeed, ActGen_DirectPassSpeed.kMaxSpeed]⟩
  obtain ⟨hb1, hb2⟩ := ActGen_DirectPassSpeed.trimmed_bounds d
  rw [ActGen_DirectPassSpeed.trimmedDistance_mirror]
  have e1 : 1 - (22 - ActGen_DirectPassSpeed.trimmedDistance d - 1) / 20 =
      (ActGen_DirectPassSpeed.trimmedDistance d - 1) / 20 := by ring
  have e2 : (22 - ActGen_DirectPassSpeed.trimmedDistance d - 1) / 20 =
      1 - (ActGen_DirectPassSpeed.trimmedDistance d - 1) / 20 := by ring
  rw [e1, e2, LowHigh.weightSum_mirror _ _ steps hsteps,
    LowHigh.weightMoment_mirror _ _ steps hsteps]
  have hW : 0 < LowHigh.weightSum (1 - (ActGen_DirectPassSpeed.trimmedDistance d - 1) / 20)
      ((ActGen_DirectPassSpeed.trimmedDistance d - 1) / 20) steps :=
    LowHigh.weightSum_pos _ _ steps (by linarith)
  have hsq : (steps : ℚ) ≠ 0 := by exact_mod_cast hsteps.ne'
  unfold ActGen_DirectPassSpeed.kMinSpeed ActGen_DirectPassSpeed.kMaxSpeed
  generalize LowHigh.weightSum (1 - (ActGen_DirectPassSpeed.trimmedDistance d - 1) / 20)
    ((ActGen_DirectPassSpeed.trimmedDistance d - 1) / 20) steps = W at hW ⊢
  generalize LowHigh.weightMoment (1 - (ActGen_DirectPassSpeed.trimmedDistance d - 1) / 20)
    ((ActGen_DirectPassSpeed.trimmedDistance d - 1) / 20) steps = K
  have hWne : W ≠ 0 := hW.ne'
  field_simp
  ring

/-- An instance in exact arithmetic: the distances 5 and 17 with `steps = 8`, both on
first use. -/
theorem getDirectPassSpeed_mirror_witness :
    ∃ v1 v2,
      (ActGen_DirectPassSpeed.getDirectPassSpeed 10 none
        (ActGen_DirectPassSpeed.kMinDistance + ActGen_DirectPassSpeed.kMaxDistance - 5)
        ((8 : ℕ) : ℚ)).map Prod.fst = .ok v1 ∧
      (ActGen_DirectPassSpeed.getDirectPassSpeed 10 none 5 ((8 : ℕ) : ℚ)).map Prod.fst =
        .ok v2 ∧
      v1 = ActGen_DirectPassSpeed.kMinSpeed + ActGen_DirectPassSpeed.kMaxSpeed - v2 ∧
      ActGen_DirectPassSpeed.kMinDistance + ActGen_DirectPassSpeed.kMaxDistance = 22 ∧
      ActGen_DirectPassSpeed.kMinSpeed + ActGen_DirectPassSpeed.kMaxSpeed = 412 / 100 :=
  getDirectPassSpeed_mirror none none (Or.inl rfl) (Or.inl rfl) 5 8 (by decide) 10 10
    (by decide) (by decide)

end fuzzy

namespace ActGen_DirectPassSpeed

open fuzzy

/-! ## The range of the pass speed with 8 steps -/

theorem weightSum_low : LowHigh.weightSum (1 - (2 - 1) / 20) ((2 - 1) / 20) 8 = 9 / 2 := by
  have h := LowHigh.weightSum_mirror (1 - (20 - 1) / 20) ((20 - 1) / 20) 8 (by decide)
  rw [weightSum_high] at h
  have e1 : (1 : ℚ) - (2 - 1) / 20 = (20 - 1) / 20 := by norm_num
  have e2 : ((2 : ℚ) - 1) / 20 = 1 - (20 - 1) / 20 := by norm_num
  rw [e1, e2]
  exact h

theorem weightMoment_low :
    LowHigh.weightMoment (1 - (2 - 1) / 20) ((2 - 1) / 20) 8 = 109 / 10 := by
  have h := LowHigh.weightMoment_mirror (1 - (20 - 1) / 20) ((20 - 1) / 20) 8 (by decide)
  rw [weightSum_high, weightMoment_high] at h
  have e1 : (1 : ℚ) - (2 - 1) / 20 = (20 - 1) / 20 := by norm_num
  have e2 : ((2 : ℚ) - 1) / 20 = 1 - (20 - 1) / 20 := by norm_num
  rw [e1, e2, h]
  norm_num

theorem getDirectPassSpeed_eight_range (singleton : Option FuzzyController)
    (hS : StaticInvariant singleton) (distance : ℚ) (fuel : Nat) (hfuel : 10 ≤ fuel) :
    ∃ v c1, getDirectPassSpeed fuel singleton distance ((8 : ℕ) : ℚ) = .ok (v, some c1) ∧
      81 / 100 + 109 / 144 ≤ v ∧ v ≤ 331 / 100 - 109 / 144 ∧
      (distance ≤ 2 → v = 81 / 100 + 109 / 144) ∧
      (20 ≤ distance → v = 331 / 100 - 109 / 144) := by
  obtain ⟨c1, h1, _⟩ := getDirectPassSpeed_value singleton hS distance 8 (by decide) fuel hfuel
  refine ⟨_, c1, h1, ?_, ?_, ?_, ?_⟩
  · obtain ⟨hb1, hb2⟩ := trimmed_bounds distance
    have hc := LowHigh.centroid_le ((2 - 1) / 20) ((trimmedDistance distance - 1) / 20)
      (by norm_num) (by linarith) (by linarith) 8 (by decide)
    rw [weightSum_low, weightMoment_low] at hc
    have := mul_le_mul_of_nonneg_left hc
      (show (0 : ℚ) ≤ (331 / 100 - 81 / 100) / ((8 : ℕ) : ℚ) by norm_num)
    norm_num at this ⊢
    linarith
  · obtain ⟨hb1, hb2⟩ := trimmed_bounds distance
    have hc := LowHigh.centroid_le ((trimmedDistance distance - 1) / 20) ((20 - 1) / 20)
      (by linarith) (by linarith) (by norm_num) 8 (by decide)
    rw [weightSum_high, weightMoment_high] at hc
    have := mul_le_mul_of_nonneg_left hc
      (show (0 : ℚ) ≤ (331 / 100 - 81 / 100) / ((8 : ℕ) : ℚ) by norm_num)
    norm_num at this ⊢
    linarith
  · intro hd
    have ht : trimmedDistance distance = 2 := by
      rw [trimmedDistance_eq]
      split_ifs <;> linarith
    rw [ht, weightSum_low, weightMoment_low]
    norm_num
  · intro hd
    have ht : trimmedDistance distance = 20 := by
      rw [trimmedDistance_eq]
      split_ifs <;> linarith
    rw [ht, weightSum_high, weightMoment_high]
    norm_num

end ActGen_DirectPassSpeed

namespace ActGen_DirectPassSpeed

open fuzzy

theorem fuzzifiedAt_denominator_pos (distance : ℚ) (steps : ℕ) (hsteps : 0 < steps) :
    0 < specDenominator (fuzzifiedAt (trimmedDistance distance)) 1 kMinSpeed kMaxSpeed
      steps := by
  obtain ⟨hb1, hb2⟩ := trimmed_bounds distance
  rw [fuzzifiedAt_eq_state, distanceLow_degree _ hb1 hb2, distanceHigh_degree _ hb1 hb2]
  unfold kMinSpeed kMaxSpeed
  rw [LowHigh.state_denominator _ _ _ _ _ _ (by norm_num) steps hsteps]
  exact LowHigh.weightSum_pos _ _ steps (by linarith)

/-- C35: for every distance, in any state of the function-local static and given fuel
for the 10 guard evaluations, `getDirectPassSpeed(distance, 8)` returns a value in
`[0.81 + 109/144, 3.31 - 109/144]`. The lower bound is returned exactly for every
`distance <= 2` and the upper bound exactly for every `distance >= 20`, so the value lies
strictly between `kMinSpeed = 0.81` and `kMaxSpeed = 3.31`. The total aggregated strength
of the fuzzified controller is positive: the zero fallback is not taken. -/
theorem getDirectPassSpeed_eight_bounds (singleton : Option FuzzyController)
    (hS : StaticInvariant singleton) (distance : ℚ) (fuel : Nat) (hfuel : 10 ≤ fuel) :
    ∃ v c1, getDirectPassSpeed fuel singleton distance ((8 : ℕ) : ℚ) = .ok (v, some c1) ∧
      81 / 100 + 109 / 144 ≤ v ∧ v ≤ 331 / 100 - 109 / 144 ∧
      (distance ≤ 2 → v = 81 / 100 + 109 / 144) ∧
      (20 ≤ distance → v = 331 / 100 - 109 / 144) ∧
      kMinSpeed < v ∧ v < kMaxSpeed ∧
      0 < specDenominator (fuzzifiedAt (trimmedDistance distance)) 1 kMinSpeed kMaxSpeed 8 := by
  obtain ⟨v, c1, h1, h2, h3, h4, h5⟩ :=
    getDirectPassSpeed_eight_range singleton hS distance fuel hfuel
  refine ⟨v, c1, h1, h2, h3, h4, h5, ?_, ?_,
    fuzzifiedAt_denominator_pos distance 8 (by decide)⟩
  · unfold kMinSpeed
    linarith
  · unfold kMaxSpeed
    linarith

/-- Witness for C35: the first call, at distance 11, with fuel 10. -/
theorem getDirectPassSpeed_eight_bounds_witness :
    ∃ v c1, getDirectPassSpeed 10 none 11 ((8 : ℕ) : ℚ) = .ok (v, some c1) ∧
      81 / 100 + 109 / 144 ≤ v ∧ v ≤ 331 / 100 - 109 / 144 ∧
      ((11 : ℚ) ≤ 2 → v = 81 / 100 + 109 / 144) ∧
      ((20 : ℚ) ≤ 11 → v = 331 / 100 - 109 / 144) ∧
      kMinSpeed < v ∧ v < kMaxSpeed ∧
      0 < specDenominator (fuzzifiedAt (trimmedDistance 11)) 1 kMinSpeed kMaxSpeed 8 :=
  getDirectPassSpeed_eight_bounds none (Or.inl rfl) 11 10 (by decide)

end ActGen_DirectPassSpeed

namespace fuzzy

/-! ## Equal range bounds: the sampling loop makes no progress -/

theorem FuzzyController.sampleLoop_step_zero (rules : List Rule) (g : Nat) (base : Registry)
    (a : ℚ)
    (hcount : ∀ r ∈ rules, r.consequentsCount = r.consequents.length)
    (hres : ∀ r ∈ rules, ∀ k ∈ r.consequents, (base.find k).isSome = true)
    (fuel : Nat) (num den : ℚ) (outputs : Registry)
    (hs : Registry.shape outputs = Registry.shape base) :
    ∃ cur outputs1, Registry.shape outputs1 = Registry.shape base ∧
      FuzzyController.sampleLoop rules rules.length g a 0 (fuel + 1) a num den outputs =
        FuzzyController.sampleLoop rules rules.length g a 0 fuel a (num + a * cur)
          (den + cur) outputs1 := by
  obtain ⟨o1, h1, h2⟩ := FuzzyController.aggregateLoop_eq rules g a base hcount hres
    rules.length 0 0 outputs (by simp) hs
  refine ⟨List.foldl max 0 (List.map (fun r => specOutputStrength r.firingStrength
    (r.consequentFunctions base) g a) (List.drop 0 rules)), o1, h2, ?_⟩
  rw [FuzzyController.sampleLoop, if_pos (le_refl a), h1]
  simp only [add_zero]

theorem FuzzyController.sampleLoop_zero_delta (rules : List Rule) (g : Nat) (base : Registry)
    (a : ℚ)
    (hcount : ∀ r ∈ rules, r.consequentsCount = r.consequents.length)
    (hres : ∀ r ∈ rules, ∀ k ∈ r.consequents, (base.find k).isSome = true) :
    ∀ (fuel : Nat) (num den : ℚ) (outputs : Registry),
      Registry.shape outputs = Registry.shape base →
      FuzzyController.sampleLoop rules rules.length g a 0 fuel a num den outputs =
        .error .outOfFuel := by
  intro fuel
  induction fuel with
  | zero =>
    intro num den outputs _
    rfl
  | succ fuel ih =>
    intro num den outputs hs
    obtain ⟨cur, o1, h2, h1⟩ :=
      FuzzyController.sampleLoop_step_zero rules g base a hcount hres fuel num den outputs hs
    rw [h1]
    exact ih _ _ o1 h2

/-- C34: for `outMin = outMax` and any non-zero `steps`, on a controller satisfying the
class invariant whose rules each have an antecedent, `defuzzifyCentroid` computes the
delta 0. One iteration of the sampling loop, started at the sample `outMin` with any
sums, ends where it began: the loop is entered again at the sample `outMin`, whose guard
`outMin <= outMax` holds. So the loop does not exit: for every amount of fuel the call
runs out of fuel, and it returns for none. -/
theorem defuzzifyCentroid_equal_bounds_diverges (c : FuzzyController) (hv : c.Valid)
    (hne : ∀ r ∈ c.rules, r.antecedents ≠ []) (g : Nat) (outMin steps : ℚ)
    (hsteps : steps ≠ 0) :
    (outMin - outMin) / steps = 0 ∧
    (∃ rules1, FuzzyController.firingPhase c.inputMembershipFunctions c.rulesCount 0 c.rules =
        .ok rules1 ∧
      ∀ (fuel : Nat) (num den : ℚ) (outputs : Registry),
        Registry.shape outputs = Registry.shape c.outputMembershipFunctions →
        ∃ cur outputs1,
          Registry.shape outputs1 = Registry.shape c.outputMembershipFunctions ∧
          FuzzyController.sampleLoop rules1 c.rulesCount g outMin
              ((outMin - outMin) / steps) (fuel + 1) outMin num den outputs =
            FuzzyController.sampleLoop rules1 c.rulesCount g outMin
              ((outMin - outMin) / steps) fuel outMin (num + outMin * cur) (den + cur)
              outputs1) ∧
    (∀ fuel, c.defuzzifyCentroid fuel g outMin outMin steps = .error .outOfFuel) ∧
    (∀ fuel v c1, c.defuzzifyCentroid fuel g outMin outMin steps ≠ .ok (v, c1)) := by
  obtain ⟨hrc, hb⟩ := hv
  have hδ : (outMin - outMin) / steps = 0 := by rw [sub_self, zero_div]
  have hfire := FuzzyController.firingPhase_eq c.inputMembershipFunctions c.rules
    (fun r hr => (hb r hr).1) (fun r hr => (hb r hr).2.2.1) hne
  have hlen : (c.rules.map fun r =>
      ({ r with firingStrength := specFiringStrength c.inputMembershipFunctions r } :
        Rule)).length = c.rules.length := by simp
  have hcount1 : ∀ r ∈ (c.rules.map fun r =>
      ({ r with firingStrength := specFiringStrength c.inputMembershipFunctions r } : Rule)),
      r.consequentsCount = r.consequents.length := by
    intro r hr
    obtain ⟨r0, hr0, rfl⟩ := List.mem_map.mp hr
    exact (hb r0 hr0).2.1
  have hres1 : ∀ r ∈ (c.rules.map fun r =>
      ({ r with firingStrength := specFiringStrength c.inputMembershipFunctions r } : Rule)),
      ∀ k ∈ r.consequents, (c.outputMembershipFunctions.find k).isSome = true := by
    intro r hr
    obtain ⟨r0, hr0, rfl⟩ := List.mem_map.mp hr
    exact (hb r0 hr0).2.2.2
  have hall : ∀ fuel, c.defuzzifyCentroid fuel g outMin outMin steps = .error .outOfFuel := by
    intro fuel
    unfold FuzzyController.defuzzifyCentroid
    rw [hrc, hfire]
    simp only [hsteps, if_false, hδ]
    have h := FuzzyController.sampleLoop_zero_delta _ g c.outputMembershipFunctions outMin
      hcount1 hres1 fuel 0 0 c.outputMembershipFunctions rfl
    rw [hlen] at h
    rw [h]
  refine ⟨hδ, ⟨_, by rw [hrc]; exact hfire, ?_⟩, hall, ?_⟩
  · intro fuel num den outputs hs
    have h := FuzzyController.sampleLoop_step_zero _ g c.outputMembershipFunctions outMin
      hcount1 hres1 fuel num den outputs hs
    rw [hlen, ← hrc] at h
    rw [hδ]
    exact h
  · intro fuel v c1 h
    rw [hall fuel] at h
    simp at h

/-- Witness for C34: the pass-speed controller fuzzified at distance 2, asked for the
range `[1, 1]` with 8 steps and a thousand units of fuel. -/
theorem defuzzifyCentroid_equal_bounds_diverges_witness :
    ActGen_DirectPassSpeed.fuzzifiedAtTwo.defuzzifyCentroid 1000 1 1 1 8 =
      .error .outOfFuel :=
  (defuzzifyCentroid_equal_bounds_diverges ActGen_DirectPassSpeed.fuzzifiedAtTwo (by decide)
    (by decide) 1 1 8 (by norm_num)).2.2.1 1000

end fuzzy

namespace fuzzy

/-! ## The end-of-input marker of `fuzzify` -/

theorem FuzzyController.fuzzifyLoop_marker :
    ∀ (xs : List ℚ) (x : ℚ) (post : List ℚ) (i : Int) (inputs : Registry),
      (∀ y ∈ x :: xs, y ≠ numericLimitsMax) → i + ((x :: xs).length : ℕ) ≤ intMax →
      FuzzyController.fuzzifyLoop (xs ++ numericLimitsMax :: post) x i inputs =
        .ok (inputs.map (specFuzzifiedNode i (x :: xs))) := by
  intro xs
  induction xs with
  | nil =>
    intro x post i inputs hs hlen
    have hx : x ≠ numericLimitsMax := hs x (List.mem_cons_self _ _)
    have hi : i ≠ intMax := by simp only [List.length_cons, List.length_nil] at hlen; omega
    cases post with
    | nil => exact FuzzyController.fuzzifyLoop_eq [] x i inputs hs hlen
    | cons z zs =>
      simp only [List.nil_append, FuzzyController.fuzzifyLoop, ne_eq, hx, not_false_eq_true,
        hi, and_self, if_true, not_true_eq_false, false_and, if_false,
        FuzzyController.fuzzifyGroup]
      congr 1
      apply List.map_congr_left
      intro node _
      rw [← FuzzyController.fuzzifyGroup_then i x [] node, specFuzzifiedNode_nil]
  | cons y ys ih =>
    intro x post i inputs hs hlen
    have hx : x ≠ numericLimitsMax := hs x (List.mem_cons_self _ _)
    have hi : i ≠ intMax := by simp only [List.length_cons] at hlen; omega
    have hrest : ∀ z ∈ y :: ys, z ≠ numericLimitsMax :=
      fun z hz => hs z (List.mem_cons_of_mem _ hz)
    have := ih y post (i + 1) (FuzzyController.fuzzifyGroup inputs i x) hrest
      (by simp only [List.length_cons] at hlen ⊢; omega)
    simp only [List.cons_append, FuzzyController.fuzzifyLoop, ne_eq, hx, not_false_eq_true, hi,
      and_self, if_true]
    rw [show ys.append (numericLimitsMax :: post) = ys ++ numericLimitsMax :: post from rfl,
      this]
    congr 1
    unfold FuzzyController.fuzzifyGroup
    rw [List.map_map]
    apply List.map_congr_left
    intro node _
    exact FuzzyController.fuzzifyGroup_then i x (y :: ys) node

theorem FuzzyController.fuzzifyLoop_marker_first (post : List ℚ) (i : Int)
    (inputs : Registry) :
    FuzzyController.fuzzifyLoop post numericLimitsMax i inputs = .ok inputs := by
  cases post <;> simp [FuzzyController.fuzzifyLoop]

/-- C33: `fuzzify` stops at the first input equal to `numeric_limits max`. When the
inputs `x :: xs` before the marker hold no marker (and are fewer than `INT_MAX`), then
whatever inputs `post` follow the marker, the call returns the state that the call
without them returns: the map keeps its names, shapes and indices, a function of group
`i + 1` for a position `i` of `x :: xs` gets its degree at that input (the first input
goes to group 1, the next to group 2, ...), and a function of any other group is left as
it was. When the first input is the marker itself the call returns the state unchanged. -/
theorem fuzzify_stops_at_marker (c : FuzzyController) (x : ℚ) (xs post : List ℚ)
    (hs : ∀ y ∈ x :: xs, y ≠ numericLimitsMax) (hlen : (x :: xs).length < 2147483647) :
    (∃ c1, c.fuzzify x (xs ++ numericLimitsMax :: post) = .ok c1 ∧
      c.fuzzify x (xs ++ [numericLimitsMax]) = .ok c1 ∧
      c1.outputMembershipFunctions = c.outputMembershipFunctions ∧
      c1.rules = c.rules ∧ c1.rulesCount = c.rulesCount ∧
      List.Forall₂
        (fun old new => new.1 = old.1 ∧ new.2.shape = old.2.shape ∧
          (∀ (i : ℕ) (h : i < (x :: xs).length), old.2.fuzzificationIndex = (i : Int) + 1 →
            new.2.fuzzyStrength = specDegree old.2 ((x :: xs).get ⟨i, h⟩)) ∧
          ((old.2.fuzzificationIndex < 1 ∨
              ((x :: xs).length : Int) < old.2.fuzzificationIndex) → new = old))
        c.inputMembershipFunctions c1.inputMembershipFunctions) ∧
    c.fuzzify numericLimitsMax post = .ok c := by
  have hloop := FuzzyController.fuzzifyLoop_marker xs x post kMinValidFuzzificationIndex
    c.inputMembershipFunctions hs (by unfold kMinValidFuzzificationIndex intMax; omega)
  have hloop0 := FuzzyController.fuzzifyLoop_eq xs x kMinValidFuzzificationIndex
    c.inputMembershipFunctions hs (by unfold kMinValidFuzzificationIndex intMax; omega)
  refine ⟨⟨{ c with inputMembershipFunctions :=
      c.inputMembershipFunctions.map (specFuzzifiedNode kMinValidFuzzificationIndex (x :: xs)) },
    by simp only [FuzzyController.fuzzify, hloop],
    by simp only [FuzzyController.fuzzify, hloop0], rfl, rfl, rfl, ?_⟩, ?_⟩
  · simp only []
    rw [List.forall₂_map_right_iff, List.forall₂_same]
    intro node _
    obtain ⟨k, m⟩ := node
    unfold specFuzzifiedNode kMinValidFuzzificationIndex
    dsimp only
    split_ifs with hr
    · refine ⟨rfl, rfl, ?_, ?_⟩
      · intro i h hi
        have hidx : (m.fuzzificationIndex - 1).toNat = i := by omega
        simp only [hidx]
        rw [List.getD_eq_getElem _ _ h]
        rfl
      · intro ho
        exfalso
        omega
    · refine ⟨rfl, rfl, ?_, fun _ => rfl⟩
      intro i h hi
      exfalso
      apply hr
      constructor
      · omega
      · have : (i : Int) < ((x :: xs).length : ℕ) := by exact_mod_cast h
        omega
  · simp only [FuzzyController.fuzzify, FuzzyController.fuzzifyLoop_marker_first]

/-- Witness for C33: the pass-speed controller fuzzified with the input 2, the marker,
and then the two further inputs 5 and 7. -/
theorem fuzzify_stops_at_marker_witness :
    ActGen_DirectPassSpeed.constructed.fuzzify 2 ([] ++ numericLimitsMax :: [5, 7]) =
        ActGen_DirectPassSpeed.constructed.fuzzify 2 ([] ++ [numericLimitsMax]) ∧
      ActGen_DirectPassSpeed.constructed.fuzzify numericLimitsMax [5, 7] =
        .ok ActGen_DirectPassSpeed.constructed := by
  obtain ⟨⟨c1, h1, h2, -⟩, h3⟩ :=
    fuzzify_stops_at_marker ActGen_DirectPassSpeed.constructed 2 [] [5, 7]
      (by
        intro y hy
        rw [List.mem_singleton.mp hy]
        exact ActGen_DirectPassSpeed.two_ne_numericLimitsMax)
      (by decide)
  exact ⟨by rw [h1, h2], h3⟩

end fuzzy

namespace fuzzy

/-! ## addRule: the frame -/

theorem FuzzyController.addRule_lists (c : FuzzyController)
    (antecedents consequents : List String) (first : String) (args : List String)
    (hcall : first :: args = antecedents ++ kRuleImplies :: (consequents ++ [kRuleEnd]))
    (ha : kRuleImplies ∉ antecedents) (hc : kRuleEnd ∉ consequents)
    (hin : ∀ a ∈ antecedents, (c.inputMembershipFunctions.find a).isSome = true)
    (hout : ∀ k ∈ consequents, (c.outputMembershipFunctions.find k).isSome = true) :
    c.addRule first args =
      .ok { c with rules := c.rules ++ [Rule.new antecedents consequents],
                   rulesCount := c.rulesCount + 1 } := by
  cases antecedents with
  | nil =>
    simp only [List.nil_append, List.cons.injEq] at hcall
    obtain ⟨h1, h2⟩ := hcall
    subst h1 h2
    unfold FuzzyController.addRule
    rw [FuzzyController.collectNames_stop]
    obtain ⟨cur, rest, hcr⟩ : ∃ cur rest, consequents ++ [kRuleEnd] = cur :: rest := by
      cases consequents with
      | nil => exact ⟨_, _, rfl⟩
      | cons k t => exact ⟨_, _, rfl⟩
    rw [hcr]
    simp only []
    rw [FuzzyController.collectNames_consequents _ consequents hc cur rest hcr.symm,
      if_pos hout]
  | cons a as =>
    simp only [List.cons_append, List.cons.injEq] at hcall
    obtain ⟨h1, h2⟩ := hcall
    subst h1 h2
    rw [FuzzyController.addRule_eq c first as consequents
      (fun h => ha (h ▸ List.mem_cons_self _ _)) (fun h => ha (List.mem_cons_of_mem _ h)) hc,
      if_pos ⟨hin, hout⟩]

/-- C32: take any controller state, any list `antecedents` of names registered in the input
hash map and any list `consequents` of names registered in the output hash map, passed
to `addRule` the documented way: the antecedent names, `kRuleImplies()`, the consequent
names, `kRuleEnd()` (the names are what stands before the two sentinels). The call
returns; the rule list afterwards is the old list followed by exactly one new rule, whose
antecedents and consequents are the given names in the given order, each pointing to a
node of its hash map; the earlier rules keep their places, both hash maps are as before,
and `rulesCount`, when it was the number of stored rules, still is. -/
theorem addRule_appends_exactly_one (c : FuzzyController)
    (antecedents consequents : List String) (first : String) (args : List String)
    (hcall : first :: args = antecedents ++ kRuleImplies :: (consequents ++ [kRuleEnd]))
    (ha : kRuleImplies ∉ antecedents) (hc : kRuleEnd ∉ consequents)
    (hin : ∀ a ∈ antecedents, (c.inputMembershipFunctions.find a).isSome = true)
    (hout : ∀ k ∈ consequents, (c.outputMembershipFunctions.find k).isSome = true) :
    ∃ c1 r, c.addRule first args = .ok c1 ∧
      c1.rules = c.rules ++ [r] ∧
      r.antecedents = antecedents ∧ r.consequents = consequents ∧
      r.Bound c1.inputMembershipFunctions c1.outputMembershipFunctions ∧
      c1.rules.length = c.rules.length + 1 ∧
      (∀ (i : ℕ), i < c.rules.length → c1.rules[i]? = c.rules[i]?) ∧
      c1.inputMembershipFunctions = c.inputMembershipFunctions ∧
      c1.outputMembershipFunctions = c.outputMembershipFunctions ∧
      (c.rulesCount = c.rules.length → c1.rulesCount = c1.rules.length) ∧
      (c.Valid → c1.Valid) := by
  refine ⟨_, Rule.new antecedents consequents,
    FuzzyController.addRule_lists c antecedents consequents first args hcall ha hc hin hout,
    rfl, rfl, rfl, ⟨rfl, rfl, hin, hout⟩, by simp, ?_, rfl, rfl, ?_, ?_⟩
  · intro i hi
    exact List.getElem?_append_left hi
  · intro h
    simp [h]
  · intro hv
    refine ⟨by simp [hv.1], ?_⟩
    intro r hr
    rcases List.mem_append.mp hr with h | h
    · exact hv.2 r h
    · rw [List.mem_singleton.mp h]
      exact ⟨rfl, rfl, hin, hout⟩

/-- Witness for C32: a third rule with the two antecedents `distanceLow`, `distanceHigh`
and the consequent `speedHigh` added to the constructed pass-speed controller. -/
theorem addRule_appends_exactly_one_witness :
    ∃ c1 r, ActGen_DirectPassSpeed.constructed.addRule "distanceLow"
        ["distanceHigh", kRuleImplies, "speedHigh", kRuleEnd] = .ok c1 ∧
      c1.rules = ActGen_DirectPassSpeed.constructed.rules ++ [r] ∧
      r.antecedents = ["distanceLow", "distanceHigh"] ∧ r.consequents = ["speedHigh"] ∧
      c1.rulesCount = 3 := by
  obtain ⟨c1, r, h1, h2, h3, h4, -, -, -, -, -, h5, -⟩ :=
    addRule_appends_exactly_one ActGen_DirectPassSpeed.constructed
      ["distanceLow", "distanceHigh"] ["speedHigh"] "distanceLow"
      ["distanceHigh", kRuleImplies, "speedHigh", kRuleEnd] rfl (by decide) (by decide)
      (by decide) (by decide)
  refine ⟨c1, r, h1, h2, h3, h4, ?_⟩
  rw [h5 (by decide), h2, List.length_append]
  rfl

end fuzzy

namespace fuzzy

/-! ## Rules point to the nodes of the hash maps -/

theorem Registry.find_assign (reg : Registry) (name k : String) (v : MembershipFunction) :
    (reg.assign name v).find k = if k = name then some v else reg.find k := by
  by_cases h : k = name
  · rw [if_pos h, h, Registry.find_assign_self]
  · rw [if_neg h, Registry.find_assign_other reg name k v h]

theorem Registry.find_map_node (f : String × MembershipFunction → String × MembershipFunction)
    (hf : ∀ node, (f node).1 = node.1) (reg : Registry) (k : String) :
    Registry.find (reg.map f) k = (reg.find k).map fun m => (f (k, m)).2 := by
  induction reg with
  | nil => rfl
  | cons hd tl ih =>
    obtain ⟨k0, m⟩ := hd
    have h1 : f (k0, m) = (k0, (f (k0, m)).2) := Prod.ext (hf (k0, m)) rfl
    rw [List.map_cons, h1]
    unfold Registry.find
    by_cases hk : k0 = k
    · rw [if_pos hk, if_pos hk, hk]
      rfl
    · rw [if_neg hk, if_neg hk]
      exact ih

theorem specFuzzifiedNode_fst (i : Int) (xs : List ℚ) (node : String × MembershipFunction) :
    (specFuzzifiedNode i xs node).1 = node.1 := by
  unfold specFuzzifiedNode
  split_ifs <;> rfl

/-- Names as the pointers they are: a rule holds pointers to the nodes of the hash maps, so
calling `addMembershipFunction` again with a pointer `N` that a rule is already bound to
(the same address, not only the same characters) changes what
that rule evaluates, without the rule being added again. For a controller satisfying the
class invariant: the rule list and `rulesCount` are as before and every rule is still
bound (the invariant holds), yet a look-up of `N` in the written hash map now gives the
new shape and index with degree 0. The consequent functions of every existing rule, for
an output `N`, are the old ones with the new function at the places of `N`; the
antecedent degrees, for an input `N`, are the old ones with 0 at the places of `N`. A
following `fuzzify` gives the rule's antecedent `N` of group `i + 1` its degree by the
new shape at the input of position `i`, and a following `defuzzifyCentroid` returns the
centroid computed from the rules as they now evaluate. -/
theorem rule_follows_readded_function (c : FuzzyController) (hv : c.Valid)
    (hne : ∀ r ∈ c.rules, r.antecedents ≠ []) (name : String)
    (start topLeft topRight end_ : ℚ) (idx : Int) (kind : MembershipFunctionKind) :
    ∃ c1, c1 = c.addMembershipFunction name start topLeft topRight end_ idx kind ∧
      c1.rules = c.rules ∧ c1.rulesCount = c.rulesCount ∧ c1.Valid ∧
      (c1.registry kind).find name =
        some (MembershipFunction.new start topLeft topRight end_ idx) ∧
      (kind = .OUTPUT_MEMBERSHIP_FUNCTION → ∀ r ∈ c1.rules,
        r.consequentFunctions c1.outputMembershipFunctions =
          r.consequents.filterMap fun k =>
            if k = name then some (MembershipFunction.new start topLeft topRight end_ idx)
            else c.outputMembershipFunctions.find k) ∧
      (kind = .INPUT_MEMBERSHIP_FUNCTION → ∀ r ∈ c1.rules,
        r.antecedentDegrees c1.inputMembershipFunctions =
          r.antecedents.filterMap fun a =>
            if a = name then some 0
            else (c.inputMembershipFunctions.find a).map fun m => m.fuzzyStrength) ∧
      (kind = .INPUT_MEMBERSHIP_FUNCTION → ∀ (x : ℚ) (xs : List ℚ),
        (∀ y ∈ x :: xs, y ≠ numericLimitsMax) → (x :: xs).length < 2147483647 →
        ∀ (i : ℕ) (h : i < (x :: xs).length), idx = (i : Int) + 1 →
        ∃ c2, c1.fuzzify x (xs ++ [numericLimitsMax]) = .ok c2 ∧ c2.rules = c.rules ∧
          c2.inputMembershipFunctions.find name =
            some { MembershipFunction.new start topLeft topRight end_ idx with
                   fuzzyStrength :=
                     specDegree (MembershipFunction.new start topLeft topRight end_ idx)
                       ((x :: xs).get ⟨i, h⟩) }) ∧
      (∀ (g : Nat) (a b : ℚ), a < b → ∀ (steps : ℕ), 0 < steps → ∀ (fuel : Nat),
        steps + 2 ≤ fuel →
        ∃ c2, c1.defuzzifyCentroid fuel g a b steps =
          .ok (specNumerator c1 g a b steps /
                (if specDenominator c1 g a b steps = 0 then 1
                 else specDenominator c1 g a b steps), c2)) := by
  have hv1 := FuzzyController.addMembershipFunction_valid c name start topLeft topRight end_
    idx kind hv
  have hrules : (c.addMembershipFunction name start topLeft topRight end_ idx kind).rules =
      c.rules := by cases kind <;> rfl
  refine ⟨_, rfl, hrules, by cases kind <;> rfl, hv1, ?_, ?_, ?_, ?_, ?_⟩
  · cases kind <;> exact Registry.find_assign_self _ _ _
  · intro hk r _
    subst hk
    unfold Rule.consequentFunctions
    apply List.filterMap_congr
    intro k _
    exact Registry.find_assign _ _ _ _
  · intro hk r _
    subst hk
    unfold Rule.antecedentDegrees
    apply List.filterMap_congr
    intro a _
    show ((c.inputMembershipFunctions.assign name _).find a).map _ = _
    rw [Registry.find_assign]
    split_ifs <;> rfl
  · intro hk x xs hs hlen i h hidx
    subst hk
    have hloop := FuzzyController.fuzzifyLoop_eq xs x kMinValidFuzzificationIndex
      (c.addMembershipFunction name start topLeft topRight end_ idx
        .INPUT_MEMBERSHIP_FUNCTION).inputMembershipFunctions hs
      (by unfold kMinValidFuzzificationIndex intMax; omega)
    refine ⟨{ c with inputMembershipFunctions :=
        (c.inputMembershipFunctions.assign name (MembershipFunction.new start topLeft topRight
          end_ idx)).map (specFuzzifiedNode kMinValidFuzzificationIndex (x :: xs)) },
      by simp only [FuzzyController.fuzzify, hloop]; rfl, rfl, ?_⟩
    show Registry.find (List.map _ (c.inputMembershipFunctions.assign name _)) name = _
    rw [Registry.find_map_node _ (specFuzzifiedNode_fst _ _), Registry.find_assign_self]
    simp only [Option.map_some']
    unfold specFuzzifiedNode kMinValidFuzzificationIndex
    have hr : (1 : Int) ≤ (MembershipFunction.new start topLeft topRight end_ idx).fuzzificationIndex ∧
        (MembershipFunction.new start topLeft topRight end_ idx).fuzzificationIndex <
          1 + ((x :: xs).length : ℕ) := by
      have : (i : Int) < ((x :: xs).length : ℕ) := by exact_mod_cast h
      simp only [MembershipFunction.new]
      omega
    dsimp only
    rw [if_pos hr]
    have hidx2 : ((MembershipFunction.new start topLeft topRight end_ idx).fuzzificationIndex
        - 1).toNat = i := by
      simp only [MembershipFunction.new]
      omega
    rw [hidx2, List.getD_eq_getElem _ _ h]
    rfl
  · intro g a b hab steps hsteps fuel hfuel
    obtain ⟨o1, h1, _⟩ := FuzzyController.defuzzifyCentroid_closed _ hv1
      (by rw [hrules]; exact hne) g a b hab steps hsteps fuel hfuel
    exact ⟨_, h1⟩

/-- An instance: the single rule `in -> out` bound to the consequent `(0, 0, 2, 2)`,
and `out` added again as `(2, 2, 4, 4)`. The rule list is the same, and the centroid over
`[0, 4]` with 2 steps moves from 1 to 3. -/
theorem rule_follows_readded_function_witness :
    ((SingleRule.state 0 0 2 2).addMembershipFunction "out" 2 2 4 4 1
        .OUTPUT_MEMBERSHIP_FUNCTION).rules = (SingleRule.state 0 0 2 2).rules ∧
    (SingleRule.state 0 0 2 2).rules = [Rule.new ["in"] ["out"]] ∧
    ((SingleRule.state 0 0 2 2).defuzzifyCentroid 4 1 0 4 ((2 : ℕ) : ℚ)).map Prod.fst =
      .ok 1 ∧
    (((SingleRule.state 0 0 2 2).addMembershipFunction "out" 2 2 4 4 1
        .OUTPUT_MEMBERSHIP_FUNCTION).defuzzifyCentroid 4 1 0 4 ((2 : ℕ) : ℚ)).map Prod.fst =
      .ok 3 := by
  obtain ⟨c1, hc1, hr, -⟩ := rule_follows_readded_function (SingleRule.state 0 0 2 2)
    (SingleRule.singleRule_valid 0 0 2 2) (by decide) "out" 2 2 4 4 1
    .OUTPUT_MEMBERSHIP_FUNCTION
  rw [hc1] at hr
  refine ⟨hr, rfl, ?_, ?_⟩
  · obtain ⟨c2, h1⟩ := defuzzifyCentroid_single (MembershipFunction.new 0 0 2 2 1) 0 4
      (by norm_num) (SingleRule.state 0 0 2 2) (SingleRule.singleRule_valid 0 0 2 2)
      (Rule.new ["in"] ["out"]) rfl (SingleRule.singleRule_firing 0 0 2 2) "out" rfl rfl 2
      (by decide) 4 (by decide)
    have e : toUnsigned (MembershipFunction.new 0 0 2 2 1).fuzzificationIndex = 1 := by decide
    rw [e] at h1
    rw [h1]
    simp only [Finset.sum_range_succ, Finset.sum_range_zero, Except.map]
    norm_num [specDegree, MembershipFunction.new]
  · have hst : (SingleRule.state 0 0 2 2).addMembershipFunction "out" 2 2 4 4 1
        .OUTPUT_MEMBERSHIP_FUNCTION = SingleRule.state 2 2 4 4 := by
      simp [FuzzyController.addMembershipFunction, SingleRule.state, Registry.assign]
    rw [hst]
    obtain ⟨c2, h1⟩ := defuzzifyCentroid_single (MembershipFunction.new 2 2 4 4 1) 0 4
      (by norm_num) (SingleRule.state 2 2 4 4) (SingleRule.singleRule_valid 2 2 4 4)
      (Rule.new ["in"] ["out"]) rfl (SingleRule.singleRule_firing 2 2 4 4) "out" rfl rfl 2
      (by decide) 4 (by decide)
    have e : toUnsigned (MembershipFunction.new 2 2 4 4 1).fuzzificationIndex = 1 := by decide
    rw [e] at h1
    rw [h1]
    simp only [Finset.sum_range_succ, Finset.sum_range_zero, Except.map]
    norm_num [specDegree, MembershipFunction.new]

end fuzzy

namespace fuzzy

/-! ## Calls that follow one another on the same controller -/

theorem FuzzyController.fuzzifyLoop_returns :
    ∀ (xs : List ℚ) (x : ℚ) (i : Int) (inputs : Registry),
      ∃ r, FuzzyController.fuzzifyLoop (xs ++ [numericLimitsMax]) x i inputs = .ok r := by
  intro xs
  induction xs with
  | nil =>
    intro x i inputs
    by_cases h : x ≠ numericLimitsMax ∧ i ≠ intMax
    · refine ⟨FuzzyController.fuzzifyGroup inputs i x, ?_⟩
      simp only [List.nil_append, FuzzyController.fuzzifyLoop, if_pos h, ne_eq,
        not_true_eq_false, false_and, if_false]
    · exact ⟨inputs, by simp only [List.nil_append, FuzzyController.fuzzifyLoop, if_neg h]⟩
  | cons y ys ih =>
    intro x i inputs
    by_cases h : x ≠ numericLimitsMax ∧ i ≠ intMax
    · obtain ⟨r, hr⟩ := ih y (i + 1) (FuzzyController.fuzzifyGroup inputs i x)
      refine ⟨r, ?_⟩
      simp only [List.cons_append, FuzzyController.fuzzifyLoop, if_pos h]
      exact hr
    · exact ⟨inputs, by simp only [List.cons_append, FuzzyController.fuzzifyLoop, if_neg h]⟩

theorem FuzzyController.fuzzify_returns (c : FuzzyController) (x : ℚ) (xs : List ℚ) :
    ∃ c1, c.fuzzify x (xs ++ [numericLimitsMax]) = .ok c1 := by
  obtain ⟨r, hr⟩ := FuzzyController.fuzzifyLoop_returns xs x kMinValidFuzzificationIndex
    c.inputMembershipFunctions
  exact ⟨{ c with inputMembershipFunctions := r },
    by simp only [FuzzyController.fuzzify, hr]⟩

theorem FuzzyController.defuzzifyCentroid_next (c1 c : FuzzyController) (hv : c.Valid)
    (hne : ∀ r ∈ c.rules, r.antecedents ≠ [])
    (hin : c.inputMembershipFunctions = c1.inputMembershipFunctions)
    (hout : Registry.shape c.outputMembershipFunctions =
      Registry.shape c1.outputMembershipFunctions)
    (hr : c.rules.map Rule.shape = c1.rules.map Rule.shape)
    (hc : c.rulesCount = c1.rulesCount)
    (g : Nat) (a b : ℚ) (hab : a < b) (steps : ℕ) (hsteps : 0 < steps) (fuel : Nat)
    (hfuel : steps + 2 ≤ fuel) :
    ∃ c2, c.defuzzifyCentroid fuel g a b steps =
        .ok (specNumerator c1 g a b steps /
              (if specDenominator c1 g a b steps = 0 then 1
               else specDenominator c1 g a b steps), c2) ∧
      c2.Valid ∧ (∀ r ∈ c2.rules, r.antecedents ≠ []) ∧
      c2.inputMembershipFunctions = c1.inputMembershipFunctions ∧
      Registry.shape c2.outputMembershipFunctions =
        Registry.shape c1.outputMembershipFunctions ∧
      c2.rules.map Rule.shape = c1.rules.map Rule.shape ∧ c2.rulesCount = c1.rulesCount := by
  obtain ⟨o1, h1, _⟩ :=
    FuzzyController.defuzzifyCentroid_closed c hv hne g a b hab steps hsteps fuel hfuel
  obtain ⟨fi, fo, fr, fc⟩ :=
    FuzzyController.defuzzifyCentroid_sameConfiguration c _ fuel g a b steps _ h1
  have hs1 : FuzzyController.SameConfiguration
      { c with
        rules := c.rules.map fun r =>
          { r with firingStrength := specFiringStrength c.inputMembershipFunctions r },
        outputMembershipFunctions := o1 } c := ⟨by rw [fi], fo, fr, fc⟩
  rw [specNumerator_congr c c1 hin hout hr, specDenominator_congr c c1 hin hout hr] at h1
  exact ⟨_, h1, FuzzyController.SameConfiguration.valid hs1 hv,
    FuzzyController.SameConfiguration.antecedents_ne hs1 hne, fi.trans hin, fo.trans hout,
    fr.trans hr, fc.trans hc⟩

theorem centroid_eq_zero_of_no_consequent (c : FuzzyController) (g : Nat) (a b : ℚ)
    (steps : ℕ)
    (h : ∀ r ∈ c.rules, ∀ m ∈ r.consequentFunctions c.outputMembershipFunctions,
      toUnsigned m.fuzzificationIndex ≠ g) :
    specNumerator c g a b steps /
      (if specDenominator c g a b steps = 0 then 1 else specDenominator c g a b steps) = 0 := by
  have hagg : ∀ p, specAggregated c g p = 0 := fun p =>
    specAggregated_eq_zero c g p fun r hr => specOutputStrength_no_match _ _ g p (h r hr)
  have hD := specDenominator_eq_zero_of_agg c g a b steps hagg
  rw [specNumerator_eq_zero c g a b steps hD, zero_div]

end fuzzy

namespace FuzzyHetroMatcher

open fuzzy

/-! ## The hetero-matcher controller -/

theorem hetro_construct_eq : construct = .ok constructed := rfl

theorem hetro_constructed_valid : constructed.Valid := by decide

theorem hetro_constructed_antecedents_ne : ∀ r ∈ constructed.rules, r.antecedents ≠ [] := by
  decide

theorem hetro_no_half_speed_kick_consequent :
    ∀ r ∈ constructed.rules, ∀ m ∈ r.consequentFunctions constructed.outputMembershipFunctions,
      m.fuzzificationIndex ≠ kHalfSpeedOutputIndex ∧
      m.fuzzificationIndex ≠ kHalfKickOutputIndex := by
  decide

theorem assignCell_eq (result : List (List ℚ)) (i j : Nat) (v : ℚ) (row : List ℚ)
    (hrow : result[i]? = some row) (hj : j < row.length) :
    assignCell result i j v = .ok (result.set i (row.set j v)) := by
  unfold assignCell
  rw [hrow]
  simp only [if_pos hj]

theorem toUnsigned_natCast (n : Nat) (h : n < 4294967296) : toUnsigned (n : Int) = n := by
  unfold toUnsigned
  omega

theorem columnLoop_succ (fuel : Nat) (d : ℚ) (i n j : Nat) (outputIndex : Int)
    (result result1 : List (List ℚ)) (c c1 : FuzzyController) (v : ℚ)
    (h : c.defuzzifyCentroid fuel (toUnsigned outputIndex) kMinWeight kMaxWeight d = .ok (v, c1))
    (ha : assignCell result i j v = .ok result1) :
    columnLoop fuel d i (n + 1) j outputIndex result c =
      columnLoop fuel d i n (j + 1) (outputIndex + 1) result1 c1 := by
  simp only [columnLoop, h, ha]

theorem rowLoop_succ (fuel : Nat) (d : ℚ) (n i : Nat) (outputIndex outputIndex1 : Int)
    (result result1 : List (List ℚ)) (c c1 : FuzzyController)
    (h : columnLoop fuel d i 3 0 outputIndex result c = .ok (outputIndex1, result1, c1)) :
    rowLoop fuel d (n + 1) i outputIndex result c =
      rowLoop fuel d n (i + 1) outputIndex1 result1 c1 := by
  simp only [rowLoop, h]

theorem columnLoop_three (P : FuzzyController → Prop) (V : Nat → ℚ) (fuel : Nat) (d : ℚ)
    (hstep : ∀ c g, P c → ∃ c1,
      c.defuzzifyCentroid fuel g kMinWeight kMaxWeight d = .ok (V g, c1) ∧ P c1)
    (i : Nat) (g : Nat) (hg : g + 2 < 4294967296) (result : List (List ℚ))
    (c : FuzzyController) (hP : P c)
    (a0 a1 a2 a3 : ℚ) (hrow : result[i]? = some [a0, a1, a2, a3]) :
    ∃ c1, columnLoop fuel d i 3 0 (g : Int) result c =
        .ok (((g + 3 : Nat) : Int), result.set i [V g, V (g + 1), V (g + 2), a3], c1) ∧
      P c1 := by
  have hi : i < result.length := by
    rcases List.getElem?_eq_some_iff.mp hrow with ⟨h, _⟩
    exact h
  have u0 : toUnsigned (g : Int) = g := toUnsigned_natCast g (by omega)
  have u1 : toUnsigned ((g : Int) + 1) = g + 1 := by
    have := toUnsigned_natCast (g + 1) (by omega)
    rwa [Nat.cast_add, Nat.cast_one] at this
  have u2 : toUnsigned ((g : Int) + 1 + 1) = g + 2 := by
    have := toUnsigned_natCast (g + 2) (by omega)
    have e : ((g + 2 : Nat) : Int) = (g : Int) + 1 + 1 := by push_cast; ring
    rw [e] at this
    exact this
  obtain ⟨c1, h1, hP1⟩ := hstep c g hP
  obtain ⟨c2, h2, hP2⟩ := hstep c1 (g + 1) hP1
  obtain ⟨c3, h3, hP3⟩ := hstep c2 (g + 2) hP2
  have h1a : c.defuzzifyCentroid fuel (toUnsigned (g : Int)) kMinWeight kMaxWeight d =
      .ok (V g, c1) := by rw [u0]; exact h1
  have h2a : c1.defuzzifyCentroid fuel (toUnsigned ((g : Int) + 1)) kMinWeight kMaxWeight d =
      .ok (V (g + 1), c2) := by rw [u1]; exact h2
  have h3a : c2.defuzzifyCentroid fuel (toUnsigned ((g : Int) + 1 + 1)) kMinWeight kMaxWeight
      d = .ok (V (g + 2), c3) := by rw [u2]; exact h3
  refine ⟨c3, ?_, hP3⟩
  have e1 : assignCell result i 0 (V g) = .ok (result.set i [V g, a1, a2, a3]) :=
    assignCell_eq result i 0 (V g) _ hrow (by simp)
  have hrow1 : (result.set i [V g, a1, a2, a3])[i]? = some [V g, a1, a2, a3] :=
    List.getElem?_set_self hi
  have e2 : assignCell (result.set i [V g, a1, a2, a3]) i (0 + 1) (V (g + 1)) =
      .ok (result.set i [V g, V (g + 1), a2, a3]) := by
    have := assignCell_eq _ i 1 (V (g + 1)) _ hrow1 (by simp)
    rw [List.set_set] at this
    exact this
  have hrow2 : (result.set i [V g, V (g + 1), a2, a3])[i]? = some [V g, V (g + 1), a2, a3] :=
    List.getElem?_set_self hi
  have e3 : assignCell (result.set i [V g, V (g + 1), a2, a3]) i (0 + 1 + 1) (V (g + 2)) =
      .ok (result.set i [V g, V (g + 1), V (g + 2), a3]) := by
    have := assignCell_eq _ i 2 (V (g + 2)) _ hrow2 (by simp)
    rw [List.set_set] at this
    exact this
  have e : ((g + 3 : Nat) : Int) = (g : Int) + 1 + 1 + 1 := by push_cast; ring
  rw [e]
  exact (columnLoop_succ fuel d i 2 0 g _ _ c c1 (V g) h1a e1).trans
    ((columnLoop_succ fuel d i 1 (0 + 1) _ _ _ c1 c2 (V (g + 1)) h2a e2).trans
      ((columnLoop_succ fuel d i 0 (0 + 1 + 1) _ _ _ c2 c3 (V (g + 2)) h3a e3).trans rfl))

theorem rowLoop_five (P : FuzzyController → Prop) (V : Nat → ℚ) (fuel : Nat) (d : ℚ)
    (hstep : ∀ c g, P c → ∃ c1,
      c.defuzzifyCentroid fuel g kMinWeight kMaxWeight d = .ok (V g, c1) ∧ P c1)
    (c : FuzzyController) (hP : P c) :
    ∃ c1, rowLoop fuel d 5 0 1 (List.replicate 5 (List.replicate 4 0)) c =
        .ok (16, [[V 1, V 2, V 3, 0], [V 4, V 5, V 6, 0], [V 7, V 8, V 9, 0],
          [V 10, V 11, V 12, 0], [V 13, V 14, V 15, 0]], c1) ∧ P c1 := by
  obtain ⟨c1, h1, hP1⟩ := columnLoop_three P V fuel d hstep 0 1 (by decide)
    [[0, 0, 0, 0], [0, 0, 0, 0], [0, 0, 0, 0], [0, 0, 0, 0], [0, 0, 0, 0]] c hP 0 0 0 0 rfl
  obtain ⟨c2, h2, hP2⟩ := columnLoop_three P V fuel d hstep 1 4 (by decide)
    [[V 1, V 2, V 3, 0], [0, 0, 0, 0], [0, 0, 0, 0], [0, 0, 0, 0], [0, 0, 0, 0]] c1 hP1
    0 0 0 0 rfl
  obtain ⟨c3, h3, hP3⟩ := columnLoop_three P V fuel d hstep 2 7 (by decide)
    [[V 1, V 2, V 3, 0], [V 4, V 5, V 6, 0], [0, 0, 0, 0], [0, 0, 0, 0], [0, 0, 0, 0]] c2 hP2
    0 0 0 0 rfl
  obtain ⟨c4, h4, hP4⟩ := columnLoop_three P V fuel d hstep 3 10 (by decide)
    [[V 1, V 2, V 3, 0], [V 4, V 5, V 6, 0], [V 7, V 8, V 9, 0], [0, 0, 0, 0], [0, 0, 0, 0]]
    c3 hP3 0 0 0 0 rfl
  obtain ⟨c5, h5, hP5⟩ := columnLoop_three P V fuel d hstep 4 13 (by decide)
    [[V 1, V 2, V 3, 0], [V 4, V 5, V 6, 0], [V 7, V 8, V 9, 0], [V 10, V 11, V 12, 0],
      [0, 0, 0, 0]] c4 hP4 0 0 0 0 rfl
  refine ⟨c5, ?_, hP5⟩
  have k1 : columnLoop fuel d 0 3 0 1
      [[0, 0, 0, 0], [0, 0, 0, 0], [0, 0, 0, 0], [0, 0, 0, 0], [0, 0, 0, 0]] c =
      .ok (4, [[V 1, V 2, V 3, 0], [0, 0, 0, 0], [0, 0, 0, 0], [0, 0, 0, 0], [0, 0, 0, 0]],
        c1) := h1
  have k2 : columnLoop fuel d 1 3 0 4
      [[V 1, V 2, V 3, 0], [0, 0, 0, 0], [0, 0, 0, 0], [0, 0, 0, 0], [0, 0, 0, 0]] c1 =
      .ok (7, [[V 1, V 2, V 3, 0], [V 4, V 5, V 6, 0], [0, 0, 0, 0], [0, 0, 0, 0],
        [0, 0, 0, 0]], c2) := h2
  have k3 : columnLoop fuel d 2 3 0 7
      [[V 1, V 2, V 3, 0], [V 4, V 5, V 6, 0], [0, 0, 0, 0], [0, 0, 0, 0], [0, 0, 0, 0]] c2 =
      .ok (10, [[V 1, V 2, V 3, 0], [V 4, V 5, V 6, 0], [V 7, V 8, V 9, 0], [0, 0, 0, 0],
        [0, 0, 0, 0]], c3) := h3
  have k4 : columnLoop fuel d 3 3 0 10
      [[V 1, V 2, V 3, 0], [V 4, V 5, V 6, 0], [V 7, V 8, V 9, 0], [0, 0, 0, 0],
        [0, 0, 0, 0]] c3 =
      .ok (13, [[V 1, V 2, V 3, 0], [V 4, V 5, V 6, 0], [V 7, V 8, V 9, 0],
        [V 10, V 11, V 12, 0], [0, 0, 0, 0]], c4) := h4
  have k5 : columnLoop fuel d 4 3 0 13
      [[V 1, V 2, V 3, 0], [V 4, V 5, V 6, 0], [V 7, V 8, V 9, 0], [V 10, V 11, V 12, 0],
        [0, 0, 0, 0]] c4 =
      .ok (16, [[V 1, V 2, V 3, 0], [V 4, V 5, V 6, 0], [V 7, V 8, V 9, 0],
        [V 10, V 11, V 12, 0], [V 13, V 14, V 15, 0]], c5) := h5
  exact (rowLoop_succ fuel d 4 0 1 _ _ _ c c1 k1).trans
    ((rowLoop_succ fuel d 3 1 _ _ _ _ c1 c2 k2).trans
      ((rowLoop_succ fuel d 2 2 _ _ _ _ c2 c3 k3).trans
        ((rowLoop_succ fuel d 1 3 _ _ _ _ c3 c4 k4).trans
          ((rowLoop_succ fuel d 0 4 _ _ _ _ c4 c5 k5).trans rfl))))

theorem hetro_no_group_seven_nine :
    ∀ r ∈ constructed.rules, ∀ m ∈ r.consequentFunctions constructed.outputMembershipFunctions,
      toUnsigned m.fuzzificationIndex ≠ 7 ∧ toUnsigned m.fuzzificationIndex ≠ 9 := by
  decide

theorem hetro_instance (singleton : Option FuzzyController) (hS : StaticInvariant singleton) :
    ∃ c, Instance singleton = .ok c ∧ c.SameConfiguration constructed := by
  rcases hS with h | ⟨c, h, hc⟩
  · subst h
    exact ⟨constructed, rfl, rfl, rfl, rfl, rfl⟩
  · subst h
    exact ⟨c, rfl, hc⟩

/-- C37: for every state of the function-local static that the program can be in, every
combination of the six inputs (none is trimmed, and none is excluded) and every positive
integer `discretization`, `getHetroWeights` returns (fuel `discretization + 2` suffices
for each of its fifteen calls of `defuzzifyCentroid`) a matrix of 5 rows of 4 entries
each. The entries `result[kHalfIndex][kSpeedIndex]` and `result[kHalfIndex][kKickIndex]`
are exactly 0, no rule of the rule base having a consequent of output group 7
(`kHalfSpeedOutputIndex`) or 9 (`kHalfKickOutputIndex`), and the fourth entry of every
row is 0. The static is left configured as the constructor leaves it. -/
theorem getHetroWeights_half_speed_kick_zero (singleton : Option FuzzyController)
    (hS : StaticInvariant singleton)
    (aim centerDefense sideDefense centerAttack sideAttack throughPass : ℚ)
    (steps : ℕ) (hsteps : 0 < steps) (fuel : Nat) (hfuel : steps + 2 ≤ fuel) :
    ∃ result c2,
      getHetroWeights fuel singleton aim centerDefense sideDefense centerAttack sideAttack
        throughPass steps = .ok (result, some c2) ∧
      StaticInvariant (some c2) ∧
      result.length = 5 ∧ (∀ row ∈ result, row.length = 4 ∧ row[3]? = some 0) ∧
      (∃ row, result[kHalfIndex]? = some row ∧ row[kSpeedIndex]? = some 0 ∧
        row[kKickIndex]? = some 0) ∧
      (∀ r ∈ constructed.rules,
        ∀ m ∈ r.consequentFunctions constructed.outputMembershipFunctions,
          m.fuzzificationIndex ≠ kHalfSpeedOutputIndex ∧
          m.fuzzificationIndex ≠ kHalfKickOutputIndex) := by
  obtain ⟨c, hI, hc⟩ := hetro_instance singleton hS
  obtain ⟨c1, hf⟩ := FuzzyController.fuzzify_returns c aim
    [centerDefense, sideDefense, centerAttack, sideAttack, throughPass]
  have hf1 : c.fuzzify aim [centerDefense, sideDefense, centerAttack, sideAttack, throughPass,
      numericLimitsMax] = .ok c1 := hf
  obtain ⟨gi, go, gr, gc⟩ := FuzzyController.fuzzify_sameConfiguration c c1 aim _ hf1
  have hc1 : c1.SameConfiguration constructed :=
    ⟨gi.trans hc.1, by rw [go]; exact hc.2.1, by rw [gr]; exact hc.2.2.1, gc.trans hc.2.2.2⟩
  have hv1 : c1.Valid := FuzzyController.SameConfiguration.valid hc1 hetro_constructed_valid
  have hne1 := FuzzyController.SameConfiguration.antecedents_ne hc1
    hetro_constructed_antecedents_ne
  have hab : kMinWeight < kMaxWeight := by norm_num [kMinWeight, kMaxWeight]
  obtain ⟨V, hV⟩ : ∃ V : Nat → ℚ, V = fun g =>
      specNumerator c1 g kMinWeight kMaxWeight steps /
        (if specDenominator c1 g kMinWeight kMaxWeight steps = 0 then 1
         else specDenominator c1 g kMinWeight kMaxWeight steps) := ⟨_, rfl⟩
  obtain ⟨c2, hloop, hv2, hne2, hi2, ho2, hr2, hc2⟩ := rowLoop_five
    (fun d => d.Valid ∧ (∀ r ∈ d.rules, r.antecedents ≠ []) ∧
      d.inputMembershipFunctions = c1.inputMembershipFunctions ∧
      Registry.shape d.outputMembershipFunctions =
        Registry.shape c1.outputMembershipFunctions ∧
      d.rules.map Rule.shape = c1.rules.map Rule.shape ∧ d.rulesCount = c1.rulesCount)
    V fuel steps
    (fun d g hd => by
      rw [hV]
      exact FuzzyController.defuzzifyCentroid_next c1 d hd.1 hd.2.1 hd.2.2.1
        hd.2.2.2.1 hd.2.2.2.2.1 hd.2.2.2.2.2 g kMinWeight kMaxWeight hab steps hsteps fuel
        hfuel)
    c1 ⟨hv1, hne1, rfl, rfl, rfl, rfl⟩
  have hzero : ∀ g, g = 7 ∨ g = 9 → V g = 0 := by
    intro g hg
    rw [hV]
    show specNumerator c1 g kMinWeight kMaxWeight steps /
        (if specDenominator c1 g kMinWeight kMaxWeight steps = 0 then 1
         else specDenominator c1 g kMinWeight kMaxWeight steps) = 0
    rw [specNumerator_congr c1 { constructed with
          inputMembershipFunctions := c1.inputMembershipFunctions } rfl hc1.2.1 hc1.2.2.1,
      specDenominator_congr c1 { constructed with
          inputMembershipFunctions := c1.inputMembershipFunctions } rfl hc1.2.1 hc1.2.2.1]
    apply centroid_eq_zero_of_no_consequent
    intro r hr m hm
    have h := hetro_no_group_seven_nine r hr m hm
    rcases hg with h7 | h9
    · rw [h7]; exact h.1
    · rw [h9]; exact h.2
  refine ⟨[[V 1, V 2, V 3, 0], [V 4, V 5, V 6, 0], [V 7, V 8, V 9, 0],
      [V 10, V 11, V 12, 0], [V 13, V 14, V 15, 0]], c2, ?_, Or.inr ⟨c2, rfl, ?_⟩, rfl, ?_, ?_,
    hetro_no_half_speed_kick_consequent⟩
  · unfold getHetroWeights
    rw [hI]
    simp only [hf1, hloop]
  · exact ⟨by rw [hi2]; exact hc1.1, ho2.trans hc1.2.1, hr2.trans hc1.2.2.1,
      hc2.trans hc1.2.2.2⟩
  · intro row hrow
    simp only [List.mem_cons, List.mem_singleton, List.not_mem_nil, or_false] at hrow
    rcases hrow with h | h | h | h | h <;> subst h <;> exact ⟨rfl, rfl⟩
  · refine ⟨[V 7, V 8, V 9, 0], rfl, ?_, ?_⟩
    · show some (V 7) = some 0
      rw [hzero 7 (Or.inl rfl)]
    · show some (V 9) = some 0
      rw [hzero 9 (Or.inr rfl)]

/-- Witness for C37: the first call, with the inputs 1, 2, 3, 4, 5, 6, the default
discretization 8 and fuel 10 for each call of `defuzzifyCentroid`. -/
theorem getHetroWeights_half_speed_kick_zero_witness :
    ∃ result c2,
      getHetroWeights 10 none 1 2 3 4 5 6 ((8 : ℕ) : ℚ) = .ok (result, some c2) ∧
      result.length = 5 ∧
      (∃ row, result[kHalfIndex]? = some row ∧ row[kSpeedIndex]? = some 0 ∧
        row[kKickIndex]? = some 0) := by
  obtain ⟨result, c2, h1, -, h2, -, h3, -⟩ :=
    getHetroWeights_half_speed_kick_zero none (Or.inl rfl) 1 2 3 4 5 6 8 (by decide) 10
      (by decide)
  exact ⟨result, c2, h1, h2, h3⟩

end FuzzyHetroMatcher

namespace fuzzy

/-! ## A positive aggregated strength -/

theorem le_foldl_max_of_mem (l : List ℚ) : ∀ (x a : ℚ), a ∈ l → a ≤ l.foldl max x := by
  induction l with
  | nil => intro x a ha; simp at ha
  | cons b l ih =>
    intro x a ha
    rw [List.foldl_cons]
    rcases List.mem_cons.mp ha with h | h
    · rw [h]
      exact le_trans (le_max_right x b) (foldl_max_ge l (max x b))
    · exact ih (max x b) a h

theorem specAggregated_ge_of_mem (c : FuzzyController) (g : Nat) (p : ℚ) (r : Rule)
    (hr : r ∈ c.rules) :
    specOutputStrength (specFiringStrength c.inputMembershipFunctions r)
      (r.consequentFunctions c.outputMembershipFunctions) g p ≤ specAggregated c g p := by
  unfold specAggregated
  apply le_foldl_max_of_mem
  exact List.mem_map.mpr ⟨r, hr, rfl⟩

theorem specDenominator_ge_first (c : FuzzyController) (g : Nat) (a b : ℚ) (steps : ℕ) :
    specAggregated c g a ≤ specDenominator c g a b steps := by
  unfold specDenominator
  have h := Finset.single_le_sum
    (f := fun k => specAggregated c g (specSample a b steps k))
    (fun k _ => specAggregated_nonneg c g _)
    (Finset.mem_range.mpr (Nat.succ_pos steps))
  have h0 : specSample a b steps 0 = a := by
    unfold specSample
    simp
  simp only [h0] at h
  exact h

theorem specCentroid_mem (c : FuzzyController) (g : Nat) (outMin outMax : ℚ)
    (hlt : outMin < outMax) (steps : ℕ) (hsteps : 0 < steps)
    (hD : 0 < specDenominator c g outMin outMax steps) :
    outMin ≤ specNumerator c g outMin outMax steps / specDenominator c g outMin outMax steps ∧
    specNumerator c g outMin outMax steps / specDenominator c g outMin outMax steps ≤
      outMax := by
  have hlo : outMin * specDenominator c g outMin outMax steps ≤
      specNumerator c g outMin outMax steps := by
    unfold specDenominator specNumerator
    rw [Finset.mul_sum]
    apply Finset.sum_le_sum
    intro k hk
    have hk2 : k ≤ steps := by
      have := Finset.mem_range.mp hk
      omega
    exact mul_le_mul_of_nonneg_right (specSample_mem outMin outMax hlt steps k hsteps hk2).1
      (specAggregated_nonneg c g _)
  have hhi : specNumerator c g outMin outMax steps ≤
      outMax * specDenominator c g outMin outMax steps := by
    unfold specDenominator specNumerator
    rw [Finset.mul_sum]
    apply Finset.sum_le_sum
    intro k hk
    have hk2 : k ≤ steps := by
      have := Finset.mem_range.mp hk
      omega
    exact mul_le_mul_of_nonneg_right (specSample_mem outMin outMax hlt steps k hsteps hk2).2
      (specAggregated_nonneg c g _)
  exact ⟨(le_div_iff₀ hD).mpr hlo, (div_le_iff₀ hD).mpr hhi⟩

end fuzzy

namespace FuzzyOffensivePosEval

open fuzzy

/-! ## The offensive-position controller -/

theorem posEval_construct_eq : construct = .ok constructed := rfl

theorem posEval_constructed_valid : constructed.Valid := by decide

theorem posEval_constructed_antecedents_ne :
    ∀ r ∈ constructed.rules, r.antecedents ≠ [] := by decide

theorem posEval_instance (singleton : Option FuzzyController)
    (hS : StaticInvariant singleton) :
    ∃ c, Instance singleton = .ok c ∧ c.SameConfiguration constructed := by
  rcases hS with h | ⟨c, h, hc⟩
  · subst h
    exact ⟨constructed, rfl, rfl, rfl, rfl, rfl⟩
  · subst h
    exact ⟨c, rfl, hc⟩

theorem trimmedDist_bounds (dist maxDist : ℚ) (h : 2 ≤ maxDist) :
    1 ≤ trimmedDist dist maxDist ∧ trimmedDist dist maxDist ≤ maxDist - 1 := by
  unfold trimmedDist kMinDist
  rw [trimNumeric_eq]
  dsimp only
  split_ifs with h1 h2
  · constructor <;> linarith
  · constructor <;> linarith
  · constructor <;> linarith

theorem trimmedDist_ne_max (dist maxDist : ℚ) (h : 2 ≤ maxDist) (hm : maxDist ≤ 100) :
    trimmedDist dist maxDist ≠ numericLimitsMax := by
  have hb := (trimmedDist_bounds dist maxDist h).2
  have hbig := ActGen_DirectPassSpeed.numericLimitsMax_big
  intro he
  rw [he] at hb
  have : (10 : ℚ) ^ 300 < 100 := by linarith
  norm_num at this

theorem posEval_fuzzify (c : FuzzyController) (h : c.SameConfiguration constructed)
    (b o l p g : ℚ) (hs : ∀ y ∈ [b, o, l, p, g], y ≠ numericLimitsMax) :
    c.fuzzify b [o, l, p, g, numericLimitsMax] =
      .ok { c with inputMembershipFunctions :=
              (fuzzifiedAt b o l p g).inputMembershipFunctions } := by
  have hloop := FuzzyController.fuzzifyLoop_eq [o, l, p, g] b kMinValidFuzzificationIndex
    c.inputMembershipFunctions hs (by simp [kMinValidFuzzificationIndex, intMax])
  have hrange0 : ∀ node ∈ Registry.shape c.inputMembershipFunctions,
      kMinValidFuzzificationIndex ≤ node.2.fuzzificationIndex ∧
        node.2.fuzzificationIndex < kMinValidFuzzificationIndex + ((5 : ℕ) : Int) := by
    rw [h.1]
    decide
  have hrange : ∀ node ∈ Registry.shape c.inputMembershipFunctions,
      kMinValidFuzzificationIndex ≤ node.2.fuzzificationIndex ∧
        node.2.fuzzificationIndex <
          kMinValidFuzzificationIndex + ([b, o, l, p, g] : List ℚ).length := by
    simpa using hrange0
  have hshape := Registry.map_specFuzzifiedNode_shape kMinValidFuzzificationIndex
    [b, o, l, p, g] c.inputMembershipFunctions hrange
  rw [h.1] at hshape
  have hloop1 : FuzzyController.fuzzifyLoop [o, l, p, g, numericLimitsMax] b
      kMinValidFuzzificationIndex c.inputMembershipFunctions = _ := hloop
  unfold FuzzyController.fuzzify
  rw [hloop1, hshape]
  rfl

theorem posEval_first_rule_fires (b o l p g : ℚ) (hb1 : 1 ≤ b) (hb2 : b ≤ 14) :
    0 < specAggregated (fuzzifiedAt b o l p g) 1 kMinEval := by
  have hmem : Rule.new ["distBallPosLow"] ["evalLow"] ∈ (fuzzifiedAt b o l p g).rules := by
    simp [fuzzifiedAt, constructed]
  have hge := specAggregated_ge_of_mem (fuzzifiedAt b o l p g) 1 kMinEval _ hmem
  have hfs : specFiringStrength (fuzzifiedAt b o l p g).inputMembershipFunctions
      (Rule.new ["distBallPosLow"] ["evalLow"]) = (15 - b) / 15 := by
    simp only [specFiringStrength, Rule.antecedentDegrees, Rule.new, fuzzifiedAt,
      List.filterMap_cons, List.filterMap_nil, Registry.find, if_true, Option.map_some',
      specMinimum, List.foldl_nil]
    unfold specDegree MembershipFunction.new
    dsimp only
    rw [if_neg (by intro h; rcases h with h | h <;> linarith),
      if_neg (by intro h; linarith [h.2]), if_neg (by linarith)]
    norm_num
  have hos : specOutputStrength ((15 - b) / 15)
      ((Rule.new ["distBallPosLow"] ["evalLow"]).consequentFunctions
        (fuzzifiedAt b o l p g).outputMembershipFunctions) 1 kMinEval = (15 - b) / 15 := by
    have hcf : (Rule.new ["distBallPosLow"] ["evalLow"]).consequentFunctions
        (fuzzifiedAt b o l p g).outputMembershipFunctions =
        [MembershipFunction.new 0 0 0 20 1] := by
      simp [Rule.consequentFunctions, Rule.new, fuzzifiedAt, constructed, Registry.find]
    have hd : specDegree (MembershipFunction.new 0 0 0 20 1) kMinEval = 1 := by
      unfold kMinEval specDegree MembershipFunction.new
      norm_num
    have hu : toUnsigned (MembershipFunction.new 0 0 0 20 1).fuzzificationIndex = 1 := by
      decide
    rw [hcf]
    simp only [specOutputStrength, List.find?_cons, hu, decide_True, hd]
    apply min_eq_left
    rw [div_le_one (by norm_num)]
    linarith
  rw [hfs, hos] at hge
  have hpos : (0 : ℚ) < (15 - b) / 15 := div_pos (by linarith) (by norm_num)
  linarith

theorem getOffensivePosEval_eq (fuel : Nat) (singleton : Option FuzzyController)
    (distBallPos distOppPos distBallLineOpp distCurrPos distOppGoalPos discretization : ℚ) :
    getOffensivePosEval fuel singleton distBallPos distOppPos distBallLineOpp distCurrPos
        distOppGoalPos discretization =
      match Instance singleton with
      | .error e => .error e
      | .ok c =>
        match c.fuzzify (trimmedDist distBallPos kMaxDistBallPos)
            [trimmedDist distOppPos kMaxDistOppPos,
              trimmedDist distBallLineOpp kMaxDistBallLineOpp,
              trimmedDist distCurrPos kMaxDistCurrPos,
              trimmedDist distOppGoalPos kMaxDistOppGoalPos, numericLimitsMax] with
        | .error e => .error e
        | .ok c1 =>
          match c1.defuzzifyCentroid fuel (toUnsigned kEvalOutputIndex) kMinEval kMaxEval
              discretization with
          | .error e => .error e
          | .ok (eval, c2) => .ok (eval, some c2) := rfl

/-- C38: for every state of the function-local static that the program can be in, all
values of the five distance inputs and every positive integer `discretization`,
`getOffensivePosEval` returns (fuel `discretization + 2` suffices) and does not take the
zero fallback: with the inputs trimmed, the total aggregated strength of the fuzzified
controller is strictly positive, the returned evaluation is the quotient of the two sums
and lies in `[kMinEval, kMaxEval] = [0, 20]`. It is therefore greater than -10, the
initial value of `bestPosEval` in `getFuzzyAttackPosition`, whose test
`currPosEval > bestPosEval` then succeeds. -/
theorem getOffensivePosEval_never_zero_fallback (singleton : Option FuzzyController)
    (hS : StaticInvariant singleton)
    (distBallPos distOppPos distBallLineOpp distCurrPos distOppGoalPos : ℚ)
    (steps : ℕ) (hsteps : 0 < steps) (fuel : Nat) (hfuel : steps + 2 ≤ fuel) :
    ∃ eval c2,
      getOffensivePosEval fuel singleton distBallPos distOppPos distBallLineOpp distCurrPos
        distOppGoalPos steps = .ok (eval, some c2) ∧
      StaticInvariant (some c2) ∧
      0 < specDenominator
        (fuzzifiedAt (trimmedDist distBallPos kMaxDistBallPos)
          (trimmedDist distOppPos kMaxDistOppPos)
          (trimmedDist distBallLineOpp kMaxDistBallLineOpp)
          (trimmedDist distCurrPos kMaxDistCurrPos)
          (trimmedDist distOppGoalPos kMaxDistOppGoalPos)) 1 kMinEval kMaxEval steps ∧
      eval = specNumerator
          (fuzzifiedAt (trimmedDist distBallPos kMaxDistBallPos)
            (trimmedDist distOppPos kMaxDistOppPos)
            (trimmedDist distBallLineOpp kMaxDistBallLineOpp)
            (trimmedDist distCurrPos kMaxDistCurrPos)
            (trimmedDist distOppGoalPos kMaxDistOppGoalPos)) 1 kMinEval kMaxEval steps /
        specDenominator
          (fuzzifiedAt (trimmedDist distBallPos kMaxDistBallPos)
            (trimmedDist distOppPos kMaxDistOppPos)
            (trimmedDist distBallLineOpp kMaxDistBallLineOpp)
            (trimmedDist distCurrPos kMaxDistCurrPos)
            (trimmedDist distOppGoalPos kMaxDistOppGoalPos)) 1 kMinEval kMaxEval steps ∧
      kMinEval ≤ eval ∧ eval ≤ kMaxEval ∧ kMinEval = 0 ∧ kMaxEval = 20 ∧
      Bhv_BasicMove.initialBestPosEval < eval ∧
      Bhv_BasicMove.updateBestPosEval Bhv_BasicMove.initialBestPosEval eval = eval := by
  obtain ⟨c, hI, hc⟩ := posEval_instance singleton hS
  obtain ⟨hb1, hb2⟩ := trimmedDist_bounds distBallPos kMaxDistBallPos
    (by norm_num [kMaxDistBallPos])
  have hn1 := trimmedDist_ne_max distBallPos kMaxDistBallPos (by norm_num [kMaxDistBallPos])
    (by norm_num [kMaxDistBallPos])
  have hn2 := trimmedDist_ne_max distOppPos kMaxDistOppPos (by norm_num [kMaxDistOppPos])
    (by norm_num [kMaxDistOppPos])
  have hn3 := trimmedDist_ne_max distBallLineOpp kMaxDistBallLineOpp
    (by norm_num [kMaxDistBallLineOpp]) (by norm_num [kMaxDistBallLineOpp])
  have hn4 := trimmedDist_ne_max distCurrPos kMaxDistCurrPos (by norm_num [kMaxDistCurrPos])
    (by norm_num [kMaxDistCurrPos])
  have hn5 := trimmedDist_ne_max distOppGoalPos kMaxDistOppGoalPos
    (by norm_num [kMaxDistOppGoalPos]) (by norm_num [kMaxDistOppGoalPos])
  obtain ⟨F, hF⟩ : ∃ F, F = fuzzifiedAt (trimmedDist distBallPos kMaxDistBallPos)
      (trimmedDist distOppPos kMaxDistOppPos)
      (trimmedDist distBallLineOpp kMaxDistBallLineOpp)
      (trimmedDist distCurrPos kMaxDistCurrPos)
      (trimmedDist distOppGoalPos kMaxDistOppGoalPos) := ⟨_, rfl⟩
  have hfz := posEval_fuzzify c hc (trimmedDist distBallPos kMaxDistBallPos)
    (trimmedDist distOppPos kMaxDistOppPos) (trimmedDist distBallLineOpp kMaxDistBallLineOpp)
    (trimmedDist distCurrPos kMaxDistCurrPos) (trimmedDist distOppGoalPos kMaxDistOppGoalPos)
    (by
      intro y hy
      simp only [List.mem_cons, List.mem_singleton, List.not_mem_nil, or_false] at hy
      rcases hy with h | h | h | h | h <;> rw [h] <;> assumption)
  rw [← hF] at hfz ⊢
  have hFc : F.SameConfiguration constructed := by
    rw [hF]
    exact ⟨rfl, rfl, rfl, rfl⟩
  have hab : kMinEval < kMaxEval := by norm_num [kMinEval, kMaxEval]
  have hc1 : FuzzyController.SameConfiguration
      { c with inputMembershipFunctions := F.inputMembershipFunctions } constructed :=
    ⟨hFc.1, hc.2.1, hc.2.2.1, hc.2.2.2⟩
  obtain ⟨c2, hd, -, -, hi2, ho2, hr2, hk2⟩ := FuzzyController.defuzzifyCentroid_next F
    { c with inputMembershipFunctions := F.inputMembershipFunctions }
    (FuzzyController.SameConfiguration.valid hc1 posEval_constructed_valid)
    (FuzzyController.SameConfiguration.antecedents_ne hc1 posEval_constructed_antecedents_ne)
    rfl (hc.2.1.trans hFc.2.1.symm) (hc.2.2.1.trans hFc.2.2.1.symm)
    (hc.2.2.2.trans hFc.2.2.2.symm) 1 kMinEval kMaxEval hab steps hsteps fuel hfuel
  have hagg : 0 < specAggregated F 1 kMinEval := by
    rw [hF]
    exact posEval_first_rule_fires _ _ _ _ _ hb1 (by
      have : kMaxDistBallPos - 1 = 14 := by norm_num [kMaxDistBallPos]
      linarith)
  have hD : 0 < specDenominator F 1 kMinEval kMaxEval steps :=
    lt_of_lt_of_le hagg (specDenominator_ge_first F 1 kMinEval kMaxEval steps)
  rw [if_neg hD.ne'] at hd
  obtain ⟨hlo, hhi⟩ := specCentroid_mem F 1 kMinEval kMaxEval hab steps hsteps hD
  have hmin : kMinEval = 0 := rfl
  have hinit : Bhv_BasicMove.initialBestPosEval <
      specNumerator F 1 kMinEval kMaxEval steps / specDenominator F 1 kMinEval kMaxEval
        steps := by
    unfold Bhv_BasicMove.initialBestPosEval
    have h0 : (0 : ℚ) ≤ kMinEval := le_of_eq hmin.symm
    linarith
  refine ⟨_, c2, ?_, Or.inr ⟨c2, rfl, ?_⟩, hD, rfl, hlo, hhi, rfl, rfl, hinit, ?_⟩
  · rw [getOffensivePosEval_eq, hI]
    have hu : toUnsigned kEvalOutputIndex = 1 := by decide
    simp only [← hF, hfz, hu, hd]
  · exact ⟨by rw [hi2]; exact hFc.1, ho2.trans hFc.2.1, hr2.trans hFc.2.2.1,
      hk2.trans hFc.2.2.2⟩
  · unfold Bhv_BasicMove.updateBestPosEval
    rw [if_pos hinit]

/-- Witness for C38: the first call, with the inputs 3, 2, 100, 5, 40 (two of them above
their ranges), the default discretization 8 and fuel 10. -/
theorem getOffensivePosEval_never_zero_fallback_witness :
    ∃ eval c2,
      getOffensivePosEval 10 none 3 2 100 5 40 ((8 : ℕ) : ℚ) = .ok (eval, some c2) ∧
      0 ≤ eval ∧ eval ≤ 20 ∧ Bhv_BasicMove.initialBestPosEval < eval := by
  obtain ⟨eval, c2, h1, -, -, -, h2, h3, h4, h5, h6, -⟩ :=
    getOffensivePosEval_never_zero_fallback none (Or.inl rfl) 3 2 100 5 40 8 (by decide) 10
      (by decide)
  rw [h4] at h2
  rw [h5] at h3
  exact ⟨eval, c2, h1, h2, h3, h6⟩

end FuzzyOffensivePosEval

namespace fuzzy

/-! ## The sampling loop with a rounded loop variable -/

theorem FuzzyController.sampleLoopRounded_eq (fl : ℚ → ℚ) (rules : List Rule) (g : Nat)
    (base : Registry) (b δ : ℚ)
    (hcount : ∀ r ∈ rules, r.consequentsCount = r.consequents.length)
    (hres : ∀ r ∈ rules, ∀ k ∈ r.consequents, (base.find k).isSome = true) :
    ∀ (xs : List ℚ) (i num den : ℚ) (outputs : Registry) (visited : List ℚ) (fuel : Nat),
      FuzzyController.VisitsFrom fl b δ i xs → xs.length + 1 ≤ fuel →
      Registry.shape outputs = Registry.shape base →
      ∃ outputs1,
        FuzzyController.sampleLoopRounded fl rules rules.length g b δ fuel i num den outputs
            visited =
          .ok (num + (xs.map fun x => x *
                  ((rules.map fun r => specOutputStrength r.firingStrength
                    (r.consequentFunctions base) g x).foldl max 0)).sum,
               den + (xs.map fun x =>
                  ((rules.map fun r => specOutputStrength r.firingStrength
                    (r.consequentFunctions base) g x).foldl max 0)).sum,
               outputs1, visited ++ xs) ∧
        Registry.shape outputs1 = Registry.shape base := by
  intro xs
  induction xs with
  | nil =>
    intro i num den outputs visited fuel hvis hfuel hs
    obtain ⟨f, rfl⟩ : ∃ f, fuel = f + 1 := ⟨fuel - 1, by
      simp only [List.length_nil] at hfuel; omega⟩
    have hguard : ¬ i ≤ b := hvis
    refine ⟨outputs, ?_, hs⟩
    simp [FuzzyController.sampleLoopRounded, hguard]
  | cons x xs ih =>
    intro i num den outputs visited fuel hvis hfuel hs
    obtain ⟨f, rfl⟩ : ∃ f, fuel = f + 1 := ⟨fuel - 1, by
      simp only [List.length_cons] at hfuel; omega⟩
    obtain ⟨hx, hguard, hrest⟩ := hvis
    subst hx
    obtain ⟨o1, h1, h2⟩ := FuzzyController.aggregateLoop_eq rules g x base hcount hres
      rules.length 0 0 outputs (by simp) hs
    obtain ⟨o2, h3, h4⟩ := ih (fl (x + δ))
      (num + x * ((rules.map fun r => specOutputStrength r.firingStrength
          (r.consequentFunctions base) g x).foldl max 0))
      (den + ((rules.map fun r => specOutputStrength r.firingStrength
          (r.consequentFunctions base) g x).foldl max 0))
      o1 (visited ++ [x]) f hrest (by simp only [List.length_cons] at hfuel; omega) h2
    refine ⟨o2, ?_, h4⟩
    rw [FuzzyController.sampleLoopRounded, if_pos hguard, h1]
    simp only [List.drop_zero]
    rw [h3]
    simp only [List.map_cons, List.sum_cons, List.append_assoc, List.singleton_append,
      add_assoc]

theorem FuzzyController.defuzzifyCentroidRounded_closed (fl : ℚ → ℚ) (c : FuzzyController)
    (hv : c.Valid) (hne : ∀ r ∈ c.rules, r.antecedents ≠ []) (g : Nat) (a b d : ℚ)
    (hd : d ≠ 0) (xs : List ℚ)
    (hvis : FuzzyController.VisitsFrom fl b (fl (fl (b - a) / d)) a xs) (fuel : Nat)
    (hfuel : xs.length + 1 ≤ fuel) :
    ∃ outputs1,
      c.defuzzifyCentroidRounded fl fuel g a b d =
        .ok ((xs.map fun x => x * specAggregated c g x).sum /
              (if (xs.map fun x => specAggregated c g x).sum = 0 then 1
               else (xs.map fun x => specAggregated c g x).sum),
             { c with
               rules := c.rules.map fun r =>
                 { r with firingStrength := specFiringStrength c.inputMembershipFunctions r },
               outputMembershipFunctions := outputs1 }, xs) ∧
      Registry.shape outputs1 = Registry.shape c.outputMembershipFunctions := by
  obtain ⟨hrc, hb⟩ := hv
  have hfire := FuzzyController.firingPhase_eq c.inputMembershipFunctions c.rules
    (fun r hr => (hb r hr).1) (fun r hr => (hb r hr).2.2.1) hne
  set rules1 := c.rules.map fun r =>
    { r with firingStrength := specFiringStrength c.inputMembershipFunctions r } with hrules1
  have hlen : rules1.length = c.rules.length := by simp [hrules1]
  have hcount1 : ∀ r ∈ rules1, r.consequentsCount = r.consequents.length := by
    intro r hr
    obtain ⟨r0, hr0, rfl⟩ := List.mem_map.mp hr
    exact (hb r0 hr0).2.1
  have hres1 : ∀ r ∈ rules1, ∀ k ∈ r.consequents,
      (c.outputMembershipFunctions.find k).isSome = true := by
    intro r hr
    obtain ⟨r0, hr0, rfl⟩ := List.mem_map.mp hr
    exact (hb r0 hr0).2.2.2
  obtain ⟨o1, h1, h2⟩ := FuzzyController.sampleLoopRounded_eq fl rules1 g
    c.outputMembershipFunctions b (fl (fl (b - a) / d)) hcount1 hres1 xs a 0 0
    c.outputMembershipFunctions [] fuel hvis hfuel rfl
  refine ⟨o1, ?_, h2⟩
  simp only [zero_add, hlen, List.nil_append] at h1
  unfold FuzzyController.defuzzifyCentroidRounded
  rw [hrc, hfire]
  simp only [hd, if_false]
  rw [h1]
  simp only [specAggregated, hrules1, List.map_map, Function.comp_def,
    Rule.consequentFunctions]

theorem FuzzyController.sampleLoopRounded_id (rules : List Rule) (rulesCount g : Nat)
    (b δ : ℚ) :
    ∀ (fuel : Nat) (i num den : ℚ) (outputs : Registry) (visited : List ℚ),
      FuzzyController.sampleLoopRounded id rules rulesCount g b δ fuel i num den outputs
          visited =
        FuzzyController.sampleLoopTraced rules rulesCount g b δ fuel i num den outputs
          visited := by
  intro fuel
  induction fuel with
  | zero => intro i num den outputs visited; rfl
  | succ fuel ih =>
    intro i num den outputs visited
    unfold FuzzyController.sampleLoopRounded FuzzyController.sampleLoopTraced
    by_cases hg : i ≤ b
    · simp only [hg, if_true]
      cases hagg : FuzzyController.aggregateLoop rules g i rulesCount 0 0 outputs with
      | error e => rfl
      | ok res =>
        obtain ⟨cur, o1⟩ := res
        simp only [id]
        exact ih _ _ _ _ _
    · simp only [hg, if_false]

theorem FuzzyController.defuzzifyCentroidRounded_id (fuel : Nat) (c : FuzzyController)
    (g : Nat) (a b d : ℚ) :
    c.defuzzifyCentroidRounded id fuel g a b d = c.defuzzifyCentroidTraced fuel g a b d := by
  unfold FuzzyController.defuzzifyCentroidRounded FuzzyController.defuzzifyCentroidTraced
  cases hf : FuzzyController.firingPhase c.inputMembershipFunctions c.rulesCount 0 c.rules with
  | error e => rfl
  | ok rules =>
    simp only [id]
    by_cases hd : d = 0
    · simp only [hd, if_true]
    · simp only [hd, if_false]
      rw [FuzzyController.sampleLoopRounded_id]

end fuzzy

namespace fuzzy

/-! ## Rounding to a `double` -/

theorem roundNearestEven_eq (q : ℚ) (n : Int) (h1 : (n : ℚ) - 1 / 2 < q)
    (h2 : q < (n : ℚ) + 1 / 2) : roundNearestEven q = n := by
  unfold roundNearestEven
  by_cases hf : (n : ℚ) ≤ q
  · have hfl : ⌊q⌋ = n := Int.floor_eq_iff.mpr ⟨hf, by linarith⟩
    rw [hfl, if_pos (by linarith)]
  · have hfl : ⌊q⌋ = n - 1 := Int.floor_eq_iff.mpr ⟨by push_cast; linarith, by
      push_cast; linarith⟩
    rw [hfl, if_neg (by push_cast; linarith), if_pos (by push_cast; linarith)]
    ring

theorem roundDouble_eq (x : ℚ) (e n : Int) (hx : 0 < x) (h1 : (2 : ℚ) ^ e ≤ x)
    (h2 : x < (2 : ℚ) ^ (e + 1)) (h3 : ((n : ℚ) - 1 / 2) * 2 ^ (e - 52) < x)
    (h4 : x < ((n : ℚ) + 1 / 2) * 2 ^ (e - 52)) :
    roundDouble x = n * 2 ^ (e - 52) := by
  have hlog : Int.log 2 |x| = e := by
    rw [abs_of_pos hx]
    apply le_antisymm
    · have := (Int.lt_zpow_iff_log_lt (R := ℚ) (b := 2) (by norm_num) hx).mp
        (by exact_mod_cast h2)
      omega
    · exact (Int.zpow_le_iff_le_log (R := ℚ) (b := 2) (by norm_num) hx).mp
        (by exact_mod_cast h1)
  have hu : (0 : ℚ) < 2 ^ (e - 52) := zpow_pos (by norm_num) _
  unfold roundDouble
  rw [if_neg hx.ne', hlog, roundNearestEven_eq _ n]
  · rw [lt_div_iff₀ hu]; exact h3
  · rw [div_lt_iff₀ hu]; exact h4

theorem roundNearestEven_tie (q : ℚ) (f : Int) (h : q = (f : ℚ) + 1 / 2) :
    roundNearestEven q = if f % 2 = 0 then f else f + 1 := by
  have hfl : ⌊q⌋ = f := Int.floor_eq_iff.mpr ⟨by rw [h]; linarith, by rw [h]; linarith⟩
  unfold roundNearestEven
  rw [hfl, if_neg (by rw [h]; norm_num), if_neg (by rw [h]; norm_num)]

theorem roundDouble_tie (x : ℚ) (e f : Int) (hx : 0 < x) (h1 : (2 : ℚ) ^ e ≤ x)
    (h2 : x < (2 : ℚ) ^ (e + 1)) (h3 : x = ((f : ℚ) + 1 / 2) * 2 ^ (e - 52)) :
    roundDouble x = ((if f % 2 = 0 then f else f + 1 : Int) : ℚ) * 2 ^ (e - 52) := by
  have hlog : Int.log 2 |x| = e := by
    rw [abs_of_pos hx]
    apply le_antisymm
    · have := (Int.lt_zpow_iff_log_lt (R := ℚ) (b := 2) (by norm_num) hx).mp
        (by exact_mod_cast h2)
      omega
    · exact (Int.zpow_le_iff_le_log (R := ℚ) (b := 2) (by norm_num) hx).mp
        (by exact_mod_cast h1)
  have hu : (0 : ℚ) < 2 ^ (e - 52) := zpow_pos (by norm_num) _
  unfold roundDouble
  rw [if_neg hx.ne', hlog, roundNearestEven_tie _ f]
  rw [h3]
  field_simp
  ring

theorem roundDouble_id_zero : roundDouble 0 = 0 := by
  unfold roundDouble
  rw [if_pos rfl]

theorem roundDouble_minSpeed :
    roundDouble (81 / 100) =
      1823957849085051 / 2 ^ 51 := by
  rw [roundDouble_eq
    (81 / 100)
    (-1) 7295831396340204 (by norm_num) (by norm_num) (by norm_num) (by norm_num) (by norm_num)]
  norm_num

theorem roundDouble_maxSpeed :
    roundDouble (331 / 100) =
      7453457383298171 / 2 ^ 51 := by
  rw [roundDouble_eq
    (331 / 100)
    1 7453457383298171 (by norm_num) (by norm_num) (by norm_num) (by norm_num) (by norm_num)]
  norm_num

theorem roundDouble_minDistance :
    roundDouble (1) =
      1 := by
  rw [roundDouble_eq
    (1)
    0 4503599627370496 (by norm_num) (by norm_num) (by norm_num) (by norm_num) (by norm_num)]
  norm_num

theorem roundDouble_maxDistance :
    roundDouble (21) =
      21 := by
  rw [roundDouble_eq
    (21)
    4 5910974510923776 (by norm_num) (by norm_num) (by norm_num) (by norm_num) (by norm_num)]
  norm_num

theorem roundDouble_speedRange :
    roundDouble (7453457383298171 / 2 ^ 51 - 1823957849085051 / 2 ^ 51) =
      5 / 2 := by
  rw [roundDouble_eq
    (7453457383298171 / 2 ^ 51 - 1823957849085051 / 2 ^ 51)
    1 5629499534213120 (by norm_num) (by norm_num) (by norm_num) (by norm_num) (by norm_num)]
  norm_num

theorem roundDouble_deltaThree :
    roundDouble (5 / 2 / 3) =
      7505999378950827 / 2 ^ 53 := by
  rw [roundDouble_eq
    (5 / 2 / 3)
    (-1) 7505999378950827 (by norm_num) (by norm_num) (by norm_num) (by norm_num) (by norm_num)]
  norm_num

theorem roundDouble_threeSteps_first :
    roundDouble (1823957849085051 / 2 ^ 51 + 7505999378950827 / 2 ^ 53) =
      1850228846911379 / 2 ^ 50 := by
  rw [roundDouble_tie
    (1823957849085051 / 2 ^ 51 + 7505999378950827 / 2 ^ 53)
    0 7400915387645515 (by norm_num) (by norm_num) (by norm_num) (by norm_num)]
  norm_num

theorem roundDouble_threeSteps_second :
    roundDouble (1850228846911379 / 2 ^ 50 + 7505999378950827 / 2 ^ 53) =
      5576957538560465 / 2 ^ 51 := by
  rw [roundDouble_eq
    (1850228846911379 / 2 ^ 50 + 7505999378950827 / 2 ^ 53)
    1 5576957538560465 (by norm_num) (by norm_num) (by norm_num) (by norm_num) (by norm_num)]
  norm_num

theorem roundDouble_threeSteps_third :
    roundDouble (5576957538560465 / 2 ^ 51 + 7505999378950827 / 2 ^ 53) =
      1863364345824543 / 2 ^ 49 := by
  rw [roundDouble_eq
    (5576957538560465 / 2 ^ 51 + 7505999378950827 / 2 ^ 53)
    1 7453457383298172 (by norm_num) (by norm_num) (by norm_num) (by norm_num) (by norm_num)]
  norm_num

theorem roundDouble_deltaEight :
    roundDouble (5 / 2 / 8) =
      5 / 16 := by
  rw [roundDouble_eq
    (5 / 2 / 8)
    (-2) 5629499534213120 (by norm_num) (by norm_num) (by norm_num) (by norm_num) (by norm_num)]
  norm_num

theorem roundDouble_eightSteps_first :
    roundDouble (1823957849085051 / 2 ^ 51 + 5 / 16) =
      2527645290861691 / 2 ^ 51 := by
  rw [roundDouble_eq
    (1823957849085051 / 2 ^ 51 + 5 / 16)
    0 5055290581723382 (by norm_num) (by norm_num) (by norm_num) (by norm_num) (by norm_num)]
  norm_num

theorem roundDouble_eightSteps_second :
    roundDouble (2527645290861691 / 2 ^ 51 + 5 / 16) =
      3231332732638331 / 2 ^ 51 := by
  rw [roundDouble_eq
    (2527645290861691 / 2 ^ 51 + 5 / 16)
    0 6462665465276662 (by norm_num) (by norm_num) (by norm_num) (by norm_num) (by norm_num)]
  norm_num

theorem roundDouble_eightSteps_third :
    roundDouble (3231332732638331 / 2 ^ 51 + 5 / 16) =
      3935020174414971 / 2 ^ 51 := by
  rw [roundDouble_eq
    (3231332732638331 / 2 ^ 51 + 5 / 16)
    0 7870040348829942 (by norm_num) (by norm_num) (by norm_num) (by norm_num) (by norm_num)]
  norm_num

theorem roundDouble_eightSteps_fourth :
    roundDouble (3935020174414971 / 2 ^ 51 + 5 / 16) =
      4638707616191611 / 2 ^ 51 := by
  rw [roundDouble_eq
    (3935020174414971 / 2 ^ 51 + 5 / 16)
    1 4638707616191611 (by norm_num) (by norm_num) (by norm_num) (by norm_num) (by norm_num)]
  norm_num

theorem roundDouble_eightSteps_fifth :
    roundDouble (4638707616191611 / 2 ^ 51 + 5 / 16) =
      5342395057968251 / 2 ^ 51 := by
  rw [roundDouble_eq
    (4638707616191611 / 2 ^ 51 + 5 / 16)
    1 5342395057968251 (by norm_num) (by norm_num) (by norm_num) (by norm_num) (by norm_num)]
  norm_num

theorem roundDouble_eightSteps_sixth :
    roundDouble (5342395057968251 / 2 ^ 51 + 5 / 16) =
      6046082499744891 / 2 ^ 51 := by
  rw [roundDouble_eq
    (5342395057968251 / 2 ^ 51 + 5 / 16)
    1 6046082499744891 (by norm_num) (by norm_num) (by norm_num) (by norm_num) (by norm_num)]
  norm_num

theorem roundDouble_eightSteps_seventh :
    roundDouble (6046082499744891 / 2 ^ 51 + 5 / 16) =
      6749769941521531 / 2 ^ 51 := by
  rw [roundDouble_eq
    (6046082499744891 / 2 ^ 51 + 5 / 16)
    1 6749769941521531 (by norm_num) (by norm_num) (by norm_num) (by norm_num) (by norm_num)]
  norm_num

theorem roundDouble_eightSteps_eighth :
    roundDouble (6749769941521531 / 2 ^ 51 + 5 / 16) =
      7453457383298171 / 2 ^ 51 := by
  rw [roundDouble_eq
    (6749769941521531 / 2 ^ 51 + 5 / 16)
    1 7453457383298171 (by norm_num) (by norm_num) (by norm_num) (by norm_num) (by norm_num)]
  norm_num

theorem roundDouble_eightSteps_ninth :
    roundDouble (7453457383298171 / 2 ^ 51 + 5 / 16) =
      8157144825074811 / 2 ^ 51 := by
  rw [roundDouble_eq
    (7453457383298171 / 2 ^ 51 + 5 / 16)
    1 8157144825074811 (by norm_num) (by norm_num) (by norm_num) (by norm_num) (by norm_num)]
  norm_num

end fuzzy

namespace ActGen_DirectPassSpeed

open fuzzy

/-! ## The pass-speed controller with `double` constants -/

theorem constructRounded_double :
    constructRounded roundDouble =
      .ok (LowHigh.state 1 21 (1823957849085051 / 2 ^ 51) (7453457383298171 / 2 ^ 51) 0 0) := by
  have h : constructRounded roundDouble =
      LowHigh.configure (roundDouble kMinDistance) (roundDouble kMaxDistance)
        (roundDouble kMinSpeed) (roundDouble kMaxSpeed) := rfl
  rw [h, LowHigh.configure_eq]
  unfold kMinDistance kMaxDistance kMinSpeed kMaxSpeed
  rw [roundDouble_minDistance, roundDouble_maxDistance, roundDouble_minSpeed,
    roundDouble_maxSpeed]

theorem visits_three_steps :
    FuzzyController.VisitsFrom roundDouble (7453457383298171 / 2 ^ 51)
      (roundDouble (roundDouble (7453457383298171 / 2 ^ 51 - 1823957849085051 / 2 ^ 51) / 3))
      (1823957849085051 / 2 ^ 51)
      [1823957849085051 / 2 ^ 51, 1850228846911379 / 2 ^ 50, 5576957538560465 / 2 ^ 51] := by
  rw [roundDouble_speedRange, roundDouble_deltaThree]
  refine ⟨rfl, by norm_num, ?_⟩
  rw [roundDouble_threeSteps_first]
  refine ⟨rfl, by norm_num, ?_⟩
  rw [roundDouble_threeSteps_second]
  refine ⟨rfl, by norm_num, ?_⟩
  rw [roundDouble_threeSteps_third]
  show ¬ _
  norm_num

theorem speed_degrees_three_steps :
    specDegree (MembershipFunction.new (1823957849085051 / 2 ^ 51) (1823957849085051 / 2 ^ 51)
        (1823957849085051 / 2 ^ 51) (7453457383298171 / 2 ^ 51) 1)
      (1823957849085051 / 2 ^ 51) = 1 ∧
    specDegree (MembershipFunction.new (1823957849085051 / 2 ^ 51) (7453457383298171 / 2 ^ 51)
        (7453457383298171 / 2 ^ 51) (7453457383298171 / 2 ^ 51) 1)
      (1823957849085051 / 2 ^ 51) = 0 ∧
    specDegree (MembershipFunction.new (1823957849085051 / 2 ^ 51) (1823957849085051 / 2 ^ 51)
        (1823957849085051 / 2 ^ 51) (7453457383298171 / 2 ^ 51) 1)
      (1850228846911379 / 2 ^ 50) = 3752999689475413 / 5629499534213120 ∧
    specDegree (MembershipFunction.new (1823957849085051 / 2 ^ 51) (7453457383298171 / 2 ^ 51)
        (7453457383298171 / 2 ^ 51) (7453457383298171 / 2 ^ 51) 1)
      (1850228846911379 / 2 ^ 50) = 1876499844737707 / 5629499534213120 ∧
    specDegree (MembershipFunction.new (1823957849085051 / 2 ^ 51) (1823957849085051 / 2 ^ 51)
        (1823957849085051 / 2 ^ 51) (7453457383298171 / 2 ^ 51) 1)
      (5576957538560465 / 2 ^ 51) = 938249922368853 / 2814749767106560 ∧
    specDegree (MembershipFunction.new (1823957849085051 / 2 ^ 51) (7453457383298171 / 2 ^ 51)
        (7453457383298171 / 2 ^ 51) (7453457383298171 / 2 ^ 51) 1)
      (5576957538560465 / 2 ^ 51) = 1876499844737707 / 2814749767106560 := by
  refine ⟨?_, ?_, ?_, ?_, ?_, ?_⟩ <;>
    norm_num [specDegree, MembershipFunction.new]

theorem defuzzify_three_steps (dl dh : ℚ) (fuel : Nat) (hfuel : 4 ≤ fuel) :
    ∃ c1,
      (LowHigh.state 1 21 (1823957849085051 / 2 ^ 51) (7453457383298171 / 2 ^ 51) dl
          dh).defuzzifyCentroidRounded roundDouble fuel 1 (1823957849085051 / 2 ^ 51)
          (7453457383298171 / 2 ^ 51) 3 =
        .ok ((1823957849085051 / 2 ^ 51 * max (max 0 (min dl 1)) (min dh 0) +
              (1850228846911379 / 2 ^ 50 *
                  max (max 0 (min dl (3752999689475413 / 5629499534213120)))
                    (min dh (1876499844737707 / 5629499534213120)) +
                (5576957538560465 / 2 ^ 51 *
                  max (max 0 (min dl (938249922368853 / 2814749767106560)))
                    (min dh (1876499844737707 / 2814749767106560)) + 0))) /
            (if max (max 0 (min dl 1)) (min dh 0) +
                (max (max 0 (min dl (3752999689475413 / 5629499534213120)))
                    (min dh (1876499844737707 / 5629499534213120)) +
                  (max (max 0 (min dl (938249922368853 / 2814749767106560)))
                    (min dh (1876499844737707 / 2814749767106560)) + 0)) = 0 then 1
             else max (max 0 (min dl 1)) (min dh 0) +
                (max (max 0 (min dl (3752999689475413 / 5629499534213120)))
                    (min dh (1876499844737707 / 5629499534213120)) +
                  (max (max 0 (min dl (938249922368853 / 2814749767106560)))
                    (min dh (1876499844737707 / 2814749767106560)) + 0))), c1,
          [1823957849085051 / 2 ^ 51, 1850228846911379 / 2 ^ 50,
            5576957538560465 / 2 ^ 51]) ∧
      c1.SameConfiguration
        (LowHigh.state 1 21 (1823957849085051 / 2 ^ 51) (7453457383298171 / 2 ^ 51) 0 0) := by
  obtain ⟨o1, h1, h2⟩ := FuzzyController.defuzzifyCentroidRounded_closed roundDouble
    (LowHigh.state 1 21 (1823957849085051 / 2 ^ 51) (7453457383298171 / 2 ^ 51) dl dh)
    (LowHigh.state_valid _ _ _ _ _ _) (LowHigh.state_antecedents_ne _ _ _ _ _ _) 1
    (1823957849085051 / 2 ^ 51) (7453457383298171 / 2 ^ 51) 3 (by norm_num) _
    visits_three_steps fuel hfuel
  obtain ⟨e1, e2, e3, e4, e5, e6⟩ := speed_degrees_three_steps
  simp only [List.map_cons, List.map_nil, List.sum_cons, List.sum_nil, LowHigh.state_agg,
    e1, e2, e3, e4, e5, e6] at h1
  refine ⟨_, h1, ?_⟩
  exact ⟨rfl, h2, by simp [LowHigh.state, Rule.shape, Rule.new], rfl⟩

theorem getDirectPassSpeedRounded_first_call (distance : ℚ) (h2 : 2 ≤ distance)
    (h20 : distance ≤ 20) (fuel : Nat) (discretization : ℚ) :
    getDirectPassSpeedRounded roundDouble fuel none distance discretization =
      match (LowHigh.state 1 21 (1823957849085051 / 2 ^ 51) (7453457383298171 / 2 ^ 51)
          ((21 - distance) / 20) ((distance - 1) / 20)).defuzzifyCentroidRounded roundDouble
          fuel 1 (1823957849085051 / 2 ^ 51) (7453457383298171 / 2 ^ 51) discretization with
      | .error e => .error e
      | .ok (speed, c2, _) => .ok (speed, some c2) := by
  have hmax : distance ≠ numericLimitsMax := by
    have hbig := numericLimitsMax_big
    intro he
    rw [he] at h20
    have : (10 : ℚ) ^ 300 < 20 := by linarith
    norm_num at this
  have htrim : (trimNumeric
      { numeric := distance, lowerLimit := roundDouble kMinDistance,
        upperLimit := roundDouble kMaxDistance }).numeric = distance := by
    unfold kMinDistance kMaxDistance
    rw [roundDouble_minDistance, roundDouble_maxDistance, trimNumeric_eq]
    dsimp only
    rw [if_neg (by linarith), if_neg (by linarith)]
  have hlow : specDegree (MembershipFunction.new 1 1 1 21 1) distance = (21 - distance) / 20 := by
    unfold specDegree MembershipFunction.new
    dsimp only
    rw [if_neg (by intro h; rcases h with h | h <;> linarith),
      if_neg (by intro h; linarith [h.2]), if_neg (by linarith)]
    norm_num
  have hhigh : specDegree (MembershipFunction.new 1 21 21 21 1) distance =
      (distance - 1) / 20 := by
    unfold specDegree MembershipFunction.new
    dsimp only
    rw [if_neg (by intro h; rcases h with h | h <;> linarith),
      if_neg (by intro h; linarith [h.1]), if_pos (by linarith)]
    norm_num
  unfold getDirectPassSpeedRounded
  simp only [htrim, InstanceRounded, constructRounded_double,
    LowHigh.fuzzify_state _ _ _ _ _ _ _ hmax, hlow, hhigh]
  have hu : toUnsigned kSpeedOutputIndex = 1 := by decide
  unfold kMinSpeed kMaxSpeed
  rw [hu, roundDouble_minSpeed, roundDouble_maxSpeed]

end ActGen_DirectPassSpeed

namespace ActGen_DirectPassSpeed

open fuzzy

theorem visits_eight_steps :
    FuzzyController.VisitsFrom roundDouble (7453457383298171 / 2 ^ 51)
      (roundDouble (roundDouble (7453457383298171 / 2 ^ 51 - 1823957849085051 / 2 ^ 51) / 8))
      (1823957849085051 / 2 ^ 51)
      [1823957849085051 / 2 ^ 51, 2527645290861691 / 2 ^ 51, 3231332732638331 / 2 ^ 51,
        3935020174414971 / 2 ^ 51, 4638707616191611 / 2 ^ 51, 5342395057968251 / 2 ^ 51,
        6046082499744891 / 2 ^ 51, 6749769941521531 / 2 ^ 51, 7453457383298171 / 2 ^ 51] := by
  rw [roundDouble_speedRange, roundDouble_deltaEight]
  refine ⟨rfl, by norm_num, ?_⟩
  rw [roundDouble_eightSteps_first]
  refine ⟨rfl, by norm_num, ?_⟩
  rw [roundDouble_eightSteps_second]
  refine ⟨rfl, by norm_num, ?_⟩
  rw [roundDouble_eightSteps_third]
  refine ⟨rfl, by norm_num, ?_⟩
  rw [roundDouble_eightSteps_fourth]
  refine ⟨rfl, by norm_num, ?_⟩
  rw [roundDouble_eightSteps_fifth]
  refine ⟨rfl, by norm_num, ?_⟩
  rw [roundDouble_eightSteps_sixth]
  refine ⟨rfl, by norm_num, ?_⟩
  rw [roundDouble_eightSteps_seventh]
  refine ⟨rfl, by norm_num, ?_⟩
  rw [roundDouble_eightSteps_eighth]
  refine ⟨rfl, by norm_num, ?_⟩
  rw [roundDouble_eightSteps_ninth]
  show ¬ _
  norm_num

theorem defuzzify_eight_steps_midpoint (fuel : Nat) (hfuel : 10 ≤ fuel) :
    ∃ c1,
      (LowHigh.state 1 21 (1823957849085051 / 2 ^ 51) (7453457383298171 / 2 ^ 51) (1 / 2)
          (1 / 2)).defuzzifyCentroidRounded roundDouble fuel 1 (1823957849085051 / 2 ^ 51)
          (7453457383298171 / 2 ^ 51) 8 =
        .ok (4638707616191611 / 2 ^ 51, c1,
          [1823957849085051 / 2 ^ 51, 2527645290861691 / 2 ^ 51, 3231332732638331 / 2 ^ 51,
            3935020174414971 / 2 ^ 51, 4638707616191611 / 2 ^ 51, 5342395057968251 / 2 ^ 51,
            6046082499744891 / 2 ^ 51, 6749769941521531 / 2 ^ 51,
            7453457383298171 / 2 ^ 51]) := by
  obtain ⟨o1, h1, -⟩ := FuzzyController.defuzzifyCentroidRounded_closed roundDouble
    (LowHigh.state 1 21 (1823957849085051 / 2 ^ 51) (7453457383298171 / 2 ^ 51) (1 / 2) (1 / 2))
    (LowHigh.state_valid _ _ _ _ _ _) (LowHigh.state_antecedents_ne _ _ _ _ _ _) 1
    (1823957849085051 / 2 ^ 51) (7453457383298171 / 2 ^ 51) 8 (by norm_num) _
    visits_eight_steps fuel hfuel
  have hv : (([1823957849085051 / 2 ^ 51, 2527645290861691 / 2 ^ 51, 3231332732638331 / 2 ^ 51,
        3935020174414971 / 2 ^ 51, 4638707616191611 / 2 ^ 51, 5342395057968251 / 2 ^ 51,
        6046082499744891 / 2 ^ 51, 6749769941521531 / 2 ^ 51,
        7453457383298171 / 2 ^ 51] : List ℚ).map fun x =>
        x * specAggregated (LowHigh.state 1 21 (1823957849085051 / 2 ^ 51)
          (7453457383298171 / 2 ^ 51) (1 / 2) (1 / 2)) 1 x).sum /
      (if (([1823957849085051 / 2 ^ 51, 2527645290861691 / 2 ^ 51, 3231332732638331 / 2 ^ 51,
        3935020174414971 / 2 ^ 51, 4638707616191611 / 2 ^ 51, 5342395057968251 / 2 ^ 51,
        6046082499744891 / 2 ^ 51, 6749769941521531 / 2 ^ 51,
        7453457383298171 / 2 ^ 51] : List ℚ).map fun x =>
        specAggregated (LowHigh.state 1 21 (1823957849085051 / 2 ^ 51)
          (7453457383298171 / 2 ^ 51) (1 / 2) (1 / 2)) 1 x).sum = 0 then 1
       else (([1823957849085051 / 2 ^ 51, 2527645290861691 / 2 ^ 51, 3231332732638331 / 2 ^ 51,
        3935020174414971 / 2 ^ 51, 4638707616191611 / 2 ^ 51, 5342395057968251 / 2 ^ 51,
        6046082499744891 / 2 ^ 51, 6749769941521531 / 2 ^ 51,
        7453457383298171 / 2 ^ 51] : List ℚ).map fun x =>
        specAggregated (LowHigh.state 1 21 (1823957849085051 / 2 ^ 51)
          (7453457383298171 / 2 ^ 51) (1 / 2) (1 / 2)) 1 x).sum) =
      4638707616191611 / 2 ^ 51 := by
    simp only [List.map_cons, List.map_nil, List.sum_cons, List.sum_nil, LowHigh.state_agg]
    norm_num [specDegree, MembershipFunction.new, min_def, max_def]
  rw [hv] at h1
  exact ⟨_, h1⟩

end ActGen_DirectPassSpeed

namespace fuzzy

theorem LowHigh.state_quotient_equal (lo hi outLo outHi f : ℚ) (hf : 0 < f)
    (hout : outLo < outHi) (n : ℕ) (hn : 0 < n) :
    specDenominator (LowHigh.state lo hi outLo outHi f f) 1 outLo outHi n ≠ 0 ∧
    specNumerator (LowHigh.state lo hi outLo outHi f f) 1 outLo outHi n /
        specDenominator (LowHigh.state lo hi outLo outHi f f) 1 outLo outHi n =
      (outLo + outHi) / 2 := by
  have hW : 0 < LowHigh.weightSum f f n := LowHigh.weightSum_pos f f n hf
  have hK := LowHigh.weightMoment_symm f n hn
  have hnq : (n : ℚ) ≠ 0 := by exact_mod_cast hn.ne'
  rw [LowHigh.state_numerator _ _ _ _ _ _ hout n hn,
    LowHigh.state_denominator _ _ _ _ _ _ hout n hn]
  refine ⟨hW.ne', ?_⟩
  have hK2 : LowHigh.weightMoment f f n = n * LowHigh.weightSum f f n / 2 := by linarith
  rw [hK2]
  field_simp
  ring

end fuzzy

namespace fuzzy

/-! ## The loop variable of `defuzzifyCentroid` as a `double` -/

/-- C1: the sample variable of `defuzzifyCentroid` is a `double` that accumulates
`discretizationDelta`. On the pass-speed controller fuzzified at the distance 11 (a valid
state whose two rules each have one antecedent), `defuzzifyCentroid(1, 0.81, 3.31, 3)`
visits three samples and returns a value between 1.6433 and 1.6434, whereas the quotient
`N / D` over the four samples `p_k = outMin + k * delta`, `k = 0..3`, has `D` different
from 0 and equals `(outMin + outMax) / 2`, which is more than 2.05. -/
theorem defuzzifyCentroid_double_misses_centroid :
    ∃ c0 c v c1 visited,
      ActGen_DirectPassSpeed.constructRounded roundDouble = .ok c0 ∧
      c0.fuzzify 11 [numericLimitsMax] = .ok c ∧
      c.Valid ∧ (∀ r ∈ c.rules, r.antecedents ≠ []) ∧
      c.defuzzifyCentroidRounded roundDouble 10 1 (roundDouble (81 / 100))
        (roundDouble (331 / 100)) 3 = .ok (v, c1, visited) ∧
      visited.length = 3 ∧
      16433 / 10000 < v ∧ v < 16434 / 10000 ∧
      specDenominator c 1 (roundDouble (81 / 100)) (roundDouble (331 / 100)) 3 ≠ 0 ∧
      specNumerator c 1 (roundDouble (81 / 100)) (roundDouble (331 / 100)) 3 /
          specDenominator c 1 (roundDouble (81 / 100)) (roundDouble (331 / 100)) 3 =
        (roundDouble (81 / 100) + roundDouble (331 / 100)) / 2 ∧
      205 / 100 < (roundDouble (81 / 100) + roundDouble (331 / 100)) / 2 := by
  have hx : (11 : ℚ) ≠ numericLimitsMax := by
    have := ActGen_DirectPassSpeed.numericLimitsMax_big
    intro h; rw [← h] at this; norm_num at this
  have hlow : specDegree (MembershipFunction.new 1 1 1 21 1) 11 = 1 / 2 := by
    norm_num [specDegree, MembershipFunction.new]
  have hhigh : specDegree (MembershipFunction.new 1 21 21 21 1) 11 = 1 / 2 := by
    norm_num [specDegree, MembershipFunction.new]
  have hfz := LowHigh.fuzzify_state 1 21 (1823957849085051 / 2 ^ 51)
    (7453457383298171 / 2 ^ 51) 0 0 11 hx
  rw [hlow, hhigh] at hfz
  obtain ⟨c1, h1, -⟩ := ActGen_DirectPassSpeed.defuzzify_three_steps (1 / 2) (1 / 2) 10
    (by decide)
  obtain ⟨hD, hQ⟩ := LowHigh.state_quotient_equal 1 21 (1823957849085051 / 2 ^ 51)
    (7453457383298171 / 2 ^ 51) (1 / 2) (by norm_num) (by norm_num) 3 (by decide)
  rw [roundDouble_minSpeed, roundDouble_maxSpeed]
  refine ⟨_, _, _, c1, _, ActGen_DirectPassSpeed.constructRounded_double, hfz,
    LowHigh.state_valid _ _ _ _ _ _, LowHigh.state_antecedents_ne _ _ _ _ _ _, h1, rfl,
    ?_, ?_, ?_, ?_, ?_⟩
  · norm_num [min_def, max_def]
  · norm_num [min_def, max_def]
  · exact_mod_cast hD
  · exact_mod_cast hQ
  · norm_num

/-- C18: the sample variable of `defuzzifyCentroid` is a `double` that accumulates
`discretizationDelta`. On the pass-speed controller fuzzified at the distance 11,
`defuzzifyCentroid(1, 0.81, 3.31, 3)` visits three samples, each below `outMax`: the
fourth value of the loop variable is above `outMax` and the loop ends without visiting
it. With the default of 8 steps the same call visits nine samples, the last being
`outMax`. -/
theorem defuzzifyCentroid_double_visits_three_samples :
    ∃ c0 c v c1 visited v8 c8 visited8,
      ActGen_DirectPassSpeed.constructRounded roundDouble = .ok c0 ∧
      c0.fuzzify 11 [numericLimitsMax] = .ok c ∧
      c.defuzzifyCentroidRounded roundDouble 10 1 (roundDouble (81 / 100))
        (roundDouble (331 / 100)) 3 = .ok (v, c1, visited) ∧
      visited.length = 3 ∧
      visited.head? = some (roundDouble (81 / 100)) ∧
      (∀ x ∈ visited, x < roundDouble (331 / 100)) ∧
      visited.getLast? = some (5576957538560465 / 2 ^ 51) ∧
      roundDouble (331 / 100) <
        roundDouble (5576957538560465 / 2 ^ 51 +
          roundDouble (roundDouble (roundDouble (331 / 100) - roundDouble (81 / 100)) / 3)) ∧
      c.defuzzifyCentroidRounded roundDouble 10 1 (roundDouble (81 / 100))
        (roundDouble (331 / 100)) 8 = .ok (v8, c8, visited8) ∧
      visited8.length = 9 ∧
      visited8.getLast? = some (roundDouble (331 / 100)) := by
  have hx : (11 : ℚ) ≠ numericLimitsMax := by
    have := ActGen_DirectPassSpeed.numericLimitsMax_big
    intro h; rw [← h] at this; norm_num at this
  have hlow : specDegree (MembershipFunction.new 1 1 1 21 1) 11 = 1 / 2 := by
    norm_num [specDegree, MembershipFunction.new]
  have hhigh : specDegree (MembershipFunction.new 1 21 21 21 1) 11 = 1 / 2 := by
    norm_num [specDegree, MembershipFunction.new]
  have hfz := LowHigh.fuzzify_state 1 21 (1823957849085051 / 2 ^ 51)
    (7453457383298171 / 2 ^ 51) 0 0 11 hx
  rw [hlow, hhigh] at hfz
  obtain ⟨c1, h1, -⟩ := ActGen_DirectPassSpeed.defuzzify_three_steps (1 / 2) (1 / 2) 10
    (by decide)
  obtain ⟨c8, h8⟩ := ActGen_DirectPassSpeed.defuzzify_eight_steps_midpoint 10 (by decide)
  rw [roundDouble_minSpeed, roundDouble_maxSpeed,
    roundDouble_speedRange, roundDouble_deltaThree,
    roundDouble_threeSteps_third]
  refine ⟨_, _, _, c1, _, _, c8, _, ActGen_DirectPassSpeed.constructRounded_double, hfz, h1,
    rfl, rfl, ?_, rfl, ?_, h8, rfl, rfl⟩
  · intro x hx
    simp only [List.mem_cons, List.mem_singleton, List.not_mem_nil, or_false] at hx
    rcases hx with h | h | h <;> rw [h] <;> norm_num
  · norm_num

end fuzzy

namespace ActGen_DirectPassSpeed

open fuzzy

/-- C12: the sample variable of `defuzzifyCentroid` is a `double` that accumulates
`discretizationDelta`. The first call `getDirectPassSpeed(11.0, 3)` fuzzifies the domain
midpoint and returns a value between 1.6433 and 1.6434, not the midpoint
`(kMinSpeed + kMaxSpeed) / 2` of the output range, which is more than 2.05; with the
default of 8 steps the first call `getDirectPassSpeed(11.0)` does return that midpoint. -/
theorem getDirectPassSpeed_double_midpoint_three_steps :
    ∃ v c1 c8,
      getDirectPassSpeedRounded roundDouble 10 none 11 3 = .ok (v, some c1) ∧
      16433 / 10000 < v ∧ v < 16434 / 10000 ∧
      205 / 100 < (roundDouble kMinSpeed + roundDouble kMaxSpeed) / 2 ∧
      getDirectPassSpeedRounded roundDouble 10 none 11 8 =
        .ok ((roundDouble kMinSpeed + roundDouble kMaxSpeed) / 2, some c8) := by
  obtain ⟨c1, h1, -⟩ := defuzzify_three_steps (1 / 2) (1 / 2) 10 (by decide)
  obtain ⟨c8, h8⟩ := defuzzify_eight_steps_midpoint 10 (by decide)
  have e1 : ((21 : ℚ) - 11) / 20 = 1 / 2 := by norm_num
  have e2 : ((11 : ℚ) - 1) / 20 = 1 / 2 := by norm_num
  have k3 := getDirectPassSpeedRounded_first_call 11 (by norm_num) (by norm_num) 10 3
  have k8 := getDirectPassSpeedRounded_first_call 11 (by norm_num) (by norm_num) 10 8
  rw [e1, e2, h1] at k3
  rw [e1, e2, h8] at k8
  unfold kMinSpeed kMaxSpeed
  rw [roundDouble_minSpeed, roundDouble_maxSpeed]
  refine ⟨_, c1, c8, k3, ?_, ?_, ?_, ?_⟩
  · norm_num [min_def, max_def]
  · norm_num [min_def, max_def]
  · norm_num
  · rw [k8]
    norm_num

/-- C36: the sample variable of `defuzzifyCentroid` is a `double` that accumulates
`discretizationDelta`. With 3 steps the first call `getDirectPassSpeed(5.0, 3)` returns a
value between 1.4272 and 1.4273 and the first call `getDirectPassSpeed(17.0, 3)`, at the
mirrored distance `kMinDistance + kMaxDistance - 5`, a value between 1.9674 and 1.9675,
which is not `kMinSpeed + kMaxSpeed` minus the former (more than 2.69). -/
theorem getDirectPassSpeed_double_mirror_three_steps :
    ∃ v5 c5 v17 c17,
      getDirectPassSpeedRounded roundDouble 10 none 5 3 = .ok (v5, some c5) ∧
      getDirectPassSpeedRounded roundDouble 10 none (kMinDistance + kMaxDistance - 5) 3 =
        .ok (v17, some c17) ∧
      14272 / 10000 < v5 ∧ v5 < 14273 / 10000 ∧
      19674 / 10000 < v17 ∧ v17 < 19675 / 10000 ∧
      269 / 100 < kMinSpeed + kMaxSpeed - v5 ∧
      v17 ≠ kMinSpeed + kMaxSpeed - v5 := by
  obtain ⟨c5, h5, -⟩ := defuzzify_three_steps (4 / 5) (1 / 5) 10 (by decide)
  obtain ⟨c17, h17, -⟩ := defuzzify_three_steps (1 / 5) (4 / 5) 10 (by decide)
  have hd : kMinDistance + kMaxDistance - 5 = 17 := by
    norm_num [kMinDistance, kMaxDistance]
  have e1 : ((21 : ℚ) - 5) / 20 = 4 / 5 := by norm_num
  have e2 : ((5 : ℚ) - 1) / 20 = 1 / 5 := by norm_num
  have e3 : ((21 : ℚ) - 17) / 20 = 1 / 5 := by norm_num
  have e4 : ((17 : ℚ) - 1) / 20 = 4 / 5 := by norm_num
  have k5 := getDirectPassSpeedRounded_first_call 5 (by norm_num) (by norm_num) 10 3
  have k17 := getDirectPassSpeedRounded_first_call 17 (by norm_num) (by norm_num) 10 3
  rw [e1, e2, h5] at k5
  rw [e3, e4, h17] at k17
  rw [hd]
  refine ⟨_, c5, _, c17, k5, k17, ?_, ?_, ?_, ?_, ?_, ?_⟩ <;>
    norm_num [min_def, max_def, kMinSpeed, kMaxSpeed]

end ActGen_DirectPassSpeed

namespace fuzzy

/-! ## Names that are equal as text but not as pointers -/

theorem SingleRule.readded_at_buffer_valid :
    ((SingleRule.state 0 0 2 2).addMembershipFunctionAt
      { address := "buffer", text := "out" } 2 2 4 4 1 .OUTPUT_MEMBERSHIP_FUNCTION).Valid := by
  refine ⟨rfl, ?_⟩
  intro r hr
  have hr1 : r = Rule.new ["in"] ["out"] := by
    simpa [FuzzyController.addMembershipFunctionAt, FuzzyController.addMembershipFunction,
      SingleRule.state] using hr
  rw [hr1]
  refine ⟨rfl, rfl, ?_, ?_⟩
  · intro a ha
    simp only [Rule.new, List.mem_singleton] at ha
    rw [ha]; rfl
  · intro a ha
    simp only [Rule.new, List.mem_singleton] at ha
    rw [ha]
    simp [FuzzyController.addMembershipFunctionAt, FuzzyController.addMembershipFunction,
      SingleRule.state, Registry.assign, Registry.find]

/-- C21: the hash maps compare their `const char*` keys as pointers. On the constructed
pass-speed controller, `addMembershipFunction` with the name `distanceLow` held in a
buffer (the text of the literal, at another address) and the shape `(1, 5, 5, 21)` adds
a third node to the input registry; the node of the literal `distanceLow`, to which the
first rule points, still holds the previous definition `(1, 1, 1, 21)`. -/
theorem addMembershipFunction_other_address_adds_node :
    ({ address := "buffer", text := "distanceLow" } : CString).text =
      (CString.literal "distanceLow").text ∧
    ({ address := "buffer", text := "distanceLow" } : CString).address ≠
      (CString.literal "distanceLow").address ∧
    (ActGen_DirectPassSpeed.constructed.addMembershipFunctionAt
        { address := "buffer", text := "distanceLow" } 1 5 5 21 1
        .INPUT_MEMBERSHIP_FUNCTION).inputMembershipFunctions =
      [("distanceLow", MembershipFunction.new 1 1 1 21 1),
       ("distanceHigh", MembershipFunction.new 1 21 21 21 1),
       ("buffer", MembershipFunction.new 1 5 5 21 1)] ∧
    ActGen_DirectPassSpeed.constructed.inputMembershipFunctions.length = 2 ∧
    (ActGen_DirectPassSpeed.constructed.addMembershipFunctionAt
        { address := "buffer", text := "distanceLow" } 1 5 5 21 1
        .INPUT_MEMBERSHIP_FUNCTION).inputMembershipFunctions.length = 3 ∧
    (ActGen_DirectPassSpeed.constructed.addMembershipFunctionAt
        { address := "buffer", text := "distanceLow" } 1 5 5 21 1
        .INPUT_MEMBERSHIP_FUNCTION).inputMembershipFunctions.find
        (CString.literal "distanceLow").address = some (MembershipFunction.new 1 1 1 21 1) ∧
    (ActGen_DirectPassSpeed.constructed.addMembershipFunctionAt
        (CString.literal "distanceLow") 1 5 5 21 1
        .INPUT_MEMBERSHIP_FUNCTION).inputMembershipFunctions =
      [("distanceLow", MembershipFunction.new 1 5 5 21 1),
       ("distanceHigh", MembershipFunction.new 1 21 21 21 1)] := by
  refine ⟨rfl, by decide, ?_, rfl, ?_, ?_, ?_⟩ <;>
    simp [FuzzyController.addMembershipFunctionAt, FuzzyController.addMembershipFunction,
      ActGen_DirectPassSpeed.constructed, Registry.assign, Registry.find, CString.literal]

/-- C31: the hash maps compare their `const char*` keys as pointers. In the single-rule
configuration `in -> out` with the consequent `(0, 0, 2, 2)`, re-adding `out` as
`(2, 2, 4, 4)` under a name held in a buffer (the text of the literal, at another
address) leaves the rule evaluating the old shape: `defuzzifyCentroid(1, 0, 4, 2)` still
returns 1, whereas re-adding through the literal makes it return 3. -/
theorem rule_keeps_old_function_after_readding_by_text :
    ({ address := "buffer", text := "out" } : CString).text = (CString.literal "out").text ∧
    ((SingleRule.state 0 0 2 2).addMembershipFunctionAt
        { address := "buffer", text := "out" } 2 2 4 4 1 .OUTPUT_MEMBERSHIP_FUNCTION).rules =
      [Rule.new ["in"] ["out"]] ∧
    ((SingleRule.state 0 0 2 2).addMembershipFunctionAt
        { address := "buffer", text := "out" } 2 2 4 4 1
        .OUTPUT_MEMBERSHIP_FUNCTION).outputMembershipFunctions =
      [("out", MembershipFunction.new 0 0 2 2 1), ("buffer", MembershipFunction.new 2 2 4 4 1)] ∧
    ((SingleRule.state 0 0 2 2).defuzzifyCentroid 4 1 0 4 ((2 : ℕ) : ℚ)).map Prod.fst =
      .ok 1 ∧
    (((SingleRule.state 0 0 2 2).addMembershipFunctionAt
        { address := "buffer", text := "out" } 2 2 4 4 1
        .OUTPUT_MEMBERSHIP_FUNCTION).defuzzifyCentroid 4 1 0 4 ((2 : ℕ) : ℚ)).map Prod.fst =
      .ok 1 ∧
    (((SingleRule.state 0 0 2 2).addMembershipFunctionAt (CString.literal "out") 2 2 4 4 1
        .OUTPUT_MEMBERSHIP_FUNCTION).defuzzifyCentroid 4 1 0 4 ((2 : ℕ) : ℚ)).map Prod.fst =
      .ok 3 := by
  have e : ∀ a b c d : ℚ,
      toUnsigned (MembershipFunction.new a b c d 1).fuzzificationIndex = 1 := by
    intro a b c d; rfl
  refine ⟨rfl, ?_, ?_, ?_, ?_, ?_⟩
  · simp [FuzzyController.addMembershipFunctionAt, FuzzyController.addMembershipFunction,
      SingleRule.state]
  · simp [FuzzyController.addMembershipFunctionAt, FuzzyController.addMembershipFunction,
      SingleRule.state, Registry.assign]
  · obtain ⟨c2, h1⟩ := defuzzifyCentroid_single (MembershipFunction.new 0 0 2 2 1) 0 4
      (by norm_num) (SingleRule.state 0 0 2 2) (SingleRule.singleRule_valid 0 0 2 2)
      (Rule.new ["in"] ["out"]) rfl (SingleRule.singleRule_firing 0 0 2 2) "out" rfl rfl 2
      (by decide) 4 (by decide)
    rw [e] at h1
    rw [h1]
    simp only [Finset.sum_range_succ, Finset.sum_range_zero, Except.map]
    norm_num [specDegree, MembershipFunction.new]
  · obtain ⟨c2, h1⟩ := defuzzifyCentroid_single (MembershipFunction.new 0 0 2 2 1) 0 4
      (by norm_num) _ SingleRule.readded_at_buffer_valid
      (Rule.new ["in"] ["out"])
      (by simp [FuzzyController.addMembershipFunctionAt,
        FuzzyController.addMembershipFunction, SingleRule.state])
      (SingleRule.singleRule_firing 0 0 2 2) "out" rfl
      (by simp [FuzzyController.addMembershipFunctionAt,
        FuzzyController.addMembershipFunction, SingleRule.state, Registry.assign,
        Registry.find])
      2 (by decide) 4 (by decide)
    rw [e] at h1
    rw [h1]
    simp only [Finset.sum_range_succ, Finset.sum_range_zero, Except.map]
    norm_num [specDegree, MembershipFunction.new]
  · have hst : (SingleRule.state 0 0 2 2).addMembershipFunctionAt (CString.literal "out")
        2 2 4 4 1 .OUTPUT_MEMBERSHIP_FUNCTION = SingleRule.state 2 2 4 4 := by
      simp [FuzzyController.addMembershipFunctionAt, FuzzyController.addMembershipFunction,
        SingleRule.state, Registry.assign, CString.literal]
    rw [hst]
    obtain ⟨c2, h1⟩ := defuzzifyCentroid_single (MembershipFunction.new 2 2 4 4 1) 0 4
      (by norm_num) (SingleRule.state 2 2 4 4) (SingleRule.singleRule_valid 2 2 4 4)
      (Rule.new ["in"] ["out"]) rfl (SingleRule.singleRule_firing 2 2 4 4) "out" rfl rfl 2
      (by decide) 4 (by decide)
    rw [e] at h1
    rw [h1]
    simp only [Finset.sum_range_succ, Finset.sum_range_zero, Except.map]
    norm_num [specDegree, MembershipFunction.new]

end fuzzy
